import Mathlib


/-!
# MallocLab `mm.c`: explicit free list allocator

A shallow embedding of `src/mm.c`.  The heap is a byte-addressed memory
`Mem = Nat → Nat` (little-endian, as on x86-64, with 8-byte pointers, which is
what the 24-byte minimum block of the source presupposes).  The C globals
`heap_listp` and `free_listp` and the provider's region `[mem_lo, mem_brk)`
are the fields of `State`.  Addresses are natural numbers, `NULL` is `0`.
-/

namespace MM

/-! ## Memory -/

/-- Byte-addressed memory; a cell is read modulo 256. -/
abbrev Mem := Nat → Nat

/-- `GET(p)`: `*(unsigned int *)(p)`, four bytes, little-endian. -/
def GET (m : Mem) (p : Nat) : Nat :=
  m p % 256 + 256 * (m (p + 1) % 256) + 65536 * (m (p + 2) % 256)
    + 16777216 * (m (p + 3) % 256)

/-- `PUT(p, val)`: `*(unsigned int *)(p) = val`; the value is cut to 32 bits. -/
def PUT (m : Mem) (p val : Nat) : Mem := fun a =>
  if a = p then val % 256
  else if a = p + 1 then val / 256 % 256
  else if a = p + 2 then val / 65536 % 256
  else if a = p + 3 then val / 16777216 % 256
  else m a

/-- Read of a `char *` stored at `p` (8 bytes, little-endian). -/
def GETP (m : Mem) (p : Nat) : Nat := GET m p + 4294967296 * GET m (p + 4)

/-- Write of a `char *` at `p` (8 bytes, little-endian). -/
def PUTP (m : Mem) (p val : Nat) : Mem :=
  PUT (PUT m p (val % 4294967296)) (p + 4) (val / 4294967296 % 4294967296)

def WSIZE : Nat := 4
def DSIZE : Nat := 8
def CHUNKSIZE : Nat := 65536
def MIN_BLOCK_SIZE : Nat := 24

/-- `(void *)-1`, the failure value of `mem_sbrk`. -/
def FAIL : Nat := 18446744073709551615

/-- `PACK(size, alloc)`: `(size) | (alloc)`. -/
def PACK (size alloc : Nat) : Nat := size ||| alloc

/-- `GET_SIZE(p)`: `GET(p) & ~0x7` on an `unsigned int`. -/
def GET_SIZE (m : Mem) (p : Nat) : Nat := GET m p &&& 4294967288

/-- `GET_ALLOC(p)`: `GET(p) & 0x1`. -/
def GET_ALLOC (m : Mem) (p : Nat) : Nat := GET m p &&& 1

def HDRP (bp : Nat) : Nat := bp - WSIZE
def FTRP (m : Mem) (bp : Nat) : Nat := bp + GET_SIZE m (HDRP bp) - DSIZE
def NEXT_BLKP (m : Mem) (bp : Nat) : Nat := bp + GET_SIZE m (HDRP bp)
def PREV_BLKP (m : Mem) (bp : Nat) : Nat := bp - GET_SIZE m (bp - DSIZE)

/-- `NEXT_FREEP(bp)`: `*(char **)(bp)`. -/
def NEXT_FREEP (m : Mem) (bp : Nat) : Nat := GETP m bp

/-- `PREV_FREEP(bp)`: `*(char **)(bp + DSIZE)`. -/
def PREV_FREEP (m : Mem) (bp : Nat) : Nat := GETP m (bp + DSIZE)

/-! ## State -/

/-- The allocator's globals together with the provider's region. -/
structure State where
  mem : Mem
  mem_lo : Nat
  mem_brk : Nat
  heap_listp : Nat
  free_listp : Nat

/-- The state before `mm_init`: an empty region at `base`, both globals `NULL`. -/
def State.start (base : Nat) (m0 : Mem) : State :=
  ⟨m0, base, base, 0, 0⟩

/-- Modelled from the spec: the external provider's
`grow(n_bytes) -> Address | Failure` (`mem_sbrk` of `memlib`, not part of the
sources).  It extends the region by exactly `incr` bytes and returns the old
break, or fails, returning `(void *)-1` and changing nothing.  Whether it has
capacity is the provider's decision `grant`; it cannot hand out addresses
beyond the 64-bit address space. -/
def mem_sbrk (s : State) (incr : Nat) (grant : Bool) : State × Nat :=
  if grant = true ∧ s.mem_brk + incr < 18446744073709551616 then
    ({ s with mem_brk := s.mem_brk + incr }, s.mem_brk)
  else (s, FAIL)

/-! ## Free list -/

/-- `removefree(fp)` (lines 539-563). -/
def removefree (s : State) (fp : Nat) : State :=
  let prev := PREV_FREEP s.mem fp
  let next := NEXT_FREEP s.mem fp
  if s.free_listp = 0 then s
  else if prev = 0 ∧ next = 0 then { s with free_listp := 0 }
  else if prev = 0 then
    { s with free_listp := next, mem := PUTP s.mem (next + DSIZE) 0 }
  else if next = 0 then { s with mem := PUTP s.mem prev 0 }
  else { s with mem := PUTP (PUTP s.mem prev next) (next + DSIZE) prev }

/-- `addfree(fp)` (lines 566-582). -/
def addfree (s : State) (fp : Nat) : State :=
  if s.free_listp = 0 then
    { s with free_listp := fp, mem := PUTP (PUTP s.mem fp 0) (fp + DSIZE) 0 }
  else
    { s with
      free_listp := fp,
      mem := PUTP (PUTP (PUTP s.mem fp s.free_listp) (fp + DSIZE) 0)
               (s.free_listp + DSIZE) fp }

/-! ## Coalescing, growth, placement -/

/-- `coalesce(block)` (lines 429-473); returns the state and the merged block.
In the last case the two neighbour sizes are added as `unsigned int`s, hence
modulo `2^32`, before they are added to the `size_t`. -/
def coalesce (s : State) (bp : Nat) : State × Nat :=
  let prev_alloc := GET_ALLOC s.mem (FTRP s.mem (PREV_BLKP s.mem bp))
  let next_alloc := GET_ALLOC s.mem (HDRP (NEXT_BLKP s.mem bp))
  let size := GET_SIZE s.mem (HDRP bp)
  if prev_alloc ≠ 0 ∧ next_alloc ≠ 0 then (addfree s bp, bp)
  else if prev_alloc ≠ 0 ∧ next_alloc = 0 then
    let size := size + GET_SIZE s.mem (HDRP (NEXT_BLKP s.mem bp))
    let s1 := removefree s (NEXT_BLKP s.mem bp)
    let s2 := { s1 with mem := PUT s1.mem (HDRP bp) (PACK size 0) }
    let s3 := { s2 with mem := PUT s2.mem (FTRP s2.mem bp) (PACK size 0) }
    (addfree s3 bp, bp)
  else if prev_alloc = 0 ∧ next_alloc ≠ 0 then
    let size := size + GET_SIZE s.mem (HDRP (PREV_BLKP s.mem bp))
    let s1 := removefree s (PREV_BLKP s.mem bp)
    let bp := PREV_BLKP s1.mem bp
    let s2 := { s1 with mem := PUT s1.mem (HDRP bp) (PACK size 0) }
    let s3 := { s2 with mem := PUT s2.mem (FTRP s2.mem bp) (PACK size 0) }
    (addfree s3 bp, bp)
  else
    let size := size + (GET_SIZE s.mem (HDRP (PREV_BLKP s.mem bp))
                  + GET_SIZE s.mem (HDRP (NEXT_BLKP s.mem bp))) % 4294967296
    let s1 := removefree s (PREV_BLKP s.mem bp)
    let s1 := removefree s1 (NEXT_BLKP s1.mem bp)
    let bp := PREV_BLKP s1.mem bp
    let s2 := { s1 with mem := PUT s1.mem (HDRP bp) (PACK size 0) }
    let s3 := { s2 with mem := PUT s2.mem (FTRP s2.mem bp) (PACK size 0) }
    (addfree s3 bp, bp)

/-- `extend_heap(words)` (lines 317-333); returns `NULL` when the provider fails. -/
def extend_heap (s : State) (words : Nat) (grant : Bool) : State × Nat :=
  let size := if words % 2 ≠ 0 then (words + 1) * WSIZE % 18446744073709551616
              else words * WSIZE % 18446744073709551616
  let r := mem_sbrk s size grant
  let bp := r.2
  if bp = FAIL then (r.1, 0)
  else
    let s1 := r.1
    let s2 := { s1 with mem := PUT s1.mem (HDRP bp) (PACK size 0) }
    let s3 := { s2 with mem := PUT s2.mem (FTRP s2.mem bp) (PACK size 0) }
    let s4 := { s3 with mem := PUT s3.mem (HDRP (NEXT_BLKP s3.mem bp)) (PACK 0 1) }
    coalesce s4 bp

/-- `place(block, asize)` (lines 341-395).  `split_size` is a `size_t`
difference, hence taken modulo `2^64`. -/
def place (s : State) (bp asize : Nat) : State :=
  let og_size := GET_SIZE s.mem (HDRP bp)
  let split_size :=
    (GET_SIZE s.mem (HDRP bp) + 18446744073709551616 - asize % 18446744073709551616)
      % 18446744073709551616
  if split_size ≥ MIN_BLOCK_SIZE then
    let prev := PREV_FREEP s.mem bp
    let next := NEXT_FREEP s.mem bp
    let s1 := { s with mem := PUT s.mem (HDRP bp) (PACK asize 1) }
    let s2 := { s1 with mem := PUT s1.mem (FTRP s1.mem bp) (PACK asize 1) }
    let s3 := { s2 with mem := PUT s2.mem (HDRP (NEXT_BLKP s2.mem bp)) (PACK split_size 0) }
    let s4 := { s3 with
      mem := PUT s3.mem (FTRP s3.mem (NEXT_BLKP s3.mem bp)) (PACK split_size 0) }
    if next = 0 ∧ prev = 0 then
      let s5 := { s4 with free_listp := NEXT_BLKP s4.mem bp }
      let s6 := { s5 with mem := PUTP s5.mem (NEXT_BLKP s5.mem bp) 0 }
      { s6 with mem := PUTP s6.mem (NEXT_BLKP s6.mem bp + DSIZE) 0 }
    else
      let s5 :=
        if prev = 0 then
          let t := { s4 with free_listp := NEXT_BLKP s4.mem bp }
          { t with mem := PUTP t.mem (NEXT_BLKP t.mem bp + DSIZE) prev }
        else s4
      let s6 :=
        if prev ≠ 0 then
          let t := { s5 with mem := PUTP s5.mem prev (NEXT_BLKP s5.mem bp) }
          { t with mem := PUTP t.mem (NEXT_BLKP t.mem bp + DSIZE) prev }
        else s5
      let s7 :=
        if next = 0 then { s6 with mem := PUTP s6.mem (NEXT_BLKP s6.mem bp) next }
        else s6
      if next ≠ 0 then
        let t := { s7 with mem := PUTP s7.mem (next + DSIZE) (NEXT_BLKP s7.mem bp) }
        { t with mem := PUTP t.mem (NEXT_BLKP t.mem bp) next }
      else s7
  else
    let s1 := removefree s bp
    let s2 := { s1 with mem := PUT s1.mem (HDRP bp) (PACK og_size 1) }
    { s2 with mem := PUT s2.mem (FTRP s2.mem bp) (PACK og_size 1) }

/-- The four tag writes of the split branch of `place` (lines 354-360), as one
step; `place_split` states that `place` is made of this and `place_link`. -/
def place_tags (s : State) (bp asize split_size : Nat) : State :=
  let s1 := { s with mem := PUT s.mem (HDRP bp) (PACK asize 1) }
  let s2 := { s1 with mem := PUT s1.mem (FTRP s1.mem bp) (PACK asize 1) }
  let s3 := { s2 with mem := PUT s2.mem (HDRP (NEXT_BLKP s2.mem bp)) (PACK split_size 0) }
  { s3 with mem := PUT s3.mem (FTRP s3.mem (NEXT_BLKP s3.mem bp)) (PACK split_size 0) }

/-- The relinking of the split branch of `place` (lines 363-384), as one step. -/
def place_link (s4 : State) (bp prev next : Nat) : State :=
  if next = 0 ∧ prev = 0 then
    let s5 := { s4 with free_listp := NEXT_BLKP s4.mem bp }
    let s6 := { s5 with mem := PUTP s5.mem (NEXT_BLKP s5.mem bp) 0 }
    { s6 with mem := PUTP s6.mem (NEXT_BLKP s6.mem bp + DSIZE) 0 }
  else
    let s5 :=
      if prev = 0 then
        let t := { s4 with free_listp := NEXT_BLKP s4.mem bp }
        { t with mem := PUTP t.mem (NEXT_BLKP t.mem bp + DSIZE) prev }
      else s4
    let s6 :=
      if prev ≠ 0 then
        let t := { s5 with mem := PUTP s5.mem prev (NEXT_BLKP s5.mem bp) }
        { t with mem := PUTP t.mem (NEXT_BLKP t.mem bp + DSIZE) prev }
      else s5
    let s7 :=
      if next = 0 then { s6 with mem := PUTP s6.mem (NEXT_BLKP s6.mem bp) next }
      else s6
    if next ≠ 0 then
      let t := { s7 with mem := PUTP s7.mem (next + DSIZE) (NEXT_BLKP s7.mem bp) }
      { t with mem := PUTP t.mem (NEXT_BLKP t.mem bp) next }
    else s7

/-- The first-fit loop of `find_fit` (lines 416-422) started at `fp`; `none`
when the fuel runs out before the loop ends. -/
def find_fit_from (m : Mem) (asize : Nat) : Nat → Nat → Option Nat
  | 0, _ => none
  | fuel + 1, fp =>
    if fp = 0 then some 0
    else if asize ≤ GET_SIZE m (HDRP fp) then some fp
    else find_fit_from m asize fuel (NEXT_FREEP m fp)

/-- `find_fit(asize)` (lines 401-424). -/
def find_fit (fuel : Nat) (s : State) (asize : Nat) : Option Nat :=
  find_fit_from s.mem asize fuel s.free_listp

/-! ## The interface -/

/-- `mm_init` (lines 165-188); the two Booleans are the provider's answers to
the two `mem_sbrk` calls.  Returns the state and the C return value. -/
def mm_init (s : State) (g1 g2 : Bool) : State × Int :=
  let r := mem_sbrk s (WSIZE <<< 2) g1
  let s0 := { r.1 with heap_listp := r.2 }
  if r.2 = FAIL then (s0, -1)
  else
    let s1 := { s0 with mem := PUT s0.mem s0.heap_listp 0 }
    let s2 := { s1 with mem := PUT s1.mem (s1.heap_listp + WSIZE) (PACK DSIZE 1) }
    let s3 := { s2 with mem := PUT s2.mem (s2.heap_listp + DSIZE) (PACK DSIZE 1) }
    let s4 := { s3 with mem := PUT s3.mem (s3.heap_listp + 3 * WSIZE) (PACK 0 1) }
    let s5 := { s4 with heap_listp := s4.heap_listp + DSIZE }
    let e := extend_heap s5 (CHUNKSIZE / WSIZE) g2
    if e.2 = 0 then (e.1, -1)
    else
      let s6 := { e.1 with free_listp := e.1.heap_listp + DSIZE }
      let s7 := { s6 with mem := PUTP s6.mem (s6.free_listp + DSIZE) 0 }
      ({ s7 with mem := PUTP s7.mem s7.free_listp 0 }, 0)

/-- The adjusted block size of `mm_malloc` (lines 204-208), in `size_t`
arithmetic. -/
def adjust (size : Nat) : Nat :=
  if size ≤ DSIZE <<< 1 then MIN_BLOCK_SIZE
  else DSIZE * ((size + DSIZE + (DSIZE - 1)) % 18446744073709551616 / DSIZE)
         % 18446744073709551616

/-- `mm_malloc(size)` (lines 195-225).  `grant` is the provider's answer should
the heap have to grow; `none` when `find_fit` does not return within `fuel`
steps. -/
def mm_malloc (fuel : Nat) (s : State) (size : Nat) (grant : Bool) :
    Option (State × Nat) :=
  if size = 0 then some (s, 0)
  else
    let asize := adjust size
    match find_fit fuel s asize with
    | none => none
    | some bp =>
      if bp ≠ 0 then some (place s bp asize, bp)
      else
        let extendsize := max asize CHUNKSIZE
        let e := extend_heap s (extendsize / WSIZE) grant
        if e.2 = 0 then some (e.1, 0)
        else some (place e.1 e.2 asize, e.2)

/-- `mm_free(payload)` (lines 232-238). -/
def mm_free (s : State) (payload : Nat) : State :=
  let size := GET_SIZE s.mem (HDRP payload)
  let s1 := { s with mem := PUT s.mem (HDRP payload) (PACK size 0) }
  let s2 := { s1 with mem := PUT s1.mem (FTRP s1.mem payload) (PACK size 0) }
  (coalesce s2 payload).1

/-- `memcpy(dst, src, n)` on non-overlapping ranges. -/
def memcpy (m : Mem) (dst src n : Nat) : Mem := fun a =>
  if dst ≤ a ∧ a < dst + n then m (src + (a - dst)) else m a

/-- `mm_realloc(ptr, size)` (lines 246-261).  `sizeof(header_t)` is 8 (two
`uint32_t`), so `block` is `ptr - 8`, and `block->block_size` is the 31-bit
field above the `allocated` bit of the word stored there.  `none` when
`mm_malloc` does not return or the process exits. -/
def mm_realloc (fuel : Nat) (s : State) (ptr size : Nat) (grant : Bool) :
    Option (State × Nat) :=
  match mm_malloc fuel s size grant with
  | none => none
  | some (s1, newp) =>
    if newp = 0 then none
    else
      let block := ptr - 8
      let copySize := GET s1.mem block >>> 1
      let copySize := if size < copySize then size else copySize
      let s2 := { s1 with mem := memcpy s1.mem newp ptr copySize }
      some (mm_free s2 ptr, newp)


/-! ## Clients, traces and reachable states -/

/-- A client action: a call of `mm_malloc` (with the provider's answer should
the heap have to grow), a call of `mm_free`, or a store of one byte at offset
`off` of a live payload. -/
inductive Op where
  | malloc (size : Nat) (grant : Bool)
  | free (p : Nat)
  | store (p off byte : Nat)

/-- The live allocations: the pointers returned by `mm_malloc` and not yet
freed, each with the size that was requested. -/
abbrev Live := List (Nat × Nat)

/-- One client action.  `bound` limits the sizes requested; `mm_free` is only
called on a live pointer and a store stays inside the requested size. -/
def step (bound fuel : Nat) (c : State × Live) : Op → Option (State × Live)
  | .malloc size grant =>
    if size < bound then
      match mm_malloc fuel c.1 size grant with
      | none => none
      | some r => some (r.1, if r.2 = 0 then c.2 else (r.2, size) :: c.2)
    else none
  | .free p =>
    if p ∈ c.2.map Prod.fst then
      some (mm_free c.1 p, c.2.eraseP (fun e => e.1 = p))
    else none
  | .store p off byte =>
    if c.2.any (fun e => e.1 = p ∧ off < e.2) then
      some ({ c.1 with mem := fun a => if a = p + off then byte % 256 else c.1.mem a }, c.2)
    else none

/-- A sequence of client actions. -/
def run (bound fuel : Nat) : List Op → State × Live → Option (State × Live)
  | [], c => some c
  | op :: ops, c =>
    match step bound fuel c op with
    | none => none
    | some c1 => run bound fuel ops c1

/-- The states reached from a successful `mm_init` (on a provider whose region
starts at an 8-byte aligned, non-null `base`) by client actions whose requested
sizes are below `bound`. -/
def ReachableB (bound : Nat) (s : State) (live : Live) : Prop :=
  ∃ (base : Nat) (m0 : Mem) (g1 g2 : Bool) (fuel : Nat) (ops : List Op),
    base % 8 = 0 ∧ 0 < base ∧ (mm_init (State.start base m0) g1 g2).2 = 0 ∧
    run bound fuel ops ((mm_init (State.start base m0) g1 g2).1, []) = some (s, live)

/-- Reachable with `mm_malloc(size)` calls with `size < 2^31`. -/
def Reachable (s : State) (live : Live) : Prop := ReachableB 2147483648 s live

/-- The region handed out by the provider is smaller than `2^32` bytes. -/
def Bounded (s : State) : Prop := s.mem_brk < s.mem_lo + 4294967296

/-- The block pointers visited by the scan loop of `mm_checkheap` (line 277),
from `bp` up to the first header of size 0, together with the pointer at which
the loop stops; `none` when the fuel runs out. -/
def heap_walk (m : Mem) : Nat → Nat → Option (List Nat × Nat)
  | 0, _ => none
  | fuel + 1, bp =>
    if GET_SIZE m (HDRP bp) > 0 then
      match heap_walk m fuel (NEXT_BLKP m bp) with
      | none => none
      | some r => some (bp :: r.1, r.2)
    else some ([], bp)

/-- The pointers visited by the free-list loop of `mm_checkheap` (line 295);
`none` when the fuel runs out. -/
def free_walk (m : Mem) : Nat → Nat → Option (List Nat)
  | 0, _ => none
  | fuel + 1, fp =>
    if fp = 0 then some []
    else
      match free_walk m fuel (NEXT_FREEP m fp) with
      | none => none
      | some r => some (fp :: r)


/-! ## The abstract view of a well-formed heap -/

/-- A block as the boundary tags describe it: payload pointer, size, allocated. -/
structure Blk where
  bp : Nat
  size : Nat
  alloc : Bool
deriving DecidableEq, Repr

/-- The word held by the header and the footer of a block. -/
def Blk.tag (b : Blk) : Nat := b.size + (if b.alloc then 1 else 0)

/-- The blocks `bs` lie one after the other from `a` to `e`. -/
def Contig : Nat → List Blk → Nat → Prop
  | a, [], e => a = e
  | a, b :: bs, e => b.bp = a ∧ Contig (a + b.size) bs e

/-- Header and footer of every block hold its tag. -/
def Tags (m : Mem) (bs : List Blk) : Prop :=
  ∀ b ∈ bs, GET m (b.bp - 4) = b.tag ∧ GET m (b.bp + b.size - 8) = b.tag

/-- Every block has a size that is a multiple of 8 and at least 24. -/
def Sized (bs : List Blk) : Prop := ∀ b ∈ bs, 24 ≤ b.size ∧ b.size % 8 = 0

/-- No two neighbours are both free. -/
def NoAdjFree (bs : List Blk) : Prop :=
  bs.Chain' (fun b c => b.alloc = true ∨ c.alloc = true)

/-- The payload pointers of the free blocks, in address order. -/
def freeAddrs (bs : List Blk) : List Nat := (bs.filter (fun b => !b.alloc)).map Blk.bp

/-- The payload pointers of the allocated blocks, in address order. -/
def allocAddrs (bs : List Blk) : List Nat := (bs.filter (fun b => b.alloc)).map Blk.bp

/-- A segment of the doubly linked free list: starting at `h`, whose
predecessor is `p`, the `next` links run through `l` and end in `e`. -/
def FLseg (m : Mem) : Nat → Nat → List Nat → Nat → Prop
  | h, _, [], e => h = e
  | h, p, x :: xs, e => h = x ∧ x ≠ 0 ∧ PREV_FREEP m x = p ∧ FLseg m (NEXT_FREEP m x) x xs e

/-- The free list from `h` is `l`: null-terminated, the head has a null `prev`. -/
def FL (m : Mem) (h : Nat) (l : List Nat) : Prop := FLseg m h 0 l 0

/-- The region, the sentinels and the tiling of the heap by tagged blocks. -/
structure HeapCore (s : State) (bs : List Blk) : Prop where
  lo_al : s.mem_lo % 8 = 0
  lo_pos : 0 < s.mem_lo
  hl : s.heap_listp = s.mem_lo + 8
  brk_lt : s.mem_brk < 18446744073709551616
  bnd : Bounded s
  pro_h : GET s.mem (s.mem_lo + 4) = 9
  pro_f : GET s.mem (s.mem_lo + 8) = 9
  epi : GET s.mem (s.mem_brk - 4) = 1
  contig : Contig (s.mem_lo + 16) bs s.mem_brk
  sized : Sized bs
  tags : Tags s.mem bs

/-- The heap part of the invariant: a tiled heap whose free list threads
exactly the free blocks. -/
structure HeapInv (s : State) (bs : List Blk) (fl : List Nat) : Prop where
  core : HeapCore s bs
  flist : FL s.mem s.free_listp fl
  perm : fl.Perm (freeAddrs bs)

/-- The invariant of the reachable states whose heap is below 4 GiB. -/
structure Inv (s : State) (live : Live) (bs : List Blk) (fl : List Nat) : Prop where
  heap : HeapInv s bs fl
  noadj : NoAdjFree bs
  live_perm : (live.map Prod.fst).Perm (allocAddrs bs)
  live_cap : ∀ e ∈ live, ∃ b ∈ bs, b.bp = e.1 ∧ b.alloc = true ∧ e.2 + 8 ≤ b.size


/-- The address `a` lies outside the two pointer fields of every block of `l`. -/
def OutFields (l : List Nat) (a : Nat) : Prop := ∀ y ∈ l, a < y ∨ y + 16 ≤ a

/-- Two block pointers at least 24 bytes (a minimum block) apart. -/
def Far (a b : Nat) : Prop := a + 24 ≤ b ∨ b + 24 ≤ a


/-! ## Notions used to state the properties -/

/-- The value of `fp` after `n` rounds of the free-list loops
`for (fp = h; fp != NULL; fp = NEXT_FREEP(fp))` (lines 295 and 416); it stays
`NULL` once the loop has ended. -/
def free_nth (m : Mem) (h : Nat) : Nat → Nat
  | 0 => h
  | n + 1 => if free_nth m h n = 0 then 0 else NEXT_FREEP m (free_nth m h n)

/-- No block of the free list has a size of at least `need`. -/
def NoFit (s : State) (need : Nat) : Prop :=
  ∀ n, free_nth s.mem s.free_listp n ≠ 0 →
    GET_SIZE s.mem (HDRP (free_nth s.mem s.free_listp n)) < need

/-- The block before `p` is tagged free. -/
def prev_is_free (s : State) (p : Nat) : Bool :=
  GET_ALLOC s.mem (HDRP (PREV_BLKP s.mem p)) = 0

/-- The block after `p` is tagged free. -/
def next_is_free (s : State) (p : Nat) : Bool :=
  GET_ALLOC s.mem (HDRP (NEXT_BLKP s.mem p)) = 0

/-- The size of the block of `p` plus the sizes of those of its two physical
neighbours that are tagged free. -/
def merged_size (s : State) (p : Nat) : Nat :=
  GET_SIZE s.mem (HDRP p)
    + (if prev_is_free s p then GET_SIZE s.mem (HDRP (PREV_BLKP s.mem p)) else 0)
    + (if next_is_free s p then GET_SIZE s.mem (HDRP (NEXT_BLKP s.mem p)) else 0)

/-- Where the merged block starts: at the previous neighbour if that one is
tagged free, at `p` otherwise. -/
def merged_start (s : State) (p : Nat) : Nat :=
  if prev_is_free s p then PREV_BLKP s.mem p else p

/-- The free list `l` without the neighbours of `p` that are tagged free. -/
def merged_rest (s : State) (p : Nat) (l : List Nat) : List Nat :=
  let l1 := if prev_is_free s p then l.erase (PREV_BLKP s.mem p) else l
  if next_is_free s p then l1.erase (NEXT_BLKP s.mem p) else l1

/-- The last block of `pre`, if it is free. -/
def last_free (pre : List Blk) : Option Blk :=
  match pre.getLast? with
  | some c => if c.alloc then none else some c
  | none => none

/-- The first block of `post`, if it is free. -/
def head_free (post : List Blk) : Option Blk :=
  match post.head? with
  | some d => if d.alloc then none else some d
  | none => none

/-- The blocks of the heap `pre ++ b :: post` after `b` has been freed and
merged with its free neighbours. -/
def mergeBlocks (pre : List Blk) (b : Blk) (post : List Blk) : List Blk :=
  match last_free pre, head_free post with
  | none, none => pre ++ ⟨b.bp, b.size, false⟩ :: post
  | none, some d => pre ++ ⟨b.bp, b.size + d.size, false⟩ :: post.tail
  | some c, none => pre.dropLast ++ ⟨c.bp, b.size + c.size, false⟩ :: post
  | some c, some d => pre.dropLast ++ ⟨c.bp, b.size + (c.size + d.size), false⟩ :: post.tail


/-! ## Concrete runs -/

/-- The heap right after `mm_init` on a provider whose region starts at
address 8 and holds zeros, and who grants both requests. -/
def init8 : State := (mm_init (State.start 8 (fun _ => 0)) true true).1

/-- The configuration after the client actions `ops` on `init8`, with requests
below `bound` (the starting configuration if one of them is not allowed). -/
def after (bound : Nat) (ops : List Op) : State × Live :=
  (run bound 64 ops (init8, [])).getD (init8, [])

/-- Two 2 GiB requests, the first of which is freed again: the heap has grown
beyond 4 GiB. -/
def ops_big : List Op :=
  [.malloc 2147483647 true, .malloc 2147483640 true, .free 24]

/-- Six actions after which the heap scan finds four free blocks in a row. -/
def ops_adjacent : List Op :=
  [.malloc 16 true, .free 24, .malloc 2147483647 true, .malloc 2147418120 true,
   .free 24, .free 2147483680]

/-- Nine actions after which two live blocks overlap. -/
def ops_overlap : List Op :=
  [.malloc 2147418120 true, .malloc 2147483624 true, .free 2147418152, .free 24,
   .malloc 2147418072 true, .free 2147418152, .malloc 2147483631 true,
   .malloc 2147418072 true, .malloc 2147483600 true]

/-- Eleven actions after which the free list is a cycle through the block at 24. -/
def ops_cycle : List Op :=
  [.malloc 16 true, .malloc 16 true, .free 24, .malloc 1073741824 true,
   .malloc 1073741824 true, .free 72, .malloc 2147483640 true, .free 2147483736,
   .free 1073741904, .malloc 65528 true, .free 48]

/-- Five actions with requests close to `2^64`, after which `mm_malloc`
returns an odd pointer. -/
def ops_odd : List Op :=
  [.malloc 281449206906888 true, .malloc 18446744073709551615 true, .free 24, .free 40,
   .malloc 18446744073709551601 true]

/-- A request of 16 bytes whose payload is then filled with the byte `0xAA`. -/
def ops_pattern : List Op :=
  .malloc 16 true :: (List.range 16).map (fun i => .store 24 i 170)

/-- Two small requests. -/
def ops_two : List Op := [.malloc 16 true, .malloc 100 true]

/-- Three minimum-size requests `A`, `B`, `C`. -/
def ops_three : List Op := [.malloc 16 true, .malloc 16 true, .malloc 16 true]

/-- Three minimum-size requests `A`, `B`, `C`, then `mm_free` of `B`, `A`, `C`. -/
def ops_collapse : List Op := ops_three ++ [.free 48, .free 24, .free 72]


/-! ## The adjusted size as the specification states it -/

/-- Rounding up to a multiple of 8 (`align_up` of the specification). -/
def roundup8 (n : Nat) : Nat := 8 * ((n + 7) / 8)

/-- The adjusted size in the specification's words:
`max(minimum_block_size, align_up(size + fixed_overhead, alignment))`, with a
minimum block of 24 bytes and 8 bytes of header and footer. -/
def spec_need (size : Nat) : Nat := max 24 (roundup8 (size + 8))

/-! ## A free block in the free list -/

/-- The block `b` is a free block of size `T` that stands in the free list
`l1 ++ b :: l2`: the list from `free_listp` is well formed, its elements are
64-bit addresses of blocks, hence at least a minimum block (24 bytes) apart,
the header of `b` holds `(T, free)`, `T` is a block size that fits the 32-bit
header, and the other blocks of the list lie outside the block `b`. -/
structure ListedFree (s : State) (l1 : List Nat) (b T : Nat) (l2 : List Nat) : Prop where
  list : FL s.mem s.free_listp (l1 ++ b :: l2)
  far : (l1 ++ b :: l2).Pairwise Far
  lt : ∀ y ∈ l1 ++ b :: l2, y < 18446744073709551616
  hdr : GET s.mem (HDRP b) = PACK T 0
  size : 24 ≤ T ∧ T % 8 = 0 ∧ T < 4294967296
  pos : 4 ≤ b ∧ b + T < 18446744073709551616
  out : ∀ y ∈ l1 ++ l2, y + 24 ≤ b ∨ b + T ≤ y

/-! ## The bytes outside the free blocks -/

/-- The address `a` lies outside every free block of `bs`, header and footer
included: outside `[bp - 4, bp + size - 4)` for every free block. -/
def Off (bs : List Blk) (a : Nat) : Prop :=
  ∀ f ∈ bs, f.alloc = false → a + 4 < f.bp ∨ f.bp + f.size ≤ a + 4

/-- The byte `a` belongs to the 4-byte word at `q`. -/
def InWord (q a : Nat) : Prop := q ≤ a ∧ a < q + 4

/-- The byte `a` belongs to the next and prev pointer fields of the block `y`,
the 16 bytes from `y` on. -/
def InFields (y a : Nat) : Prop := y ≤ a ∧ a < y + 16

/-- The block at `p` has in `m2` the bytes it has in `m`, from the first byte
of its header to the last byte of its footer: the header word, every payload
byte and the footer word. -/
def BlockKept (m m2 : Mem) (p : Nat) : Prop :=
  (∀ a, HDRP p ≤ a → a < FTRP m p + 4 → m2 a = m a) ∧
  GET m2 (HDRP p) = GET m (HDRP p) ∧
  FTRP m2 p = FTRP m p ∧
  GET m2 (FTRP m p) = GET m (FTRP m p)

/-- The bytes that `mm_malloc` may write on the way from `s` to `s2` when it
returns `p`, the free list having been `fl`: the tags of the block placed; the
tags and the pointer fields of the block after it when that one is tagged free
(the remainder of a split); when the heap has grown, the old epilogue (the
header of the new block), the footer of the new block, the new epilogue and
the pointer fields of the block handed over by `extend_heap`; and pointer
fields of blocks of the free list. -/
def MallocWrites (s s2 : State) (p : Nat) (fl : List Nat) (a : Nat) : Prop :=
  InWord (HDRP p) a ∨ InWord (FTRP s2.mem p) a ∨
  (GET_ALLOC s2.mem (HDRP (NEXT_BLKP s2.mem p)) = 0 ∧
    (InWord (HDRP (NEXT_BLKP s2.mem p)) a ∨ InWord (FTRP s2.mem (NEXT_BLKP s2.mem p)) a ∨
      InFields (NEXT_BLKP s2.mem p) a)) ∨
  (s.mem_brk < s2.mem_brk ∧
    (InWord (s.mem_brk - 4) a ∨ InWord (s2.mem_brk - 8) a ∨ InWord (s2.mem_brk - 4) a ∨
      InFields p a)) ∨
  ∃ y ∈ fl, InFields y a

/-- The bytes that `mm_free(q)` may write on the way from `s` to `s2`, the
free list having been `fl`: the tags of the block freed; the tags and the
pointer fields of the merged block, which is the head of the free list in
`s2`; and pointer fields of blocks of the free list. -/
def FreeWrites (s s2 : State) (q : Nat) (fl : List Nat) (a : Nat) : Prop :=
  InWord (HDRP q) a ∨ InWord (FTRP s.mem q) a ∨
  InWord (HDRP s2.free_listp) a ∨ InWord (FTRP s2.mem s2.free_listp) a ∨
  InFields s2.free_listp a ∨
  ∃ y ∈ fl, InFields y a

/-! ## Further concrete runs -/

/-- Three minimum-size requests, the first of which is freed again: the free
list holds the blocks 24 and 96. -/
def ops_listed : List Op := ops_three ++ [.free 24]

/-- Ten actions with sizes below `2^31` on a heap that grows beyond 4 GiB, after
which `mm_malloc(2147483647)` returns a block whose header holds the size 0. -/
def ops_zero : List Op :=
  [.malloc 2147483647 true, .malloc 2147483640 true, .malloc 65520 true,
   .malloc 1073741824 true, .free 2147483680, .free 24, .free 4294967328,
   .malloc 65520 true, .free 2147483680, .free 4295032864]

/-- Four actions with sizes below `2^31` after which the free block at the
start of the heap is `2^32` bytes long, so that its header holds the size 0. -/
def ops_wrap : List Op :=
  [.malloc 2147418120 true, .malloc 2147483624 true, .free 2147418152, .free 24]

/-- Eight actions with sizes below `2^31` on a heap that grows beyond 4 GiB, after
which the allocations 24 and 2147483664 are live and `mm_malloc(2147483600)`
writes into the payload of the second. -/
def ops_frame : List Op :=
  [.malloc 2147418120 true, .malloc 2147483624 true, .free 2147418152, .free 24,
   .malloc 2147418072 true, .free 2147418152, .malloc 2147483631 true,
   .malloc 2147418072 true]


/-! ## The heap checker -/

set_option maxRecDepth 1000000


/-! ## Reads and writes -/

theorem GET_lt (m : Mem) (p : Nat) : GET m p < 4294967296 := by
  unfold GET; omega

theorem PUT_out (m : Mem) (p v a : Nat) (h : a < p ∨ p + 4 ≤ a) : PUT m p v a = m a := by
  unfold PUT
  rw [if_neg (by omega), if_neg (by omega), if_neg (by omega), if_neg (by omega)]

theorem PUTP_out (m : Mem) (p v a : Nat) (h : a < p ∨ p + 8 ≤ a) : PUTP m p v a = m a := by
  unfold PUTP
  rw [PUT_out _ _ _ _ (by omega), PUT_out _ _ _ _ (by omega)]

theorem GET_congr {m m' : Mem} {q : Nat} (h : ∀ i, i < 4 → m' (q + i) = m (q + i)) :
    GET m' q = GET m q := by
  have h0 := h 0 (by omega)
  have h1 := h 1 (by omega)
  have h2 := h 2 (by omega)
  have h3 := h 3 (by omega)
  simp only [Nat.add_zero] at h0
  unfold GET
  rw [h0, h1, h2, h3]

theorem GETP_congr {m m' : Mem} {q : Nat} (h : ∀ i, i < 8 → m' (q + i) = m (q + i)) :
    GETP m' q = GETP m q := by
  unfold GETP
  rw [GET_congr (fun i hi => h i (by omega)),
      @GET_congr m m' (q + 4)
        (fun i hi => by rw [Nat.add_assoc]; exact h (4 + i) (by omega))]

theorem GET_PUT_same (m : Mem) (p v : Nat) : GET (PUT m p v) p = v % 4294967296 := by
  have e1 : PUT m p v p = v % 256 := by unfold PUT; rw [if_pos rfl]
  have e2 : PUT m p v (p + 1) = v / 256 % 256 := by
    unfold PUT; rw [if_neg (by omega), if_pos rfl]
  have e3 : PUT m p v (p + 2) = v / 65536 % 256 := by
    unfold PUT; rw [if_neg (by omega), if_neg (by omega), if_pos rfl]
  have e4 : PUT m p v (p + 3) = v / 16777216 % 256 := by
    unfold PUT; rw [if_neg (by omega), if_neg (by omega), if_neg (by omega), if_pos rfl]
  unfold GET
  rw [e1, e2, e3, e4]
  omega

theorem GET_PUT_disj (m : Mem) (p v q : Nat) (h : q + 4 ≤ p ∨ p + 4 ≤ q) :
    GET (PUT m p v) q = GET m q :=
  GET_congr (fun i hi => PUT_out _ _ _ _ (by omega))

theorem GET_PUTP_disj (m : Mem) (p v q : Nat) (h : q + 4 ≤ p ∨ p + 8 ≤ q) :
    GET (PUTP m p v) q = GET m q :=
  GET_congr (fun i hi => PUTP_out _ _ _ _ (by omega))

theorem GETP_PUT_disj (m : Mem) (p v q : Nat) (h : q + 8 ≤ p ∨ p + 4 ≤ q) :
    GETP (PUT m p v) q = GETP m q :=
  GETP_congr (fun i hi => PUT_out _ _ _ _ (by omega))

theorem GETP_PUTP_disj (m : Mem) (p v q : Nat) (h : q + 8 ≤ p ∨ p + 8 ≤ q) :
    GETP (PUTP m p v) q = GETP m q :=
  GETP_congr (fun i hi => PUTP_out _ _ _ _ (by omega))

theorem GETP_PUTP_same (m : Mem) (p v : Nat) (hv : v < 18446744073709551616) :
    GETP (PUTP m p v) p = v := by
  unfold GETP PUTP
  rw [GET_PUT_disj _ _ _ _ (by omega), GET_PUT_same, GET_PUT_same]
  omega

theorem GETP_lt (m : Mem) (p : Nat) : GETP m p < 18446744073709551616 := by
  unfold GETP
  have h1 := GET_lt m p
  have h2 := GET_lt m (p + 4)
  omega

/-! ## Tags -/

theorem PACK_zero (sz : Nat) : PACK sz 0 = sz := by
  unfold PACK; exact Nat.or_zero sz

theorem PACK_one (sz : Nat) (h : sz % 8 = 0) : PACK sz 1 = sz + 1 := by
  unfold PACK
  have h8 : sz = 2 ^ 3 * (sz / 8) := by omega
  rw [h8, ← Nat.mul_add_lt_is_or (by norm_num : 1 < 2 ^ 3)]

theorem and_mask (w : Nat) (hw : w < 4294967296) : w &&& 4294967288 = w - w % 8 := by
  apply Nat.eq_of_testBit_eq
  intro i
  rw [Nat.testBit_and]
  have hw8 : w - w % 8 = 2 ^ 3 * (w / 8) := by omega
  have hd : w / 8 = w >>> 3 := by rw [Nat.shiftRight_eq_div_pow]
  rw [hw8, Nat.testBit_mul_pow_two, hd, Nat.testBit_shiftRight]
  by_cases h3 : 3 ≤ i
  · have e3 : 3 + (i - 3) = i := by omega
    rw [e3]
    by_cases h32 : i < 32
    · have hc : Nat.testBit 4294967288 i = true := by
        interval_cases i <;> rfl
      rw [hc, Bool.and_true]
      simp only [h3, decide_True, Bool.true_and]
    · have hlt : w < 2 ^ i := by
        calc w < 4294967296 := hw
          _ = 2 ^ 32 := by norm_num
          _ ≤ 2 ^ i := Nat.pow_le_pow_right (by norm_num) (by omega)
      rw [Nat.testBit_lt_two_pow hlt, Bool.false_and]
      simp only [h3, decide_True, Bool.true_and]
  · have hc : Nat.testBit 4294967288 i = false := by
      interval_cases i <;> rfl
    rw [hc, Bool.and_false]
    simp [h3]

theorem GET_SIZE_eq (m : Mem) (p : Nat) : GET_SIZE m p = GET m p - GET m p % 8 := by
  unfold GET_SIZE; exact and_mask _ (GET_lt m p)

theorem GET_ALLOC_eq (m : Mem) (p : Nat) : GET_ALLOC m p = GET m p % 2 := by
  unfold GET_ALLOC; exact Nat.and_one_is_mod _


/-! ## Block lists -/

theorem Contig_append (a e : Nat) (xs ys : List Blk) :
    Contig a (xs ++ ys) e ↔ ∃ mid, Contig a xs mid ∧ Contig mid ys e := by
  induction xs generalizing a with
  | nil => simp [Contig]
  | cons x xs ih =>
    show (x.bp = a ∧ Contig (a + x.size) (xs ++ ys) e) ↔
      ∃ mid, (x.bp = a ∧ Contig (a + x.size) xs mid) ∧ Contig mid ys e
    rw [ih]
    constructor
    · rintro ⟨h1, mid, h2, h3⟩; exact ⟨mid, ⟨h1, h2⟩, h3⟩
    · rintro ⟨mid, ⟨h1, h2⟩, h3⟩; exact ⟨h1, mid, h2, h3⟩

theorem Contig_mid (a e : Nat) (pre post : List Blk) (b : Blk) :
    Contig a (pre ++ b :: post) e ↔ Contig a pre b.bp ∧ Contig (b.bp + b.size) post e := by
  rw [Contig_append]
  constructor
  · rintro ⟨mid, h1, h2, h3⟩
    subst h2
    exact ⟨h1, h3⟩
  · rintro ⟨h1, h2⟩
    exact ⟨b.bp, h1, rfl, h2⟩

theorem Contig_snoc (a e : Nat) (pre : List Blk) (c : Blk) :
    Contig a (pre ++ [c]) e ↔ Contig a pre c.bp ∧ c.bp + c.size = e := by
  rw [Contig_mid]; simp [Contig]

theorem Contig_le {a e : Nat} {bs : List Blk} (h : Contig a bs e) : a ≤ e := by
  induction bs generalizing a with
  | nil => exact Nat.le_of_eq h
  | cons x xs ih =>
    have := ih h.2
    omega

theorem Contig_bounds {a e : Nat} {bs : List Blk} (h : Contig a bs e) {b : Blk}
    (hb : b ∈ bs) : a ≤ b.bp ∧ b.bp + b.size ≤ e := by
  induction bs generalizing a with
  | nil => cases hb
  | cons x xs ih =>
    rcases List.mem_cons.1 hb with rfl | hb
    · have := Contig_le h.2
      have := h.1
      omega
    · have := ih h.2 hb
      omega

theorem Sized_append {xs ys : List Blk} : Sized (xs ++ ys) ↔ Sized xs ∧ Sized ys := by
  unfold Sized
  simp only [List.mem_append]
  constructor
  · intro h; exact ⟨fun b hb => h b (Or.inl hb), fun b hb => h b (Or.inr hb)⟩
  · rintro ⟨h1, h2⟩ b (hb | hb)
    · exact h1 b hb
    · exact h2 b hb

theorem Sized_cons {x : Blk} {xs : List Blk} :
    Sized (x :: xs) ↔ (24 ≤ x.size ∧ x.size % 8 = 0) ∧ Sized xs := by
  unfold Sized
  simp only [List.mem_cons, forall_eq_or_imp]

theorem Contig_sep {a e : Nat} {bs : List Blk} (h : Contig a bs e) (hs : Sized bs)
    {b c : Blk} (hb : b ∈ bs) (hc : c ∈ bs) :
    b = c ∨ b.bp + b.size ≤ c.bp ∨ c.bp + c.size ≤ b.bp := by
  induction bs generalizing a with
  | nil => cases hb
  | cons x xs ih =>
    have hs' := (Sized_cons.1 hs).2
    have hx := h.1
    rcases List.mem_cons.1 hb with hbx | hb <;> rcases List.mem_cons.1 hc with hcx | hc
    · left; rw [hbx, hcx]
    · have := Contig_bounds h.2 hc
      rw [hbx]
      right; left; omega
    · have := Contig_bounds h.2 hb
      rw [hcx]
      right; right; omega
    · exact ih h.2 hs' hb hc

theorem Contig_bp_inj {a e : Nat} {bs : List Blk} (h : Contig a bs e) (hs : Sized bs)
    {b c : Blk} (hb : b ∈ bs) (hc : c ∈ bs) (heq : b.bp = c.bp) : b = c := by
  rcases Contig_sep h hs hb hc with h1 | h1 | h1
  · exact h1
  · have := (hs b hb).1; omega
  · have := (hs c hc).1; omega

theorem Contig_aligned {a e : Nat} {bs : List Blk} (h : Contig a bs e) (hs : Sized bs)
    (ha : a % 8 = 0) : e % 8 = 0 ∧ ∀ b ∈ bs, b.bp % 8 = 0 := by
  induction bs generalizing a with
  | nil => exact ⟨by rw [← h]; exact ha, fun b hb => by cases hb⟩
  | cons x xs ih =>
    have hx := (Sized_cons.1 hs).1
    have h1 := h.1
    have := ih h.2 (Sized_cons.1 hs).2 (by omega)
    refine ⟨this.1, fun b hb => ?_⟩
    rcases List.mem_cons.1 hb with rfl | hb
    · omega
    · exact this.2 b hb

theorem Contig_sorted {a e : Nat} {bs : List Blk} (h : Contig a bs e) (hs : Sized bs) :
    bs.Pairwise (fun b c => b.bp + b.size ≤ c.bp) := by
  induction bs generalizing a with
  | nil => exact List.Pairwise.nil
  | cons x xs ih =>
    refine List.Pairwise.cons (fun c hc => ?_) (ih h.2 (Sized_cons.1 hs).2)
    have := Contig_bounds h.2 hc
    have := h.1
    omega

/-! ## Free and allocated addresses -/

@[simp]
theorem freeAddrs_nil : freeAddrs [] = [] := rfl

@[simp]
theorem freeAddrs_append (xs ys : List Blk) :
    freeAddrs (xs ++ ys) = freeAddrs xs ++ freeAddrs ys := by
  simp [freeAddrs]

theorem freeAddrs_cons_free (b : Blk) (bs : List Blk) (h : b.alloc = false) :
    freeAddrs (b :: bs) = b.bp :: freeAddrs bs := by
  simp [freeAddrs, h]

theorem freeAddrs_cons_alloc (b : Blk) (bs : List Blk) (h : b.alloc = true) :
    freeAddrs (b :: bs) = freeAddrs bs := by
  simp [freeAddrs, h]

theorem mem_freeAddrs {bs : List Blk} {x : Nat} :
    x ∈ freeAddrs bs ↔ ∃ b ∈ bs, b.bp = x ∧ b.alloc = false := by
  simp only [freeAddrs, List.mem_map, List.mem_filter, Bool.not_eq_true']
  constructor
  · rintro ⟨b, ⟨hb, hf⟩, rfl⟩; exact ⟨b, hb, rfl, hf⟩
  · rintro ⟨b, hb, rfl, hf⟩; exact ⟨b, ⟨hb, hf⟩, rfl⟩

@[simp]
theorem allocAddrs_nil : allocAddrs [] = [] := rfl

@[simp]
theorem allocAddrs_append (xs ys : List Blk) :
    allocAddrs (xs ++ ys) = allocAddrs xs ++ allocAddrs ys := by
  simp [allocAddrs]

theorem allocAddrs_cons_free (b : Blk) (bs : List Blk) (h : b.alloc = false) :
    allocAddrs (b :: bs) = allocAddrs bs := by
  simp [allocAddrs, h]

theorem allocAddrs_cons_alloc (b : Blk) (bs : List Blk) (h : b.alloc = true) :
    allocAddrs (b :: bs) = b.bp :: allocAddrs bs := by
  simp [allocAddrs, h]

theorem mem_allocAddrs {bs : List Blk} {x : Nat} :
    x ∈ allocAddrs bs ↔ ∃ b ∈ bs, b.bp = x ∧ b.alloc = true := by
  simp only [allocAddrs, List.mem_map, List.mem_filter]
  constructor
  · rintro ⟨b, ⟨hb, hf⟩, rfl⟩; exact ⟨b, hb, rfl, hf⟩
  · rintro ⟨b, hb, rfl, hf⟩; exact ⟨b, ⟨hb, hf⟩, rfl⟩

theorem sorted_map_bp {bs : List Blk} (hs : Sized bs)
    (h : bs.Pairwise (fun b c => b.bp + b.size ≤ c.bp)) (f : Blk → Bool) :
    ((bs.filter f).map Blk.bp).Pairwise (fun x y => x + 24 ≤ y) := by
  rw [List.pairwise_map]
  apply List.Pairwise.filter
  refine List.Pairwise.imp_of_mem ?_ h
  intro b c hb _ hbc
  have := (hs b hb).1
  omega

theorem freeAddrs_sorted {a e : Nat} {bs : List Blk} (h : Contig a bs e) (hs : Sized bs) :
    (freeAddrs bs).Pairwise (fun x y => x + 24 ≤ y) :=
  sorted_map_bp hs (Contig_sorted h hs) _

theorem allocAddrs_sorted {a e : Nat} {bs : List Blk} (h : Contig a bs e) (hs : Sized bs) :
    (allocAddrs bs).Pairwise (fun x y => x + 24 ≤ y) :=
  sorted_map_bp hs (Contig_sorted h hs) _

theorem nodup_of_sorted {l : List Nat} (h : l.Pairwise (fun x y => x + 24 ≤ y)) : l.Nodup :=
  h.imp (fun hxy => by omega)


/-! ## The free list -/

theorem FLseg_congr {m m' : Mem} {l : List Nat}
    (hag : ∀ y ∈ l, GETP m' y = GETP m y ∧ GETP m' (y + 8) = GETP m (y + 8))
    {h p e : Nat} (hfl : FLseg m h p l e) : FLseg m' h p l e := by
  induction l generalizing h p with
  | nil => exact hfl
  | cons x xs ih =>
    obtain ⟨h1, h2, h3, h4⟩ := hfl
    have hx := hag x (List.mem_cons_self _ _)
    refine ⟨h1, h2, ?_, ?_⟩
    · unfold PREV_FREEP DSIZE at *; rw [hx.2]; exact h3
    · unfold NEXT_FREEP at *; rw [hx.1]
      exact ih (fun y hy => hag y (List.mem_cons_of_mem _ hy)) h4

theorem FLseg_ne_zero {m : Mem} {l : List Nat} {h p e : Nat} (hfl : FLseg m h p l e) :
    ∀ y ∈ l, y ≠ 0 := by
  induction l generalizing h p with
  | nil => intro y hy; cases hy
  | cons x xs ih =>
    intro y hy
    rcases List.mem_cons.1 hy with rfl | hy
    · exact hfl.2.1
    · exact ih hfl.2.2.2 y hy

theorem FLseg_head {m : Mem} {l : List Nat} {h p e : Nat} (hfl : FLseg m h p l e) :
    h = l.headD e := by
  cases l with
  | nil => exact hfl
  | cons x xs => exact hfl.1

theorem FLseg_append {m : Mem} {l1 l2 : List Nat} {h p e : Nat} :
    FLseg m h p (l1 ++ l2) e ↔
      ∃ mid, FLseg m h p l1 mid ∧ FLseg m mid (l1.getLastD p) l2 e := by
  induction l1 generalizing h p with
  | nil => simp [FLseg]
  | cons x xs ih =>
    show (h = x ∧ x ≠ 0 ∧ PREV_FREEP m x = p ∧ FLseg m (NEXT_FREEP m x) x (xs ++ l2) e) ↔
      ∃ mid, (h = x ∧ x ≠ 0 ∧ PREV_FREEP m x = p ∧ FLseg m (NEXT_FREEP m x) x xs mid) ∧
        FLseg m mid ((x :: xs).getLastD p) l2 e
    rw [ih, List.getLastD_cons]
    constructor
    · rintro ⟨h1, h2, h3, mid, h4, h5⟩; exact ⟨mid, ⟨h1, h2, h3, h4⟩, h5⟩
    · rintro ⟨mid, ⟨h1, h2, h3, h4⟩, h5⟩; exact ⟨h1, h2, h3, mid, h4, h5⟩

theorem FLseg_mid {m : Mem} {l1 l2 : List Nat} {x h p e : Nat} :
    FLseg m h p (l1 ++ x :: l2) e ↔
      FLseg m h p l1 x ∧ x ≠ 0 ∧ PREV_FREEP m x = l1.getLastD p ∧
        FLseg m (NEXT_FREEP m x) x l2 e := by
  rw [FLseg_append]
  constructor
  · rintro ⟨mid, h1, h2, h3, h4, h5⟩
    subst h2
    exact ⟨h1, h3, h4, h5⟩
  · rintro ⟨h1, h3, h4, h5⟩
    exact ⟨x, h1, rfl, h3, h4, h5⟩

/-- Redirecting the `next` link of the last element of a segment. -/
theorem FLseg_redirect {m m' : Mem} {l : List Nat} {c h p e e' : Nat}
    (hfl : FLseg m h p (l ++ [c]) e)
    (hag : ∀ y ∈ l, GETP m' y = GETP m y ∧ GETP m' (y + 8) = GETP m (y + 8))
    (hc1 : GETP m' (c + 8) = GETP m (c + 8)) (hc2 : GETP m' c = e') :
    FLseg m' h p (l ++ [c]) e' := by
  rw [FLseg_mid] at hfl ⊢
  obtain ⟨h1, h2, h3, _⟩ := hfl
  refine ⟨FLseg_congr hag h1, h2, ?_, ?_⟩
  · unfold PREV_FREEP DSIZE at *; rw [hc1]; exact h3
  · show NEXT_FREEP m' c = e'
    exact hc2

/-- Changing the `prev` link of the first element of a segment. -/
theorem FLseg_reprev {m m' : Mem} {l : List Nat} {d h p p' e : Nat}
    (hfl : FLseg m h p (d :: l) e)
    (hag : ∀ y ∈ l, GETP m' y = GETP m y ∧ GETP m' (y + 8) = GETP m (y + 8))
    (hd1 : GETP m' d = GETP m d) (hd2 : GETP m' (d + 8) = p') :
    FLseg m' h p' (d :: l) e := by
  obtain ⟨h1, h2, _, h4⟩ := hfl
  refine ⟨h1, h2, hd2, ?_⟩
  unfold NEXT_FREEP at *
  rw [hd1]
  exact FLseg_congr hag h4

theorem free_walk_of_FL {m : Mem} {l : List Nat} {h p : Nat} (hfl : FLseg m h p l 0)
    (fuel : Nat) (hf : l.length < fuel) : free_walk m fuel h = some l := by
  induction l generalizing h p fuel with
  | nil =>
    cases fuel with
    | zero => cases hf
    | succ n =>
      have : h = 0 := hfl
      simp [free_walk, this]
  | cons x xs ih =>
    cases fuel with
    | zero => cases hf
    | succ n =>
      obtain ⟨h1, h2, _, h4⟩ := hfl
      subst h1
      have := ih h4 n (by simpa using hf)
      simp [free_walk, h2, this]


theorem OutFields_sub {l l' : List Nat} {a : Nat} (h : OutFields l a)
    (hsub : ∀ y ∈ l', y ∈ l) : OutFields l' a :=
  fun y hy => h y (hsub y hy)

/-- The pointer fields of `y` are untouched by a pointer write at a field of a
block at least 24 bytes away. -/
theorem fields_PUTP_far (m : Mem) (y z off v : Nat) (hoff : off ≤ 8)
    (h : y + 24 ≤ z ∨ z + 24 ≤ y) :
    GETP (PUTP m (z + off) v) y = GETP m y ∧
      GETP (PUTP m (z + off) v) (y + 8) = GETP m (y + 8) :=
  ⟨GETP_PUTP_disj _ _ _ _ (by omega), GETP_PUTP_disj _ _ _ _ (by omega)⟩

theorem Far_symm {a b : Nat} (h : Far a b) : Far b a := Or.symm h

theorem far_mid (l1 : List Nat) (x : Nat) (l2 : List Nat) {l : List Nat}
    (h : l.Pairwise Far) (e : l = l1 ++ x :: l2) :
    ∀ y ∈ l1 ++ l2, Far y x := by
  subst e
  rw [List.pairwise_append, List.pairwise_cons] at h
  intro y hy
  rcases List.mem_append.1 hy with hy | hy
  · exact h.2.2 y hy x (List.mem_cons_self _ _)
  · exact Far_symm (h.2.1.1 y hy)

theorem pairwise_mid {l1 l2 : List Nat} {x : Nat} (h : (l1 ++ x :: l2).Pairwise Far) :
    (l1 ++ l2).Pairwise Far :=
  h.sublist (List.Sublist.append_left (List.sublist_cons_self x l2) l1)

theorem removefree_head (s : State) (x : Nat) (l2 : List Nat)
    (hfl : FL s.mem s.free_listp (x :: l2))
    (hsp : (x :: l2).Pairwise Far) :
    FL (removefree s x).mem (removefree s x).free_listp l2 ∧
    (∀ a, OutFields l2 a → (removefree s x).mem a = s.mem a) ∧
    (removefree s x).mem_lo = s.mem_lo ∧ (removefree s x).mem_brk = s.mem_brk ∧
    (removefree s x).heap_listp = s.heap_listp := by
  have hne := FLseg_ne_zero hfl
  obtain ⟨hh, hx0, hprev, hB⟩ := hfl
  have hnext : NEXT_FREEP s.mem x = l2.headD 0 := FLseg_head hB
  have hflp : s.free_listp ≠ 0 := by rw [hh]; exact hx0
  cases l2 with
  | nil =>
    simp only [List.headD_nil] at hnext
    have e : removefree s x = { s with free_listp := 0 } := by
      unfold removefree; simp [hflp, hprev, hnext]
    rw [e]
    exact ⟨rfl, fun _ _ => rfl, rfl, rfl, rfl⟩
  | cons d l2' =>
    simp only [List.headD_cons] at hnext
    have hd0 : d ≠ 0 := hne d (by simp)
    have e : removefree s x =
        { s with free_listp := d, mem := PUTP s.mem (d + 8) 0 } := by
      unfold removefree DSIZE; simp [hflp, hprev, hnext, hd0]
    rw [e]
    refine ⟨?_, ?_, rfl, rfl, rfl⟩
    · show FLseg (PUTP s.mem (d + 8) 0) d 0 (d :: l2') 0
      rw [hnext] at hB
      refine FLseg_reprev hB ?_ (GETP_PUTP_disj _ _ _ _ (by omega))
        (GETP_PUTP_same _ _ _ (by omega))
      intro y hy
      have := far_mid ([x]) d (l2') hsp rfl y (by simp [hy])
      unfold Far at this
      exact fields_PUTP_far _ _ _ 8 _ (by omega) (by omega)
    · intro a ha
      have := ha d (by simp)
      exact PUTP_out _ _ _ _ (by omega)

theorem removefree_inner (s : State) (x c : Nat) (L l2 : List Nat)
    (hfl : FL s.mem s.free_listp (L ++ [c] ++ x :: l2))
    (hsp : (L ++ [c] ++ x :: l2).Pairwise Far)
    (hlt : ∀ y ∈ L ++ [c] ++ x :: l2, y < 18446744073709551616) :
    FL (removefree s x).mem (removefree s x).free_listp (L ++ [c] ++ l2) ∧
    (∀ a, OutFields (L ++ [c] ++ l2) a → (removefree s x).mem a = s.mem a) ∧
    (removefree s x).mem_lo = s.mem_lo ∧ (removefree s x).mem_brk = s.mem_brk ∧
    (removefree s x).heap_listp = s.heap_listp := by
  have hne := FLseg_ne_zero hfl
  have hfl' := hfl
  unfold FL at hfl'
  rw [FLseg_mid] at hfl'
  obtain ⟨hA, hx0, hprev, hB⟩ := hfl'
  have hnext : NEXT_FREEP s.mem x = l2.headD 0 := FLseg_head hB
  have hhead : s.free_listp = (L ++ [c] ++ x :: l2).headD 0 := FLseg_head hfl
  have hflp : s.free_listp ≠ 0 := by
    rw [hhead]
    cases L with
    | nil => exact hne c (by simp)
    | cons a l => exact hne a (by simp)
  have hc0 : c ≠ 0 := hne c (by simp)
  simp only [List.getLastD_concat] at hprev
  have hclt := hlt c (by simp)
  have hLc : ∀ y ∈ L, y + 24 ≤ c ∨ c + 24 ≤ y := fun y hy =>
    far_mid (L) c (x :: l2) hsp (by simp) y (by simp [hy])
  cases l2 with
  | nil =>
    simp only [List.headD_nil] at hnext
    have e : removefree s x = { s with mem := PUTP s.mem c 0 } := by
      unfold removefree; simp [hflp, hprev, hnext, hc0]
    rw [e]
    refine ⟨?_, ?_, rfl, rfl, rfl⟩
    · show FLseg (PUTP s.mem c 0) s.free_listp 0 (L ++ [c] ++ []) 0
      rw [List.append_nil]
      refine FLseg_redirect hA ?_ (GETP_PUTP_disj _ _ _ _ (by omega))
        (GETP_PUTP_same _ _ _ (by omega))
      intro y hy
      have := hLc y hy
      exact fields_PUTP_far _ _ _ 0 _ (by omega) (by omega)
    · intro a ha
      have := ha c (by simp)
      exact PUTP_out _ _ _ _ (by omega)
  | cons d l2' =>
    simp only [List.headD_cons] at hnext
    have hd0 : d ≠ 0 := hne d (by simp)
    have hcd : c + 24 ≤ d ∨ d + 24 ≤ c :=
      far_mid (L ++ [c] ++ [x]) d (l2') hsp (by simp) c (by simp)
    have hdlt := hlt d (by simp)
    have hLd : ∀ y ∈ L, y + 24 ≤ d ∨ d + 24 ≤ y := fun y hy =>
      far_mid (L ++ [c] ++ [x]) d (l2') hsp (by simp) y (by simp [hy])
    have hl2c : ∀ y ∈ l2', y + 24 ≤ c ∨ c + 24 ≤ y := fun y hy =>
      far_mid (L) c (x :: d :: l2') hsp (by simp) y (by simp [hy])
    have hl2d : ∀ y ∈ l2', y + 24 ≤ d ∨ d + 24 ≤ y := fun y hy =>
      far_mid (L ++ [c] ++ [x]) d (l2') hsp (by simp) y (by simp [hy])
    have e : removefree s x =
        { s with mem := PUTP (PUTP s.mem c d) (d + 8) c } := by
      unfold removefree DSIZE; simp [hflp, hprev, hnext, hc0, hd0]
    rw [e]
    refine ⟨?_, ?_, rfl, rfl, rfl⟩
    · show FLseg (PUTP (PUTP s.mem c d) (d + 8) c) s.free_listp 0 (L ++ [c] ++ d :: l2') 0
      rw [FLseg_append]
      refine ⟨d, ?_, ?_⟩
      · refine FLseg_redirect hA ?_ ?_ ?_
        · intro y hy
          have h1 := hLc y hy
          have h2 := hLd y hy
          constructor
          · rw [GETP_PUTP_disj _ _ _ _ (by omega), GETP_PUTP_disj _ _ _ _ (by omega)]
          · rw [GETP_PUTP_disj _ _ _ _ (by omega), GETP_PUTP_disj _ _ _ _ (by omega)]
        · rw [GETP_PUTP_disj _ _ _ _ (by omega), GETP_PUTP_disj _ _ _ _ (by omega)]
        · rw [GETP_PUTP_disj _ _ _ _ (by omega), GETP_PUTP_same _ _ _ hdlt]
      · rw [List.getLastD_concat]
        rw [hnext] at hB
        refine FLseg_reprev hB ?_ ?_ ?_
        · intro y hy
          have h1 := hl2c y hy
          have h2 := hl2d y hy
          constructor
          · rw [GETP_PUTP_disj _ _ _ _ (by omega), GETP_PUTP_disj _ _ _ _ (by omega)]
          · rw [GETP_PUTP_disj _ _ _ _ (by omega), GETP_PUTP_disj _ _ _ _ (by omega)]
        · rw [GETP_PUTP_disj _ _ _ _ (by omega), GETP_PUTP_disj _ _ _ _ (by omega)]
        · exact GETP_PUTP_same _ _ _ hclt
    · intro a ha
      have h1 := ha c (by simp)
      have h2 := ha d (by simp)
      show PUTP (PUTP s.mem c d) (d + 8) c a = s.mem a
      rw [PUTP_out _ _ _ _ (by omega), PUTP_out _ _ _ _ (by omega)]

theorem removefree_spec (s : State) (x : Nat) (l1 l2 : List Nat)
    (hfl : FL s.mem s.free_listp (l1 ++ x :: l2))
    (hsp : (l1 ++ x :: l2).Pairwise Far)
    (hlt : ∀ y ∈ l1 ++ x :: l2, y < 18446744073709551616) :
    FL (removefree s x).mem (removefree s x).free_listp (l1 ++ l2) ∧
    (∀ a, OutFields (l1 ++ l2) a → (removefree s x).mem a = s.mem a) ∧
    (removefree s x).mem_lo = s.mem_lo ∧ (removefree s x).mem_brk = s.mem_brk ∧
    (removefree s x).heap_listp = s.heap_listp := by
  rcases List.eq_nil_or_concat l1 with rfl | ⟨L, c, hL⟩
  · exact removefree_head s x l2 hfl hsp
  · rw [List.concat_eq_append] at hL
    subst hL
    exact removefree_inner s x c L l2 hfl hsp hlt


theorem addfree_spec (s : State) (x : Nat) (fl : List Nat)
    (hfl : FL s.mem s.free_listp fl) (hx0 : x ≠ 0) (hxlt : x < 18446744073709551616)
    (hsp : (x :: fl).Pairwise Far) (hlt : ∀ y ∈ fl, y < 18446744073709551616) :
    FL (addfree s x).mem (addfree s x).free_listp (x :: fl) ∧
    (∀ a, OutFields (x :: fl) a → (addfree s x).mem a = s.mem a) ∧
    (addfree s x).mem_lo = s.mem_lo ∧ (addfree s x).mem_brk = s.mem_brk ∧
    (addfree s x).heap_listp = s.heap_listp ∧ (addfree s x).free_listp = x := by
  have hhead : s.free_listp = fl.headD 0 := FLseg_head hfl
  cases fl with
  | nil =>
    simp only [List.headD_nil] at hhead
    have e : addfree s x =
        { s with free_listp := x, mem := PUTP (PUTP s.mem x 0) (x + 8) 0 } := by
      unfold addfree DSIZE; simp [hhead]
    rw [e]
    refine ⟨⟨rfl, hx0, ?_, ?_⟩, ?_, rfl, rfl, rfl, rfl⟩
    · show GETP (PUTP (PUTP s.mem x 0) (x + 8) 0) (x + 8) = 0
      exact GETP_PUTP_same _ _ _ (by omega)
    · show GETP (PUTP (PUTP s.mem x 0) (x + 8) 0) x = 0
      rw [GETP_PUTP_disj _ _ _ _ (by omega), GETP_PUTP_same _ _ _ (by omega)]
    · intro a ha
      have := ha x (by simp)
      show PUTP (PUTP s.mem x 0) (x + 8) 0 a = s.mem a
      rw [PUTP_out _ _ _ _ (by omega), PUTP_out _ _ _ _ (by omega)]
  | cons d l =>
    simp only [List.headD_cons] at hhead
    have hd0 : d ≠ 0 := FLseg_ne_zero hfl d (by simp)
    have hxd : x + 24 ≤ d ∨ d + 24 ≤ x :=
      Far_symm (far_mid [] x (d :: l) hsp rfl d (by simp))
    have hlx : ∀ y ∈ l, y + 24 ≤ x ∨ x + 24 ≤ y := fun y hy =>
      far_mid [] x (d :: l) hsp rfl y (by simp [hy])
    have hld : ∀ y ∈ l, y + 24 ≤ d ∨ d + 24 ≤ y := fun y hy =>
      far_mid [x] d l hsp rfl y (by simp [hy])
    have e : addfree s x =
        { s with free_listp := x,
                 mem := PUTP (PUTP (PUTP s.mem x d) (x + 8) 0) (d + 8) x } := by
      unfold addfree DSIZE; simp [hhead, hd0]
    rw [e]
    refine ⟨⟨rfl, hx0, ?_, ?_⟩, ?_, rfl, rfl, rfl, rfl⟩
    · show GETP (PUTP (PUTP (PUTP s.mem x d) (x + 8) 0) (d + 8) x) (x + 8) = 0
      rw [GETP_PUTP_disj _ _ _ _ (by omega), GETP_PUTP_same _ _ _ (by omega)]
    · show FLseg (PUTP (PUTP (PUTP s.mem x d) (x + 8) 0) (d + 8) x)
        (GETP (PUTP (PUTP (PUTP s.mem x d) (x + 8) 0) (d + 8) x) x) x (d :: l) 0
      have hd64 : d < 18446744073709551616 := hlt d (by simp)
      rw [GETP_PUTP_disj _ _ _ _ (by omega), GETP_PUTP_disj _ _ _ _ (by omega),
        GETP_PUTP_same _ _ _ hd64]
      have hfl' : FLseg s.mem d 0 (d :: l) 0 := by
        have h0 := hfl
        unfold FL at h0
        rw [hhead] at h0
        exact h0
      refine FLseg_reprev hfl' ?_ ?_ (GETP_PUTP_same _ _ _ hxlt)
      · intro y hy
        have h1 := hlx y hy
        have h2 := hld y hy
        constructor
        · rw [GETP_PUTP_disj _ _ _ _ (by omega), GETP_PUTP_disj _ _ _ _ (by omega),
            GETP_PUTP_disj _ _ _ _ (by omega)]
        · rw [GETP_PUTP_disj _ _ _ _ (by omega), GETP_PUTP_disj _ _ _ _ (by omega),
            GETP_PUTP_disj _ _ _ _ (by omega)]
      · rw [GETP_PUTP_disj _ _ _ _ (by omega), GETP_PUTP_disj _ _ _ _ (by omega),
          GETP_PUTP_disj _ _ _ _ (by omega)]
    · intro a ha
      have h1 := ha x (by simp)
      have h2 := ha d (by simp)
      show PUTP (PUTP (PUTP s.mem x d) (x + 8) 0) (d + 8) x a = s.mem a
      rw [PUTP_out _ _ _ _ (by omega), PUTP_out _ _ _ _ (by omega),
        PUTP_out _ _ _ _ (by omega)]


/-! ## Decoding tags -/

theorem tag_lt_of_size {b : Blk} (h : b.size < 4294967295) : b.tag < 4294967296 := by
  unfold Blk.tag; split <;> omega

theorem tag_size {m : Mem} {p : Nat} {b : Blk} (h : GET m p = b.tag) (h8 : b.size % 8 = 0) :
    GET_SIZE m p = b.size := by
  rw [GET_SIZE_eq, h]; unfold Blk.tag; split <;> omega

theorem tag_alloc {m : Mem} {p : Nat} {b : Blk} (h : GET m p = b.tag) (h8 : b.size % 8 = 0) :
    GET_ALLOC m p = if b.alloc then 1 else 0 := by
  rw [GET_ALLOC_eq, h]; unfold Blk.tag; split <;> omega

theorem GET_SIZE_of_GET {m : Mem} {p sz a : Nat} (h : GET m p = sz + a) (h8 : sz % 8 = 0)
    (ha : a < 8) : GET_SIZE m p = sz := by
  rw [GET_SIZE_eq, h]; omega

theorem GET_ALLOC_of_GET {m : Mem} {p sz a : Nat} (h : GET m p = sz + a) (h8 : sz % 8 = 0)
    (ha : a < 2) : GET_ALLOC m p = a := by
  rw [GET_ALLOC_eq, h]; omega

/-! ## Geometry of a tiled heap -/

theorem HeapCore.mem_bounds {s : State} {bs : List Blk} (h : HeapCore s bs) {b : Blk}
    (hb : b ∈ bs) :
    s.mem_lo + 16 ≤ b.bp ∧ b.bp + b.size ≤ s.mem_brk ∧ 24 ≤ b.size ∧ b.size % 8 = 0 ∧
      b.bp % 8 = 0 ∧ b.size < 4294967280 ∧ b.bp < 18446744073709551616 := by
  have h1 := Contig_bounds h.contig hb
  have h2 := h.sized b hb
  have h3 := (Contig_aligned h.contig h.sized (by have := h.lo_al; omega)).2 b hb
  have h4 := h.bnd
  have h5 := h.brk_lt
  unfold Bounded at h4
  omega

theorem HeapCore.brk_ge {s : State} {bs : List Blk} (h : HeapCore s bs) :
    s.mem_lo + 16 ≤ s.mem_brk := Contig_le h.contig

theorem HeapCore.brk_al {s : State} {bs : List Blk} (h : HeapCore s bs) :
    s.mem_brk % 8 = 0 :=
  (Contig_aligned h.contig h.sized (by have := h.lo_al; omega)).1

/-- Pointer-field writes inside blocks of the heap leave the tiling intact. -/
theorem HeapCore.frame {s s' : State} {bs : List Blk} (h : HeapCore s bs) (ys : List Nat)
    (hys : ∀ y ∈ ys, ∃ b ∈ bs, b.bp = y)
    (hfr : ∀ a, OutFields ys a → s'.mem a = s.mem a)
    (hlo : s'.mem_lo = s.mem_lo) (hbrk : s'.mem_brk = s.mem_brk)
    (hhl : s'.heap_listp = s.heap_listp) : HeapCore s' bs := by
  have hbrk16 := h.brk_ge
  have key : ∀ q, (∀ b ∈ bs, q + 4 ≤ b.bp ∨ b.bp + 16 ≤ q) → GET s'.mem q = GET s.mem q := by
    intro q hq
    apply GET_congr
    intro i hi
    apply hfr
    intro y hy
    obtain ⟨b, hb, rfl⟩ := hys y hy
    have := hq b hb
    omega
  refine ⟨by rw [hlo]; exact h.lo_al, by rw [hlo]; exact h.lo_pos, by rw [hhl, hlo]; exact h.hl,
    by rw [hbrk]; exact h.brk_lt, by unfold Bounded; rw [hbrk, hlo]; exact h.bnd, ?_, ?_, ?_,
    by rw [hlo, hbrk]; exact h.contig, h.sized, ?_⟩
  · rw [hlo, key]
    · exact h.pro_h
    · intro b hb; have := h.mem_bounds hb; omega
  · rw [hlo, key]
    · exact h.pro_f
    · intro b hb; have := h.mem_bounds hb; omega
  · rw [hbrk, key]
    · exact h.epi
    · intro b hb; have := h.mem_bounds hb; omega
  · intro c hc
    have hcb := h.mem_bounds hc
    have ht := h.tags c hc
    constructor
    · rw [key]
      · exact ht.1
      · intro b hb
        have hbb := h.mem_bounds hb
        rcases Contig_sep h.contig h.sized hb hc with e | e | e
        · subst e; omega
        · omega
        · omega
    · rw [key]
      · exact ht.2
      · intro b hb
        have hbb := h.mem_bounds hb
        rcases Contig_sep h.contig h.sized hb hc with e | e | e
        · subst e; omega
        · omega
        · omega


/-- Replacing the blocks of a region `[r, e)` of the heap by the blocks `mid`,
when memory outside the tags of that region is untouched. -/
theorem HeapCore.replace {s s' : State} {bs pre mid post : List Blk} {r e : Nat}
    (h : HeapCore s bs) (hpre_sub : ∀ c ∈ pre, c ∈ bs) (hpost_sub : ∀ c ∈ post, c ∈ bs)
    (hpre : Contig (s.mem_lo + 16) pre r) (hmid : Contig r mid e)
    (hpost : Contig e post s.mem_brk)
    (hsz : Sized mid) (htags : Tags s'.mem mid)
    (hfr : ∀ a, a + 4 < r ∨ e ≤ a + 4 → s'.mem a = s.mem a)
    (hlo : s'.mem_lo = s.mem_lo) (hbrk : s'.mem_brk = s.mem_brk)
    (hhl : s'.heap_listp = s.heap_listp) : HeapCore s' (pre ++ mid ++ post) := by
  have hr := Contig_le hpre
  have he := Contig_le hpost
  have hre := Contig_le hmid
  have key : ∀ q, q + 8 ≤ r ∨ e ≤ q + 4 → GET s'.mem q = GET s.mem q := by
    intro q hq
    apply GET_congr
    intro i hi
    apply hfr
    omega
  refine ⟨by rw [hlo]; exact h.lo_al, by rw [hlo]; exact h.lo_pos, by rw [hhl, hlo]; exact h.hl,
    by rw [hbrk]; exact h.brk_lt, by unfold Bounded; rw [hbrk, hlo]; exact h.bnd, ?_, ?_, ?_,
    ?_, ?_, ?_⟩
  · rw [hlo, key _ (by omega)]; exact h.pro_h
  · rw [hlo, key _ (by omega)]; exact h.pro_f
  · rw [hbrk, key _ (by omega)]; exact h.epi
  · rw [hlo, hbrk, Contig_append, ]
    refine ⟨e, ?_, hpost⟩
    rw [Contig_append]
    exact ⟨r, hpre, hmid⟩
  · rw [Sized_append, Sized_append]
    exact ⟨⟨fun c hc => h.sized c (hpre_sub c hc), hsz⟩, fun c hc => h.sized c (hpost_sub c hc)⟩
  · intro c hc
    rcases List.mem_append.1 hc with hc | hc
    · rcases List.mem_append.1 hc with hc | hc
      · have hb := Contig_bounds hpre hc
        have hcb := h.mem_bounds (hpre_sub c hc)
        have ht := h.tags c (hpre_sub c hc)
        rw [key _ (by omega), key _ (by omega)]
        exact ht
      · exact htags c hc
    · have hb := Contig_bounds hpost hc
      have hcb := h.mem_bounds (hpost_sub c hc)
      have ht := h.tags c (hpost_sub c hc)
      rw [key _ (by omega), key _ (by omega)]
      exact ht

/-- The free list is untouched by writes confined to a region it stays clear of. -/
theorem FL_region {m m' : Mem} {fl : List Nat} {h r e : Nat} (hfl : FL m h fl)
    (hfr : ∀ a, a + 4 < r ∨ e ≤ a + 4 → m' a = m a)
    (hout : ∀ y ∈ fl, y + 24 ≤ r ∨ e ≤ y) : FL m' h fl := by
  refine FLseg_congr ?_ hfl
  intro y hy
  have := hout y hy
  constructor
  · apply GETP_congr; intro i hi; apply hfr; omega
  · apply GETP_congr; intro i hi; apply hfr; omega

/-- The members of a list in permutation with the free addresses are block pointers. -/
theorem perm_mem_block {fl : List Nat} {bs : List Blk} (hp : fl.Perm (freeAddrs bs))
    {y : Nat} (hy : y ∈ fl) : ∃ b ∈ bs, b.bp = y ∧ b.alloc = false :=
  mem_freeAddrs.1 (hp.mem_iff.1 hy)

theorem perm_far {a e : Nat} {fl : List Nat} {bs : List Blk} (hp : fl.Perm (freeAddrs bs))
    (hc : Contig a bs e) (hs : Sized bs) : fl.Pairwise Far := by
  rw [List.Perm.pairwise_iff (fun h => Far_symm h) hp]
  exact (freeAddrs_sorted hc hs).imp (fun h => Or.inl h)

theorem far_nodup {l : List Nat} (h : l.Pairwise Far) : l.Nodup :=
  h.imp (fun hxy => by unfold Far at hxy; omega)


/-! ## Reading a tiled heap -/

theorem HeapCore.read {s : State} {bs : List Blk} (h : HeapCore s bs) {b : Blk} (hb : b ∈ bs) :
    GET_SIZE s.mem (HDRP b.bp) = b.size ∧
    GET_ALLOC s.mem (HDRP b.bp) = (if b.alloc then 1 else 0) ∧
    FTRP s.mem b.bp = b.bp + b.size - 8 ∧
    NEXT_BLKP s.mem b.bp = b.bp + b.size ∧
    GET_SIZE s.mem (b.bp + b.size - 8) = b.size ∧
    GET_ALLOC s.mem (b.bp + b.size - 8) = (if b.alloc then 1 else 0) := by
  have ht := h.tags b hb
  have hs := h.sized b hb
  have e1 : GET_SIZE s.mem (HDRP b.bp) = b.size := tag_size ht.1 hs.2
  refine ⟨e1, tag_alloc ht.1 hs.2, ?_, ?_, tag_size ht.2 hs.2, tag_alloc ht.2 hs.2⟩
  · unfold FTRP DSIZE; rw [e1]
  · unfold NEXT_BLKP; rw [e1]

theorem PACK_bool (S : Nat) (al : Bool) (h8 : S % 8 = 0) :
    PACK S (if al then 1 else 0) = S + (if al then 1 else 0) := by
  cases al
  · simp [PACK_zero]
  · simp [PACK_one S h8]

/-! ## Generic steps -/

/-- Unlinking a listed block keeps the tiling and yields the list without it. -/
theorem remove_step {s : State} {bs : List Blk} {fl : List Nat} (y : Nat)
    (hc : HeapCore s bs) (hfl : FL s.mem s.free_listp fl)
    (hsub : ∀ z ∈ fl, ∃ b ∈ bs, b.bp = z) (hfar : fl.Pairwise Far) (hy : y ∈ fl) :
    HeapCore (removefree s y) bs ∧
    FL (removefree s y).mem (removefree s y).free_listp (fl.erase y) ∧
    (∀ a, OutFields (fl.erase y) a → (removefree s y).mem a = s.mem a) ∧
    (removefree s y).mem_lo = s.mem_lo ∧ (removefree s y).mem_brk = s.mem_brk ∧
    (removefree s y).heap_listp = s.heap_listp := by
  obtain ⟨l1, l2, rfl⟩ := List.append_of_mem hy
  have hnd := far_nodup hfar
  have hy1 : y ∉ l1 := by
    intro hmem
    have := (List.nodup_append.1 hnd).2.2
    exact this hmem (List.mem_cons_self _ _) 
  have he : (l1 ++ y :: l2).erase y = l1 ++ l2 := by
    rw [List.erase_append_right _ hy1, List.erase_cons_head]
  have hlt : ∀ z ∈ l1 ++ y :: l2, z < 18446744073709551616 := by
    intro z hz
    obtain ⟨b, hb, rfl⟩ := hsub z hz
    exact (hc.mem_bounds hb).2.2.2.2.2.2
  obtain ⟨h1, h2, h3, h4, h5⟩ := removefree_spec s y l1 l2 hfl hfar hlt
  rw [he]
  refine ⟨?_, h1, h2, h3, h4, h5⟩
  refine hc.frame (l1 ++ l2) ?_ h2 h3 h4 h5
  intro z hz
  apply hsub
  rcases List.mem_append.1 hz with hz | hz
  · exact List.mem_append_left _ hz
  · exact List.mem_append_right _ (List.mem_cons_of_mem _ hz)

/-- Linking a free block that the list lacks completes the heap invariant. -/
theorem finish_add {s : State} {bs : List Blk} {fl : List Nat} (x : Nat)
    (hc : HeapCore s bs) (hfl : FL s.mem s.free_listp fl)
    (hp : (x :: fl).Perm (freeAddrs bs)) :
    HeapInv (addfree s x) bs (x :: fl) ∧ (addfree s x).free_listp = x ∧
    (∀ a, OutFields (x :: fl) a → (addfree s x).mem a = s.mem a) ∧
    (addfree s x).mem_lo = s.mem_lo ∧ (addfree s x).mem_brk = s.mem_brk := by
  have hfar := perm_far hp hc.contig hc.sized
  have hblk : ∀ z ∈ x :: fl, ∃ b ∈ bs, b.bp = z := by
    intro z hz
    obtain ⟨b, hb, h1, _⟩ := perm_mem_block hp hz
    exact ⟨b, hb, h1⟩
  have hlt : ∀ z ∈ x :: fl, z < 18446744073709551616 ∧ z ≠ 0 := by
    intro z hz
    obtain ⟨b, hb, rfl⟩ := hblk z hz
    have := hc.mem_bounds hb
    omega
  have hx := hlt x (List.mem_cons_self _ _)
  obtain ⟨h1, h2, h3, h4, h5, h6⟩ := addfree_spec s x fl hfl hx.2 hx.1 hfar
    (fun z hz => (hlt z (List.mem_cons_of_mem _ hz)).1)
  exact ⟨⟨hc.frame (x :: fl) hblk h2 h3 h4 h5, h1, hp⟩, h6, h2, h3, h4⟩

/-- The address of the footer right after the header was written. -/
theorem FTRP_PUT (m : Mem) (r S : Nat) (al : Bool) (h8 : S % 8 = 0) (hS : S < 4294967295) :
    FTRP (PUT m (HDRP r) (PACK S (if al then 1 else 0))) r = r + S - 8 := by
  unfold FTRP DSIZE
  have : GET (PUT m (HDRP r) (PACK S (if al then 1 else 0))) (HDRP r) = S + (if al then 1 else 0) := by
    rw [GET_PUT_same, PACK_bool S al h8]
    cases al <;> simp <;> omega
  rw [GET_SIZE_of_GET this h8 (by cases al <;> simp)]

/-- Writing header and footer of one block over a region of the heap, for any
memory `m2` that holds the two tags and is otherwise unchanged. -/
theorem retag_aux {s : State} {bs pre post : List Blk} {fl : List Nat} (r S : Nat) (al : Bool)
    (m2 : Mem)
    (hc : HeapCore s bs) (hpre_sub : ∀ c ∈ pre, c ∈ bs) (hpost_sub : ∀ c ∈ post, c ∈ bs)
    (hpre : Contig (s.mem_lo + 16) pre r) (hpost : Contig (r + S) post s.mem_brk)
    (hS : 24 ≤ S) (h8 : S % 8 = 0)
    (hfl : FL s.mem s.free_listp fl) (hout : ∀ y ∈ fl, y + 24 ≤ r ∨ r + S ≤ y)
    (hfr : ∀ a, a + 4 < r ∨ r + S ≤ a + 4 → m2 a = s.mem a)
    (ht1 : GET m2 (r - 4) = S + (if al then 1 else 0))
    (ht2 : GET m2 (r + S - 8) = S + (if al then 1 else 0)) :
    HeapCore { s with mem := m2 } (pre ++ ⟨r, S, al⟩ :: post) ∧ FL m2 s.free_listp fl := by
  constructor
  · have hmid : Contig r [⟨r, S, al⟩] (r + S) := by simp [Contig]
    have hsz : Sized [⟨r, S, al⟩] := by
      intro c hc'
      rw [List.mem_singleton] at hc'
      subst hc'
      exact ⟨hS, h8⟩
    have htg : Tags m2 [⟨r, S, al⟩] := by
      intro c hc'
      rw [List.mem_singleton] at hc'
      subst hc'
      exact ⟨ht1, ht2⟩
    have := @HeapCore.replace s { s with mem := m2 } bs pre [⟨r, S, al⟩] post r (r + S)
      hc hpre_sub hpost_sub hpre hmid hpost hsz htg hfr rfl rfl rfl
    simpa using this
  · exact FL_region hfl hfr hout

/-- Writing header and footer of one block over a region of the heap. -/
theorem retag_step {s : State} {bs pre post : List Blk} {fl : List Nat} (r S : Nat) (al : Bool)
    (hc : HeapCore s bs) (hpre_sub : ∀ c ∈ pre, c ∈ bs) (hpost_sub : ∀ c ∈ post, c ∈ bs)
    (hpre : Contig (s.mem_lo + 16) pre r) (hpost : Contig (r + S) post s.mem_brk)
    (hS : 24 ≤ S) (h8 : S % 8 = 0)
    (hfl : FL s.mem s.free_listp fl) (hout : ∀ y ∈ fl, y + 24 ≤ r ∨ r + S ≤ y)
    (m2 : Mem)
    (hm2 : m2 = PUT (PUT s.mem (HDRP r) (PACK S (if al then 1 else 0))) (r + S - 8)
      (PACK S (if al then 1 else 0))) :
    HeapCore { s with mem := m2 } (pre ++ ⟨r, S, al⟩ :: post) ∧ FL m2 s.free_listp fl := by
  have hr := Contig_le hpre
  have he := Contig_le hpost
  have hb := hc.bnd
  unfold Bounded at hb
  have hS32 : S < 4294967295 := by omega
  have hv : PACK S (if al then 1 else 0) % 4294967296 = S + (if al then 1 else 0) := by
    rw [PACK_bool S al h8]
    cases al <;> simp <;> omega
  refine retag_aux r S al m2 hc hpre_sub hpost_sub hpre hpost hS h8 hfl hout ?_ ?_ ?_
  · intro a ha
    rw [hm2]
    unfold HDRP WSIZE
    rw [PUT_out _ _ _ _ (by omega), PUT_out _ _ _ _ (by omega)]
  · rw [hm2]
    unfold HDRP WSIZE
    rw [GET_PUT_disj _ _ _ _ (by omega), GET_PUT_same, hv]
  · rw [hm2, GET_PUT_same, hv]


/-! ## Coalescing -/

theorem perm_erase_mid {fl A B : List Nat} {y : Nat} (hp : fl.Perm (A ++ y :: B)) :
    (fl.erase y).Perm (A ++ B) := by
  have h1 : (fl.erase y).Perm ((y :: (A ++ B)).erase y) :=
    (hp.trans List.perm_middle).erase y
  rwa [List.erase_cons_head] at h1

/-- A list in permutation with the free addresses of a sublist of the heap's
blocks consists of block pointers that are pairwise far apart. -/
theorem fl_facts {s : State} {bs bs' : List Blk} {fl : List Nat} (hc : HeapCore s bs)
    (hp : fl.Perm (freeAddrs bs')) (hsub : bs'.Sublist bs) :
    (∀ z ∈ fl, ∃ b ∈ bs, b.bp = z) ∧ fl.Pairwise Far := by
  constructor
  · intro z hz
    obtain ⟨b, hb, h1, _⟩ := perm_mem_block hp hz
    exact ⟨b, hsub.subset hb, h1⟩
  · refine (List.Perm.pairwise_iff (fun h => Far_symm h) hp).2 ?_
    have hs' : Sized bs' := fun c hc' => hc.sized c (hsub.subset hc')
    exact (sorted_map_bp hs' ((Contig_sorted hc.contig hc.sized).sublist hsub) _).imp
      (fun h => Or.inl h)

theorem prev_read {s : State} {pre post : List Blk} {c b : Blk}
    (hc : HeapCore s (pre ++ c :: b :: post)) :
    PREV_BLKP s.mem b.bp = c.bp ∧
    GET_ALLOC s.mem (FTRP s.mem (PREV_BLKP s.mem b.bp)) = (if c.alloc then 1 else 0) ∧
    c.bp + c.size = b.bp := by
  have hbc : c ∈ pre ++ c :: b :: post := by simp
  have rc := hc.read hbc
  have bc := hc.mem_bounds hbc
  have hcon := hc.contig
  rw [Contig_mid] at hcon
  have hcb : b.bp = c.bp + c.size := hcon.2.1
  have e1 : PREV_BLKP s.mem b.bp = c.bp := by
    unfold PREV_BLKP DSIZE
    have : b.bp - 8 = c.bp + c.size - 8 := by omega
    rw [this, rc.2.2.2.2.1]
    omega
  refine ⟨e1, ?_, hcb.symm⟩
  rw [e1, rc.2.2.1, rc.2.2.2.2.2]

theorem prev_read_nil {s : State} {post : List Blk} {b : Blk}
    (hc : HeapCore s (b :: post)) :
    GET_ALLOC s.mem (FTRP s.mem (PREV_BLKP s.mem b.bp)) = 1 := by
  have hcon := hc.contig
  have hb : b.bp = s.mem_lo + 16 := hcon.1
  have h1 : GET_SIZE s.mem (s.mem_lo + 8) = 8 :=
    @GET_SIZE_of_GET s.mem (s.mem_lo + 8) 8 1 hc.pro_f (by omega) (by omega)
  have h2 : GET_SIZE s.mem (s.mem_lo + 4) = 8 :=
    @GET_SIZE_of_GET s.mem (s.mem_lo + 4) 8 1 hc.pro_h (by omega) (by omega)
  have e1 : PREV_BLKP s.mem b.bp = s.mem_lo + 8 := by
    unfold PREV_BLKP DSIZE
    have : b.bp - 8 = s.mem_lo + 8 := by omega
    rw [this, h1]; omega
  have e2 : FTRP s.mem (s.mem_lo + 8) = s.mem_lo + 8 := by
    unfold FTRP HDRP WSIZE DSIZE
    have : s.mem_lo + 8 - 4 = s.mem_lo + 4 := by omega
    rw [this, h2]; omega
  rw [e1, e2]
  exact @GET_ALLOC_of_GET s.mem (s.mem_lo + 8) 8 1 hc.pro_f (by omega) (by omega)

theorem next_read {s : State} {pre post : List Blk} {b d : Blk}
    (hc : HeapCore s (pre ++ b :: d :: post)) :
    NEXT_BLKP s.mem b.bp = d.bp ∧
    GET_ALLOC s.mem (HDRP (NEXT_BLKP s.mem b.bp)) = (if d.alloc then 1 else 0) := by
  have hbb : b ∈ pre ++ b :: d :: post := by simp
  have hbd : d ∈ pre ++ b :: d :: post := by simp
  have rb := hc.read hbb
  have rd := hc.read hbd
  have hcon := hc.contig
  rw [Contig_mid] at hcon
  have hdb : d.bp = b.bp + b.size := hcon.2.1
  have e1 : NEXT_BLKP s.mem b.bp = d.bp := by rw [rb.2.2.2.1, hdb]
  exact ⟨e1, by rw [e1, rd.2.1]⟩

theorem next_read_nil {s : State} {pre : List Blk} {b : Blk}
    (hc : HeapCore s (pre ++ [b])) :
    NEXT_BLKP s.mem b.bp = s.mem_brk ∧
    GET_ALLOC s.mem (HDRP (NEXT_BLKP s.mem b.bp)) = 1 := by
  have hbb : b ∈ pre ++ [b] := by simp
  have rb := hc.read hbb
  have hcon := hc.contig
  rw [Contig_snoc] at hcon
  have e1 : NEXT_BLKP s.mem b.bp = s.mem_brk := by rw [rb.2.2.2.1, hcon.2]
  refine ⟨e1, ?_⟩
  rw [e1]
  exact @GET_ALLOC_of_GET s.mem (HDRP s.mem_brk) 0 1 (by unfold HDRP WSIZE; rw [hc.epi]) (by omega)
    (by omega)

theorem coalesce_case1 {s : State} {pre post : List Blk} {x sz : Nat} {fl : List Nat}
    (hc : HeapCore s (pre ++ ⟨x, sz, false⟩ :: post))
    (hfl : FL s.mem s.free_listp fl) (hp : fl.Perm (freeAddrs (pre ++ post)))
    (hpa : GET_ALLOC s.mem (FTRP s.mem (PREV_BLKP s.mem x)) = 1)
    (hna : GET_ALLOC s.mem (HDRP (NEXT_BLKP s.mem x)) = 1) :
    coalesce s x = (addfree s x, x) ∧
    HeapInv (addfree s x) (pre ++ ⟨x, sz, false⟩ :: post) (x :: fl) := by
  constructor
  · unfold coalesce; simp [hpa, hna]
  · have hp' : (x :: fl).Perm (freeAddrs (pre ++ ⟨x, sz, false⟩ :: post)) := by
      rw [freeAddrs_append, freeAddrs_cons_free _ _ rfl]
      rw [freeAddrs_append] at hp
      exact (List.Perm.cons x hp).trans List.perm_middle.symm
    exact (finish_add x hc hfl hp').1

theorem coalesce_case2 {s : State} {pre post : List Blk} {x sz : Nat} {d : Blk} {fl : List Nat}
    (hc : HeapCore s (pre ++ ⟨x, sz, false⟩ :: d :: post))
    (hfl : FL s.mem s.free_listp fl) (hp : fl.Perm (freeAddrs (pre ++ d :: post)))
    (hpa : GET_ALLOC s.mem (FTRP s.mem (PREV_BLKP s.mem x)) = 1)
    (hd : d.alloc = false) :
    (coalesce s x).2 = x ∧
    HeapInv (coalesce s x).1 (pre ++ ⟨x, sz + d.size, false⟩ :: post) (x :: fl.erase d.bp) := by
  have hbx : (⟨x, sz, false⟩ : Blk) ∈ pre ++ ⟨x, sz, false⟩ :: d :: post := by simp
  have hbd : d ∈ pre ++ ⟨x, sz, false⟩ :: d :: post := by simp
  have rx := hc.read hbx
  have rd := hc.read hbd
  have bx := hc.mem_bounds hbx
  have bd := hc.mem_bounds hbd
  simp only at rx bx
  have hcon := hc.contig
  rw [Contig_mid] at hcon
  obtain ⟨hcpre, hcrest⟩ := hcon
  simp only at hcpre hcrest
  have hdx : d.bp = x + sz := hcrest.1
  have hbnd := hc.bnd
  unfold Bounded at hbnd
  have hcpost : Contig (x + (sz + d.size)) post s.mem_brk := by
    have := hcrest.2
    rw [← Nat.add_assoc]
    exact this
  have hN : NEXT_BLKP s.mem x = d.bp := by rw [rx.2.2.2.1, hdx]
  have hna : GET_ALLOC s.mem (HDRP (NEXT_BLKP s.mem x)) = 0 := by
    rw [hN, rd.2.1, hd]; rfl
  obtain ⟨hsub0, hfar0⟩ := fl_facts hc hp
    (List.Sublist.append_left (List.sublist_cons_self _ _) pre)
  have hdfl : d.bp ∈ fl := hp.mem_iff.2 (mem_freeAddrs.2 ⟨d, by simp, rfl, hd⟩)
  obtain ⟨c1, f1, fr1, lo1, brk1, hl1⟩ := remove_step d.bp hc hfl hsub0 hfar0 hdfl
  have hp1 : (fl.erase d.bp).Perm (freeAddrs (pre ++ post)) := by
    rw [freeAddrs_append] at hp ⊢
    rw [freeAddrs_cons_free _ _ hd] at hp
    exact perm_erase_mid hp
  -- retag
  have hout : ∀ y ∈ fl.erase d.bp, y + 24 ≤ x ∨ x + (sz + d.size) ≤ y := by
    intro y hy
    obtain ⟨b, hb, h1, _⟩ := perm_mem_block hp1 hy
    subst h1
    rcases List.mem_append.1 hb with hb | hb
    · have := Contig_bounds hcpre hb
      have := (hc.mem_bounds (List.mem_append_left _ hb)).2.2.1
      left; omega
    · have := Contig_bounds hcpost hb
      right; omega
  have hF : FTRP (PUT (removefree s d.bp).mem (HDRP x) (PACK (sz + d.size) 0)) x =
      x + (sz + d.size) - 8 := FTRP_PUT _ x (sz + d.size) false (by omega) (by omega)
  obtain ⟨c3, f3⟩ := @retag_step (removefree s d.bp) (pre ++ ⟨x, sz, false⟩ :: d :: post) pre
    post (fl.erase d.bp) x (sz + d.size) false c1
    (fun c hc' => List.mem_append_left _ hc')
    (fun c hc' => List.mem_append_right _ (List.mem_cons_of_mem _ (List.mem_cons_of_mem _ hc')))
    (by rw [lo1]; exact hcpre) (by rw [brk1]; exact hcpost) (by omega) (by omega) f1 hout
    (PUT (PUT (removefree s d.bp).mem (HDRP x) (PACK (sz + d.size) 0)) (x + (sz + d.size) - 8)
      (PACK (sz + d.size) 0)) rfl
  have hp3 : (x :: fl.erase d.bp).Perm (freeAddrs (pre ++ ⟨x, sz + d.size, false⟩ :: post)) := by
    rw [freeAddrs_append, freeAddrs_cons_free _ _ rfl]
    rw [freeAddrs_append] at hp1
    exact (List.Perm.cons x hp1).trans List.perm_middle.symm
  have hfin := finish_add x c3 f3 hp3
  have e : coalesce s x = (addfree { removefree s d.bp with
      mem := PUT (PUT (removefree s d.bp).mem (HDRP x) (PACK (sz + d.size) 0))
        (x + (sz + d.size) - 8) (PACK (sz + d.size) 0) } x, x) := by
    unfold coalesce
    have hna' : GET_ALLOC s.mem (HDRP d.bp) = 0 := by rw [← hN]; exact hna
    simp only [hpa, hN, hna', rx.1, rd.1, hF]
    simp
  rw [e]
  exact ⟨rfl, hfin.1⟩

theorem coalesce_case3 {s : State} {pre post : List Blk} {x sz : Nat} {c : Blk} {fl : List Nat}
    (hc : HeapCore s (pre ++ c :: ⟨x, sz, false⟩ :: post))
    (hfl : FL s.mem s.free_listp fl) (hp : fl.Perm (freeAddrs (pre ++ c :: post)))
    (hna : GET_ALLOC s.mem (HDRP (NEXT_BLKP s.mem x)) = 1)
    (hcf : c.alloc = false) :
    (coalesce s x).2 = c.bp ∧
    HeapInv (coalesce s x).1 (pre ++ ⟨c.bp, sz + c.size, false⟩ :: post)
      (c.bp :: fl.erase c.bp) := by
  have hbx : (⟨x, sz, false⟩ : Blk) ∈ pre ++ c :: ⟨x, sz, false⟩ :: post := by simp
  have hbc : c ∈ pre ++ c :: ⟨x, sz, false⟩ :: post := by simp
  have rx := hc.read hbx
  have rc := hc.read hbc
  have bx := hc.mem_bounds hbx
  have bc := hc.mem_bounds hbc
  simp only at rx bx
  have hbnd := hc.bnd
  unfold Bounded at hbnd
  obtain ⟨hP, hpa, hcx⟩ := prev_read hc
  simp only at hP hpa hcx
  rw [hcf] at hpa
  have hcon := hc.contig
  rw [Contig_mid] at hcon
  obtain ⟨hcpre, hcrest⟩ := hcon
  have hcpost : Contig (c.bp + (sz + c.size)) post s.mem_brk := by
    have := hcrest.2
    simp only at this
    have e : c.bp + (sz + c.size) = c.bp + c.size + sz := by omega
    rw [e]; exact this
  obtain ⟨hsub0, hfar0⟩ := fl_facts hc hp
    (List.Sublist.append_left
      (List.Sublist.cons₂ c (List.sublist_cons_self _ _)) pre)
  have hcfl : c.bp ∈ fl := hp.mem_iff.2 (mem_freeAddrs.2 ⟨c, by simp, rfl, hcf⟩)
  obtain ⟨c1, f1, fr1, lo1, brk1, hl1⟩ := remove_step c.bp hc hfl hsub0 hfar0 hcfl
  have hP1 : PREV_BLKP (removefree s c.bp).mem x = c.bp := (prev_read c1).1
  have hp1 : (fl.erase c.bp).Perm (freeAddrs (pre ++ post)) := by
    rw [freeAddrs_append] at hp ⊢
    rw [freeAddrs_cons_free _ _ hcf] at hp
    exact perm_erase_mid hp
  have hout : ∀ y ∈ fl.erase c.bp, y + 24 ≤ c.bp ∨ c.bp + (sz + c.size) ≤ y := by
    intro y hy
    obtain ⟨b, hb, h1, _⟩ := perm_mem_block hp1 hy
    subst h1
    rcases List.mem_append.1 hb with hb | hb
    · have := Contig_bounds hcpre hb
      have := (hc.mem_bounds (List.mem_append_left _ hb)).2.2.1
      left; omega
    · have := Contig_bounds hcpost hb
      right; omega
  have hF : FTRP (PUT (removefree s c.bp).mem (HDRP c.bp) (PACK (sz + c.size) 0)) c.bp =
      c.bp + (sz + c.size) - 8 := FTRP_PUT _ c.bp (sz + c.size) false (by omega) (by omega)
  obtain ⟨c3, f3⟩ := @retag_step (removefree s c.bp) (pre ++ c :: ⟨x, sz, false⟩ :: post) pre
    post (fl.erase c.bp) c.bp (sz + c.size) false c1
    (fun b hb => List.mem_append_left _ hb)
    (fun b hb => List.mem_append_right _ (List.mem_cons_of_mem _ (List.mem_cons_of_mem _ hb)))
    (by rw [lo1]; exact hcpre) (by rw [brk1]; exact hcpost) (by omega) (by omega) f1 hout
    (PUT (PUT (removefree s c.bp).mem (HDRP c.bp) (PACK (sz + c.size) 0))
      (c.bp + (sz + c.size) - 8) (PACK (sz + c.size) 0)) rfl
  have hp3 : (c.bp :: fl.erase c.bp).Perm
      (freeAddrs (pre ++ ⟨c.bp, sz + c.size, false⟩ :: post)) := by
    rw [freeAddrs_append, freeAddrs_cons_free _ _ rfl]
    rw [freeAddrs_append] at hp1
    exact (List.Perm.cons c.bp hp1).trans List.perm_middle.symm
  have hfin := finish_add c.bp c3 f3 hp3
  have e : coalesce s x = (addfree { removefree s c.bp with
      mem := PUT (PUT (removefree s c.bp).mem (HDRP c.bp) (PACK (sz + c.size) 0))
        (c.bp + (sz + c.size) - 8) (PACK (sz + c.size) 0) } c.bp, c.bp) := by
    have hpa' : GET_ALLOC s.mem (FTRP s.mem c.bp) = 0 := by
      rw [← hP]; rw [hpa]; rfl
    unfold coalesce
    simp only [hna, hP, hpa', hP1, rx.1, rc.1, hF]
    simp
  rw [e]
  exact ⟨rfl, hfin.1⟩

theorem coalesce_case4 {s : State} {pre post : List Blk} {x sz : Nat} {c d : Blk}
    {fl : List Nat}
    (hc : HeapCore s (pre ++ c :: ⟨x, sz, false⟩ :: d :: post))
    (hfl : FL s.mem s.free_listp fl) (hp : fl.Perm (freeAddrs (pre ++ c :: d :: post)))
    (hcf : c.alloc = false) (hd : d.alloc = false) :
    (coalesce s x).2 = c.bp ∧
    HeapInv (coalesce s x).1 (pre ++ ⟨c.bp, sz + (c.size + d.size), false⟩ :: post)
      (c.bp :: (fl.erase c.bp).erase d.bp) := by
  have hbx : (⟨x, sz, false⟩ : Blk) ∈ pre ++ c :: ⟨x, sz, false⟩ :: d :: post := by simp
  have hbc : c ∈ pre ++ c :: ⟨x, sz, false⟩ :: d :: post := by simp
  have hbd : d ∈ pre ++ c :: ⟨x, sz, false⟩ :: d :: post := by simp
  have rx := hc.read hbx
  have rc := hc.read hbc
  have rd := hc.read hbd
  have bx := hc.mem_bounds hbx
  have bc := hc.mem_bounds hbc
  have bd := hc.mem_bounds hbd
  simp only at rx bx
  have hbnd := hc.bnd
  unfold Bounded at hbnd
  obtain ⟨hP, hpa, hcx⟩ := prev_read hc
  simp only at hP hpa hcx
  rw [hcf] at hpa
  have hc' : HeapCore s ((pre ++ [c]) ++ ⟨x, sz, false⟩ :: d :: post) := by simpa using hc
  obtain ⟨hN, hna⟩ := next_read hc'
  simp only at hN hna
  rw [hd] at hna
  have hcon := hc.contig
  rw [Contig_mid] at hcon
  obtain ⟨hcpre, hcrest⟩ := hcon
  have hdx : d.bp = x + sz := by
    have := hcrest.2.1
    simp only at this
    omega
  have hcpost : Contig (c.bp + (sz + (c.size + d.size))) post s.mem_brk := by
    have := hcrest.2.2
    simp only at this
    have e : c.bp + (sz + (c.size + d.size)) = c.bp + c.size + sz + d.size := by omega
    rw [e]; exact this
  obtain ⟨hsub0, hfar0⟩ := fl_facts hc hp
    (List.Sublist.append_left
      (List.Sublist.cons₂ c (List.sublist_cons_self _ _)) pre)
  have hcfl : c.bp ∈ fl := hp.mem_iff.2 (mem_freeAddrs.2 ⟨c, by simp, rfl, hcf⟩)
  have hdfl : d.bp ∈ fl := hp.mem_iff.2 (mem_freeAddrs.2 ⟨d, by simp, rfl, hd⟩)
  obtain ⟨c1, f1, fr1, lo1, brk1, hl1⟩ := remove_step c.bp hc hfl hsub0 hfar0 hcfl
  have hP1 : PREV_BLKP (removefree s c.bp).mem x = c.bp := (prev_read c1).1
  have c1' : HeapCore (removefree s c.bp) ((pre ++ [c]) ++ ⟨x, sz, false⟩ :: d :: post) := by
    simpa using c1
  have hN1 : NEXT_BLKP (removefree s c.bp).mem x = d.bp := (next_read c1').1
  have hdfl1 : d.bp ∈ fl.erase c.bp := (List.mem_erase_of_ne (by omega)).2 hdfl
  obtain ⟨c2, f2, fr2, lo2, brk2, hl2⟩ := remove_step d.bp c1 f1
    (fun z hz => hsub0 z (List.mem_of_mem_erase hz))
    (hfar0.sublist (List.erase_sublist _ _)) hdfl1
  have hP2 : PREV_BLKP (removefree (removefree s c.bp) d.bp).mem x = c.bp := (prev_read c2).1
  have hp1 : ((fl.erase c.bp).erase d.bp).Perm (freeAddrs (pre ++ post)) := by
    rw [freeAddrs_append] at hp ⊢
    rw [freeAddrs_cons_free _ _ hcf, freeAddrs_cons_free _ _ hd] at hp
    have h1 := perm_erase_mid hp
    exact @perm_erase_mid (fl.erase c.bp) (freeAddrs pre) (freeAddrs post) d.bp h1
  have hout : ∀ y ∈ (fl.erase c.bp).erase d.bp,
      y + 24 ≤ c.bp ∨ c.bp + (sz + (c.size + d.size)) ≤ y := by
    intro y hy
    obtain ⟨b, hb, h1, _⟩ := perm_mem_block hp1 hy
    subst h1
    rcases List.mem_append.1 hb with hb | hb
    · have := Contig_bounds hcpre hb
      have := (hc.mem_bounds (List.mem_append_left _ hb)).2.2.1
      left; omega
    · have := Contig_bounds hcpost hb
      right; omega
  have hsize : sz + (c.size + d.size) % 4294967296 = sz + (c.size + d.size) := by omega
  have hF : FTRP (PUT (removefree (removefree s c.bp) d.bp).mem (HDRP c.bp)
      (PACK (sz + (c.size + d.size)) 0)) c.bp = c.bp + (sz + (c.size + d.size)) - 8 :=
    FTRP_PUT _ c.bp (sz + (c.size + d.size)) false (by omega) (by omega)
  obtain ⟨c3, f3⟩ := @retag_step (removefree (removefree s c.bp) d.bp)
    (pre ++ c :: ⟨x, sz, false⟩ :: d :: post) pre
    post ((fl.erase c.bp).erase d.bp) c.bp (sz + (c.size + d.size)) false c2
    (fun b hb => List.mem_append_left _ hb)
    (fun b hb => List.mem_append_right _ (List.mem_cons_of_mem _ (List.mem_cons_of_mem _
      (List.mem_cons_of_mem _ hb))))
    (by rw [lo2, lo1]; exact hcpre) (by rw [brk2, brk1]; exact hcpost) (by omega) (by omega)
    f2 hout
    (PUT (PUT (removefree (removefree s c.bp) d.bp).mem (HDRP c.bp)
      (PACK (sz + (c.size + d.size)) 0))
      (c.bp + (sz + (c.size + d.size)) - 8) (PACK (sz + (c.size + d.size)) 0)) rfl
  have hp3 : (c.bp :: (fl.erase c.bp).erase d.bp).Perm
      (freeAddrs (pre ++ ⟨c.bp, sz + (c.size + d.size), false⟩ :: post)) := by
    rw [freeAddrs_append, freeAddrs_cons_free _ _ rfl]
    rw [freeAddrs_append] at hp1
    exact (List.Perm.cons c.bp hp1).trans List.perm_middle.symm
  have hfin := finish_add c.bp c3 f3 hp3
  have e : coalesce s x = (addfree { removefree (removefree s c.bp) d.bp with
      mem := PUT (PUT (removefree (removefree s c.bp) d.bp).mem (HDRP c.bp)
        (PACK (sz + (c.size + d.size)) 0))
        (c.bp + (sz + (c.size + d.size)) - 8) (PACK (sz + (c.size + d.size)) 0) } c.bp,
        c.bp) := by
    have hpa' : GET_ALLOC s.mem (FTRP s.mem c.bp) = 0 := by
      rw [← hP]; rw [hpa]; rfl
    have hna' : GET_ALLOC s.mem (HDRP d.bp) = 0 := by
      rw [← hN]; rw [hna]; rfl
    unfold coalesce
    simp only [hP, hN, hpa', hna', hN1, hP2, rx.1, rc.1, rd.1, hsize, hF]
    simp
  rw [e]
  exact ⟨rfl, hfin.1⟩


/-! ## Placement -/

theorem place_split (s : State) (bp asize : Nat)
    (h : (GET_SIZE s.mem (HDRP bp) + 18446744073709551616 - asize % 18446744073709551616)
      % 18446744073709551616 ≥ MIN_BLOCK_SIZE) :
    place s bp asize =
      place_link (place_tags s bp asize
        ((GET_SIZE s.mem (HDRP bp) + 18446744073709551616 - asize % 18446744073709551616)
          % 18446744073709551616)) bp (PREV_FREEP s.mem bp) (NEXT_FREEP s.mem bp) := by
  unfold place
  rw [if_pos h]
  rfl

theorem place_nosplit (s : State) (bp asize : Nat)
    (h : ¬ (GET_SIZE s.mem (HDRP bp) + 18446744073709551616 - asize % 18446744073709551616)
      % 18446744073709551616 ≥ MIN_BLOCK_SIZE) :
    place s bp asize =
      { removefree s bp with
        mem := PUT (PUT (removefree s bp).mem (HDRP bp) (PACK (GET_SIZE s.mem (HDRP bp)) 1))
          (FTRP (PUT (removefree s bp).mem (HDRP bp) (PACK (GET_SIZE s.mem (HDRP bp)) 1)) bp)
          (PACK (GET_SIZE s.mem (HDRP bp)) 1) } := by
  unfold place
  rw [if_neg h]

theorem NEXT_BLKP_congr {m m' : Mem} {bp : Nat} (h : GET m' (bp - 4) = GET m (bp - 4)) :
    NEXT_BLKP m' bp = NEXT_BLKP m bp := by
  unfold NEXT_BLKP GET_SIZE HDRP WSIZE; rw [h]

theorem NEXT_BLKP_of_GET {m : Mem} {bp sz a : Nat} (h : GET m (bp - 4) = sz + a)
    (h8 : sz % 8 = 0) (ha : a < 8) : NEXT_BLKP m bp = bp + sz := by
  unfold NEXT_BLKP
  rw [@GET_SIZE_of_GET m (HDRP bp) sz a h h8 ha]

theorem FTRP_of_GET {m : Mem} {bp sz a : Nat} (h : GET m (bp - 4) = sz + a)
    (h8 : sz % 8 = 0) (ha : a < 8) : FTRP m bp = bp + sz - 8 := by
  unfold FTRP DSIZE
  rw [@GET_SIZE_of_GET m (HDRP bp) sz a h h8 ha]

/-- The memory after the four tag writes of a split. -/
theorem place_tags_eq (s : State) (bp asize sp : Nat) (h24 : 24 ≤ asize) (h8 : asize % 8 = 0)
    (hsp8 : sp % 8 = 0) (hlt : asize + sp < 4294967296) (hbp : 4 ≤ bp) :
    place_tags s bp asize sp =
      { s with mem := PUT (PUT (PUT (PUT s.mem (bp - 4) (asize + 1)) (bp + asize - 8) (asize + 1))
          (bp + asize - 4) sp) (bp + asize + sp - 8) sp } := by
  have hP1 : PACK asize 1 = asize + 1 := PACK_one asize h8
  have hP0 : PACK sp 0 = sp := PACK_zero sp
  have g1 : GET (PUT s.mem (bp - 4) (asize + 1)) (bp - 4) = asize + 1 := by
    rw [GET_PUT_same]; omega
  have f1 : FTRP (PUT s.mem (bp - 4) (asize + 1)) bp = bp + asize - 8 :=
    FTRP_of_GET g1 h8 (by omega)
  have g2 : GET (PUT (PUT s.mem (bp - 4) (asize + 1)) (bp + asize - 8) (asize + 1)) (bp - 4)
      = asize + 1 := by
    rw [GET_PUT_disj _ _ _ _ (by omega)]; exact g1
  have n2 := NEXT_BLKP_of_GET g2 h8 (by omega)
  have g3 : GET (PUT (PUT (PUT s.mem (bp - 4) (asize + 1)) (bp + asize - 8) (asize + 1))
      (bp + asize - 4) sp) (bp - 4) = asize + 1 := by
    rw [GET_PUT_disj _ _ _ _ (by omega)]; exact g2
  have n3 := NEXT_BLKP_of_GET g3 h8 (by omega)
  have g3' : GET (PUT (PUT (PUT s.mem (bp - 4) (asize + 1)) (bp + asize - 8) (asize + 1))
      (bp + asize - 4) sp) (bp + asize - 4) = sp + 0 := by
    rw [GET_PUT_same]; omega
  have f3 : FTRP (PUT (PUT (PUT s.mem (bp - 4) (asize + 1)) (bp + asize - 8) (asize + 1))
      (bp + asize - 4) sp) (bp + asize) = bp + asize + sp - 8 :=
    FTRP_of_GET g3' hsp8 (by omega)
  unfold place_tags
  simp only [hP1, hP0, HDRP, WSIZE, f1, n2, n3, f3]


theorem place_link_spec (s4 : State) (bp asize : Nat) (l1 l2 : List Nat)
    (hG : GET s4.mem (bp - 4) = asize + 1) (h8 : asize % 8 = 0) (h24 : 24 ≤ asize)
    (hbp : 4 ≤ bp)
    (hfl : FL s4.mem s4.free_listp (l1 ++ bp :: l2))
    (hfar : (l1 ++ (bp + asize) :: l2).Pairwise Far)
    (hfarb : ∀ y ∈ l1 ++ l2, Far y bp)
    (hlt : ∀ y ∈ l1 ++ (bp + asize) :: l2, y < 18446744073709551616) :
    FL (place_link s4 bp (PREV_FREEP s4.mem bp) (NEXT_FREEP s4.mem bp)).mem
       (place_link s4 bp (PREV_FREEP s4.mem bp) (NEXT_FREEP s4.mem bp)).free_listp
       (l1 ++ (bp + asize) :: l2) ∧
    (∀ a, OutFields (l1 ++ (bp + asize) :: l2) a →
      (place_link s4 bp (PREV_FREEP s4.mem bp) (NEXT_FREEP s4.mem bp)).mem a = s4.mem a) ∧
    (place_link s4 bp (PREV_FREEP s4.mem bp) (NEXT_FREEP s4.mem bp)).mem_lo = s4.mem_lo ∧
    (place_link s4 bp (PREV_FREEP s4.mem bp) (NEXT_FREEP s4.mem bp)).mem_brk = s4.mem_brk ∧
    (place_link s4 bp (PREV_FREEP s4.mem bp) (NEXT_FREEP s4.mem bp)).heap_listp
      = s4.heap_listp := by
  have hne := FLseg_ne_zero hfl
  have hfl' := hfl
  unfold FL at hfl'
  rw [FLseg_mid] at hfl'
  obtain ⟨hA, hx0, hprev, hB⟩ := hfl'
  have hnext : NEXT_FREEP s4.mem bp = l2.headD 0 := FLseg_head hB
  have hrlt := hlt (bp + asize) (by simp)
  have hr0 : bp + asize ≠ 0 := by omega
  -- the next block pointer is stable under pointer writes away from the header
  have hN : ∀ m', GET m' (bp - 4) = GET s4.mem (bp - 4) → NEXT_BLKP m' bp = bp + asize := by
    intro m' hm
    exact NEXT_BLKP_of_GET (hm.trans hG) h8 (by omega)
  have hN0 := hN s4.mem rfl
  rcases List.eq_nil_or_concat l1 with rfl | ⟨L, c, hL⟩
  · simp only [List.getLastD_nil] at hprev
    cases l2 with
    | nil =>
      simp only [List.headD_nil] at hnext
      have e : place_link s4 bp (PREV_FREEP s4.mem bp) (NEXT_FREEP s4.mem bp) =
          { s4 with free_listp := bp + asize,
                    mem := PUTP (PUTP s4.mem (bp + asize) 0) (bp + asize + 8) 0 } := by
        have n1 := hN (PUTP s4.mem (bp + asize) 0) (GET_PUTP_disj _ _ _ _ (by omega))
        rw [hprev, hnext]
        unfold place_link
        simp only [and_self, if_true, hN0, n1, DSIZE]
      rw [e]
      refine ⟨⟨rfl, hr0, ?_, ?_⟩, ?_, rfl, rfl, rfl⟩
      · show GETP (PUTP (PUTP s4.mem (bp + asize) 0) (bp + asize + 8) 0) (bp + asize + 8) = 0
        exact GETP_PUTP_same _ _ _ (by omega)
      · show GETP (PUTP (PUTP s4.mem (bp + asize) 0) (bp + asize + 8) 0) (bp + asize) = 0
        rw [GETP_PUTP_disj _ _ _ _ (by omega), GETP_PUTP_same _ _ _ (by omega)]
      · intro a ha
        have := ha (bp + asize) (by simp)
        show PUTP (PUTP s4.mem (bp + asize) 0) (bp + asize + 8) 0 a = s4.mem a
        rw [PUTP_out _ _ _ _ (by omega), PUTP_out _ _ _ _ (by omega)]
    | cons d l2' =>
      simp only [List.headD_cons] at hnext
      have hd0 : d ≠ 0 := hne d (by simp)
      have hdlt := hlt d (by simp)
      have hdb : Far d bp := hfarb d (by simp)
      have hdr : Far d (bp + asize) := far_mid [] (bp + asize) (d :: l2') hfar rfl d (by simp)
      have hl2d : ∀ y ∈ l2', Far y d := fun y hy =>
        far_mid [bp + asize] d l2' hfar rfl y (by simp [hy])
      have hl2r : ∀ y ∈ l2', Far y (bp + asize) := fun y hy =>
        far_mid [] (bp + asize) (d :: l2') hfar rfl y (by simp [hy])
      unfold Far at hdb hdr
      have e : place_link s4 bp (PREV_FREEP s4.mem bp) (NEXT_FREEP s4.mem bp) =
          { s4 with free_listp := bp + asize,
                    mem := PUTP (PUTP (PUTP s4.mem (bp + asize + 8) 0) (d + 8) (bp + asize))
                      (bp + asize) d } := by
        have n1 := hN (PUTP s4.mem (bp + asize + 8) 0) (GET_PUTP_disj _ _ _ _ (by omega))
        have n2 := hN (PUTP (PUTP s4.mem (bp + asize + 8) 0) (d + 8) (bp + asize))
          (by rw [GET_PUTP_disj _ _ _ _ (by omega), GET_PUTP_disj _ _ _ _ (by omega)])
        rw [hprev, hnext]
        unfold place_link
        simp only [hd0, false_and, if_false, if_true, ne_eq, not_true_eq_false,
          not_false_eq_true, hN0, n1, n2, DSIZE]
      rw [e]
      refine ⟨⟨rfl, hr0, ?_, ?_⟩, ?_, rfl, rfl, rfl⟩
      · show GETP (PUTP (PUTP (PUTP s4.mem (bp + asize + 8) 0) (d + 8) (bp + asize))
          (bp + asize) d) (bp + asize + 8) = 0
        rw [GETP_PUTP_disj _ _ _ _ (by omega), GETP_PUTP_disj _ _ _ _ (by omega),
          GETP_PUTP_same _ _ _ (by omega)]
      · show FLseg (PUTP (PUTP (PUTP s4.mem (bp + asize + 8) 0) (d + 8) (bp + asize))
          (bp + asize) d) (GETP (PUTP (PUTP (PUTP s4.mem (bp + asize + 8) 0) (d + 8)
            (bp + asize)) (bp + asize) d) (bp + asize)) (bp + asize) (d :: l2') 0
        rw [GETP_PUTP_same _ _ _ hdlt]
        rw [hnext] at hB
        refine FLseg_reprev hB ?_ ?_ ?_
        · intro y hy
          have h1 := hl2d y hy
          have h2 := hl2r y hy
          unfold Far at h1 h2
          constructor
          · rw [GETP_PUTP_disj _ _ _ _ (by omega), GETP_PUTP_disj _ _ _ _ (by omega),
              GETP_PUTP_disj _ _ _ _ (by omega)]
          · rw [GETP_PUTP_disj _ _ _ _ (by omega), GETP_PUTP_disj _ _ _ _ (by omega),
              GETP_PUTP_disj _ _ _ _ (by omega)]
        · rw [GETP_PUTP_disj _ _ _ _ (by omega), GETP_PUTP_disj _ _ _ _ (by omega),
            GETP_PUTP_disj _ _ _ _ (by omega)]
        · rw [GETP_PUTP_disj _ _ _ _ (by omega), GETP_PUTP_same _ _ _ hrlt]
      · intro a ha
        have h1 := ha (bp + asize) (by simp)
        have h2 := ha d (by simp)
        show PUTP (PUTP (PUTP s4.mem (bp + asize + 8) 0) (d + 8) (bp + asize))
          (bp + asize) d a = s4.mem a
        rw [PUTP_out _ _ _ _ (by omega), PUTP_out _ _ _ _ (by omega),
          PUTP_out _ _ _ _ (by omega)]
  · rw [List.concat_eq_append] at hL
    subst hL
    simp only [List.getLastD_concat] at hprev
    have hc0 : c ≠ 0 := hne c (by simp)
    have hclt := hlt c (by simp)
    have hcb : Far c bp := hfarb c (by simp)
    have hcr : Far c (bp + asize) := far_mid (L ++ [c]) (bp + asize) l2 hfar rfl c (by simp)
    have hLc : ∀ y ∈ L, Far y c := fun y hy =>
      far_mid L c ((bp + asize) :: l2) hfar (by simp) y (by simp [hy])
    have hLr : ∀ y ∈ L, Far y (bp + asize) := fun y hy =>
      far_mid (L ++ [c]) (bp + asize) l2 hfar rfl y (by simp [hy])
    unfold Far at hcb hcr
    have n1 := hN (PUTP s4.mem c (bp + asize)) (GET_PUTP_disj _ _ _ _ (by omega))
    have n2 := hN (PUTP (PUTP s4.mem c (bp + asize)) (bp + asize + 8) c)
      (by rw [GET_PUTP_disj _ _ _ _ (by omega), GET_PUTP_disj _ _ _ _ (by omega)])
    cases l2 with
    | nil =>
      simp only [List.headD_nil] at hnext
      have e : place_link s4 bp (PREV_FREEP s4.mem bp) (NEXT_FREEP s4.mem bp) =
          { s4 with
            mem := (PUTP (PUTP (PUTP s4.mem c (bp + asize)) (bp + asize + 8) c)
              (bp + asize) 0) } := by
        rw [hprev, hnext]
        unfold place_link
        simp only [hc0, and_false, if_false, if_true, ne_eq, not_true_eq_false,
          not_false_eq_true, hN0, n1, n2, DSIZE]
      rw [e]
      refine ⟨?_, ?_, rfl, rfl, rfl⟩
      · show FLseg (PUTP (PUTP (PUTP s4.mem c (bp + asize)) (bp + asize + 8) c)
          (bp + asize) 0) s4.free_listp 0 (L ++ [c] ++ [bp + asize]) 0
        rw [FLseg_mid]
        refine ⟨?_, hr0, ?_, ?_⟩
        · refine FLseg_redirect hA ?_ ?_ ?_
          · intro y hy
            have h1 := hLc y hy
            have h2 := hLr y hy
            unfold Far at h1 h2
            constructor
            · rw [GETP_PUTP_disj _ _ _ _ (by omega), GETP_PUTP_disj _ _ _ _ (by omega),
                GETP_PUTP_disj _ _ _ _ (by omega)]
            · rw [GETP_PUTP_disj _ _ _ _ (by omega), GETP_PUTP_disj _ _ _ _ (by omega),
                GETP_PUTP_disj _ _ _ _ (by omega)]
          · rw [GETP_PUTP_disj _ _ _ _ (by omega), GETP_PUTP_disj _ _ _ _ (by omega),
              GETP_PUTP_disj _ _ _ _ (by omega)]
          · rw [GETP_PUTP_disj _ _ _ _ (by omega), GETP_PUTP_disj _ _ _ _ (by omega),
              GETP_PUTP_same _ _ _ hrlt]
        · rw [List.getLastD_concat]
          show GETP _ (bp + asize + 8) = c
          rw [GETP_PUTP_disj _ _ _ _ (by omega), GETP_PUTP_same _ _ _ hclt]
        · show FLseg _ (GETP _ (bp + asize)) (bp + asize) [] 0
          rw [GETP_PUTP_same _ _ _ (by omega)]
          rfl
      · intro a ha
        have h1 := ha (bp + asize) (by simp)
        have h2 := ha c (by simp)
        show PUTP (PUTP (PUTP s4.mem c (bp + asize)) (bp + asize + 8) c)
          (bp + asize) 0 a = s4.mem a
        rw [PUTP_out _ _ _ _ (by omega), PUTP_out _ _ _ _ (by omega),
          PUTP_out _ _ _ _ (by omega)]
    | cons d l2' =>
      simp only [List.headD_cons] at hnext
      have hd0 : d ≠ 0 := hne d (by simp)
      have hdlt := hlt d (by simp)
      have hdb : Far d bp := hfarb d (by simp)
      have hdr : Far d (bp + asize) :=
        far_mid (L ++ [c]) (bp + asize) (d :: l2') hfar rfl d (by simp)
      have hcd : Far c d :=
        far_mid (L ++ [c] ++ [bp + asize]) d l2' hfar (by simp) c (by simp)
      have hLd : ∀ y ∈ L, Far y d := fun y hy =>
        far_mid (L ++ [c] ++ [bp + asize]) d l2' hfar (by simp) y (by simp [hy])
      have hl2d : ∀ y ∈ l2', Far y d := fun y hy =>
        far_mid (L ++ [c] ++ [bp + asize]) d l2' hfar (by simp) y (by simp [hy])
      have hl2r : ∀ y ∈ l2', Far y (bp + asize) := fun y hy =>
        far_mid (L ++ [c]) (bp + asize) (d :: l2') hfar rfl y (by simp [hy])
      have hl2c : ∀ y ∈ l2', Far y c := fun y hy =>
        far_mid L c ((bp + asize) :: d :: l2') hfar (by simp) y (by simp [hy])
      unfold Far at hdb hdr hcd
      have n3 := hN (PUTP (PUTP (PUTP s4.mem c (bp + asize)) (bp + asize + 8) c) (d + 8)
        (bp + asize))
        (by rw [GET_PUTP_disj _ _ _ _ (by omega), GET_PUTP_disj _ _ _ _ (by omega),
              GET_PUTP_disj _ _ _ _ (by omega)])
      have e : place_link s4 bp (PREV_FREEP s4.mem bp) (NEXT_FREEP s4.mem bp) =
          { s4 with
            mem := (PUTP (PUTP (PUTP (PUTP s4.mem c (bp + asize)) (bp + asize + 8) c)
              (d + 8) (bp + asize)) (bp + asize) d) } := by
        rw [hprev, hnext]
        unfold place_link
        simp only [hc0, hd0, and_false, false_and, if_false, if_true, ne_eq,
          not_true_eq_false, not_false_eq_true, hN0, n1, n2, n3, DSIZE]
      rw [e]
      refine ⟨?_, ?_, rfl, rfl, rfl⟩
      · show FLseg (PUTP (PUTP (PUTP (PUTP s4.mem c (bp + asize)) (bp + asize + 8) c)
          (d + 8) (bp + asize)) (bp + asize) d) s4.free_listp 0
          (L ++ [c] ++ (bp + asize) :: d :: l2') 0
        rw [FLseg_mid]
        refine ⟨?_, hr0, ?_, ?_⟩
        · refine FLseg_redirect hA ?_ ?_ ?_
          · intro y hy
            have h1 := hLc y hy
            have h2 := hLr y hy
            have h3 := hLd y hy
            unfold Far at h1 h2 h3
            constructor
            · rw [GETP_PUTP_disj _ _ _ _ (by omega), GETP_PUTP_disj _ _ _ _ (by omega),
                GETP_PUTP_disj _ _ _ _ (by omega), GETP_PUTP_disj _ _ _ _ (by omega)]
            · rw [GETP_PUTP_disj _ _ _ _ (by omega), GETP_PUTP_disj _ _ _ _ (by omega),
                GETP_PUTP_disj _ _ _ _ (by omega), GETP_PUTP_disj _ _ _ _ (by omega)]
          · rw [GETP_PUTP_disj _ _ _ _ (by omega), GETP_PUTP_disj _ _ _ _ (by omega),
              GETP_PUTP_disj _ _ _ _ (by omega), GETP_PUTP_disj _ _ _ _ (by omega)]
          · rw [GETP_PUTP_disj _ _ _ _ (by omega), GETP_PUTP_disj _ _ _ _ (by omega),
              GETP_PUTP_disj _ _ _ _ (by omega), GETP_PUTP_same _ _ _ hrlt]
        · rw [List.getLastD_concat]
          show GETP _ (bp + asize + 8) = c
          rw [GETP_PUTP_disj _ _ _ _ (by omega), GETP_PUTP_disj _ _ _ _ (by omega),
            GETP_PUTP_same _ _ _ hclt]
        · show FLseg _ (GETP _ (bp + asize)) (bp + asize) (d :: l2') 0
          rw [GETP_PUTP_same _ _ _ hdlt]
          rw [hnext] at hB
          refine FLseg_reprev hB ?_ ?_ ?_
          · intro y hy
            have h1 := hl2d y hy
            have h2 := hl2r y hy
            have h3 := hl2c y hy
            unfold Far at h1 h2 h3
            constructor
            · rw [GETP_PUTP_disj _ _ _ _ (by omega), GETP_PUTP_disj _ _ _ _ (by omega),
                GETP_PUTP_disj _ _ _ _ (by omega), GETP_PUTP_disj _ _ _ _ (by omega)]
            · rw [GETP_PUTP_disj _ _ _ _ (by omega), GETP_PUTP_disj _ _ _ _ (by omega),
                GETP_PUTP_disj _ _ _ _ (by omega), GETP_PUTP_disj _ _ _ _ (by omega)]
          · rw [GETP_PUTP_disj _ _ _ _ (by omega), GETP_PUTP_disj _ _ _ _ (by omega),
              GETP_PUTP_disj _ _ _ _ (by omega), GETP_PUTP_disj _ _ _ _ (by omega)]
          · rw [GETP_PUTP_disj _ _ _ _ (by omega), GETP_PUTP_same _ _ _ hrlt]
      · intro a ha
        have h1 := ha (bp + asize) (by simp)
        have h2 := ha c (by simp)
        have h3 := ha d (by simp)
        show PUTP (PUTP (PUTP (PUTP s4.mem c (bp + asize)) (bp + asize + 8) c)
          (d + 8) (bp + asize)) (bp + asize) d a = s4.mem a
        rw [PUTP_out _ _ _ _ (by omega), PUTP_out _ _ _ _ (by omega),
          PUTP_out _ _ _ _ (by omega), PUTP_out _ _ _ _ (by omega)]


theorem perm_replace_mid {l1 l2 A B : List Nat} {x y : Nat}
    (hp : (l1 ++ x :: l2).Perm (A ++ x :: B)) : (l1 ++ y :: l2).Perm (A ++ y :: B) := by
  have h1 : (x :: (l1 ++ l2)).Perm (x :: (A ++ B)) :=
    (List.perm_middle.symm.trans hp).trans List.perm_middle
  have h2 : (l1 ++ l2).Perm (A ++ B) := h1.cons_inv
  exact (List.perm_middle.trans (List.Perm.cons y h2)).trans List.perm_middle.symm

theorem split_size_eq (T asize : Nat) (h : asize ≤ T) (hT : T < 4294967296) :
    (T + 18446744073709551616 - asize % 18446744073709551616) % 18446744073709551616
      = T - asize := by
  omega

/-- `place` on a listed free block that is large enough to be split. -/
theorem place_spec_split {s : State} {pre post : List Blk} {fl : List Nat} {bp T asize : Nat}
    (hc : HeapCore s (pre ++ ⟨bp, T, false⟩ :: post))
    (hfl : FL s.mem s.free_listp fl)
    (hp : fl.Perm (freeAddrs (pre ++ ⟨bp, T, false⟩ :: post)))
    (h24 : 24 ≤ asize) (h8 : asize % 8 = 0) (hle : asize + 24 ≤ T) :
    ∃ l1 l2, fl = l1 ++ bp :: l2 ∧
      HeapInv (place s bp asize)
        (pre ++ ⟨bp, asize, true⟩ :: ⟨bp + asize, T - asize, false⟩ :: post)
        (l1 ++ (bp + asize) :: l2) ∧
      (∀ a, (a + 4 < bp ∨ bp + T ≤ a + 4) → OutFields (l1 ++ l2) a →
        (place s bp asize).mem a = s.mem a) ∧
      (∀ a, bp ≤ a → a + 8 < bp + asize → (place s bp asize).mem a = s.mem a) ∧
      (place s bp asize).mem_brk = s.mem_brk ∧ (place s bp asize).mem_lo = s.mem_lo := by
  have hb : (⟨bp, T, false⟩ : Blk) ∈ pre ++ ⟨bp, T, false⟩ :: post := by simp
  have rb := hc.read hb
  have bb := hc.mem_bounds hb
  simp only at rb bb
  have hbnd := hc.bnd
  unfold Bounded at hbnd
  have hcon := hc.contig
  rw [Contig_mid] at hcon
  obtain ⟨hcpre, hcpost⟩ := hcon
  simp only at hcpre hcpost
  have hss := split_size_eq T asize (by omega) (by omega)
  have hsplit : (GET_SIZE s.mem (HDRP bp) + 18446744073709551616
      - asize % 18446744073709551616) % 18446744073709551616 ≥ MIN_BLOCK_SIZE := by
    rw [rb.1, hss]; unfold MIN_BLOCK_SIZE; omega
  have e1 := place_split s bp asize hsplit
  rw [rb.1, hss] at e1
  have e2 := place_tags_eq s bp asize (T - asize) h24 h8 (by omega) (by omega) (by omega)
  have hge : bp + asize + (T - asize) - 8 = bp + T - 8 := by omega
  rw [hge] at e2
  -- the free list
  have hbfl : bp ∈ fl := hp.mem_iff.2 (mem_freeAddrs.2 ⟨_, hb, rfl, rfl⟩)
  obtain ⟨l1, l2, rfl⟩ := List.append_of_mem hbfl
  refine ⟨l1, l2, rfl, ?_⟩
  obtain ⟨hsub0, hfar0⟩ := fl_facts hc hp (List.Sublist.refl _)
  -- memory after the tag writes
  have hfr : ∀ a, (a + 4 < bp ∨ bp + T ≤ a + 4 ∨ (bp ≤ a ∧ a + 8 < bp + asize)) →
      (place_tags s bp asize (T - asize)).mem a = s.mem a := by
    intro a ha
    rw [e2]
    show PUT (PUT (PUT (PUT s.mem (bp - 4) (asize + 1)) (bp + asize - 8) (asize + 1))
          (bp + asize - 4) (T - asize)) (bp + T - 8) (T - asize) a = s.mem a
    rw [PUT_out _ _ _ _ (by omega), PUT_out _ _ _ _ (by omega), PUT_out _ _ _ _ (by omega),
      PUT_out _ _ _ _ (by omega)]
  have hg : ∀ q, q + 4 ≤ bp + asize - 8 ∨ bp + asize ≤ q →
      q + 4 ≤ bp + T - 8 ∨ bp + T - 4 ≤ q → q + 4 ≤ bp - 4 ∨ bp ≤ q →
      q + 4 ≤ bp + asize - 4 ∨ bp + asize ≤ q →
      GET (place_tags s bp asize (T - asize)).mem q = GET s.mem q := by
    intro q h1 h2 h3 h4
    rw [e2]
    show GET (PUT (PUT (PUT (PUT s.mem (bp - 4) (asize + 1)) (bp + asize - 8) (asize + 1))
          (bp + asize - 4) (T - asize)) (bp + T - 8) (T - asize)) q = GET s.mem q
    rw [GET_PUT_disj _ _ _ _ (by omega), GET_PUT_disj _ _ _ _ (by omega),
      GET_PUT_disj _ _ _ _ (by omega), GET_PUT_disj _ _ _ _ (by omega)]
  have hG1 : GET (place_tags s bp asize (T - asize)).mem (bp - 4) = asize + 1 := by
    rw [e2]
    show GET (PUT (PUT (PUT (PUT s.mem (bp - 4) (asize + 1)) (bp + asize - 8) (asize + 1))
          (bp + asize - 4) (T - asize)) (bp + T - 8) (T - asize)) (bp - 4) = asize + 1
    rw [GET_PUT_disj _ _ _ _ (by omega), GET_PUT_disj _ _ _ _ (by omega),
      GET_PUT_disj _ _ _ _ (by omega), GET_PUT_same]
    omega
  have hG2 : GET (place_tags s bp asize (T - asize)).mem (bp + asize - 8) = asize + 1 := by
    rw [e2]
    show GET (PUT (PUT (PUT (PUT s.mem (bp - 4) (asize + 1)) (bp + asize - 8) (asize + 1))
          (bp + asize - 4) (T - asize)) (bp + T - 8) (T - asize)) (bp + asize - 8) = asize + 1
    rw [GET_PUT_disj _ _ _ _ (by omega), GET_PUT_disj _ _ _ _ (by omega), GET_PUT_same]
    omega
  have hG3 : GET (place_tags s bp asize (T - asize)).mem (bp + asize - 4) = T - asize := by
    rw [e2]
    show GET (PUT (PUT (PUT (PUT s.mem (bp - 4) (asize + 1)) (bp + asize - 8) (asize + 1))
          (bp + asize - 4) (T - asize)) (bp + T - 8) (T - asize)) (bp + asize - 4) = T - asize
    rw [GET_PUT_disj _ _ _ _ (by omega), GET_PUT_same]
    omega
  have hG4 : GET (place_tags s bp asize (T - asize)).mem (bp + T - 8) = T - asize := by
    rw [e2]
    show GET (PUT (PUT (PUT (PUT s.mem (bp - 4) (asize + 1)) (bp + asize - 8) (asize + 1))
          (bp + asize - 4) (T - asize)) (bp + T - 8) (T - asize)) (bp + T - 8) = T - asize
    rw [GET_PUT_same]
    omega
  have hlo4 : (place_tags s bp asize (T - asize)).mem_lo = s.mem_lo := by rw [e2]
  have hbrk4 : (place_tags s bp asize (T - asize)).mem_brk = s.mem_brk := by rw [e2]
  have hhl4 : (place_tags s bp asize (T - asize)).heap_listp = s.heap_listp := by rw [e2]
  have hflp4 : (place_tags s bp asize (T - asize)).free_listp = s.free_listp := by rw [e2]
  -- the tiling after the tag writes
  have hmid : Contig bp [⟨bp, asize, true⟩, ⟨bp + asize, T - asize, false⟩] (bp + T) := by
    simp only [Contig, true_and]
    omega
  have hszm : Sized [⟨bp, asize, true⟩, ⟨bp + asize, T - asize, false⟩] := by
    intro c hc'
    simp only [List.mem_cons, List.mem_singleton, List.not_mem_nil, or_false] at hc'
    rcases hc' with rfl | rfl
    · exact ⟨h24, h8⟩
    · simp only; omega
  have htg : Tags (place_tags s bp asize (T - asize)).mem
      [⟨bp, asize, true⟩, ⟨bp + asize, T - asize, false⟩] := by
    intro c hc'
    simp only [List.mem_cons, List.mem_singleton, List.not_mem_nil, or_false] at hc'
    rcases hc' with rfl | rfl
    · exact ⟨hG1, hG2⟩
    · simp only [Blk.tag]
      have e : bp + asize + (T - asize) - 8 = bp + T - 8 := by omega
      rw [e]
      exact ⟨by simpa using hG3, by simpa using hG4⟩
  have c4 := @HeapCore.replace s (place_tags s bp asize (T - asize))
    (pre ++ ⟨bp, T, false⟩ :: post) pre
    [⟨bp, asize, true⟩, ⟨bp + asize, T - asize, false⟩] post bp (bp + T) hc
    (fun c hc' => List.mem_append_left _ hc')
    (fun c hc' => List.mem_append_right _ (List.mem_cons_of_mem _ hc'))
    hcpre hmid hcpost hszm htg (fun a ha => hfr a (by omega)) hlo4 hbrk4 hhl4
  have c4' : HeapCore (place_tags s bp asize (T - asize))
      (pre ++ ⟨bp, asize, true⟩ :: ⟨bp + asize, T - asize, false⟩ :: post) := by
    simpa using c4
  -- the free list after the tag writes
  have hfields : ∀ y ∈ l1 ++ bp :: l2,
      GETP (place_tags s bp asize (T - asize)).mem y = GETP s.mem y ∧
      GETP (place_tags s bp asize (T - asize)).mem (y + 8) = GETP s.mem (y + 8) := by
    intro y hy
    have hyr : y + 24 ≤ bp ∨ bp + T ≤ y ∨ y = bp := by
      obtain ⟨b, hb', h1, _⟩ := perm_mem_block hp hy
      subst h1
      rcases List.mem_append.1 hb' with hb' | hb'
      · have := Contig_bounds hcpre hb'
        have := (hc.mem_bounds (List.mem_append_left _ hb')).2.2.1
        left; omega
      · rcases List.mem_cons.1 hb' with hb' | hb'
        · right; right; rw [hb']
        · have := Contig_bounds hcpost hb'
          right; left; omega
    constructor
    · apply GETP_congr; intro i hi; apply hfr; omega
    · apply GETP_congr; intro i hi; apply hfr; omega
  have f4 : FL (place_tags s bp asize (T - asize)).mem
      (place_tags s bp asize (T - asize)).free_listp (l1 ++ bp :: l2) := by
    rw [hflp4]
    exact FLseg_congr hfields hfl
  have hprev4 : PREV_FREEP (place_tags s bp asize (T - asize)).mem bp = PREV_FREEP s.mem bp :=
    (hfields bp hbfl).2
  have hnext4 : NEXT_FREEP (place_tags s bp asize (T - asize)).mem bp = NEXT_FREEP s.mem bp :=
    (hfields bp hbfl).1
  -- the new list
  have hpn : (l1 ++ (bp + asize) :: l2).Perm
      (freeAddrs (pre ++ ⟨bp, asize, true⟩ :: ⟨bp + asize, T - asize, false⟩ :: post)) := by
    rw [freeAddrs_append, freeAddrs_cons_alloc _ _ rfl, freeAddrs_cons_free _ _ rfl]
    rw [freeAddrs_append, freeAddrs_cons_free _ _ rfl] at hp
    exact perm_replace_mid hp
  obtain ⟨hsubn, hfarn⟩ := fl_facts c4' hpn (List.Sublist.refl _)
  have hltn : ∀ y ∈ l1 ++ (bp + asize) :: l2, y < 18446744073709551616 := by
    intro y hy
    obtain ⟨b, hb', rfl⟩ := hsubn y hy
    exact (c4'.mem_bounds hb').2.2.2.2.2.2
  have hfarb : ∀ y ∈ l1 ++ l2, Far y bp := far_mid l1 bp l2 hfar0 rfl
  obtain ⟨fF, frF, loF, brkF, hlF⟩ := place_link_spec (place_tags s bp asize (T - asize))
    bp asize l1 l2 hG1 h8 h24 (by omega) f4 hfarn hfarb hltn
  rw [hprev4, hnext4, ← e1] at fF frF loF brkF hlF
  refine ⟨⟨?_, fF, hpn⟩, ?_, ?_, by rw [brkF, hbrk4], by rw [loF, hlo4]⟩
  · exact c4'.frame (l1 ++ (bp + asize) :: l2) hsubn frF loF brkF hlF
  · intro a ha hout
    rw [frF a, hfr a (by omega)]
    intro y hy
    rcases List.mem_append.1 hy with hy | hy
    · exact hout y (List.mem_append_left _ hy)
    · rcases List.mem_cons.1 hy with hy | hy
      · subst hy; omega
      · exact hout y (List.mem_append_right _ hy)
  · intro a ha1 ha2
    rw [frF a, hfr a (by omega)]
    intro y hy
    have hyb : y = bp + asize ∨ Far y bp := by
      rcases List.mem_append.1 hy with hy | hy
      · exact Or.inr (hfarb y (List.mem_append_left _ hy))
      · rcases List.mem_cons.1 hy with hy | hy
        · exact Or.inl hy
        · exact Or.inr (hfarb y (List.mem_append_right _ hy))
    have hyblk := hsubn y hy
    obtain ⟨b', hb', hbe⟩ := hyblk
    rcases hyb with h | h
    · omega
    · -- a block pointer of the new tiling other than the remainder lies outside `[bp, bp+T)`
      have hb'' : b' ∈ pre ++ ⟨bp, asize, true⟩ :: ⟨bp + asize, T - asize, false⟩ :: post := hb'
      simp only [List.mem_append, List.mem_cons] at hb''
      unfold Far at h
      rcases hb'' with hm | hm | hm | hm
      · have := Contig_bounds hcpre hm
        have := (hc.mem_bounds (List.mem_append_left _ hm)).2.2.1
        omega
      · subst hm; simp only at hbe; omega
      · subst hm; simp only at hbe; omega
      · have := Contig_bounds hcpost hm
        omega


/-- `place` on a listed free block too small to be split. -/
theorem place_spec_whole {s : State} {pre post : List Blk} {fl : List Nat} {bp T asize : Nat}
    (hc : HeapCore s (pre ++ ⟨bp, T, false⟩ :: post))
    (hfl : FL s.mem s.free_listp fl)
    (hp : fl.Perm (freeAddrs (pre ++ ⟨bp, T, false⟩ :: post)))
    (hle : asize ≤ T) (hlt : T < asize + 24) :
    HeapInv (place s bp asize) (pre ++ ⟨bp, T, true⟩ :: post) (fl.erase bp) ∧
    (∀ a, (a + 4 < bp ∨ bp + T ≤ a + 4 ∨ (bp ≤ a ∧ a + 8 < bp + T)) →
      OutFields (fl.erase bp) a → (place s bp asize).mem a = s.mem a) ∧
    (place s bp asize).mem_brk = s.mem_brk ∧ (place s bp asize).mem_lo = s.mem_lo := by
  have hb : (⟨bp, T, false⟩ : Blk) ∈ pre ++ ⟨bp, T, false⟩ :: post := by simp
  have rb := hc.read hb
  have bb := hc.mem_bounds hb
  simp only at rb bb
  have hbnd := hc.bnd
  unfold Bounded at hbnd
  have hcon := hc.contig
  rw [Contig_mid] at hcon
  obtain ⟨hcpre, hcpost⟩ := hcon
  simp only at hcpre hcpost
  have hss := split_size_eq T asize (by omega) (by omega)
  have hns : ¬ (GET_SIZE s.mem (HDRP bp) + 18446744073709551616
      - asize % 18446744073709551616) % 18446744073709551616 ≥ MIN_BLOCK_SIZE := by
    rw [rb.1, hss]; unfold MIN_BLOCK_SIZE; omega
  have e1 := place_nosplit s bp asize hns
  rw [rb.1] at e1
  have hF : FTRP (PUT (removefree s bp).mem (HDRP bp) (PACK T 1)) bp = bp + T - 8 :=
    FTRP_PUT _ bp T true (by omega) (by omega)
  rw [hF] at e1
  obtain ⟨hsub0, hfar0⟩ := fl_facts hc hp (List.Sublist.refl _)
  have hbfl : bp ∈ fl := hp.mem_iff.2 (mem_freeAddrs.2 ⟨_, hb, rfl, rfl⟩)
  obtain ⟨c1, f1, fr1, lo1, brk1, hl1⟩ := remove_step bp hc hfl hsub0 hfar0 hbfl
  have hp1 : (fl.erase bp).Perm (freeAddrs (pre ++ post)) := by
    rw [freeAddrs_append] at hp ⊢
    rw [freeAddrs_cons_free _ _ rfl] at hp
    exact perm_erase_mid hp
  have hout : ∀ y ∈ fl.erase bp, y + 24 ≤ bp ∨ bp + T ≤ y := by
    intro y hy
    obtain ⟨b, hb', h1, _⟩ := perm_mem_block hp1 hy
    subst h1
    rcases List.mem_append.1 hb' with hb' | hb'
    · have := Contig_bounds hcpre hb'
      have := (hc.mem_bounds (List.mem_append_left _ hb')).2.2.1
      left; omega
    · have := Contig_bounds hcpost hb'
      right; omega
  obtain ⟨c3, f3⟩ := @retag_step (removefree s bp) (pre ++ ⟨bp, T, false⟩ :: post) pre
    post (fl.erase bp) bp T true c1
    (fun b hb' => List.mem_append_left _ hb')
    (fun b hb' => List.mem_append_right _ (List.mem_cons_of_mem _ hb'))
    (by rw [lo1]; exact hcpre) (by rw [brk1]; exact hcpost) (by omega) (by omega) f1 hout
    (PUT (PUT (removefree s bp).mem (HDRP bp) (PACK T 1)) (bp + T - 8) (PACK T 1)) rfl
  have hp3 : (fl.erase bp).Perm (freeAddrs (pre ++ ⟨bp, T, true⟩ :: post)) := by
    rw [freeAddrs_append, freeAddrs_cons_alloc _ _ rfl]
    rw [freeAddrs_append] at hp1
    exact hp1
  rw [e1]
  refine ⟨⟨c3, f3, hp3⟩, ?_, brk1, lo1⟩
  intro a ha hof
  show PUT (PUT (removefree s bp).mem (HDRP bp) (PACK T 1)) (bp + T - 8) (PACK T 1) a = s.mem a
  unfold HDRP WSIZE
  rw [PUT_out _ _ _ _ (by omega), PUT_out _ _ _ _ (by omega)]
  exact fr1 a hof


/-! ## Adjacency -/

theorem noadj_append {xs ys : List Blk} :
    NoAdjFree (xs ++ ys) ↔ NoAdjFree xs ∧ NoAdjFree ys ∧
      ∀ x ∈ xs.getLast?, ∀ y ∈ ys.head?, x.alloc = true ∨ y.alloc = true := by
  unfold NoAdjFree
  exact List.chain'_append

theorem noadj_cons {x : Blk} {ys : List Blk} :
    NoAdjFree (x :: ys) ↔ (∀ y ∈ ys.head?, x.alloc = true ∨ y.alloc = true) ∧ NoAdjFree ys := by
  unfold NoAdjFree
  exact List.chain'_cons'

theorem noadj_join {pre post : List Blk} (m : Blk) (h1 : NoAdjFree pre) (h2 : NoAdjFree post)
    (hl : ∀ c ∈ pre.getLast?, c.alloc = true) (hr : ∀ d ∈ post.head?, d.alloc = true) :
    NoAdjFree (pre ++ m :: post) := by
  rw [noadj_append, noadj_cons]
  refine ⟨h1, ⟨fun y hy => Or.inr (hr y hy), h2⟩, ?_⟩
  intro x hx y _
  exact Or.inl (hl x hx)

theorem noadj_last_of_free {pre : List Blk} {c : Blk} (h : NoAdjFree (pre ++ [c]))
    (hc : c.alloc = false) : NoAdjFree pre ∧ ∀ e ∈ pre.getLast?, e.alloc = true := by
  rw [noadj_append] at h
  refine ⟨h.1, fun e he => ?_⟩
  rcases h.2.2 e he c (by simp) with h' | h'
  · exact h'
  · rw [hc] at h'; cases h'

theorem noadj_head_of_free {post : List Blk} {d : Blk} (h : NoAdjFree (d :: post))
    (hd : d.alloc = false) : NoAdjFree post ∧ ∀ e ∈ post.head?, e.alloc = true := by
  rw [noadj_cons] at h
  refine ⟨h.2, fun e he => ?_⟩
  rcases h.1 e he with h' | h'
  · rw [hd] at h'; cases h'
  · exact h'

/-! ## Coalescing, all cases -/

theorem coalesce_inv {s : State} {pre post : List Blk} {x sz : Nat} {fl : List Nat}
    (hc : HeapCore s (pre ++ ⟨x, sz, false⟩ :: post))
    (hfl : FL s.mem s.free_listp fl) (hp : fl.Perm (freeAddrs (pre ++ post)))
    (hnpre : NoAdjFree pre) (hnpost : NoAdjFree post) :
    ∃ (pre' post' : List Blk) (S : Nat) (fl' : List Nat),
      HeapInv (coalesce s x).1 (pre' ++ ⟨(coalesce s x).2, S, false⟩ :: post') fl' ∧
      NoAdjFree (pre' ++ ⟨(coalesce s x).2, S, false⟩ :: post') ∧
      allocAddrs (pre' ++ post') = allocAddrs (pre ++ post) ∧
      (∀ b ∈ pre ++ post, b.alloc = true → b ∈ pre' ++ post') ∧ sz ≤ S := by
  rcases List.eq_nil_or_concat pre with hpre | ⟨P, c, hpre⟩
  · -- no block before
    subst hpre
    have hpa : GET_ALLOC s.mem (FTRP s.mem (PREV_BLKP s.mem x)) = 1 :=
      @prev_read_nil s post ⟨x, sz, false⟩ (by simpa using hc)
    cases post with
    | nil =>
      have hna := (@next_read_nil s [] ⟨x, sz, false⟩ hc).2
      obtain ⟨e, hi⟩ := coalesce_case1 hc hfl hp hpa hna
      rw [e]
      exact ⟨[], [], sz, x :: fl, hi, noadj_join _ hnpre hnpost (by simp) (by simp), rfl,
        fun b hb _ => hb, le_refl _⟩
    | cons d post' =>
      have hn := (@next_read s [] post' ⟨x, sz, false⟩ d hc)
      simp only at hn
      by_cases hd : d.alloc = true
      · have hna : GET_ALLOC s.mem (HDRP (NEXT_BLKP s.mem x)) = 1 := by rw [hn.2, hd]; rfl
        obtain ⟨e, hi⟩ := coalesce_case1 hc hfl hp hpa hna
        rw [e]
        exact ⟨[], d :: post', sz, x :: fl, hi,
          noadj_join _ hnpre hnpost (by simp) (by simp [hd]), rfl,
          fun b hb _ => hb, le_refl _⟩
      · have hd' : d.alloc = false := by simpa using hd
        obtain ⟨e, hi⟩ := coalesce_case2 hc hfl hp hpa hd'
        obtain ⟨hn1, hn2⟩ := noadj_head_of_free hnpost hd'
        rw [e]
        refine ⟨[], post', sz + d.size, x :: fl.erase d.bp, hi,
          noadj_join _ hnpre hn1 (by simp) hn2, ?_, ?_, by omega⟩
        · simp only [allocAddrs_append, allocAddrs_cons_free _ _ hd']
        · intro b hb hba
          have hne : ∀ e : Blk, e.alloc = false → b ≠ e := fun e he h => by
            rw [h, he] at hba; cases hba
          simp only [List.mem_append, List.mem_cons, List.mem_singleton, List.not_mem_nil,
            or_false, false_or, List.nil_append, List.append_nil] at hb ⊢
          have := hne d hd'
          tauto
  · rw [List.concat_eq_append] at hpre
    subst hpre
    have hc' : HeapCore s (P ++ c :: ⟨x, sz, false⟩ :: post) := by simpa using hc
    have hpr := (@prev_read s P post c ⟨x, sz, false⟩ hc')
    simp only at hpr
    by_cases hca : c.alloc = true
    · have hpa : GET_ALLOC s.mem (FTRP s.mem (PREV_BLKP s.mem x)) = 1 := by
        rw [hpr.2.1, hca]; rfl
      have hl : ∀ e ∈ (P ++ [c]).getLast?, e.alloc = true := by simp [hca]
      cases post with
      | nil =>
        have hna := (@next_read_nil s (P ++ [c]) ⟨x, sz, false⟩ hc).2
        obtain ⟨e, hi⟩ := coalesce_case1 hc hfl hp hpa hna
        rw [e]
        exact ⟨P ++ [c], [], sz, x :: fl, hi, noadj_join _ hnpre hnpost hl (by simp), rfl,
          fun b hb _ => hb, le_refl _⟩
      | cons d post' =>
        have hn := (@next_read s (P ++ [c]) post' ⟨x, sz, false⟩ d hc)
        simp only at hn
        by_cases hd : d.alloc = true
        · have hna : GET_ALLOC s.mem (HDRP (NEXT_BLKP s.mem x)) = 1 := by
            rw [hn.2, hd]; rfl
          obtain ⟨e, hi⟩ := coalesce_case1 hc hfl hp hpa hna
          rw [e]
          exact ⟨P ++ [c], d :: post', sz, x :: fl, hi,
            noadj_join _ hnpre hnpost hl (by simp [hd]), rfl,
            fun b hb _ => hb, le_refl _⟩
        · have hd' : d.alloc = false := by simpa using hd
          obtain ⟨e, hi⟩ := coalesce_case2 hc hfl hp hpa hd'
          obtain ⟨hn1, hn2⟩ := noadj_head_of_free hnpost hd'
          rw [e]
          refine ⟨P ++ [c], post', sz + d.size, x :: fl.erase d.bp, hi,
            noadj_join _ hnpre hn1 hl hn2, ?_, ?_, by omega⟩
          · simp only [allocAddrs_append, allocAddrs_cons_free _ _ hd']
          · intro b hb hba
            have hne : ∀ e : Blk, e.alloc = false → b ≠ e := fun e he h => by
              rw [h, he] at hba; cases hba
            simp only [List.mem_append, List.mem_cons, List.mem_singleton, List.not_mem_nil,
              or_false, false_or, List.nil_append, List.append_nil] at hb ⊢
            have := hne d hd'
            tauto
    · have hcf : c.alloc = false := by simpa using hca
      obtain ⟨hnP, hlP⟩ := noadj_last_of_free hnpre hcf
      have hp' : fl.Perm (freeAddrs (P ++ c :: post)) := by simpa using hp
      cases post with
      | nil =>
        have hna := (@next_read_nil s (P ++ [c]) ⟨x, sz, false⟩ hc).2
        obtain ⟨e, hi⟩ := coalesce_case3 hc' hfl hp' hna hcf
        rw [e]
        refine ⟨P, [], sz + c.size, c.bp :: fl.erase c.bp, hi,
          noadj_join _ hnP hnpost hlP (by simp), ?_, ?_, by omega⟩
        · simp only [allocAddrs_append, allocAddrs_cons_free _ _ hcf, allocAddrs_nil, List.append_nil]
        · intro b hb hba
          have hne : ∀ e : Blk, e.alloc = false → b ≠ e := fun e he h => by
            rw [h, he] at hba; cases hba
          simp only [List.mem_append, List.mem_cons, List.mem_singleton, List.not_mem_nil,
            or_false, false_or, List.nil_append, List.append_nil] at hb ⊢
          have := hne c hcf
          tauto
      | cons d post' =>
        have hn := (@next_read s (P ++ [c]) post' ⟨x, sz, false⟩ d hc)
        simp only at hn
        by_cases hd : d.alloc = true
        · have hna : GET_ALLOC s.mem (HDRP (NEXT_BLKP s.mem x)) = 1 := by
            rw [hn.2, hd]; rfl
          obtain ⟨e, hi⟩ := coalesce_case3 hc' hfl hp' hna hcf
          rw [e]
          refine ⟨P, d :: post', sz + c.size, c.bp :: fl.erase c.bp, hi,
            noadj_join _ hnP hnpost hlP (by simp [hd]), ?_, ?_, by omega⟩
          · simp only [allocAddrs_append, allocAddrs_cons_free _ _ hcf, allocAddrs_nil, List.append_nil]
          · intro b hb hba
            have hne : ∀ e : Blk, e.alloc = false → b ≠ e := fun e he h => by
              rw [h, he] at hba; cases hba
            simp only [List.mem_append, List.mem_cons, List.mem_singleton, List.not_mem_nil,
              or_false, false_or, List.nil_append, List.append_nil] at hb ⊢
            have := hne c hcf
            tauto
        · have hd' : d.alloc = false := by simpa using hd
          obtain ⟨e, hi⟩ := coalesce_case4 hc' hfl hp' hcf hd'
          obtain ⟨hn1, hn2⟩ := noadj_head_of_free hnpost hd'
          rw [e]
          refine ⟨P, post', sz + (c.size + d.size), c.bp :: (fl.erase c.bp).erase d.bp, hi,
            noadj_join _ hnP hn1 hlP hn2, ?_, ?_, by omega⟩
          · simp only [allocAddrs_append, allocAddrs_cons_free _ _ hcf, allocAddrs_cons_free _ _ hd',
              allocAddrs_nil, List.append_nil]
          · intro b hb hba
            have hne : ∀ e : Blk, e.alloc = false → b ≠ e := fun e he h => by
              rw [h, he] at hba; cases hba
            simp only [List.mem_append, List.mem_cons, List.mem_singleton, List.not_mem_nil,
              or_false, false_or, List.nil_append, List.append_nil] at hb ⊢
            have := hne c hcf
            have := hne d hd'
            tauto


/-! ## `mm_free` -/

/-- The state in which `mm_free` calls `coalesce`. -/
theorem mm_free_eq {s : State} {bs : List Blk} {b : Blk} (hc : HeapCore s bs) (hb : b ∈ bs) :
    mm_free s b.bp =
      (coalesce
        { s with
          mem := (PUT (PUT s.mem (HDRP b.bp) (PACK b.size 0)) (b.bp + b.size - 8)
            (PACK b.size 0)) } b.bp).1 := by
  have rb := hc.read hb
  have bb := hc.mem_bounds hb
  have hF : FTRP (PUT s.mem (HDRP b.bp) (PACK b.size 0)) b.bp = b.bp + b.size - 8 :=
    FTRP_PUT _ b.bp b.size false (by omega) (by omega)
  unfold mm_free
  simp only [rb.1, hF]

theorem mm_free_inv {s : State} {live : Live} {bs : List Blk} {fl : List Nat}
    (hI : Inv s live bs fl) {p : Nat} (hpl : p ∈ live.map Prod.fst) :
    ∃ bs' fl', Inv (mm_free s p) (live.eraseP (fun e => e.1 = p)) bs' fl' := by
  obtain ⟨e0, he0, he0p⟩ := List.mem_map.1 hpl
  obtain ⟨a, l1, l2, _, hap, hlive, herase⟩ :=
    List.exists_of_eraseP (p := fun e : Nat × Nat => decide (e.1 = p)) he0 (by simpa using he0p)
  have hap' : a.1 = p := by simpa using hap
  rw [herase]
  obtain ⟨b, hb, hbp, hba, hcap⟩ := hI.live_cap a (by rw [hlive]; simp)
  rw [hap'] at hbp
  subst hbp
  obtain ⟨pre, post, rfl⟩ := List.append_of_mem hb
  have hc := hI.heap.core
  have bb := hc.mem_bounds hb
  have hbnd := hc.bnd
  unfold Bounded at hbnd
  have hcon := hc.contig
  rw [Contig_mid] at hcon
  obtain ⟨hcpre, hcpost⟩ := hcon
  have hpf : fl.Perm (freeAddrs (pre ++ post)) := by
    have := hI.heap.perm
    rw [freeAddrs_append, freeAddrs_cons_alloc _ _ hba] at this
    rw [freeAddrs_append]
    exact this
  have hout : ∀ y ∈ fl, y + 24 ≤ b.bp ∨ b.bp + b.size ≤ y := by
    intro y hy
    obtain ⟨b', hb', h1, _⟩ := perm_mem_block hpf hy
    subst h1
    rcases List.mem_append.1 hb' with hb' | hb'
    · have := Contig_bounds hcpre hb'
      have := (hc.mem_bounds (List.mem_append_left _ hb')).2.2.1
      left; omega
    · have := Contig_bounds hcpost hb'
      right; omega
  obtain ⟨c2, f2⟩ := @retag_step s (pre ++ b :: post) pre post fl b.bp b.size false hc
    (fun c hc' => List.mem_append_left _ hc')
    (fun c hc' => List.mem_append_right _ (List.mem_cons_of_mem _ hc'))
    hcpre hcpost (by omega) (by omega) hI.heap.flist hout
    (PUT (PUT s.mem (HDRP b.bp) (PACK b.size 0)) (b.bp + b.size - 8) (PACK b.size 0)) rfl
  have hn := hI.noadj
  rw [noadj_append, noadj_cons] at hn
  obtain ⟨pre', post', S, fl', hH, hN, hA, hsub, hS⟩ :=
    coalesce_inv c2 f2 hpf hn.1 hn.2.1.2
  have e := mm_free_eq hc hb
  rw [← e] at hH
  have hlp := hI.live_perm
  rw [allocAddrs_append, allocAddrs_cons_alloc _ _ hba, hlive] at hlp
  simp only [List.map_append, List.map_cons, hap'] at hlp
  have hnd : (l1.map Prod.fst ++ b.bp :: l2.map Prod.fst).Nodup := by
    refine (List.Perm.nodup_iff hlp).2 ?_
    have := nodup_of_sorted (allocAddrs_sorted hc.contig hc.sized)
    rw [allocAddrs_append, allocAddrs_cons_alloc _ _ hba] at this
    exact this
  refine ⟨_, fl', ⟨hH, hN, ?_, ?_⟩⟩
  · rw [allocAddrs_append, allocAddrs_cons_free _ _ rfl, ← allocAddrs_append, hA,
      allocAddrs_append]
    simp only [List.map_append]
    have h3 : (b.bp :: (l1.map Prod.fst ++ l2.map Prod.fst)).Perm
        (b.bp :: (allocAddrs pre ++ allocAddrs post)) :=
      (List.perm_middle.symm.trans hlp).trans List.perm_middle
    exact h3.cons_inv
  · intro e' he'
    have hel : e' ∈ live := by
      rw [hlive]
      simp only [List.mem_append, List.mem_cons] at he' ⊢
      tauto
    have hne : e'.1 ≠ b.bp := by
      intro h
      have hnd' := hnd
      rw [List.nodup_append] at hnd'
      rcases List.mem_append.1 he' with h' | h'
      · exact hnd'.2.2 (List.mem_map.2 ⟨e', h', h⟩) (List.mem_cons_self _ _)
      · have := (List.nodup_cons.1 hnd'.2.1).1
        exact this (List.mem_map.2 ⟨e', h', h⟩)
    obtain ⟨b', hb', h1, h2, h3⟩ := hI.live_cap e' hel
    refine ⟨b', ?_, h1, h2, h3⟩
    have hb'' : b' ∈ pre ++ post := by
      simp only [List.mem_append, List.mem_cons] at hb' ⊢
      rcases hb' with h | h | h
      · exact Or.inl h
      · exact absurd (by rw [← h1, h]) hne
      · exact Or.inr h
    have := hsub b' hb'' h2
    simp only [List.mem_append, List.mem_cons] at this ⊢
    tauto


/-! ## Growing the heap -/

theorem extend_size (ext : Nat) (h8 : ext % 8 = 0) (hlt : ext < 18446744073709551616) :
    (if ext / WSIZE % 2 ≠ 0 then (ext / WSIZE + 1) * WSIZE % 18446744073709551616
     else ext / WSIZE * WSIZE % 18446744073709551616) = ext := by
  unfold WSIZE
  have : ext / 4 % 2 = 0 := by omega
  rw [if_neg (by omega)]
  omega

theorem extend_heap_fail (s : State) (ext : Nat) (grant : Bool) (h8 : ext % 8 = 0)
    (hlt : ext < 18446744073709551616)
    (hf : ¬ (grant = true ∧ s.mem_brk + ext < 18446744073709551616)) :
    extend_heap s (ext / WSIZE) grant = (s, 0) := by
  unfold extend_heap
  simp only [extend_size ext h8 hlt]
  unfold mem_sbrk
  rw [if_neg hf]
  simp

/-- The state in which `extend_heap` calls `coalesce`. -/
theorem extend_heap_ok (s : State) (ext : Nat) (grant : Bool) (h8 : ext % 8 = 0) (h24 : 24 ≤ ext)
    (hlt : ext < 4294967295) (hbrk : 4 ≤ s.mem_brk)
    (hf : grant = true ∧ s.mem_brk + ext < 18446744073709551616) :
    extend_heap s (ext / WSIZE) grant =
      coalesce
        { s with
          mem_brk := s.mem_brk + ext,
          mem := (PUT (PUT (PUT s.mem (s.mem_brk - 4) ext) (s.mem_brk + ext - 8) ext)
            (s.mem_brk + ext - 4) 1) } s.mem_brk := by
  have hF : FTRP (PUT s.mem (HDRP s.mem_brk) (PACK ext 0)) s.mem_brk = s.mem_brk + ext - 8 :=
    FTRP_PUT _ _ ext false h8 hlt
  have g2 : GET (PUT (PUT s.mem (s.mem_brk - 4) ext) (s.mem_brk + ext - 8) ext)
      (s.mem_brk - 4) = ext + 0 := by
    rw [GET_PUT_disj _ _ _ _ (by omega), GET_PUT_same]; omega
  have hN := NEXT_BLKP_of_GET g2 h8 (by omega)
  have hne : s.mem_brk ≠ FAIL := by unfold FAIL; omega
  unfold extend_heap
  simp only [extend_size ext h8 (by omega)]
  unfold mem_sbrk
  rw [if_pos hf]
  simp only [hne, if_false, hF]
  simp only [PACK_zero, HDRP, WSIZE] at hN ⊢
  rw [hN]
  have : PACK 0 1 = 1 := by decide
  rw [this]

theorem extend_core {s : State} {bs : List Blk} {fl : List Nat} (hH : HeapInv s bs fl)
    (ext : Nat) (h8 : ext % 8 = 0) (h24 : 24 ≤ ext)
    (hb : s.mem_brk + ext < s.mem_lo + 4294967296)
    (hb64 : s.mem_brk + ext < 18446744073709551616) :
    HeapCore
      { s with
        mem_brk := s.mem_brk + ext,
        mem := (PUT (PUT (PUT s.mem (s.mem_brk - 4) ext) (s.mem_brk + ext - 8) ext)
          (s.mem_brk + ext - 4) 1) } (bs ++ [⟨s.mem_brk, ext, false⟩]) ∧
    FL (PUT (PUT (PUT s.mem (s.mem_brk - 4) ext) (s.mem_brk + ext - 8) ext)
          (s.mem_brk + ext - 4) 1) s.free_listp fl := by
  have hc := hH.core
  have hge := hc.brk_ge
  have hfr : ∀ a, a + 4 < s.mem_brk →
      PUT (PUT (PUT s.mem (s.mem_brk - 4) ext) (s.mem_brk + ext - 8) ext)
          (s.mem_brk + ext - 4) 1 a = s.mem a := by
    intro a ha
    rw [PUT_out _ _ _ _ (by omega), PUT_out _ _ _ _ (by omega), PUT_out _ _ _ _ (by omega)]
  have key : ∀ q, q + 8 ≤ s.mem_brk →
      GET (PUT (PUT (PUT s.mem (s.mem_brk - 4) ext) (s.mem_brk + ext - 8) ext)
          (s.mem_brk + ext - 4) 1) q = GET s.mem q := by
    intro q hq
    apply GET_congr
    intro i hi
    apply hfr
    omega
  constructor
  · refine ⟨hc.lo_al, hc.lo_pos, hc.hl, hb64, hb, ?_, ?_, ?_, ?_, ?_, ?_⟩
    · show GET _ (s.mem_lo + 4) = 9
      rw [key _ (by omega)]; exact hc.pro_h
    · show GET _ (s.mem_lo + 8) = 9
      rw [key _ (by omega)]; exact hc.pro_f
    · show GET _ (s.mem_brk + ext - 4) = 1
      rw [GET_PUT_same]
    · show Contig (s.mem_lo + 16) (bs ++ [⟨s.mem_brk, ext, false⟩]) (s.mem_brk + ext)
      rw [Contig_snoc]
      exact ⟨hc.contig, rfl⟩
    · rw [Sized_append]
      refine ⟨hc.sized, ?_⟩
      intro c hc'
      rw [List.mem_singleton] at hc'
      subst hc'
      exact ⟨h24, h8⟩
    · intro c hc'
      rcases List.mem_append.1 hc' with hc' | hc'
      · have bc := hc.mem_bounds hc'
        have ht := hc.tags c hc'
        show GET _ (c.bp - 4) = _ ∧ GET _ (c.bp + c.size - 8) = _
        rw [key _ (by omega), key _ (by omega)]
        exact ht
      · rw [List.mem_singleton] at hc'
        subst hc'
        show GET _ (s.mem_brk - 4) = _ ∧ GET _ (s.mem_brk + ext - 8) = _
        unfold Blk.tag
        simp only [Bool.false_eq_true, if_false, Nat.add_zero]
        rw [GET_PUT_disj _ _ _ _ (by omega), GET_PUT_disj _ _ _ _ (by omega), GET_PUT_same,
          GET_PUT_disj _ _ _ _ (by omega), GET_PUT_same]
        omega
  · refine FLseg_congr ?_ hH.flist
    intro y hy
    obtain ⟨b, hb', h1, _⟩ := perm_mem_block hH.perm hy
    subst h1
    have bb := hc.mem_bounds hb'
    constructor
    · apply GETP_congr; intro i hi; apply hfr; omega
    · apply GETP_congr; intro i hi; apply hfr; omega


/-! ## First fit -/

theorem find_fit_from_some {m : Mem} {l : List Nat} {h p asize fuel r : Nat}
    (hfl : FLseg m h p l 0) (hr : find_fit_from m asize fuel h = some r) :
    r = (l.find? (fun y => decide (asize ≤ GET_SIZE m (HDRP y)))).getD 0 := by
  induction l generalizing h p fuel with
  | nil =>
    have h0 : h = 0 := hfl
    cases fuel with
    | zero => simp [find_fit_from] at hr
    | succ k =>
      simp [find_fit_from, h0] at hr
      simp [hr]
  | cons x xs ih =>
    obtain ⟨h1, h2, _, h4⟩ := hfl
    subst h1
    cases fuel with
    | zero => simp [find_fit_from] at hr
    | succ k =>
      by_cases hx : asize ≤ GET_SIZE m (HDRP h)
      · simp [find_fit_from, h2, hx] at hr
        subst hr
        rw [List.find?_cons_of_pos _ (by simpa using hx)]
        rfl
      · simp only [find_fit_from, h2, hx, if_false] at hr
        have := ih h4 hr
        rw [List.find?_cons_of_neg _ (by simpa using hx)]
        exact this

theorem find_fit_from_fuel {m : Mem} {l : List Nat} {h p : Nat} (hfl : FLseg m h p l 0)
    (asize fuel : Nat) (hf : l.length < fuel) :
    (find_fit_from m asize fuel h).isSome = true := by
  induction l generalizing h p fuel with
  | nil =>
    have h0 : h = 0 := hfl
    cases fuel with
    | zero => cases hf
    | succ k => simp [find_fit_from, h0]
  | cons x xs ih =>
    obtain ⟨h1, h2, _, h4⟩ := hfl
    subst h1
    cases fuel with
    | zero => cases hf
    | succ k =>
      by_cases hx : asize ≤ GET_SIZE m (HDRP h)
      · simp [find_fit_from, h2, hx]
      · simp only [find_fit_from, h2, hx, if_false]
        exact ih h4 k (by simpa using hf)

/-! ## The adjusted size -/

theorem adjust_spec (size : Nat) (h0 : size ≠ 0) (hlt : size < 18446744073709551600) :
    24 ≤ adjust size ∧ adjust size % 8 = 0 ∧ size + 8 ≤ adjust size ∧
      adjust size ≤ size + 23 := by
  unfold adjust DSIZE MIN_BLOCK_SIZE
  by_cases h : size ≤ 8 <<< 1
  · rw [if_pos h]
    have : (8 : Nat) <<< 1 = 16 := by decide
    omega
  · rw [if_neg h]
    have : (8 : Nat) <<< 1 = 16 := by decide
    omega


/-! ## The provider's region under the helper routines -/

theorem removefree_region (s : State) (x : Nat) :
    (removefree s x).mem_lo = s.mem_lo ∧ (removefree s x).mem_brk = s.mem_brk := by
  unfold removefree
  dsimp only
  split_ifs <;> exact ⟨rfl, rfl⟩

theorem addfree_region (s : State) (x : Nat) :
    (addfree s x).mem_lo = s.mem_lo ∧ (addfree s x).mem_brk = s.mem_brk := by
  unfold addfree
  split_ifs <;> exact ⟨rfl, rfl⟩

theorem coalesce_region (s : State) (x : Nat) :
    (coalesce s x).1.mem_lo = s.mem_lo ∧ (coalesce s x).1.mem_brk = s.mem_brk := by
  unfold coalesce
  dsimp only
  split_ifs <;>
    simp only [(addfree_region _ _).1, (addfree_region _ _).2, (removefree_region _ _).1,
      (removefree_region _ _).2, and_self]

theorem place_link_region (s : State) (bp prev next : Nat) :
    (place_link s bp prev next).mem_lo = s.mem_lo ∧
      (place_link s bp prev next).mem_brk = s.mem_brk := by
  unfold place_link
  dsimp only
  split_ifs <;> exact ⟨rfl, rfl⟩

theorem place_region (s : State) (bp asize : Nat) :
    (place s bp asize).mem_lo = s.mem_lo ∧ (place s bp asize).mem_brk = s.mem_brk := by
  by_cases h : (GET_SIZE s.mem (HDRP bp) + 18446744073709551616
      - asize % 18446744073709551616) % 18446744073709551616 ≥ MIN_BLOCK_SIZE
  · rw [place_split s bp asize h]
    have := place_link_region (place_tags s bp asize
        ((GET_SIZE s.mem (HDRP bp) + 18446744073709551616 - asize % 18446744073709551616)
          % 18446744073709551616)) bp (PREV_FREEP s.mem bp) (NEXT_FREEP s.mem bp)
    rw [this.1, this.2]
    exact ⟨rfl, rfl⟩
  · rw [place_nosplit s bp asize h]
    exact removefree_region s bp

/-! ## `place` and the invariant -/

theorem place_inv {s : State} {pre post : List Blk} {fl : List Nat} {live : Live}
    {bp T asize size : Nat}
    (hH : HeapInv s (pre ++ ⟨bp, T, false⟩ :: post) fl)
    (hN : NoAdjFree (pre ++ ⟨bp, T, false⟩ :: post))
    (hlp : (live.map Prod.fst).Perm (allocAddrs (pre ++ post)))
    (hlc : ∀ e ∈ live, ∃ b ∈ pre ++ post, b.bp = e.1 ∧ b.alloc = true ∧ e.2 + 8 ≤ b.size)
    (h24 : 24 ≤ asize) (h8 : asize % 8 = 0) (hle : asize ≤ T) (hsz : size + 8 ≤ asize) :
    ∃ bs' fl', Inv (place s bp asize) ((bp, size) :: live) bs' fl' ∧
      ∃ S, asize ≤ S ∧ (⟨bp, S, true⟩ : Blk) ∈ bs' ∧ (S = asize ∨ (S = T ∧ T < asize + 24)) := by
  rw [noadj_append, noadj_cons] at hN
  obtain ⟨hN1, ⟨hN2, hN3⟩, hN4⟩ := hN
  have hpost_alloc : ∀ d ∈ post.head?, d.alloc = true := by
    intro d hd
    rcases hN2 d hd with h | h
    · cases h
    · exact h
  by_cases hsp : asize + 24 ≤ T
  · obtain ⟨l1, l2, _, hI, _⟩ := place_spec_split hH.core hH.flist hH.perm h24 h8 hsp
    refine ⟨_, _, ⟨hI, ?_, ?_, ?_⟩, asize, le_refl _, by simp, Or.inl rfl⟩
    · rw [noadj_append, noadj_cons, noadj_cons]
      refine ⟨hN1, ⟨fun y hy => Or.inl rfl, fun y hy => Or.inr (hpost_alloc y hy), hN3⟩, ?_⟩
      intro x hx y hy
      simp only [List.head?_cons, Option.mem_def, Option.some.injEq] at hy
      subst hy
      exact Or.inr rfl
    · rw [allocAddrs_append, allocAddrs_cons_alloc _ _ rfl, allocAddrs_cons_free _ _ rfl]
      rw [allocAddrs_append] at hlp
      simp only [List.map_cons]
      exact (List.Perm.cons bp hlp).trans List.perm_middle.symm
    · intro e he
      rcases List.mem_cons.1 he with rfl | he
      · exact ⟨⟨bp, asize, true⟩, by simp, rfl, rfl, hsz⟩
      · obtain ⟨b, hb, h1, h2, h3⟩ := hlc e he
        refine ⟨b, ?_, h1, h2, h3⟩
        simp only [List.mem_append, List.mem_cons] at hb ⊢
        tauto
  · obtain ⟨hI, _⟩ := place_spec_whole hH.core hH.flist hH.perm hle (by omega)
    refine ⟨_, _, ⟨hI, ?_, ?_, ?_⟩, T, hle, by simp, Or.inr ⟨rfl, by omega⟩⟩
    · rw [noadj_append, noadj_cons]
      refine ⟨hN1, ⟨fun y hy => Or.inl rfl, hN3⟩, ?_⟩
      intro x hx y hy
      simp only [List.head?_cons, Option.mem_def, Option.some.injEq] at hy
      subst hy
      exact Or.inr rfl
    · rw [allocAddrs_append, allocAddrs_cons_alloc _ _ rfl]
      rw [allocAddrs_append] at hlp
      simp only [List.map_cons]
      exact (List.Perm.cons bp hlp).trans List.perm_middle.symm
    · intro e he
      rcases List.mem_cons.1 he with rfl | he
      · exact ⟨⟨bp, T, true⟩, by simp, rfl, rfl, by simp only; omega⟩
      · obtain ⟨b, hb, h1, h2, h3⟩ := hlc e he
        refine ⟨b, ?_, h1, h2, h3⟩
        simp only [List.mem_append, List.mem_cons] at hb ⊢
        tauto


/-! ## `mm_malloc` and the invariant -/

theorem find_in_list {fl : List Nat} {q : Nat → Bool} {bp : Nat}
    (h : bp = (fl.find? q).getD 0) (hbp : bp ≠ 0) : bp ∈ fl ∧ q bp = true := by
  cases hf : fl.find? q with
  | none => rw [hf] at h; exact absurd h hbp
  | some y =>
    rw [hf] at h
    simp only [Option.getD_some] at h
    subst h
    exact ⟨List.mem_of_find?_eq_some hf, List.find?_some hf⟩

theorem mm_malloc_inv {s : State} {live : Live} {bs : List Blk} {fl : List Nat}
    (hI : Inv s live bs fl) {fuel size : Nat} {grant : Bool} {s' : State} {p : Nat}
    (hsz : size < 2147483648) (hm : mm_malloc fuel s size grant = some (s', p))
    (hb' : Bounded s') :
    (p = 0 ∧ s' = s) ∨
    (p ≠ 0 ∧ ∃ bs' fl', Inv s' ((p, size) :: live) bs' fl' ∧
      ∃ S, adjust size ≤ S ∧ (⟨p, S, true⟩ : Blk) ∈ bs' ∧ S < adjust size + 24) := by
  unfold mm_malloc at hm
  by_cases h0 : size = 0
  · rw [if_pos h0] at hm
    simp only [Option.some.injEq, Prod.mk.injEq] at hm
    exact Or.inl ⟨hm.2.symm, hm.1.symm⟩
  rw [if_neg h0] at hm
  dsimp only at hm
  obtain ⟨ha24, ha8, hasz, hale⟩ := adjust_spec size h0 (by omega)
  have hc := hI.heap.core
  cases hff : find_fit fuel s (adjust size) with
  | none => rw [hff] at hm; simp at hm
  | some bp =>
    rw [hff] at hm
    simp only at hm
    have hr := find_fit_from_some hI.heap.flist hff
    by_cases hbp : bp ≠ 0
    · rw [if_pos hbp] at hm
      simp only [Option.some.injEq, Prod.mk.injEq] at hm
      obtain ⟨hs', hp'⟩ := hm
      subst hs' hp'
      obtain ⟨hmem, hq⟩ := find_in_list hr hbp
      obtain ⟨b, hb, hbbp, hbf⟩ := perm_mem_block hI.heap.perm hmem
      have rb := hc.read hb
      rw [hbbp] at rb
      have hfit : adjust size ≤ b.size := by
        rw [← rb.1]; simpa using hq
      obtain ⟨pre, post, rfl⟩ := List.append_of_mem hb
      have hbe : b = ⟨bp, b.size, false⟩ := by
        cases b; simp only at hbbp hbf; simp [hbbp, hbf]
      have hH := hI.heap
      have hN := hI.noadj
      have hlp := hI.live_perm
      have hlc := hI.live_cap
      rw [hbe] at hH hN hlp hlc
      have hlp' : (live.map Prod.fst).Perm (allocAddrs (pre ++ post)) := by
        rw [allocAddrs_append, allocAddrs_cons_free _ _ rfl] at hlp
        rw [allocAddrs_append]; exact hlp
      have hlc' : ∀ e ∈ live, ∃ b' ∈ pre ++ post,
          b'.bp = e.1 ∧ b'.alloc = true ∧ e.2 + 8 ≤ b'.size := by
        intro e he
        obtain ⟨b', hb', h1, h2, h3⟩ := hlc e he
        refine ⟨b', ?_, h1, h2, h3⟩
        simp only [List.mem_append, List.mem_cons] at hb' ⊢
        rcases hb' with h | h | h
        · exact Or.inl h
        · rw [h] at h2; cases h2
        · exact Or.inr h
      obtain ⟨bs', fl', hInv, S, hS1, hS2, hS3⟩ :=
        place_inv hH hN hlp' hlc' ha24 ha8 hfit hasz
      refine Or.inr ⟨hbp, bs', fl', hInv, S, hS1, hS2, ?_⟩
      rcases hS3 with h | h <;> omega
    · have hbp0 : bp = 0 := by simpa using hbp
      rw [if_neg hbp] at hm
      have hext8 : max (adjust size) CHUNKSIZE % 8 = 0 := by
        unfold CHUNKSIZE
        rcases Nat.le_total (adjust size) 65536 with h | h
        · rw [Nat.max_eq_right h]
        · rw [Nat.max_eq_left h]; exact ha8
      have hext24 : 24 ≤ max (adjust size) CHUNKSIZE := le_trans ha24 (le_max_left _ _)
      have hextlt : max (adjust size) CHUNKSIZE < 4294967295 := by
        unfold CHUNKSIZE
        rcases Nat.le_total (adjust size) 65536 with h | h
        · rw [Nat.max_eq_right h]; omega
        · rw [Nat.max_eq_left h]; omega
      by_cases hf : grant = true ∧ s.mem_brk + max (adjust size) CHUNKSIZE
          < 18446744073709551616
      · have hge := hc.brk_ge
        have e := extend_heap_ok s (max (adjust size) CHUNKSIZE) grant hext8 hext24 hextlt
          (by omega) hf
        rw [e] at hm
        have hcore := @extend_core s bs fl hI.heap (max (adjust size) CHUNKSIZE) hext8 hext24
        generalize hs4 : ({ s with
          mem_brk := s.mem_brk + max (adjust size) CHUNKSIZE,
          mem := (PUT (PUT (PUT s.mem (s.mem_brk - 4) (max (adjust size) CHUNKSIZE))
            (s.mem_brk + max (adjust size) CHUNKSIZE - 8) (max (adjust size) CHUNKSIZE))
            (s.mem_brk + max (adjust size) CHUNKSIZE - 4) 1) } : State) = s4 at hm hcore
        have h4b : s4.mem_brk = s.mem_brk + max (adjust size) CHUNKSIZE := by rw [← hs4]
        have h4l : s4.mem_lo = s.mem_lo := by rw [← hs4]
        have h4f : s4.free_listp = s.free_listp := by rw [← hs4]
        have h4m : s4.mem = PUT (PUT (PUT s.mem (s.mem_brk - 4) (max (adjust size) CHUNKSIZE))
            (s.mem_brk + max (adjust size) CHUNKSIZE - 8) (max (adjust size) CHUNKSIZE))
            (s.mem_brk + max (adjust size) CHUNKSIZE - 4) 1 := by rw [← hs4]
        -- the break after the call
        have hbrk' : s'.mem_brk = s4.mem_brk ∧ s'.mem_lo = s4.mem_lo := by
          split_ifs at hm with h2
          · simp only [Option.some.injEq, Prod.mk.injEq] at hm
            rw [← hm.1]
            exact ⟨(coalesce_region s4 s.mem_brk).2, (coalesce_region s4 s.mem_brk).1⟩
          · simp only [Option.some.injEq, Prod.mk.injEq] at hm
            rw [← hm.1, (place_region (coalesce s4 s.mem_brk).1 _ _).1,
              (place_region (coalesce s4 s.mem_brk).1 _ _).2]
            exact ⟨(coalesce_region s4 s.mem_brk).2, (coalesce_region s4 s.mem_brk).1⟩
        have hbnd : s.mem_brk + max (adjust size) CHUNKSIZE < s.mem_lo + 4294967296 := by
          unfold Bounded at hb'
          rw [hbrk'.1, hbrk'.2, h4b, h4l] at hb'
          exact hb'
        obtain ⟨c4, f4⟩ := hcore hbnd hf.2
        rw [← h4m, ← h4f] at f4
        have hp4 : fl.Perm (freeAddrs (bs ++ [])) := by
          rw [List.append_nil]; exact hI.heap.perm
        obtain ⟨pre', post', S, fl', hH, hN, hA, hsub, hS⟩ :=
          coalesce_inv c4 f4 hp4 hI.noadj (by unfold NoAdjFree; exact List.chain'_nil)
        simp only [List.append_nil] at hA hsub
        have hblk : (⟨(coalesce s4 s.mem_brk).2, S, false⟩ : Blk) ∈
            pre' ++ ⟨(coalesce s4 s.mem_brk).2, S, false⟩ :: post' := by simp
        have hnz := (hH.core.mem_bounds hblk).1
        simp only at hnz
        have hlo' := hH.core.lo_pos
        rw [if_neg (by omega)] at hm
        simp only [Option.some.injEq, Prod.mk.injEq] at hm
        obtain ⟨hs', hp'⟩ := hm
        subst hs' hp'
        have hlp' : (live.map Prod.fst).Perm (allocAddrs (pre' ++ post')) := by
          rw [hA]; exact hI.live_perm
        have hlc' : ∀ e ∈ live, ∃ b' ∈ pre' ++ post',
            b'.bp = e.1 ∧ b'.alloc = true ∧ e.2 + 8 ≤ b'.size := by
          intro e he
          obtain ⟨b', hb', h1, h2, h3⟩ := hI.live_cap e he
          exact ⟨b', hsub b' hb' h2, h1, h2, h3⟩
        obtain ⟨bs', fl'', hInv, S', hS1, hS2, hS3⟩ :=
          place_inv hH hN hlp' hlc' ha24 ha8 (le_trans (le_max_left _ _) hS) hasz
        refine Or.inr ⟨by omega, bs', fl'', hInv, S', hS1, hS2, ?_⟩
        rcases hS3 with h | h <;> omega
      · have e := extend_heap_fail s (max (adjust size) CHUNKSIZE) grant hext8 (by omega) hf
        rw [e] at hm
        simp only [if_true, Option.some.injEq, Prod.mk.injEq] at hm
        exact Or.inl ⟨hm.2.symm, hm.1.symm⟩


/-! ## Client stores into a live payload -/

theorem store_inv {s : State} {live : Live} {bs : List Blk} {fl : List Nat}
    (hI : Inv s live bs fl) {p off : Nat} (byte : Nat)
    (h : live.any (fun e => e.1 = p ∧ off < e.2) = true) :
    Inv { s with mem := fun a => if a = p + off then byte % 256 else s.mem a } live bs fl := by
  rw [List.any_eq_true] at h
  obtain ⟨e, he, hdec⟩ := h
  have hdec' : e.1 = p ∧ off < e.2 := by simpa using hdec
  obtain ⟨b, hb, hbp, hba, hcap⟩ := hI.live_cap e he
  have hc := hI.heap.core
  have bb := hc.mem_bounds hb
  have hge := hc.brk_ge
  have hx1 : b.bp ≤ p + off := by omega
  have hx2 : p + off + 8 < b.bp + b.size := by omega
  have key : ∀ q, (q + 4 ≤ p + off ∨ p + off < q) →
      GET (fun a => if a = p + off then byte % 256 else s.mem a) q = GET s.mem q := by
    intro q hq
    apply GET_congr
    intro i hi
    show (if q + i = p + off then byte % 256 else s.mem (q + i)) = s.mem (q + i)
    rw [if_neg (by omega)]
  have hcore : HeapCore { s with mem := fun a => if a = p + off then byte % 256 else s.mem a }
      bs := by
    refine ⟨hc.lo_al, hc.lo_pos, hc.hl, hc.brk_lt, hc.bnd, ?_, ?_, ?_, hc.contig, hc.sized, ?_⟩
    · show GET _ (s.mem_lo + 4) = 9
      rw [key _ (by omega)]; exact hc.pro_h
    · show GET _ (s.mem_lo + 8) = 9
      rw [key _ (by omega)]; exact hc.pro_f
    · show GET _ (s.mem_brk - 4) = 1
      rw [key _ (by omega)]; exact hc.epi
    · intro c hcm
      have bc := hc.mem_bounds hcm
      have ht := hc.tags c hcm
      show GET _ (c.bp - 4) = _ ∧ GET _ (c.bp + c.size - 8) = _
      rcases Contig_sep hc.contig hc.sized hb hcm with h1 | h1 | h1
      · subst h1
        rw [key _ (by omega), key _ (by omega)]; exact ht
      · rw [key _ (by omega), key _ (by omega)]; exact ht
      · rw [key _ (by omega), key _ (by omega)]; exact ht
  refine ⟨⟨hcore, ?_, hI.heap.perm⟩, hI.noadj, hI.live_perm, hI.live_cap⟩
  refine FLseg_congr ?_ hI.heap.flist
  intro y hy
  obtain ⟨c, hcm, hcy, hcf⟩ := perm_mem_block hI.heap.perm hy
  subst hcy
  have bc := hc.mem_bounds hcm
  have hsep : b.bp + b.size ≤ c.bp ∨ c.bp + c.size ≤ b.bp := by
    rcases Contig_sep hc.contig hc.sized hb hcm with h1 | h1 | h1
    · subst h1; rw [hba] at hcf; cases hcf
    · exact Or.inl h1
    · exact Or.inr h1
  constructor
  · apply GETP_congr; intro i hi
    show (if c.bp + i = p + off then byte % 256 else s.mem (c.bp + i)) = s.mem (c.bp + i)
    rw [if_neg (by omega)]
  · apply GETP_congr; intro i hi
    show (if c.bp + _ + i = p + off then byte % 256 else s.mem (c.bp + _ + i)) = s.mem _
    rw [if_neg (by omega)]


/-! ## `mm_init` -/

theorem addfree_hl (s : State) (x : Nat) : (addfree s x).heap_listp = s.heap_listp := by
  unfold addfree
  split_ifs <;> rfl

/-- The state in which `mm_init` calls `extend_heap`. -/
theorem mm_init_eq (base : Nat) (m0 : Mem) (g1 g2 : Bool)
    (h : g1 = true ∧ base + 16 < 18446744073709551616) :
    mm_init (State.start base m0) g1 g2 =
      if (extend_heap ⟨PUT (PUT (PUT (PUT m0 base 0) (base + 4) 9) (base + 8) 9) (base + 12) 1,
            base, base + 16, base + 8, 0⟩ 16384 g2).2 = 0 then
        ((extend_heap ⟨PUT (PUT (PUT (PUT m0 base 0) (base + 4) 9) (base + 8) 9) (base + 12) 1,
            base, base + 16, base + 8, 0⟩ 16384 g2).1, -1)
      else
        ({ (extend_heap ⟨PUT (PUT (PUT (PUT m0 base 0) (base + 4) 9) (base + 8) 9) (base + 12) 1,
            base, base + 16, base + 8, 0⟩ 16384 g2).1 with
           free_listp := (extend_heap
             ⟨PUT (PUT (PUT (PUT m0 base 0) (base + 4) 9) (base + 8) 9) (base + 12) 1,
               base, base + 16, base + 8, 0⟩ 16384 g2).1.heap_listp + 8,
           mem := (PUTP (PUTP (extend_heap
             ⟨PUT (PUT (PUT (PUT m0 base 0) (base + 4) 9) (base + 8) 9) (base + 12) 1,
               base, base + 16, base + 8, 0⟩ 16384 g2).1.mem
               ((extend_heap
             ⟨PUT (PUT (PUT (PUT m0 base 0) (base + 4) 9) (base + 8) 9) (base + 12) 1,
               base, base + 16, base + 8, 0⟩ 16384 g2).1.heap_listp + 8 + 8) 0)
               ((extend_heap
             ⟨PUT (PUT (PUT (PUT m0 base 0) (base + 4) 9) (base + 8) 9) (base + 12) 1,
               base, base + 16, base + 8, 0⟩ 16384 g2).1.heap_listp + 8) 0) }, 0) := by
  have e16 : WSIZE <<< 2 = 16 := by decide
  have e9 : PACK DSIZE 1 = 9 := by decide
  have e1 : PACK 0 1 = 1 := by decide
  have ec : CHUNKSIZE / WSIZE = 16384 := by decide
  have hne : base ≠ FAIL := by unfold FAIL; omega
  unfold mm_init mem_sbrk State.start
  simp only [e16, if_pos h, hne, if_false, e9, e1, ec]
  rfl

theorem mm_init_fail (base : Nat) (m0 : Mem) (g1 g2 : Bool)
    (h : ¬ (g1 = true ∧ base + 16 < 18446744073709551616)) :
    (mm_init (State.start base m0) g1 g2).2 = -1 := by
  have e16 : WSIZE <<< 2 = 16 := by decide
  unfold mm_init mem_sbrk State.start
  simp only [e16, if_neg h, if_true]

theorem init_core (base : Nat) (m0 : Mem) (hb8 : base % 8 = 0) (hpos : 0 < base)
    (hlt : base + 16 < 18446744073709551616) :
    HeapInv ⟨PUT (PUT (PUT (PUT m0 base 0) (base + 4) 9) (base + 8) 9) (base + 12) 1,
      base, base + 16, base + 8, 0⟩ [] [] := by
  refine ⟨⟨hb8, hpos, rfl, hlt, ?_, ?_, ?_, ?_, rfl, ?_, ?_⟩, (show (0 : Nat) = 0 from rfl), List.Perm.refl _⟩
  · show base + 16 < base + 4294967296
    omega
  · show GET _ (base + 4) = 9
    rw [GET_PUT_disj _ _ _ _ (by omega), GET_PUT_disj _ _ _ _ (by omega), GET_PUT_same]
  · show GET _ (base + 8) = 9
    rw [GET_PUT_disj _ _ _ _ (by omega), GET_PUT_same]
  · show GET _ (base + 16 - 4) = 1
    have : base + 16 - 4 = base + 12 := by omega
    rw [this, GET_PUT_same]
  · intro b hb; cases hb
  · intro b hb; cases hb

theorem mm_init_inv (base : Nat) (m0 : Mem) (g1 g2 : Bool) (hb8 : base % 8 = 0)
    (hpos : 0 < base) (h0 : (mm_init (State.start base m0) g1 g2).2 = 0) :
    Inv (mm_init (State.start base m0) g1 g2).1 [] [⟨base + 16, 65536, false⟩] [base + 16] ∧
    (mm_init (State.start base m0) g1 g2).1.mem_lo = base ∧
    (mm_init (State.start base m0) g1 g2).1.mem_brk = base + 65552 := by
  by_cases h1 : g1 = true ∧ base + 16 < 18446744073709551616
  swap
  · rw [mm_init_fail base m0 g1 g2 h1] at h0; cases h0
  rw [mm_init_eq base m0 g1 g2 h1] at h0 ⊢
  have hH := init_core base m0 hb8 hpos h1.2
  generalize hs5 : (⟨PUT (PUT (PUT (PUT m0 base 0) (base + 4) 9) (base + 8) 9) (base + 12) 1,
      base, base + 16, base + 8, 0⟩ : State) = s5 at h0 hH ⊢
  have h5b : s5.mem_brk = base + 16 := by rw [← hs5]
  have h5l : s5.mem_lo = base := by rw [← hs5]
  have h5f : s5.free_listp = 0 := by rw [← hs5]
  have h5h : s5.heap_listp = base + 8 := by rw [← hs5]
  have hext : (16384 : Nat) = 65536 / WSIZE := by unfold WSIZE; norm_num
  rw [hext] at h0 ⊢
  by_cases h2 : g2 = true ∧ s5.mem_brk + 65536 < 18446744073709551616
  swap
  · rw [extend_heap_fail s5 65536 g2 (by norm_num) (by norm_num) h2] at h0
    simp at h0
  have e := extend_heap_ok s5 65536 g2 (by norm_num) (by norm_num) (by norm_num) (by omega) h2
  obtain ⟨c4, f4⟩ := extend_core hH 65536 (by norm_num) (by norm_num) (by omega) h2.2
  rw [e] at h0 ⊢
  generalize hs4 : ({ s5 with
      mem_brk := s5.mem_brk + 65536,
      mem := (PUT (PUT (PUT s5.mem (s5.mem_brk - 4) 65536) (s5.mem_brk + 65536 - 8) 65536)
        (s5.mem_brk + 65536 - 4) 1) } : State) = s4 at h0 c4 ⊢
  have h4b : s4.mem_brk = s5.mem_brk + 65536 := by rw [← hs4]
  have h4l : s4.mem_lo = s5.mem_lo := by rw [← hs4]
  have h4f : s4.free_listp = s5.free_listp := by rw [← hs4]
  have h4h : s4.heap_listp = s5.heap_listp := by rw [← hs4]
  have h4m : s4.mem = PUT (PUT (PUT s5.mem (s5.mem_brk - 4) 65536) (s5.mem_brk + 65536 - 8)
      65536) (s5.mem_brk + 65536 - 4) 1 := by rw [← hs4]
  rw [← h4m, ← h4f] at f4
  simp only [List.nil_append] at c4
  have hpa := @prev_read_nil s4 [] ⟨s5.mem_brk, 65536, false⟩ c4
  have hna := (@next_read_nil s4 [] ⟨s5.mem_brk, 65536, false⟩ c4).2
  have hc1 := @coalesce_case1 s4 [] [] s5.mem_brk 65536 [] c4 f4 (List.Perm.refl _) hpa hna
  simp only [List.nil_append] at hc1
  obtain ⟨hce, hHI⟩ := hc1
  have hfa := finish_add s5.mem_brk c4 f4 (List.Perm.refl _)
  rw [hce] at h0 ⊢
  simp only at h0 ⊢
  rw [if_neg (by omega)]
  have hhl : (addfree s4 s5.mem_brk).heap_listp + 8 = s5.mem_brk := by
    rw [addfree_hl, h4h, h5h, h5b]
  simp only [hhl]
  have hfl := hHI.flist
  rw [hfa.2.1] at hfl
  obtain ⟨_, hx0, hprev, hnext⟩ := hfl
  have hnext' : NEXT_FREEP (addfree s4 s5.mem_brk).mem s5.mem_brk = 0 := hnext
  unfold NEXT_FREEP at hnext'
  unfold PREV_FREEP DSIZE at hprev
  have hlo : (addfree s4 s5.mem_brk).mem_lo = base := by rw [hfa.2.2.2.1, h4l, h5l]
  have hbrk : (addfree s4 s5.mem_brk).mem_brk = base + 65552 := by
    have := hfa.2.2.2.2
    omega
  refine ⟨⟨⟨?_, ?_, ?_⟩, ?_, ?_, ?_⟩, hlo, hbrk⟩
  · have hcore := hHI.core
    rw [← h5b]
    refine HeapCore.frame hcore [s5.mem_brk] ?_ ?_ rfl rfl rfl
    · intro y hy
      rw [List.mem_singleton] at hy
      exact ⟨⟨s5.mem_brk, 65536, false⟩, by simp, hy.symm⟩
    · intro a ha
      have := ha s5.mem_brk (by simp)
      show PUTP (PUTP _ (s5.mem_brk + 8) 0) s5.mem_brk 0 a = _
      rw [PUTP_out _ _ _ _ (by omega), PUTP_out _ _ _ _ (by omega)]
  · rw [← h5b]
    refine ⟨rfl, hx0, ?_, ?_⟩
    · show GETP (PUTP (PUTP _ (s5.mem_brk + 8) 0) s5.mem_brk 0) (s5.mem_brk + 8) = 0
      rw [GETP_PUTP_disj _ _ _ _ (by omega), GETP_PUTP_same _ _ _ (by omega)]
    · show GETP (PUTP (PUTP _ (s5.mem_brk + 8) 0) s5.mem_brk 0) s5.mem_brk = 0
      rw [GETP_PUTP_same _ _ _ (by omega)]
  · rw [← h5b]; exact hHI.perm
  · unfold NoAdjFree; exact List.chain'_singleton _
  · exact List.Perm.refl _
  · intro e he; cases he


/-! ## The region only grows -/

theorem extend_heap_region (s : State) (words : Nat) (grant : Bool) :
    (extend_heap s words grant).1.mem_lo = s.mem_lo ∧
      s.mem_brk ≤ (extend_heap s words grant).1.mem_brk := by
  unfold extend_heap mem_sbrk
  dsimp only
  split_ifs <;>
    simp only [(coalesce_region _ _).1, (coalesce_region _ _).2, true_and, le_refl,
      Nat.le_add_right]

theorem mm_malloc_region {fuel : Nat} {s : State} {size : Nat} {grant : Bool} {s' : State}
    {p : Nat} (hm : mm_malloc fuel s size grant = some (s', p)) :
    s'.mem_lo = s.mem_lo ∧ s.mem_brk ≤ s'.mem_brk := by
  unfold mm_malloc at hm
  by_cases h0 : size = 0
  · rw [if_pos h0] at hm
    simp only [Option.some.injEq, Prod.mk.injEq] at hm
    rw [← hm.1]; exact ⟨rfl, le_refl _⟩
  · rw [if_neg h0] at hm
    dsimp only at hm
    cases hff : find_fit fuel s (adjust size) with
    | none => rw [hff] at hm; simp at hm
    | some bp =>
      rw [hff] at hm
      simp only at hm
      have hE := extend_heap_region s (max (adjust size) CHUNKSIZE / WSIZE) grant
      by_cases h1 : bp ≠ 0
      · rw [if_pos h1] at hm
        simp only [Option.some.injEq, Prod.mk.injEq] at hm
        rw [← hm.1, (place_region _ _ _).1, (place_region _ _ _).2]
        exact ⟨rfl, le_refl _⟩
      · rw [if_neg h1] at hm
        by_cases h2 : (extend_heap s (max (adjust size) CHUNKSIZE / WSIZE) grant).2 = 0
        · rw [if_pos h2] at hm
          simp only [Option.some.injEq, Prod.mk.injEq] at hm
          rw [← hm.1]; exact hE
        · rw [if_neg h2] at hm
          simp only [Option.some.injEq, Prod.mk.injEq] at hm
          rw [← hm.1, (place_region _ _ _).1, (place_region _ _ _).2]
          exact hE

theorem mm_free_region (s : State) (p : Nat) :
    (mm_free s p).mem_lo = s.mem_lo ∧ (mm_free s p).mem_brk = s.mem_brk := by
  unfold mm_free
  dsimp only
  rw [(coalesce_region _ _).1, (coalesce_region _ _).2]
  exact ⟨rfl, rfl⟩

theorem step_region {bound fuel : Nat} {c c' : State × Live} {op : Op}
    (h : step bound fuel c op = some c') :
    c'.1.mem_lo = c.1.mem_lo ∧ c.1.mem_brk ≤ c'.1.mem_brk := by
  cases op with
  | malloc size grant =>
    simp only [step] at h
    split_ifs at h with hb
    cases hm : mm_malloc fuel c.1 size grant with
    | none => rw [hm] at h; simp at h
    | some r =>
      rw [hm] at h
      simp only [Option.some.injEq] at h
      rw [← h]
      exact mm_malloc_region (show mm_malloc fuel c.1 size grant = some (r.1, r.2) from hm)
  | free p =>
    simp only [step] at h
    split_ifs at h with hb
    simp only [Option.some.injEq] at h
    rw [← h]
    exact ⟨(mm_free_region _ _).1, le_of_eq (mm_free_region _ _).2.symm⟩
  | store p off byte =>
    simp only [step] at h
    split_ifs at h with hb
    simp only [Option.some.injEq] at h
    rw [← h]
    exact ⟨rfl, le_refl _⟩

theorem run_region {bound fuel : Nat} {ops : List Op} {c c' : State × Live}
    (h : run bound fuel ops c = some c') :
    c'.1.mem_lo = c.1.mem_lo ∧ c.1.mem_brk ≤ c'.1.mem_brk := by
  induction ops generalizing c with
  | nil =>
    simp only [run, Option.some.injEq] at h
    rw [← h]; exact ⟨rfl, le_refl _⟩
  | cons op ops ih =>
    simp only [run] at h
    cases hs : step bound fuel c op with
    | none => rw [hs] at h; simp at h
    | some c1 =>
      rw [hs] at h
      have h1 := step_region hs
      have h2 := ih h
      exact ⟨h2.1.trans h1.1, le_trans h1.2 h2.2⟩

/-! ## The invariant holds in every reachable state below 4 GiB -/

theorem step_inv {fuel : Nat} {c c' : State × Live} {op : Op} {bs : List Blk} {fl : List Nat}
    (hI : Inv c.1 c.2 bs fl) (h : step 2147483648 fuel c op = some c') (hb : Bounded c'.1) :
    ∃ bs' fl', Inv c'.1 c'.2 bs' fl' := by
  cases op with
  | malloc size grant =>
    simp only [step] at h
    split_ifs at h with hsz
    cases hm : mm_malloc fuel c.1 size grant with
    | none => rw [hm] at h; simp at h
    | some r =>
      rw [hm] at h
      simp only [Option.some.injEq] at h
      subst h
      have hm' : mm_malloc fuel c.1 size grant = some (r.1, r.2) := hm
      rcases mm_malloc_inv hI hsz hm' hb with ⟨hp, hs⟩ | ⟨hp, bs', fl', hInv, _⟩
      · refine ⟨bs, fl, ?_⟩
        simp only [hp, if_true]
        rw [hs]
        exact hI
      · refine ⟨bs', fl', ?_⟩
        simp only [hp, if_false]
        exact hInv
  | free p =>
    simp only [step] at h
    split_ifs at h with hpl
    simp only [Option.some.injEq] at h
    subst h
    exact mm_free_inv hI hpl
  | store p off byte =>
    simp only [step] at h
    split_ifs at h with hpl
    simp only [Option.some.injEq] at h
    subst h
    exact ⟨bs, fl, store_inv hI byte hpl⟩

theorem run_inv {fuel : Nat} {ops : List Op} {c c' : State × Live} {bs : List Blk}
    {fl : List Nat} (hI : Inv c.1 c.2 bs fl) (h : run 2147483648 fuel ops c = some c')
    (hb : Bounded c'.1) : ∃ bs' fl', Inv c'.1 c'.2 bs' fl' := by
  induction ops generalizing c bs fl with
  | nil =>
    simp only [run, Option.some.injEq] at h
    subst h
    exact ⟨bs, fl, hI⟩
  | cons op ops ih =>
    simp only [run] at h
    cases hs : step 2147483648 fuel c op with
    | none => rw [hs] at h; simp at h
    | some c1 =>
      rw [hs] at h
      have hr := run_region h
      have hb1 : Bounded c1.1 := by
        unfold Bounded at hb ⊢
        omega
      obtain ⟨bs1, fl1, hI1⟩ := step_inv hI hs hb1
      exact ih hI1 h

theorem reach_inv {s : State} {live : Live} (hr : Reachable s live) (hb : Bounded s) :
    ∃ bs fl, Inv s live bs fl := by
  obtain ⟨base, m0, g1, g2, fuel, ops, h8, hpos, h0, hrun⟩ := hr
  have hi := (mm_init_inv base m0 g1 g2 h8 hpos h0).1
  exact run_inv (c := ((mm_init (State.start base m0) g1 g2).1, [])) hi hrun hb


/-! ## The scans of `mm_checkheap` on a well-formed heap -/

theorem heap_walk_of_contig {m : Mem} {bs : List Blk} {a e : Nat} (hc : Contig a bs e)
    (ht : Tags m bs) (hs : Sized bs) (hlt : ∀ b ∈ bs, b.size < 4294967280)
    (hepi : GET m (e - 4) = 1) (fuel : Nat) (hf : bs.length < fuel) :
    heap_walk m fuel a = some (bs.map Blk.bp, e) := by
  induction bs generalizing a fuel with
  | nil =>
    have ha : a = e := hc
    subst ha
    cases fuel with
    | zero => cases hf
    | succ k =>
      have h0 : GET_SIZE m (HDRP a) = 0 :=
        @GET_SIZE_of_GET m (a - 4) 0 1 (by rw [hepi]) (by omega) (by omega)
      simp [heap_walk, h0]
  | cons b bs ih =>
    obtain ⟨hb, hrest⟩ := hc
    subst hb
    cases fuel with
    | zero => cases hf
    | succ k =>
      have htb := ht b (List.mem_cons_self _ _)
      have hsb := hs b (List.mem_cons_self _ _)
      have h1 : GET_SIZE m (HDRP b.bp) = b.size := tag_size htb.1 hsb.2
      have h2 : NEXT_BLKP m b.bp = b.bp + b.size := by unfold NEXT_BLKP; rw [h1]
      have hrec := ih hrest (fun c hc => ht c (List.mem_cons_of_mem _ hc))
        (fun c hc => hs c (List.mem_cons_of_mem _ hc))
        (fun c hc => hlt c (List.mem_cons_of_mem _ hc)) k (by simpa using hf)
      have hpos : GET_SIZE m (HDRP b.bp) > 0 := by rw [h1]; omega
      simp only [heap_walk, hpos, if_true, h2, hrec, List.map_cons]

theorem heap_walk_of_core {s : State} {bs : List Blk} (hc : HeapCore s bs) (fuel : Nat)
    (hf : bs.length < fuel) :
    heap_walk s.mem fuel (s.heap_listp + DSIZE) = some (bs.map Blk.bp, s.mem_brk) := by
  have e : s.heap_listp + DSIZE = s.mem_lo + 16 := by rw [hc.hl]; unfold DSIZE; omega
  rw [e]
  exact heap_walk_of_contig hc.contig hc.tags hc.sized
    (fun b hb => (hc.mem_bounds hb).2.2.2.2.2.1) hc.epi fuel hf

theorem free_nth_of_FLseg {m : Mem} {l : List Nat} {h p : Nat} (hfl : FLseg m h p l 0)
    (n : Nat) : free_nth m h n = l.getD n 0 := by
  induction n generalizing l h p with
  | zero =>
    cases l with
    | nil => exact hfl
    | cons x xs => exact hfl.1
  | succ k ih =>
    cases l with
    | nil =>
      have h0 : h = 0 := hfl
      have := ih hfl
      simp only [free_nth, this, List.getD_nil, if_true]
    | cons x xs =>
      obtain ⟨h1, h2, _, h4⟩ := hfl
      subst h1
      have key : ∀ j, free_nth m h (j + 1) = free_nth m (NEXT_FREEP m h) j := by
        intro j
        induction j with
        | zero => simp [free_nth, h2]
        | succ i ihi =>
          show (if free_nth m h (i + 1) = 0 then 0 else NEXT_FREEP m (free_nth m h (i + 1))) = _
          rw [ihi]
          rfl
      rw [key, ih h4]
      simp

theorem nofit_of_FL {s : State} {fl : List Nat} (hfl : FL s.mem s.free_listp fl) (need : Nat) :
    NoFit s need ↔ ∀ y ∈ fl, GET_SIZE s.mem (HDRP y) < need := by
  have hnz : ∀ y ∈ fl, y ≠ 0 := fun y hy => FLseg_ne_zero hfl y hy
  unfold NoFit
  constructor
  · intro h y hy
    obtain ⟨n, hn, hy'⟩ := List.getElem_of_mem hy
    have e := free_nth_of_FLseg hfl n
    rw [List.getD_eq_getElem _ _ hn, hy'] at e
    have := h n (by rw [e]; exact hnz y hy)
    rw [e] at this
    exact this
  · intro h n hn
    have e := free_nth_of_FLseg hfl n
    rw [e] at hn ⊢
    by_cases hlt : n < fl.length
    · rw [List.getD_eq_getElem _ _ hlt]
      exact h _ (List.getElem_mem _)
    · rw [List.getD_eq_default _ _ (by omega)] at hn
      exact absurd rfl hn


/-! ## `mm_free`, case by case -/

/-- The state in which `mm_free` calls `coalesce`, and what holds there. -/
theorem free_retag {s : State} {pre post : List Blk} {b : Blk} {fl : List Nat}
    (hH : HeapInv s (pre ++ b :: post) fl) (hba : b.alloc = true) :
    HeapCore { s with
      mem := (PUT (PUT s.mem (HDRP b.bp) (PACK b.size 0)) (b.bp + b.size - 8)
        (PACK b.size 0)) } (pre ++ ⟨b.bp, b.size, false⟩ :: post) ∧
    FL (PUT (PUT s.mem (HDRP b.bp) (PACK b.size 0)) (b.bp + b.size - 8) (PACK b.size 0))
      s.free_listp fl ∧
    fl.Perm (freeAddrs (pre ++ post)) ∧
    mm_free s b.bp = (coalesce { s with
      mem := (PUT (PUT s.mem (HDRP b.bp) (PACK b.size 0)) (b.bp + b.size - 8)
        (PACK b.size 0)) } b.bp).1 := by
  have hc := hH.core
  have hb : b ∈ pre ++ b :: post := by simp
  have bb := hc.mem_bounds hb
  have hcon := hc.contig
  rw [Contig_mid] at hcon
  obtain ⟨hcpre, hcpost⟩ := hcon
  have hpf : fl.Perm (freeAddrs (pre ++ post)) := by
    have := hH.perm
    rw [freeAddrs_append, freeAddrs_cons_alloc _ _ hba] at this
    rw [freeAddrs_append]
    exact this
  have hout : ∀ y ∈ fl, y + 24 ≤ b.bp ∨ b.bp + b.size ≤ y := by
    intro y hy
    obtain ⟨b', hb', h1, _⟩ := perm_mem_block hpf hy
    subst h1
    rcases List.mem_append.1 hb' with hb' | hb'
    · have := Contig_bounds hcpre hb'
      have := (hc.mem_bounds (List.mem_append_left _ hb')).2.2.1
      left; omega
    · have := Contig_bounds hcpost hb'
      right; omega
  obtain ⟨c2, f2⟩ := @retag_step s (pre ++ b :: post) pre post fl b.bp b.size false hc
    (fun c hc' => List.mem_append_left _ hc')
    (fun c hc' => List.mem_append_right _ (List.mem_cons_of_mem _ hc'))
    hcpre hcpost (by omega) (by omega) hH.flist hout
    (PUT (PUT s.mem (HDRP b.bp) (PACK b.size 0)) (b.bp + b.size - 8) (PACK b.size 0)) rfl
  exact ⟨c2, f2, hpf, mm_free_eq hc hb⟩

theorem prev_hdr_nil {s : State} {post : List Blk} {b : Blk} (hc : HeapCore s (b :: post)) :
    prev_is_free s b.bp = false := by
  have hcon := hc.contig
  have hb : b.bp = s.mem_lo + 16 := hcon.1
  have h1 : GET_SIZE s.mem (s.mem_lo + 8) = 8 :=
    @GET_SIZE_of_GET s.mem (s.mem_lo + 8) 8 1 hc.pro_f (by omega) (by omega)
  have e1 : PREV_BLKP s.mem b.bp = s.mem_lo + 8 := by
    unfold PREV_BLKP DSIZE
    have : b.bp - 8 = s.mem_lo + 8 := by omega
    rw [this, h1]; omega
  have e2 : GET_ALLOC s.mem (HDRP (s.mem_lo + 8)) = 1 := by
    unfold HDRP WSIZE
    have : s.mem_lo + 8 - 4 = s.mem_lo + 4 := by omega
    rw [this]
    exact @GET_ALLOC_of_GET s.mem (s.mem_lo + 4) 8 1 hc.pro_h (by omega) (by omega)
  unfold prev_is_free
  rw [e1, e2]
  rfl

theorem prev_hdr {s : State} {pre post : List Blk} {c b : Blk}
    (hc : HeapCore s (pre ++ c :: b :: post)) :
    PREV_BLKP s.mem b.bp = c.bp ∧ prev_is_free s b.bp = !c.alloc ∧
      GET_SIZE s.mem (HDRP c.bp) = c.size := by
  have hbc : c ∈ pre ++ c :: b :: post := by simp
  have rc := hc.read hbc
  have hp := prev_read hc
  refine ⟨hp.1, ?_, rc.1⟩
  unfold prev_is_free
  rw [hp.1, rc.2.1]
  cases c.alloc <;> rfl

theorem next_hdr {s : State} {pre post : List Blk} {b d : Blk}
    (hc : HeapCore s (pre ++ b :: d :: post)) :
    NEXT_BLKP s.mem b.bp = d.bp ∧ next_is_free s b.bp = !d.alloc ∧
      GET_SIZE s.mem (HDRP d.bp) = d.size := by
  have hbd : d ∈ pre ++ b :: d :: post := by simp
  have rd := hc.read hbd
  have hn := next_read hc
  refine ⟨hn.1, ?_, rd.1⟩
  unfold next_is_free
  rw [hn.2]
  cases d.alloc <;> rfl

theorem next_hdr_nil {s : State} {pre : List Blk} {b : Blk} (hc : HeapCore s (pre ++ [b])) :
    next_is_free s b.bp = false := by
  unfold next_is_free
  rw [(next_read_nil hc).2]
  rfl

/-- The two shapes of the heap before a block: the neighbour is allocated (or
is the prologue), or it is a free block `c`. -/
theorem prev_cases {s s2 : State} {pre post : List Blk} {b : Blk}
    (hc : HeapCore s (pre ++ b :: post))
    (hc2 : HeapCore s2 (pre ++ ⟨b.bp, b.size, false⟩ :: post)) :
    (prev_is_free s b.bp = false ∧ last_free pre = none ∧
        GET_ALLOC s2.mem (FTRP s2.mem (PREV_BLKP s2.mem b.bp)) = 1) ∨
    (∃ P c, pre = P ++ [c] ∧ c.alloc = false ∧ prev_is_free s b.bp = true ∧
        PREV_BLKP s.mem b.bp = c.bp ∧ GET_SIZE s.mem (HDRP c.bp) = c.size) := by
  rcases List.eq_nil_or_concat pre with hpre | ⟨P, c, hpre⟩
  · subst hpre
    left
    exact ⟨prev_hdr_nil (by simpa using hc), rfl,
      @prev_read_nil s2 post ⟨b.bp, b.size, false⟩ (by simpa using hc2)⟩
  · rw [List.concat_eq_append] at hpre
    subst hpre
    have hc' : HeapCore s (P ++ c :: b :: post) := by simpa using hc
    have hc2' : HeapCore s2 (P ++ c :: ⟨b.bp, b.size, false⟩ :: post) := by simpa using hc2
    have h1 := prev_hdr hc'
    have h2 := @prev_read s2 P post c ⟨b.bp, b.size, false⟩ hc2'
    simp only at h2
    by_cases hca : c.alloc = true
    · left
      refine ⟨by rw [h1.2.1, hca]; rfl, by simp [last_free, hca], by rw [h2.2.1, hca]; rfl⟩
    · have hcf : c.alloc = false := by simpa using hca
      right
      exact ⟨P, c, rfl, hcf, by rw [h1.2.1, hcf]; rfl, h1.1, h1.2.2⟩

/-- The two shapes of the heap after a block. -/
theorem next_cases {s s2 : State} {pre post : List Blk} {b : Blk}
    (hc : HeapCore s (pre ++ b :: post))
    (hc2 : HeapCore s2 (pre ++ ⟨b.bp, b.size, false⟩ :: post)) :
    (next_is_free s b.bp = false ∧ head_free post = none ∧
        GET_ALLOC s2.mem (HDRP (NEXT_BLKP s2.mem b.bp)) = 1) ∨
    (∃ d Q, post = d :: Q ∧ d.alloc = false ∧ next_is_free s b.bp = true ∧
        NEXT_BLKP s.mem b.bp = d.bp ∧ GET_SIZE s.mem (HDRP d.bp) = d.size) := by
  cases post with
  | nil =>
    left
    exact ⟨next_hdr_nil hc, rfl, (@next_read_nil s2 pre ⟨b.bp, b.size, false⟩ hc2).2⟩
  | cons d Q =>
    have h1 := next_hdr hc
    have h2 := @next_read s2 pre Q ⟨b.bp, b.size, false⟩ d hc2
    simp only at h2
    by_cases hda : d.alloc = true
    · left
      exact ⟨by rw [h1.2.1, hda]; rfl, by simp [head_free, hda], by rw [h2.2, hda]; rfl⟩
    · have hdf : d.alloc = false := by simpa using hda
      right
      exact ⟨d, Q, rfl, hdf, by rw [h1.2.1, hdf]; rfl, h1.1, h1.2.2⟩


/-- What `mm_free` leaves behind, in the terms of the block freed and of its
two neighbours as they were tagged before the call. -/
theorem mm_free_merge {s : State} {pre post : List Blk} {b : Blk} {fl : List Nat}
    (hH : HeapInv s (pre ++ b :: post) fl) (hba : b.alloc = true) :
    HeapInv (mm_free s b.bp) (mergeBlocks pre b post)
        (merged_start s b.bp :: merged_rest s b.bp fl) ∧
      (⟨merged_start s b.bp, merged_size s b.bp, false⟩ : Blk) ∈ mergeBlocks pre b post ∧
      (next_is_free s b.bp = true →
        NEXT_BLKP s.mem b.bp ∉ merged_start s b.bp :: merged_rest s b.bp fl) := by
  have hc := hH.core
  have hb : b ∈ pre ++ b :: post := by simp
  have rb := hc.read hb
  have bb := hc.mem_bounds hb
  have hnd : fl.Nodup := far_nodup (perm_far hH.perm hc.contig hc.sized)
  obtain ⟨c2, f2, hpf, e⟩ := free_retag hH hba
  have hP := prev_cases hc c2
  have hN := next_cases hc c2
  generalize hs2 : ({ s with
      mem := (PUT (PUT s.mem (HDRP b.bp) (PACK b.size 0)) (b.bp + b.size - 8)
        (PACK b.size 0)) } : State) = s2 at c2 e hP hN
  have h2m : s2.mem = PUT (PUT s.mem (HDRP b.bp) (PACK b.size 0)) (b.bp + b.size - 8)
      (PACK b.size 0) := by rw [← hs2]
  have h2f : s2.free_listp = s.free_listp := by rw [← hs2]
  rw [← h2m, ← h2f] at f2
  rw [e]
  rcases hP with ⟨hp1, hlf, hpa⟩ | ⟨P, c, hpre, hcf, hp1, hp2, hp3⟩
  · rcases hN with ⟨hn1, hhf, hna⟩ | ⟨d, Q, hpost, hdf, hn1, hn2, hn3⟩
    · obtain ⟨e1, hi⟩ := coalesce_case1 c2 f2 hpf hpa hna
      rw [e1]
      have es : merged_start s b.bp = b.bp := by unfold merged_start; rw [hp1]; rfl
      have ez : merged_size s b.bp = b.size := by
        unfold merged_size; rw [hp1, hn1, rb.1]; rfl
      have er : merged_rest s b.bp fl = fl := by
        unfold merged_rest; rw [hp1, hn1]; rfl
      have em : mergeBlocks pre b post = pre ++ ⟨b.bp, b.size, false⟩ :: post := by
        unfold mergeBlocks; rw [hlf, hhf]
      rw [es, ez, er, em]
      refine ⟨hi, by simp, ?_⟩
      intro h; rw [hn1] at h; cases h
    · subst hpost
      have hhf : head_free (d :: Q) = some d := by simp [head_free, hdf]
      have hpf' : fl.Perm (freeAddrs (pre ++ d :: Q)) := hpf
      obtain ⟨e1, hi⟩ := coalesce_case2 c2 f2 hpf' hpa hdf
      have es : merged_start s b.bp = b.bp := by unfold merged_start; rw [hp1]; rfl
      have ez : merged_size s b.bp = b.size + d.size := by
        unfold merged_size; rw [hp1, hn1, rb.1, hn2, hn3]; rfl
      have er : merged_rest s b.bp fl = fl.erase d.bp := by
        unfold merged_rest; rw [hp1, hn1, hn2]; rfl
      have em : mergeBlocks pre b (d :: Q) = pre ++ ⟨b.bp, b.size + d.size, false⟩ :: Q := by
        unfold mergeBlocks; rw [hlf, hhf]; rfl
      rw [es, ez, er, em]
      refine ⟨hi, by simp, ?_⟩
      intro _
      rw [hn2]
      have hd := hc.mem_bounds (show d ∈ pre ++ b :: d :: Q by simp)
      have hcon := hc.contig
      rw [Contig_mid] at hcon
      have hdb : d.bp = b.bp + b.size := hcon.2.1
      simp only [List.mem_cons, not_or]
      refine ⟨by omega, ?_⟩
      intro hmem
      exact (List.Nodup.mem_erase_iff hnd).1 hmem |>.1 rfl
  · subst hpre
    have c2' : HeapCore s2 (P ++ c :: ⟨b.bp, b.size, false⟩ :: post) := by simpa using c2
    have hlf : last_free (P ++ [c]) = some c := by simp [last_free, hcf]
    rcases hN with ⟨hn1, hhf, hna⟩ | ⟨d, Q, hpost, hdf, hn1, hn2, hn3⟩
    · have hpf' : fl.Perm (freeAddrs (P ++ c :: post)) := by simpa using hpf
      obtain ⟨e1, hi⟩ := coalesce_case3 c2' f2 hpf' hna hcf
      have es : merged_start s b.bp = c.bp := by unfold merged_start; rw [hp1, hp2]; rfl
      have ez : merged_size s b.bp = b.size + c.size := by
        unfold merged_size; rw [hp1, hn1, rb.1, hp2, hp3]; rfl
      have er : merged_rest s b.bp fl = fl.erase c.bp := by
        unfold merged_rest; rw [hp1, hn1, hp2]; rfl
      have em : mergeBlocks (P ++ [c]) b post
          = P ++ ⟨c.bp, b.size + c.size, false⟩ :: post := by
        unfold mergeBlocks; rw [hlf, hhf]; simp
      rw [es, ez, er, em]
      refine ⟨hi, by simp, ?_⟩
      intro h; rw [hn1] at h; cases h
    · subst hpost
      have hhf : head_free (d :: Q) = some d := by simp [head_free, hdf]
      have c2'' : HeapCore s2 (P ++ c :: ⟨b.bp, b.size, false⟩ :: d :: Q) := c2'
      have hpf' : fl.Perm (freeAddrs (P ++ c :: d :: Q)) := by simpa using hpf
      obtain ⟨e1, hi⟩ := coalesce_case4 c2'' f2 hpf' hcf hdf
      have es : merged_start s b.bp = c.bp := by unfold merged_start; rw [hp1, hp2]; rfl
      have ez : merged_size s b.bp = b.size + (c.size + d.size) := by
        unfold merged_size; rw [hp1, hn1, rb.1, hp2, hp3, hn2, hn3]
        simp only [if_true]; omega
      have er : merged_rest s b.bp fl = (fl.erase c.bp).erase d.bp := by
        unfold merged_rest; rw [hp1, hn1, hp2, hn2]; rfl
      have em : mergeBlocks (P ++ [c]) b (d :: Q)
          = P ++ ⟨c.bp, b.size + (c.size + d.size), false⟩ :: Q := by
        unfold mergeBlocks; rw [hlf, hhf]; simp
      rw [es, ez, er, em]
      refine ⟨hi, by simp, ?_⟩
      intro _
      rw [hn2]
      have hcon := hc.contig
      rw [show P ++ [c] ++ b :: d :: Q = (P ++ [c]) ++ b :: (d :: Q) from rfl,
        Contig_mid] at hcon
      have hdb : d.bp = b.bp + b.size := hcon.2.1
      have hcb := (prev_read (show HeapCore s (P ++ c :: b :: d :: Q) by simpa using hc)).2.2
      have hcs := (hc.mem_bounds (show c ∈ P ++ [c] ++ b :: d :: Q by simp)).2.2.1
      simp only [List.mem_cons, not_or]
      refine ⟨by omega, ?_⟩
      intro hmem
      exact (List.Nodup.mem_erase_iff (hnd.erase _)).1 hmem |>.1 rfl


/-! ## `mm_malloc`, branch by branch -/

theorem mem_sbrk_fail_iff (s : State) (ext : Nat) (grant : Bool) (hpos : 0 < ext) :
    (mem_sbrk s ext grant).2 = FAIL ↔
      ¬ (grant = true ∧ s.mem_brk + ext < 18446744073709551616) := by
  unfold mem_sbrk FAIL
  by_cases h : grant = true ∧ s.mem_brk + ext < 18446744073709551616
  · rw [if_pos h]
    simp only [h, and_self, not_true_eq_false, iff_false]
    omega
  · rw [if_neg h]
    simp only [h, not_false_eq_true]

theorem extend_heap_brk (s : State) (ext : Nat) (grant : Bool) (h8 : ext % 8 = 0)
    (hpos : 0 < ext) (hlt : ext < 18446744073709551616)
    (hf : grant = true ∧ s.mem_brk + ext < 18446744073709551616) :
    (extend_heap s (ext / WSIZE) grant).1.mem_brk = s.mem_brk + ext ∧
      (extend_heap s (ext / WSIZE) grant).1.mem_lo = s.mem_lo := by
  unfold extend_heap
  simp only [extend_size ext h8 hlt]
  unfold mem_sbrk
  rw [if_pos hf]
  have hne : s.mem_brk ≠ FAIL := by unfold FAIL; omega
  dsimp only
  rw [if_neg hne, (coalesce_region _ _).1, (coalesce_region _ _).2]
  exact ⟨rfl, rfl⟩

theorem ext_facts (size : Nat) :
    max (adjust size) CHUNKSIZE % 8 = 0 ∧ 65536 ≤ max (adjust size) CHUNKSIZE ∧
      max (adjust size) CHUNKSIZE < 18446744073709551616 := by
  have h1 : adjust size % 8 = 0 ∧ adjust size < 18446744073709551616 := by
    unfold adjust DSIZE MIN_BLOCK_SIZE
    have : (8 : Nat) <<< 1 = 16 := by decide
    rw [this]
    split_ifs <;> omega
  unfold CHUNKSIZE
  rcases Nat.le_total (adjust size) 65536 with h | h
  · rw [Nat.max_eq_right h]; omega
  · rw [Nat.max_eq_left h]; omega

/-- The three ways in which `mm_malloc` returns for a non-zero request. -/
theorem mm_malloc_unfold {fuel : Nat} {s : State} {size : Nat} {grant : Bool} {s' : State}
    {p bp : Nat} (h0 : size ≠ 0)
    (hff : find_fit fuel s (adjust size) = some bp)
    (hm : mm_malloc fuel s size grant = some (s', p)) :
    (bp ≠ 0 ∧ p = bp ∧ s'.mem_brk = s.mem_brk ∧ s'.mem_lo = s.mem_lo) ∨
    (bp = 0 ∧ ¬ (grant = true ∧ s.mem_brk + max (adjust size) CHUNKSIZE
        < 18446744073709551616) ∧ p = 0 ∧ s' = s) ∨
    (bp = 0 ∧ (grant = true ∧ s.mem_brk + max (adjust size) CHUNKSIZE
        < 18446744073709551616) ∧
      s'.mem_brk = s.mem_brk + max (adjust size) CHUNKSIZE ∧ s'.mem_lo = s.mem_lo ∧
      p = (extend_heap s (max (adjust size) CHUNKSIZE / WSIZE) grant).2) := by
  obtain ⟨h8, h24, hlt⟩ := ext_facts size
  unfold mm_malloc at hm
  rw [if_neg h0] at hm
  dsimp only at hm
  rw [hff] at hm
  simp only at hm
  by_cases hbp : bp ≠ 0
  · rw [if_pos hbp] at hm
    simp only [Option.some.injEq, Prod.mk.injEq] at hm
    left
    refine ⟨hbp, hm.2.symm, ?_, ?_⟩
    · rw [← hm.1]; exact (place_region _ _ _).2
    · rw [← hm.1]; exact (place_region _ _ _).1
  · have hbp0 : bp = 0 := by simpa using hbp
    rw [if_neg hbp] at hm
    right
    by_cases hf : grant = true ∧ s.mem_brk + max (adjust size) CHUNKSIZE
        < 18446744073709551616
    · right
      have hE := extend_heap_brk s _ grant h8 (by omega) (by omega) hf
      refine ⟨hbp0, hf, ?_⟩
      split_ifs at hm with h2
      · simp only [Option.some.injEq, Prod.mk.injEq] at hm
        rw [← hm.1, ← hm.2]; exact ⟨hE.1, hE.2, h2.symm⟩
      · simp only [Option.some.injEq, Prod.mk.injEq] at hm
        rw [← hm.1, (place_region _ _ _).1, (place_region _ _ _).2]
        exact ⟨hE.1, hE.2, hm.2.symm⟩
    · left
      rw [extend_heap_fail s _ grant h8 (by omega) hf] at hm
      simp only [if_true, Option.some.injEq, Prod.mk.injEq] at hm
      exact ⟨hbp0, hf, hm.2.symm, hm.1.symm⟩

/-- The block handed over by `extend_heap` is a block of the heap. -/
theorem extend_block {s : State} {bs : List Blk} {fl : List Nat} (hH : HeapInv s bs fl)
    (hN : NoAdjFree bs) (ext : Nat) (grant : Bool) (h8 : ext % 8 = 0) (h24 : 24 ≤ ext)
    (hroom : s.mem_brk + ext < s.mem_lo + 4294967296)
    (hf : grant = true ∧ s.mem_brk + ext < 18446744073709551616) :
    (extend_heap s (ext / WSIZE) grant).2 ≠ 0 ∧ (extend_heap s (ext / WSIZE) grant).2 % 8 = 0 := by
  have hc := hH.core
  have hge := hc.brk_ge
  rw [extend_heap_ok s ext grant h8 h24 (by omega) (by omega) hf]
  obtain ⟨c4, f4⟩ := extend_core hH ext h8 h24 hroom hf.2
  generalize hs4 : ({ s with
      mem_brk := s.mem_brk + ext,
      mem := (PUT (PUT (PUT s.mem (s.mem_brk - 4) ext) (s.mem_brk + ext - 8) ext)
        (s.mem_brk + ext - 4) 1) } : State) = s4 at c4 ⊢
  have h4f : s4.free_listp = s.free_listp := by rw [← hs4]
  have h4m : s4.mem = PUT (PUT (PUT s.mem (s.mem_brk - 4) ext) (s.mem_brk + ext - 8) ext)
      (s.mem_brk + ext - 4) 1 := by rw [← hs4]
  rw [← h4m, ← h4f] at f4
  have hp4 : fl.Perm (freeAddrs (bs ++ [])) := by
    rw [List.append_nil]; exact hH.perm
  obtain ⟨pre', post', S, fl', hH', _⟩ :=
    coalesce_inv c4 f4 hp4 hN (by unfold NoAdjFree; exact List.chain'_nil)
  have hblk : (⟨(coalesce s4 s.mem_brk).2, S, false⟩ : Blk) ∈
      pre' ++ ⟨(coalesce s4 s.mem_brk).2, S, false⟩ :: post' := by simp
  have hb := hH'.core.mem_bounds hblk
  simp only at hb
  have hlo' := hH'.core.lo_pos
  exact ⟨by omega, hb.2.2.2.2.1⟩

theorem mm_malloc_total {s : State} {fl : List Nat} (hfl : FL s.mem s.free_listp fl)
    (fuel size : Nat) (grant : Bool) (hf : fl.length < fuel) :
    ∃ s' p, mm_malloc fuel s size grant = some (s', p) := by
  unfold mm_malloc
  by_cases h0 : size = 0
  · rw [if_pos h0]; exact ⟨_, _, rfl⟩
  · rw [if_neg h0]
    dsimp only
    have h := find_fit_from_fuel hfl (adjust size) fuel hf
    cases hff : find_fit fuel s (adjust size) with
    | none =>
      unfold find_fit at hff
      rw [hff] at h; cases h
    | some bp =>
      simp only
      split_ifs <;> exact ⟨_, _, rfl⟩

/-- The result of `mm_malloc` on a well-formed heap that stays below 4 GiB. -/
theorem mm_malloc_spec {s : State} {live : Live} {bs : List Blk} {fl : List Nat}
    (hI : Inv s live bs fl) {fuel size : Nat} {grant : Bool} {s' : State} {p : Nat}
    (hsz : size < 2147483648)
    (hroom : s.mem_brk + max (adjust size) CHUNKSIZE < s.mem_lo + 4294967296)
    (hm : mm_malloc fuel s size grant = some (s', p)) :
    (p = 0 ↔ size = 0 ∨ (NoFit s (adjust size) ∧
        (mem_sbrk s (max (adjust size) CHUNKSIZE) grant).2 = FAIL)) ∧
    (p = 0 → s' = s) ∧
    (p ≠ 0 → ∃ bs' fl', Inv s' ((p, size) :: live) bs' fl' ∧
      ∃ S, adjust size ≤ S ∧ (⟨p, S, true⟩ : Blk) ∈ bs') ∧
    (size ≠ 0 → NoFit s (adjust size) →
      (mem_sbrk s (max (adjust size) CHUNKSIZE) grant).2 ≠ FAIL →
      p ≠ 0 ∧ s'.mem_brk = s.mem_brk + max (adjust size) CHUNKSIZE) := by
  have hc := hI.heap.core
  have hbnd := hc.bnd
  unfold Bounded at hbnd
  by_cases h0 : size = 0
  · have hm' := hm
    unfold mm_malloc at hm'
    rw [if_pos h0] at hm'
    simp only [Option.some.injEq, Prod.mk.injEq] at hm'
    refine ⟨⟨fun _ => Or.inl h0, fun _ => hm'.2.symm⟩, fun _ => hm'.1.symm,
      fun h => absurd hm'.2.symm h, fun h => absurd h0 h⟩
  obtain ⟨h8, h24, hlt⟩ := ext_facts size
  have hfi := mem_sbrk_fail_iff s (max (adjust size) CHUNKSIZE) grant (by omega)
  have hnf := nofit_of_FL hI.heap.flist (adjust size)
  -- the block found by the search
  have hff : ∃ bp, find_fit fuel s (adjust size) = some bp := by
    cases hff : find_fit fuel s (adjust size) with
    | none =>
      unfold mm_malloc at hm
      rw [if_neg h0] at hm
      dsimp only at hm
      rw [hff] at hm
      simp at hm
    | some bp => exact ⟨bp, rfl⟩
  obtain ⟨bp, hff⟩ := hff
  have hr := find_fit_from_some hI.heap.flist hff
  have hcases := mm_malloc_unfold h0 hff hm
  have hb' : Bounded s' := by
    unfold Bounded
    rcases hcases with ⟨_, _, h1, h2⟩ | ⟨_, _, _, h1⟩ | ⟨_, _, h1, h2, _⟩
    · omega
    · rw [h1]; omega
    · omega
  have hD := mm_malloc_inv hI hsz hm hb'
  have hkeep : p ≠ 0 → ∃ bs' fl', Inv s' ((p, size) :: live) bs' fl' ∧
      ∃ S, adjust size ≤ S ∧ (⟨p, S, true⟩ : Blk) ∈ bs' := by
    intro hp
    rcases hD with ⟨h1, _⟩ | ⟨_, bs', fl', hInv, S, hS1, hS2, _⟩
    · exact absurd h1 hp
    · exact ⟨bs', fl', hInv, S, hS1, hS2⟩
  have hnull : p = 0 → s' = s := by
    intro hp
    rcases hD with ⟨_, h1⟩ | ⟨h1, _⟩
    · exact h1
    · exact absurd hp h1
  rcases hcases with ⟨hbp, hpb, _, _⟩ | ⟨hbp, hfail, hp0, hs⟩ | ⟨hbp, hok, hbrk, _, _⟩
  · -- a block of the free list fits
    obtain ⟨hmem, hq⟩ := find_in_list hr hbp
    have hfit : adjust size ≤ GET_SIZE s.mem (HDRP bp) := by simpa using hq
    have hno : ¬ NoFit s (adjust size) := by
      intro h
      have := hnf.1 h bp hmem
      omega
    have hp : p ≠ 0 := by rw [hpb]; exact hbp
    refine ⟨⟨fun h => absurd h hp, ?_⟩, hnull, hkeep, fun _ h => absurd h hno⟩
    rintro (h | ⟨h, _⟩)
    · exact absurd h h0
    · exact absurd h hno
  · -- no block fits and the provider refuses
    refine ⟨⟨fun _ => Or.inr ⟨?_, hfi.2 hfail⟩, fun _ => hp0⟩, hnull, hkeep,
      fun _ _ h => absurd (hfi.2 hfail) h⟩
    rw [hnf]
    intro y hy
    by_contra hge
    have hfind : (fl.find? (fun y => decide (adjust size ≤ GET_SIZE s.mem (HDRP y)))).isSome
        = true := by
      rw [List.find?_isSome]
      exact ⟨y, hy, by simpa using hge⟩
    cases hfo : fl.find? (fun y => decide (adjust size ≤ GET_SIZE s.mem (HDRP y))) with
    | none => rw [hfo] at hfind; cases hfind
    | some z =>
      rw [hfo] at hr
      simp only [Option.getD_some] at hr
      have := FLseg_ne_zero hI.heap.flist z (List.mem_of_find?_eq_some hfo)
      omega
  · -- no block fits and the heap grows
    have hp : p ≠ 0 := by
      intro hp
      have := hnull hp
      rw [this] at hbrk
      omega
    refine ⟨⟨fun h => absurd h hp, ?_⟩, hnull, hkeep, fun _ _ _ => ⟨hp, hbrk⟩⟩
    rintro (h | ⟨_, h⟩)
    · exact absurd h h0
    · exact absurd hok (hfi.1 h)

/-- When `mm_malloc` returns `NULL`, for a request of any size. -/
theorem mm_malloc_null {s : State} {live : Live} {bs : List Blk} {fl : List Nat}
    (hI : Inv s live bs fl) {fuel size : Nat} {grant : Bool} {s' : State} {p : Nat}
    (hroom : s.mem_brk + max (adjust size) CHUNKSIZE < s.mem_lo + 4294967296)
    (hm : mm_malloc fuel s size grant = some (s', p)) :
    (p = 0 ↔ size = 0 ∨ (NoFit s (adjust size) ∧
        (mem_sbrk s (max (adjust size) CHUNKSIZE) grant).2 = FAIL)) ∧
    (p = 0 → s' = s) := by
  by_cases h0 : size = 0
  · have hm' := hm
    unfold mm_malloc at hm'
    rw [if_pos h0] at hm'
    simp only [Option.some.injEq, Prod.mk.injEq] at hm'
    exact ⟨⟨fun _ => Or.inl h0, fun _ => hm'.2.symm⟩, fun _ => hm'.1.symm⟩
  obtain ⟨h8, h24, hlt⟩ := ext_facts size
  have hfi := mem_sbrk_fail_iff s (max (adjust size) CHUNKSIZE) grant (by omega)
  have hnf := nofit_of_FL hI.heap.flist (adjust size)
  have hff : ∃ bp, find_fit fuel s (adjust size) = some bp := by
    cases hff : find_fit fuel s (adjust size) with
    | none =>
      unfold mm_malloc at hm
      rw [if_neg h0] at hm
      dsimp only at hm
      rw [hff] at hm
      simp at hm
    | some bp => exact ⟨bp, rfl⟩
  obtain ⟨bp, hff⟩ := hff
  have hr := find_fit_from_some hI.heap.flist hff
  rcases mm_malloc_unfold h0 hff hm with
    ⟨hbp, hpb, _, _⟩ | ⟨hbp, hfail, hp0, hs⟩ | ⟨hbp, hok, hbrk, _, hpe⟩
  · obtain ⟨hmem, hq⟩ := find_in_list hr hbp
    have hfit : adjust size ≤ GET_SIZE s.mem (HDRP bp) := by simpa using hq
    have hno : ¬ NoFit s (adjust size) := by
      intro h
      have := hnf.1 h bp hmem
      omega
    have hp : p ≠ 0 := by rw [hpb]; exact hbp
    refine ⟨⟨fun h => absurd h hp, ?_⟩, fun h => absurd h hp⟩
    rintro (h | ⟨h, _⟩)
    · exact absurd h h0
    · exact absurd h hno
  · refine ⟨⟨fun _ => Or.inr ⟨?_, hfi.2 hfail⟩, fun _ => hp0⟩, fun _ => hs⟩
    rw [hnf]
    intro y hy
    by_contra hge
    have hfind : (fl.find? (fun y => decide (adjust size ≤ GET_SIZE s.mem (HDRP y)))).isSome
        = true := by
      rw [List.find?_isSome]
      exact ⟨y, hy, by simpa using hge⟩
    cases hfo : fl.find? (fun y => decide (adjust size ≤ GET_SIZE s.mem (HDRP y))) with
    | none => rw [hfo] at hfind; cases hfind
    | some z =>
      rw [hfo] at hr
      simp only [Option.getD_some] at hr
      have := FLseg_ne_zero hI.heap.flist z (List.mem_of_find?_eq_some hfo)
      omega
  · have hp : p ≠ 0 := by
      rw [hpe]
      exact (extend_block hI.heap hI.noadj _ grant h8 (by omega) hroom hok).1
    refine ⟨⟨fun h => absurd h hp, ?_⟩, fun h => absurd h hp⟩
    rintro (h | ⟨_, h⟩)
    · exact absurd h h0
    · exact absurd hok (hfi.1 h)

/-- The pointers returned by `mm_malloc` are aligned, for a request of any size. -/
theorem mm_malloc_aligned {s : State} {live : Live} {bs : List Blk} {fl : List Nat}
    (hI : Inv s live bs fl) {fuel size : Nat} {grant : Bool} {s' : State} {p : Nat}
    (hm : mm_malloc fuel s size grant = some (s', p)) (hb : Bounded s') (hp : p ≠ 0) :
    p % 8 = 0 := by
  by_cases h0 : size = 0
  · unfold mm_malloc at hm
    rw [if_pos h0] at hm
    simp only [Option.some.injEq, Prod.mk.injEq] at hm
    exact absurd hm.2.symm hp
  obtain ⟨h8, h24, hlt⟩ := ext_facts size
  have hff : ∃ bp, find_fit fuel s (adjust size) = some bp := by
    cases hff : find_fit fuel s (adjust size) with
    | none =>
      unfold mm_malloc at hm
      rw [if_neg h0] at hm
      dsimp only at hm
      rw [hff] at hm
      simp at hm
    | some bp => exact ⟨bp, rfl⟩
  obtain ⟨bp, hff⟩ := hff
  have hr := find_fit_from_some hI.heap.flist hff
  rcases mm_malloc_unfold h0 hff hm with
    ⟨hbp, hpb, _, _⟩ | ⟨hbp, hfail, hp0, hs⟩ | ⟨hbp, hok, hbrk, hlo, hpe⟩
  · obtain ⟨hmem, _⟩ := find_in_list hr hbp
    obtain ⟨b, hbm, hbb, _⟩ := perm_mem_block hI.heap.perm hmem
    rw [hpb, ← hbb]
    exact (hI.heap.core.mem_bounds hbm).2.2.2.2.1
  · exact absurd hp0 hp
  · rw [hpe]
    refine (extend_block hI.heap hI.noadj _ grant h8 (by omega) ?_ hok).2
    unfold Bounded at hb
    omega


/-! ## Concrete runs are reachable -/

theorem init8_ok : (mm_init (State.start 8 (fun _ => 0)) true true).2 = 0 := by decide!

theorem reachable_after (bound : Nat) (ops : List Op)
    (h : (run bound 64 ops (init8, [])).isSome = true) :
    ReachableB bound (after bound ops).1 (after bound ops).2 := by
  refine ⟨8, fun _ => 0, true, true, 64, ops, by decide, by decide, init8_ok, ?_⟩
  show run bound 64 ops (init8, []) = some (after bound ops)
  unfold after
  cases h' : run bound 64 ops (init8, []) with
  | none => rw [h'] at h; cases h
  | some c => rfl

theorem reachable_two :
    Reachable (after 2147483648 ops_two).1 (after 2147483648 ops_two).2 :=
  reachable_after 2147483648 ops_two (by decide!)

theorem bounded_two : Bounded (after 2147483648 ops_two).1 := by
  unfold Bounded
  decide!

/-! ## C1: `mm_realloc` and the old payload -/

/-- C1 (code bug): on the heap right after `mm_init`, `p = mm_malloc(16)` is 24;
with the 16 payload bytes set to `0xAA`, `mm_realloc(p, 32)` returns `q = 48`
whose byte 4 is 0 and not `0xAA`: the size is read 8 bytes before `p`, in the
footer of the prologue, and only 4 bytes are copied. -/
theorem C1_realloc_drops_bytes :
    Reachable (after 2147483648 ops_pattern).1 (after 2147483648 ops_pattern).2 ∧
    (24, 16) ∈ (after 2147483648 ops_pattern).2 ∧
    (∀ i, i < 16 → (after 2147483648 ops_pattern).1.mem (24 + i) = 170) ∧
    ∃ r, mm_realloc 64 (after 2147483648 ops_pattern).1 24 32 true = some r ∧
      r.2 = 48 ∧ (∀ i, i < 4 → r.1.mem (48 + i) = 170) ∧
      (∀ i, 4 ≤ i → i < 16 → r.1.mem (48 + i) = 0) := by
  refine ⟨reachable_after _ _ (by decide!), by decide!, by decide!, _, rfl, by decide!,
    by decide!, by decide!⟩


/-! ## C2: live payloads do not overlap -/

/-- C2 (counterexample): after nine calls with sizes below `2^31`, on a heap
that has grown beyond 4 GiB, the live blocks at 2147483664 and at 4294836232
overlap: the header of the first gives it 2147418080 bytes, so its payload
runs up to 4294901736. -/
theorem C2_counterexample :
    Reachable (after 2147483648 ops_overlap).1 (after 2147483648 ops_overlap).2 ∧
    2147483664 ∈ (after 2147483648 ops_overlap).2.map Prod.fst ∧
    4294836232 ∈ (after 2147483648 ops_overlap).2.map Prod.fst ∧
    GET_SIZE (after 2147483648 ops_overlap).1.mem (HDRP 2147483664) = 2147418080 ∧
    GET_SIZE (after 2147483648 ops_overlap).1.mem (HDRP 4294836232) = 2147483608 ∧
    ¬ (2147483664 + GET_SIZE (after 2147483648 ops_overlap).1.mem (HDRP 2147483664) - 8
        ≤ 4294836232 ∨
       4294836232 + GET_SIZE (after 2147483648 ops_overlap).1.mem (HDRP 4294836232) - 8
        ≤ 2147483664) := by
  refine ⟨reachable_after _ _ (by decide!), by decide!, by decide!, by decide!, by decide!,
    by decide!⟩

/-- C2 (amended): in every state reached from a successful `mm_init` by
`mm_malloc(size)` calls with `size < 2^31` and `mm_free` calls on live pointers,
whose heap is smaller than `2^32` bytes, the live pointers are pairwise distinct
and any two of them have disjoint payload ranges `[p, p + blocksize(p) - 8)`. -/
theorem C2_live_disjoint (s : State) (live : Live) (hr : Reachable s live) (hb : Bounded s) :
    (live.map Prod.fst).Nodup ∧
    ∀ p ∈ live.map Prod.fst, ∀ q ∈ live.map Prod.fst, p ≠ q →
      p + GET_SIZE s.mem (HDRP p) - 8 ≤ q ∨ q + GET_SIZE s.mem (HDRP q) - 8 ≤ p := by
  obtain ⟨bs, fl, hI⟩ := reach_inv hr hb
  have hc := hI.heap.core
  refine ⟨(List.Perm.nodup_iff hI.live_perm).2
    (nodup_of_sorted (allocAddrs_sorted hc.contig hc.sized)), ?_⟩
  intro p hp q hq hne
  obtain ⟨b, hb1, hb2, _⟩ := mem_allocAddrs.1 (hI.live_perm.mem_iff.1 hp)
  obtain ⟨c, hc1, hc2, _⟩ := mem_allocAddrs.1 (hI.live_perm.mem_iff.1 hq)
  have rb := hc.read hb1
  have rc := hc.read hc1
  rw [hb2] at rb
  rw [hc2] at rc
  rw [rb.1, rc.1]
  rcases Contig_sep hc.contig hc.sized hb1 hc1 with h | h | h
  · exact absurd (by rw [← hb2, ← hc2, h]) hne
  · left; omega
  · right; omega

/-- C2 (witness): the amended statement at the state after `mm_malloc(16)` and
`mm_malloc(100)`. -/
theorem C2_witness :
    Reachable (after 2147483648 ops_two).1 (after 2147483648 ops_two).2 ∧
    Bounded (after 2147483648 ops_two).1 ∧
    (((after 2147483648 ops_two).2.map Prod.fst).Nodup ∧
      ∀ p ∈ (after 2147483648 ops_two).2.map Prod.fst,
        ∀ q ∈ (after 2147483648 ops_two).2.map Prod.fst, p ≠ q →
        p + GET_SIZE (after 2147483648 ops_two).1.mem (HDRP p) - 8 ≤ q ∨
          q + GET_SIZE (after 2147483648 ops_two).1.mem (HDRP q) - 8 ≤ p) :=
  ⟨reachable_two, bounded_two, C2_live_disjoint _ _ reachable_two bounded_two⟩

/-! ## C3: the capacity of the block returned -/

/-- C3 (code bug): on the heap right after `mm_init`, `mm_malloc(2^64 - 1)`
returns the pointer 24 to a block whose header holds the size 8: the adjusted
size `DSIZE * ((size + DSIZE + (DSIZE-1)) / DSIZE)` has wrapped around to 8,
and the payload capacity `8 - 8 = 0` is below the size requested. -/
theorem C3_adjusted_size_wraps :
    ReachableB 18446744073709551616 (after 18446744073709551616 []).1
      (after 18446744073709551616 []).2 ∧
    adjust 18446744073709551615 = 8 ∧
    ∃ r, mm_malloc 64 (after 18446744073709551616 []).1 18446744073709551615 true = some r ∧
      r.2 = 24 ∧ GET_SIZE r.1.mem (HDRP r.2) = 8 ∧
      GET_SIZE r.1.mem (HDRP r.2) - 8 < 18446744073709551615 := by
  refine ⟨reachable_after _ _ (by decide!), by decide!, _, rfl, by decide!, by decide!,
    by decide!⟩


/-! ## C4: alignment -/

/-- C4 (counterexample): after five calls, two of them with sizes close to
`2^64`, on a heap that has grown beyond 4 GiB, `mm_malloc(2^64 - 15)` returns
the odd pointer 281440616972297. -/
theorem C4_counterexample :
    ReachableB 18446744073709551616 (after 18446744073709551616 ops_odd).1
      (after 18446744073709551616 ops_odd).2 ∧
    ∃ r, mm_malloc 64 (after 18446744073709551616 ops_odd).1 18446744073709551601 true
        = some r ∧
      r.2 = 281440616972297 ∧ r.2 ≠ 0 ∧ r.2 % 8 ≠ 0 := by
  refine ⟨reachable_after _ _ (by decide!), _, rfl, by decide!, by decide!, by decide!⟩

/-- C4 (amended): in every state reached from a successful `mm_init` on an
8-byte aligned region by `mm_malloc(size)` calls with `size < 2^31` and
`mm_free` calls on live pointers, every non-NULL pointer returned by
`mm_malloc`, whatever the size requested, is congruent to 0 modulo 8, provided
the heap is smaller than `2^32` bytes after the call. -/
theorem C4_aligned (s : State) (live : Live) (fuel size : Nat) (grant : Bool) (s' : State)
    (p : Nat) (hr : Reachable s live)
    (hm : mm_malloc fuel s size grant = some (s', p)) (hb : Bounded s') (hp : p ≠ 0) :
    p % 8 = 0 := by
  have hreg := mm_malloc_region hm
  have hbs : Bounded s := by
    unfold Bounded at hb ⊢
    omega
  obtain ⟨bs, fl, hI⟩ := reach_inv hr hbs
  exact mm_malloc_aligned hI hm hb hp

/-- C4 (witness): the amended statement at `mm_malloc(200)` after
`mm_malloc(16)` and `mm_malloc(100)`, which returns 160. -/
theorem C4_witness :
    Reachable (after 2147483648 ops_two).1 (after 2147483648 ops_two).2 ∧
    (mm_malloc 64 (after 2147483648 ops_two).1 200 true).isSome = true ∧
    160 % 8 = 0 := by
  refine ⟨reachable_two, by decide!, ?_⟩
  exact C4_aligned (after 2147483648 ops_two).1 (after 2147483648 ops_two).2 64 200 true
    ((mm_malloc 64 (after 2147483648 ops_two).1 200 true).getD (init8, 0)).1 160
    reachable_two
    (by
      have h : (mm_malloc 64 (after 2147483648 ops_two).1 200 true).isSome = true ∧
          ((mm_malloc 64 (after 2147483648 ops_two).1 200 true).getD (init8, 0)).2 = 160 := by
        decide!
      cases hm : mm_malloc 64 (after 2147483648 ops_two).1 200 true with
      | none => rw [hm] at h; cases h.1
      | some r =>
        rw [hm] at h
        simp only [Option.getD_some] at h ⊢
        rw [← h.2])
    (by unfold Bounded; decide!) (by decide)


/-! ## C5: no two adjacent free blocks -/

/-- C5 (counterexample): after six calls with sizes below `2^31`, on a heap of
`2^32 + 40` bytes, the scan of the heap from the first block to the epilogue
finds the blocks 24, 48, 65560 and 2147549216, and the adjacent blocks 24 and
48 are both tagged free. -/
theorem C5_counterexample :
    Reachable (after 2147483648 ops_adjacent).1 (after 2147483648 ops_adjacent).2 ∧
    (after 2147483648 ops_adjacent).1.mem_brk = 4294967344 ∧
    heap_walk (after 2147483648 ops_adjacent).1.mem 8
      ((after 2147483648 ops_adjacent).1.heap_listp + DSIZE)
      = some ([24, 48, 65560, 2147549216], 4294967344) ∧
    GET_ALLOC (after 2147483648 ops_adjacent).1.mem (HDRP 24) = 0 ∧
    NEXT_BLKP (after 2147483648 ops_adjacent).1.mem 24 = 48 ∧
    GET_ALLOC (after 2147483648 ops_adjacent).1.mem (HDRP 48) = 0 := by
  refine ⟨reachable_after _ _ (by decide!), by decide!, by decide!, by decide!, by decide!,
    by decide!⟩

/-- C5 (amended): in every state reached from a successful `mm_init` by
`mm_malloc(size)` calls with `size < 2^31` and `mm_free` calls on live pointers,
whose heap is smaller than `2^32` bytes, the scan from the first block reaches
the epilogue at the end of the heap, and the block after a block tagged free
is tagged allocated. -/
theorem C5_no_adjacent_free (s : State) (live : Live) (hr : Reachable s live)
    (hb : Bounded s) :
    ∃ l, (∀ fuel, l.length < fuel →
        heap_walk s.mem fuel (s.heap_listp + DSIZE) = some (l, s.mem_brk)) ∧
      ∀ bp ∈ l, GET_ALLOC s.mem (HDRP bp) = 0 →
        GET_ALLOC s.mem (HDRP (NEXT_BLKP s.mem bp)) = 1 := by
  obtain ⟨bs, fl, hI⟩ := reach_inv hr hb
  have hc := hI.heap.core
  refine ⟨bs.map Blk.bp, fun fuel hf => heap_walk_of_core hc fuel (by simpa using hf), ?_⟩
  intro bp hbp hfree
  obtain ⟨b, hbm, rfl⟩ := List.mem_map.1 hbp
  have rb := hc.read hbm
  have hbf : b.alloc = false := by
    cases hba : b.alloc with
    | false => rfl
    | true => rw [hba, hfree] at rb; exact absurd rb.2.1 (by decide)
  obtain ⟨pre, post, rfl⟩ := List.append_of_mem hbm
  cases post with
  | nil => exact (next_read_nil hc).2
  | cons d Q =>
    have hn := next_read hc
    have hna := hI.noadj
    rw [noadj_append, noadj_cons] at hna
    rcases hna.2.1.1 d (by simp) with h | h
    · rw [hbf] at h; cases h
    · rw [hn.2, h]; rfl

/-- C5 (witness): the amended statement at the state after `mm_malloc(16)` and
`mm_malloc(100)`. -/
theorem C5_witness :
    Reachable (after 2147483648 ops_two).1 (after 2147483648 ops_two).2 ∧
    Bounded (after 2147483648 ops_two).1 ∧
    ∃ l, (∀ fuel, l.length < fuel →
        heap_walk (after 2147483648 ops_two).1.mem fuel
          ((after 2147483648 ops_two).1.heap_listp + DSIZE)
          = some (l, (after 2147483648 ops_two).1.mem_brk)) ∧
      ∀ bp ∈ l, GET_ALLOC (after 2147483648 ops_two).1.mem (HDRP bp) = 0 →
        GET_ALLOC (after 2147483648 ops_two).1.mem
          (HDRP (NEXT_BLKP (after 2147483648 ops_two).1.mem bp)) = 1 :=
  ⟨reachable_two, bounded_two, C5_no_adjacent_free _ _ reachable_two bounded_two⟩

/-! ## C6: the free list and the free blocks of the heap -/

/-- C6 (counterexample): in the same state the free list holds the block 24
only, while the scan of the heap finds the block 48 tagged free. -/
theorem C6_counterexample :
    Reachable (after 2147483648 ops_adjacent).1 (after 2147483648 ops_adjacent).2 ∧
    free_walk (after 2147483648 ops_adjacent).1.mem 8
      (after 2147483648 ops_adjacent).1.free_listp = some [24] ∧
    heap_walk (after 2147483648 ops_adjacent).1.mem 8
      ((after 2147483648 ops_adjacent).1.heap_listp + DSIZE)
      = some ([24, 48, 65560, 2147549216], (after 2147483648 ops_adjacent).1.mem_brk) ∧
    GET_ALLOC (after 2147483648 ops_adjacent).1.mem (HDRP 48) = 0 ∧
    (48 : Nat) ∉ [24] := by
  refine ⟨reachable_after _ _ (by decide!), by decide!, by decide!, by decide!, by decide⟩

/-- C6 (amended): in every state reached from a successful `mm_init` by
`mm_malloc(size)` calls with `size < 2^31` and `mm_free` calls on live pointers,
whose heap is smaller than `2^32` bytes, the walk of the free list ends, no
block occurs twice in it, and its blocks are exactly the blocks tagged free
that the scan of the heap from the first block to the epilogue finds. -/
theorem C6_free_list_agrees (s : State) (live : Live) (hr : Reachable s live)
    (hb : Bounded s) :
    ∃ hl fl, (∀ fuel, hl.length < fuel →
        heap_walk s.mem fuel (s.heap_listp + DSIZE) = some (hl, s.mem_brk)) ∧
      (∀ fuel, fl.length < fuel → free_walk s.mem fuel s.free_listp = some fl) ∧
      fl.Nodup ∧ ∀ x, x ∈ fl ↔ (x ∈ hl ∧ GET_ALLOC s.mem (HDRP x) = 0) := by
  obtain ⟨bs, fl, hI⟩ := reach_inv hr hb
  have hc := hI.heap.core
  refine ⟨bs.map Blk.bp, fl, fun fuel hf => heap_walk_of_core hc fuel (by simpa using hf),
    fun fuel hf => free_walk_of_FL hI.heap.flist fuel hf,
    far_nodup (perm_far hI.heap.perm hc.contig hc.sized), ?_⟩
  intro x
  rw [hI.heap.perm.mem_iff, mem_freeAddrs]
  constructor
  · rintro ⟨b, hbm, rfl, hbf⟩
    have rb := hc.read hbm
    refine ⟨List.mem_map.2 ⟨b, hbm, rfl⟩, ?_⟩
    rw [rb.2.1, hbf]; rfl
  · rintro ⟨hx, hfree⟩
    obtain ⟨b, hbm, rfl⟩ := List.mem_map.1 hx
    have rb := hc.read hbm
    refine ⟨b, hbm, rfl, ?_⟩
    cases hba : b.alloc with
    | false => rfl
    | true => rw [hba, hfree] at rb; exact absurd rb.2.1 (by decide)

/-- C6 (witness): the amended statement at the state after `mm_malloc(16)` and
`mm_malloc(100)`. -/
theorem C6_witness :
    Reachable (after 2147483648 ops_two).1 (after 2147483648 ops_two).2 ∧
    Bounded (after 2147483648 ops_two).1 ∧
    ∃ hl fl, (∀ fuel, hl.length < fuel →
        heap_walk (after 2147483648 ops_two).1.mem fuel
          ((after 2147483648 ops_two).1.heap_listp + DSIZE)
          = some (hl, (after 2147483648 ops_two).1.mem_brk)) ∧
      (∀ fuel, fl.length < fuel →
        free_walk (after 2147483648 ops_two).1.mem fuel
          (after 2147483648 ops_two).1.free_listp = some fl) ∧
      fl.Nodup ∧ ∀ x, x ∈ fl ↔
        (x ∈ hl ∧ GET_ALLOC (after 2147483648 ops_two).1.mem (HDRP x) = 0) :=
  ⟨reachable_two, bounded_two, C6_free_list_agrees _ _ reachable_two bounded_two⟩


/-! ## A reachable state whose free list is a cycle -/

theorem cycle_facts :
    (after 2147483648 ops_cycle).1.free_listp = 24 ∧
    NEXT_FREEP (after 2147483648 ops_cycle).1.mem 24 = 24 ∧
    GET_SIZE (after 2147483648 ops_cycle).1.mem (HDRP 24) = 65552 ∧
    adjust 65552 = 65560 := by
  refine ⟨by decide!, by decide!, by decide!, by decide!⟩

theorem cycle_nth (n : Nat) :
    free_nth (after 2147483648 ops_cycle).1.mem (after 2147483648 ops_cycle).1.free_listp n
      = 24 := by
  induction n with
  | zero => exact cycle_facts.1
  | succ k ih =>
    show (if free_nth _ _ k = 0 then 0 else NEXT_FREEP _ (free_nth _ _ k)) = 24
    rw [ih, if_neg (by decide), cycle_facts.2.1]

theorem cycle_nofit : NoFit (after 2147483648 ops_cycle).1 (adjust 65552) := by
  intro n _
  rw [cycle_nth n, cycle_facts.2.2.1, cycle_facts.2.2.2]
  decide

theorem cycle_find (fuel : Nat) :
    find_fit_from (after 2147483648 ops_cycle).1.mem 65560 fuel 24 = none := by
  induction fuel with
  | zero => rfl
  | succ k ih =>
    show (if (24 : Nat) = 0 then some 0
      else if 65560 ≤ GET_SIZE (after 2147483648 ops_cycle).1.mem (HDRP 24) then some 24
      else find_fit_from (after 2147483648 ops_cycle).1.mem 65560 k
        (NEXT_FREEP (after 2147483648 ops_cycle).1.mem 24)) = none
    rw [if_neg (by decide), cycle_facts.2.2.1, if_neg (by decide), cycle_facts.2.1]
    exact ih

theorem cycle_diverges (fuel : Nat) (grant : Bool) :
    mm_malloc fuel (after 2147483648 ops_cycle).1 65552 grant = none := by
  unfold mm_malloc
  rw [if_neg (by decide)]
  dsimp only
  have h : find_fit fuel (after 2147483648 ops_cycle).1 (adjust 65552) = none := by
    unfold find_fit
    rw [cycle_facts.2.2.2, cycle_facts.1]
    exact cycle_find fuel
  rw [h]

/-! ## C7: when `mm_malloc` returns `NULL` -/

/-- C7 (counterexample): after eleven calls with sizes below `2^31`, on a heap
that has grown beyond 4 GiB, the free list is the cycle 24, 24, ... of one
block of 65552 bytes.  For `mm_malloc(65552)` no block of the free list is
large enough and the provider refuses to grow the heap, yet `mm_malloc` does
not return `NULL`: it does not return, whatever the fuel. -/
theorem C7_counterexample :
    Reachable (after 2147483648 ops_cycle).1 (after 2147483648 ops_cycle).2 ∧
    NoFit (after 2147483648 ops_cycle).1 (adjust 65552) ∧
    (mem_sbrk (after 2147483648 ops_cycle).1 (max (adjust 65552) CHUNKSIZE) false).2 = FAIL ∧
    ∀ fuel, mm_malloc fuel (after 2147483648 ops_cycle).1 65552 false = none :=
  ⟨reachable_after _ _ (by decide!), cycle_nofit, rfl, fun fuel => cycle_diverges fuel false⟩

/-- C7 (amended): in every state reached from a successful `mm_init` by
`mm_malloc(size)` calls with `size < 2^31` and `mm_free` calls on live pointers,
and for every size such that the heap grown by `max(need, 65536)` bytes (`need`
the adjusted size) is smaller than `2^32` bytes, `mm_malloc(size)` returns; it
returns `NULL` if and only if `size == 0` or no free-list block has size
`>= need` and the provider's `mem_sbrk` fails; and whenever it returns `NULL`,
the heap bytes, the heap extent and `free_listp` are all unchanged. -/
theorem C7_null_iff (s : State) (live : Live) (size : Nat) (grant : Bool)
    (hr : Reachable s live)
    (hroom : s.mem_brk + max (adjust size) CHUNKSIZE < s.mem_lo + 4294967296) :
    ∃ n, ∀ fuel, n < fuel → ∃ s' p, mm_malloc fuel s size grant = some (s', p) ∧
      (p = 0 ↔ size = 0 ∨ (NoFit s (adjust size) ∧
        (mem_sbrk s (max (adjust size) CHUNKSIZE) grant).2 = FAIL)) ∧
      (p = 0 → s' = s) := by
  have hb : Bounded s := by unfold Bounded; omega
  obtain ⟨bs, fl, hI⟩ := reach_inv hr hb
  refine ⟨fl.length, fun fuel hf => ?_⟩
  obtain ⟨s', p, hm⟩ := mm_malloc_total hI.heap.flist fuel size grant hf
  have h := mm_malloc_null hI hroom hm
  exact ⟨s', p, hm, h.1, h.2⟩

/-- C7 (witness): the amended statement at `mm_malloc(200)` after
`mm_malloc(16)` and `mm_malloc(100)`. -/
theorem C7_witness :
    Reachable (after 2147483648 ops_two).1 (after 2147483648 ops_two).2 ∧
    (after 2147483648 ops_two).1.mem_brk + max (adjust 200) CHUNKSIZE
      < (after 2147483648 ops_two).1.mem_lo + 4294967296 ∧
    ∃ n, ∀ fuel, n < fuel → ∃ s' p,
      mm_malloc fuel (after 2147483648 ops_two).1 200 true = some (s', p) ∧
      (p = 0 ↔ 200 = 0 ∨ (NoFit (after 2147483648 ops_two).1 (adjust 200) ∧
        (mem_sbrk (after 2147483648 ops_two).1 (max (adjust 200) CHUNKSIZE) true).2 = FAIL)) ∧
      (p = 0 → s' = (after 2147483648 ops_two).1) :=
  ⟨reachable_two, by decide!, C7_null_iff _ _ 200 true reachable_two (by decide!)⟩

/-! ## C8: growth when no block fits -/

/-- C8 (counterexample): in the same state, for `mm_malloc(65552)` no block of
the free list is large enough and the provider grants the request, yet
`mm_malloc` neither grows the heap nor returns a pointer: it does not return,
whatever the fuel. -/
theorem C8_counterexample :
    Reachable (after 2147483648 ops_cycle).1 (after 2147483648 ops_cycle).2 ∧
    0 < 65552 ∧ 65552 < 2147483648 ∧
    NoFit (after 2147483648 ops_cycle).1 (adjust 65552) ∧
    (mem_sbrk (after 2147483648 ops_cycle).1 (max (adjust 65552) CHUNKSIZE) true).2 ≠ FAIL ∧
    ∀ fuel, mm_malloc fuel (after 2147483648 ops_cycle).1 65552 true = none :=
  ⟨reachable_after _ _ (by decide!), by decide, by decide, cycle_nofit, by decide!,
    fun fuel => cycle_diverges fuel true⟩

/-- C8 (amended): in every state reached from a successful `mm_init` by
`mm_malloc(size)` calls with `size < 2^31` and `mm_free` calls on live pointers,
and for every size with `0 < size < 2^31` such that no block in the free list
has size `>= need` and the heap grown by `max(need, 65536)` bytes is smaller
than `2^32` bytes: if the provider grants the request then `mm_malloc` returns,
has grown the heap by exactly `max(need, 65536)` bytes, has written a new
epilogue (size 0, allocated) in the last 4 bytes of the grown heap, and returns
a non-NULL pointer to a block tagged allocated whose size is `>= need`. -/
theorem C8_growth (s : State) (live : Live) (size : Nat) (grant : Bool)
    (hr : Reachable s live) (h0 : 0 < size) (hsz : size < 2147483648)
    (hroom : s.mem_brk + max (adjust size) CHUNKSIZE < s.mem_lo + 4294967296)
    (hnf : NoFit s (adjust size))
    (hg : (mem_sbrk s (max (adjust size) CHUNKSIZE) grant).2 ≠ FAIL) :
    ∃ n, ∀ fuel, n < fuel → ∃ s' p, mm_malloc fuel s size grant = some (s', p) ∧
      s'.mem_brk = s.mem_brk + max (adjust size) CHUNKSIZE ∧
      GET s'.mem (s'.mem_brk - WSIZE) = PACK 0 1 ∧
      p ≠ 0 ∧ GET_ALLOC s'.mem (HDRP p) = 1 ∧ adjust size ≤ GET_SIZE s'.mem (HDRP p) := by
  have hb : Bounded s := by unfold Bounded; omega
  obtain ⟨bs, fl, hI⟩ := reach_inv hr hb
  refine ⟨fl.length, fun fuel hf => ?_⟩
  obtain ⟨s', p, hm⟩ := mm_malloc_total hI.heap.flist fuel size grant hf
  have h := mm_malloc_spec hI hsz hroom hm
  obtain ⟨hp, hbrk⟩ := h.2.2.2 (by omega) hnf hg
  obtain ⟨bs', fl', hI', S, hS, hmem⟩ := h.2.2.1 hp
  have hc' := hI'.heap.core
  have rb := hc'.read hmem
  simp only at rb
  refine ⟨s', p, hm, hbrk, ?_, hp, ?_, ?_⟩
  · have : PACK 0 1 = 1 := by decide
    rw [this]
    exact hc'.epi
  · rw [rb.2.1]; rfl
  · rw [rb.1]; exact hS


theorem two_facts :
    (after 2147483648 ops_two).1.free_listp = 160 ∧
    NEXT_FREEP (after 2147483648 ops_two).1.mem 160 = 0 ∧
    GET_SIZE (after 2147483648 ops_two).1.mem (HDRP 160) = 65400 ∧
    adjust 70000 = 70008 := by
  refine ⟨by decide!, by decide!, by decide!, by decide!⟩

theorem two_nth (n : Nat) :
    free_nth (after 2147483648 ops_two).1.mem (after 2147483648 ops_two).1.free_listp (n + 1)
      = 0 := by
  induction n with
  | zero =>
    show (if free_nth _ _ 0 = 0 then 0 else NEXT_FREEP _ (free_nth _ _ 0)) = 0
    have h0 : free_nth (after 2147483648 ops_two).1.mem
        (after 2147483648 ops_two).1.free_listp 0 = 160 := two_facts.1
    rw [h0, if_neg (by decide), two_facts.2.1]
  | succ k ih =>
    show (if free_nth _ _ (k + 1) = 0 then 0 else NEXT_FREEP _ (free_nth _ _ (k + 1))) = 0
    rw [ih, if_pos rfl]

theorem two_nofit : NoFit (after 2147483648 ops_two).1 (adjust 70000) := by
  intro n hn
  cases n with
  | zero =>
    have h0 : free_nth (after 2147483648 ops_two).1.mem
        (after 2147483648 ops_two).1.free_listp 0 = 160 := two_facts.1
    rw [h0, two_facts.2.2.1, two_facts.2.2.2]
    decide
  | succ k => exact absurd (two_nth k) hn

/-- C8 (witness): the amended statement at `mm_malloc(70000)` after
`mm_malloc(16)` and `mm_malloc(100)`, where the only free block has 65400
bytes. -/
theorem C8_witness :
    Reachable (after 2147483648 ops_two).1 (after 2147483648 ops_two).2 ∧
    NoFit (after 2147483648 ops_two).1 (adjust 70000) ∧
    (mem_sbrk (after 2147483648 ops_two).1 (max (adjust 70000) CHUNKSIZE) true).2 ≠ FAIL ∧
    ∃ n, ∀ fuel, n < fuel → ∃ s' p,
      mm_malloc fuel (after 2147483648 ops_two).1 70000 true = some (s', p) ∧
      s'.mem_brk = (after 2147483648 ops_two).1.mem_brk + max (adjust 70000) CHUNKSIZE ∧
      GET s'.mem (s'.mem_brk - WSIZE) = PACK 0 1 ∧
      p ≠ 0 ∧ GET_ALLOC s'.mem (HDRP p) = 1 ∧ adjust 70000 ≤ GET_SIZE s'.mem (HDRP p) :=
  ⟨reachable_two, two_nofit, by decide!,
    C8_growth _ _ 70000 true reachable_two (by decide) (by decide) (by decide!) two_nofit
      (by decide!)⟩

/-! ## C9: what `mm_free` leaves behind -/

/-- C9 (counterexample): after two requests of 2 GiB and `mm_free` of the
first, the heap has `2^32 + 65560` bytes; the live block 2147483680 has
`2^31` bytes and both its neighbours are tagged free, of 2147483656 and 65536
bytes.  After `mm_free(2147483680)` the header of the merged block at 24 holds
65544, not the sum 4295032840 of the three sizes, which does not fit into the
32 bits of a header. -/
theorem C9_counterexample :
    Reachable (after 2147483648 ops_big).1 (after 2147483648 ops_big).2 ∧
    2147483680 ∈ (after 2147483648 ops_big).2.map Prod.fst ∧
    merged_start (after 2147483648 ops_big).1 2147483680 = 24 ∧
    merged_size (after 2147483648 ops_big).1 2147483680 = 4295032840 ∧
    GET (mm_free (after 2147483648 ops_big).1 2147483680).mem (HDRP 24) = 65544 ∧
    GET (mm_free (after 2147483648 ops_big).1 2147483680).mem
        (HDRP (merged_start (after 2147483648 ops_big).1 2147483680))
      ≠ PACK (merged_size (after 2147483648 ops_big).1 2147483680) 0 := by
  refine ⟨reachable_after _ _ (by decide!), by decide!, by decide!, by decide!, by decide!,
    by decide!⟩

/-- C9 (amended): in every state reached from a successful `mm_init` by
`mm_malloc(size)` calls with `size < 2^31` and `mm_free` calls on live pointers,
whose heap is smaller than `2^32` bytes, and for every live pointer `p`: after
`mm_free(p)` the block that starts at the previous neighbour's address if the
previous neighbour was tagged free, and at `p` otherwise, holds `(S, free)` in
its header and in its footer, where `S` is the size of the block of `p` plus
the sizes of those of its two physical neighbours that were tagged free; it is
the head of the free list (`free_listp`), which is this block followed by the
old free list without the absorbed neighbours; no block occurs twice in it and
an absorbed next neighbour does not occur in it. -/
theorem C9_free_merges (s : State) (live : Live) (p : Nat) (hr : Reachable s live)
    (hb : Bounded s) (hp : p ∈ live.map Prod.fst) :
    ∃ l, (∀ fuel, l.length < fuel → free_walk s.mem fuel s.free_listp = some l) ∧
      GET (mm_free s p).mem (HDRP (merged_start s p)) = PACK (merged_size s p) 0 ∧
      GET (mm_free s p).mem (FTRP (mm_free s p).mem (merged_start s p))
        = PACK (merged_size s p) 0 ∧
      (mm_free s p).free_listp = merged_start s p ∧
      (∀ fuel, l.length + 1 < fuel →
        free_walk (mm_free s p).mem fuel (mm_free s p).free_listp
          = some (merged_start s p :: merged_rest s p l)) ∧
      (merged_start s p :: merged_rest s p l).Nodup ∧
      (next_is_free s p = true →
        NEXT_BLKP s.mem p ∉ merged_start s p :: merged_rest s p l) := by
  obtain ⟨bs, fl, hI⟩ := reach_inv hr hb
  obtain ⟨b, hbm, hbp, hba⟩ := mem_allocAddrs.1 (hI.live_perm.mem_iff.1 hp)
  subst hbp
  obtain ⟨pre, post, rfl⟩ := List.append_of_mem hbm
  obtain ⟨hH', hmem, hnext⟩ := mm_free_merge hI.heap hba
  have hc' := hH'.core
  have rb := hc'.read hmem
  have ht := hc'.tags _ hmem
  simp only at rb ht
  have hlen : (merged_rest s b.bp fl).length ≤ fl.length := by
    unfold merged_rest
    dsimp only
    split_ifs
    · exact le_trans (List.length_erase_le _ _) (List.length_erase_le _ _)
    · exact List.length_erase_le _ _
    · exact List.length_erase_le _ _
    · exact le_refl _
  have hhead : (mm_free s b.bp).free_listp = merged_start s b.bp := hH'.flist.1
  refine ⟨fl, fun fuel hf => free_walk_of_FL hI.heap.flist fuel hf, ?_, ?_, hhead, ?_, ?_,
    hnext⟩
  · rw [PACK_zero]
    have := ht.1
    unfold Blk.tag at this
    simpa [HDRP, WSIZE] using this
  · rw [PACK_zero, rb.2.2.1]
    have := ht.2
    unfold Blk.tag at this
    simpa using this
  · intro fuel hf
    exact free_walk_of_FL hH'.flist fuel (by simp only [List.length_cons]; omega)
  · exact far_nodup (perm_far hH'.perm hc'.contig hc'.sized)


/-- C9 (witness): the amended statement at `mm_free(48)` after `mm_malloc(16)`
and `mm_malloc(100)`; the block 48 is followed by the free block 160. -/
theorem C9_witness :
    Reachable (after 2147483648 ops_two).1 (after 2147483648 ops_two).2 ∧
    Bounded (after 2147483648 ops_two).1 ∧
    48 ∈ (after 2147483648 ops_two).2.map Prod.fst ∧
    ∃ l, (∀ fuel, l.length < fuel →
        free_walk (after 2147483648 ops_two).1.mem fuel
          (after 2147483648 ops_two).1.free_listp = some l) ∧
      GET (mm_free (after 2147483648 ops_two).1 48).mem
          (HDRP (merged_start (after 2147483648 ops_two).1 48))
        = PACK (merged_size (after 2147483648 ops_two).1 48) 0 ∧
      GET (mm_free (after 2147483648 ops_two).1 48).mem
          (FTRP (mm_free (after 2147483648 ops_two).1 48).mem
            (merged_start (after 2147483648 ops_two).1 48))
        = PACK (merged_size (after 2147483648 ops_two).1 48) 0 ∧
      (mm_free (after 2147483648 ops_two).1 48).free_listp
        = merged_start (after 2147483648 ops_two).1 48 ∧
      (∀ fuel, l.length + 1 < fuel →
        free_walk (mm_free (after 2147483648 ops_two).1 48).mem fuel
          (mm_free (after 2147483648 ops_two).1 48).free_listp
          = some (merged_start (after 2147483648 ops_two).1 48
              :: merged_rest (after 2147483648 ops_two).1 48 l)) ∧
      (merged_start (after 2147483648 ops_two).1 48
        :: merged_rest (after 2147483648 ops_two).1 48 l).Nodup ∧
      (next_is_free (after 2147483648 ops_two).1 48 = true →
        NEXT_BLKP (after 2147483648 ops_two).1.mem 48 ∉
          merged_start (after 2147483648 ops_two).1 48
            :: merged_rest (after 2147483648 ops_two).1 48 l) :=
  ⟨reachable_two, bounded_two, by decide!,
    C9_free_merges _ _ 48 reachable_two bounded_two (by decide!)⟩

/-! ## C10: three minimum blocks, freed in the order B, A, C -/

theorem adjust_small (sz : Nat) (h16 : sz ≤ 16) : adjust sz = 24 := by
  unfold adjust DSIZE MIN_BLOCK_SIZE
  have : (8 : Nat) <<< 1 = 16 := by decide
  rw [this, if_pos h16]

/-- A request served by splitting the block at the head of the free list. -/
theorem malloc_split {s : State} {pre post : List Blk} {fl : List Nat} {x T : Nat}
    (hH : HeapInv s (pre ++ ⟨x, T, false⟩ :: post) (x :: fl))
    (sz asize : Nat) (h0 : sz ≠ 0) (ha : adjust sz = asize) (h24 : 24 ≤ asize)
    (h8 : asize % 8 = 0) (hle : asize + 24 ≤ T) (fuel : Nat) (hf : 0 < fuel) (grant : Bool) :
    mm_malloc fuel s sz grant = some (place s x asize, x) ∧
    HeapInv (place s x asize)
      (pre ++ ⟨x, asize, true⟩ :: ⟨x + asize, T - asize, false⟩ :: post)
      ((x + asize) :: fl) := by
  have hc := hH.core
  have hb : (⟨x, T, false⟩ : Blk) ∈ pre ++ ⟨x, T, false⟩ :: post := by simp
  have rb := hc.read hb
  simp only at rb
  obtain ⟨hhead, hx0, _, _⟩ := hH.flist
  have hff : find_fit fuel s asize = some x := by
    unfold find_fit
    cases fuel with
    | zero => cases hf
    | succ k =>
      rw [hhead]
      simp only [find_fit_from, hx0, if_false, rb.1]
      rw [if_pos (by omega)]
  constructor
  · unfold mm_malloc
    rw [if_neg h0]
    dsimp only
    rw [ha, hff]
    simp only [ne_eq, hx0, not_false_eq_true, if_true]
  · obtain ⟨l1, l2, hl, hi, _⟩ := place_spec_split hc hH.flist hH.perm h24 h8 hle
    have hnd : (x :: fl).Nodup := far_nodup (perm_far hH.perm hc.contig hc.sized)
    cases l1 with
    | nil =>
      simp only [List.nil_append, List.cons.injEq, true_and] at hl
      subst hl
      exact hi
    | cons y l1' =>
      simp only [List.cons_append, List.cons.injEq] at hl
      have hx : x ∈ fl := by rw [hl.2]; simp
      exact absurd hx (List.nodup_cons.1 hnd).1


/-- The heap after three minimum-size requests on a fresh heap. -/
theorem three_mallocs (base : Nat) (m0 : Mem) (g1 g2 ga gb gc : Bool) (fuel sz : Nat)
    (h8 : base % 8 = 0) (hpos : 0 < base)
    (hinit : (mm_init (State.start base m0) g1 g2).2 = 0)
    (h1 : 1 ≤ sz) (h16 : sz ≤ 16) (hfuel : 0 < fuel) :
    ∃ s1 s2 s3,
      mm_malloc fuel (mm_init (State.start base m0) g1 g2).1 sz ga = some (s1, base + 16) ∧
      mm_malloc fuel s1 sz gb = some (s2, base + 40) ∧
      mm_malloc fuel s2 sz gc = some (s3, base + 64) ∧
      HeapInv s3 [⟨base + 16, 24, true⟩, ⟨base + 40, 24, true⟩, ⟨base + 64, 24, true⟩,
        ⟨base + 88, 65464, false⟩] [base + 88] ∧
      s3.mem_lo = base ∧ s3.mem_brk = base + 65552 := by
  obtain ⟨hI0, hlo0, hbrk0⟩ := mm_init_inv base m0 g1 g2 h8 hpos hinit
  have ha := adjust_small sz h16
  have h0 : sz ≠ 0 := by omega
  have hH0 : HeapInv (mm_init (State.start base m0) g1 g2).1
      ([] ++ ⟨base + 16, 65536, false⟩ :: []) ((base + 16) :: []) := hI0.heap
  obtain ⟨e1, hH1⟩ := malloc_split hH0 sz 24 h0 ha (by omega) (by omega) (by omega) fuel
    hfuel ga
  have n1 : base + 16 + 24 = base + 40 := by omega
  have n1' : 65536 - 24 = 65512 := by norm_num
  rw [n1, n1'] at hH1
  have hH1' : HeapInv (place (mm_init (State.start base m0) g1 g2).1 (base + 16) 24)
      ([⟨base + 16, 24, true⟩] ++ ⟨base + 40, 65512, false⟩ :: []) ((base + 40) :: []) := hH1
  obtain ⟨e2, hH2⟩ := malloc_split hH1' sz 24 h0 ha (by omega) (by omega) (by omega) fuel
    hfuel gb
  have n2 : base + 40 + 24 = base + 64 := by omega
  have n2' : 65512 - 24 = 65488 := by norm_num
  rw [n2, n2'] at hH2
  have hH2' : HeapInv
      (place (place (mm_init (State.start base m0) g1 g2).1 (base + 16) 24) (base + 40) 24)
      ([⟨base + 16, 24, true⟩, ⟨base + 40, 24, true⟩] ++ ⟨base + 64, 65488, false⟩ :: [])
      ((base + 64) :: []) := hH2
  obtain ⟨e3, hH3⟩ := malloc_split hH2' sz 24 h0 ha (by omega) (by omega) (by omega) fuel
    hfuel gc
  have n3 : base + 64 + 24 = base + 88 := by omega
  have n3' : 65488 - 24 = 65464 := by norm_num
  rw [n3, n3'] at hH3
  refine ⟨_, _, _, e1, e2, e3, hH3, ?_, ?_⟩
  · rw [(place_region _ _ _).1, (place_region _ _ _).1, (place_region _ _ _).1]
    exact hlo0
  · rw [(place_region _ _ _).2, (place_region _ _ _).2, (place_region _ _ _).2]
    exact hbrk0

/-- The heap after the three blocks have been freed in the order B, A, C. -/
theorem three_frees {s3 : State} {base : Nat} {fl : List Nat}
    (hH : HeapInv s3 [⟨base + 16, 24, true⟩, ⟨base + 40, 24, true⟩, ⟨base + 64, 24, true⟩,
        ⟨base + 88, 65464, false⟩] fl) :
    ∃ fl', HeapInv (mm_free (mm_free (mm_free s3 (base + 40)) (base + 16)) (base + 64))
      [⟨base + 16, 65536, false⟩] fl' := by
  have hB : HeapInv s3 ([⟨base + 16, 24, true⟩] ++ ⟨base + 40, 24, true⟩ ::
      [⟨base + 64, 24, true⟩, ⟨base + 88, 65464, false⟩]) fl := hH
  have h4 := (mm_free_merge hB rfl).1
  have m4 : mergeBlocks [⟨base + 16, 24, true⟩] ⟨base + 40, 24, true⟩
      [⟨base + 64, 24, true⟩, ⟨base + 88, 65464, false⟩]
      = [] ++ ⟨base + 16, 24, true⟩ ::
        [⟨base + 40, 24, false⟩, ⟨base + 64, 24, true⟩, ⟨base + 88, 65464, false⟩] := rfl
  rw [m4] at h4
  have h5 := (mm_free_merge h4 rfl).1
  have m5 : mergeBlocks [] ⟨base + 16, 24, true⟩
      [⟨base + 40, 24, false⟩, ⟨base + 64, 24, true⟩, ⟨base + 88, 65464, false⟩]
      = [⟨base + 16, 24 + 24, false⟩] ++ ⟨base + 64, 24, true⟩ ::
        [⟨base + 88, 65464, false⟩] := rfl
  rw [m5] at h5
  have h6 := (mm_free_merge h5 rfl).1
  have m6 : mergeBlocks [⟨base + 16, 24 + 24, false⟩] ⟨base + 64, 24, true⟩
      [⟨base + 88, 65464, false⟩] = [⟨base + 16, 24 + (24 + 24 + 65464), false⟩] := rfl
  rw [m6] at h6
  have n : 24 + (24 + 24 + 65464) = 65536 := by norm_num
  rw [n] at h6
  exact ⟨_, h6⟩


/-- C10 (counterexample): on the heap right after `mm_init`, `A = 24`, `B = 48`
and `C = 72` are adjacent blocks of 24 bytes, and after `mm_free(B)`,
`mm_free(A)`, `mm_free(C)` the heap holds the single free block 24, but its
size is 65536 and not `24 + 24 + 24`: the free block that followed `C` has been
merged as well. -/
theorem C10_counterexample :
    Reachable (after 2147483648 ops_collapse).1 (after 2147483648 ops_collapse).2 ∧
    (after 2147483648 ops_three).2 = [(72, 16), (48, 16), (24, 16)] ∧
    GET_SIZE (after 2147483648 ops_three).1.mem (HDRP 24) = 24 ∧
    GET_SIZE (after 2147483648 ops_three).1.mem (HDRP 48) = 24 ∧
    GET_SIZE (after 2147483648 ops_three).1.mem (HDRP 72) = 24 ∧
    (after 2147483648 ops_collapse).1
      = mm_free (mm_free (mm_free (after 2147483648 ops_three).1 48) 24) 72 ∧
    heap_walk (after 2147483648 ops_collapse).1.mem 8
      ((after 2147483648 ops_collapse).1.heap_listp + DSIZE)
      = some ([24], (after 2147483648 ops_collapse).1.mem_brk) ∧
    GET_ALLOC (after 2147483648 ops_collapse).1.mem (HDRP 24) = 0 ∧
    GET_SIZE (after 2147483648 ops_collapse).1.mem (HDRP 24) = 65536 ∧
    GET_SIZE (after 2147483648 ops_collapse).1.mem (HDRP 24) ≠ 24 + 24 + 24 := by
  refine ⟨reachable_after _ _ (by decide!), by decide!, by decide!, by decide!, by decide!,
    rfl, by decide!, by decide!, by decide!, by decide!⟩

/-- C10 (amended): starting from the state right after a successful `mm_init`,
let `A = mm_malloc(s)`, `B = mm_malloc(s)`, `C = mm_malloc(s)` for a
minimum-size request `s` (`1 <= s <= 16`): `A`, `B`, `C` are physically
adjacent allocated 24-byte blocks, followed by a free block of 65464 bytes, and
after `mm_free(B)`, `mm_free(A)`, `mm_free(C)` the heap contains a single
block, at `A`, which is free, is the only block of the free list, and whose
size is `size(A) + size(B) + size(C)` plus the 65464 bytes of the free block
that followed `C`. -/
theorem C10_collapse (base : Nat) (m0 : Mem) (g1 g2 ga gb gc : Bool) (fuel sz : Nat)
    (h8 : base % 8 = 0) (hpos : 0 < base)
    (hinit : (mm_init (State.start base m0) g1 g2).2 = 0)
    (h1 : 1 ≤ sz) (h16 : sz ≤ 16) (hfuel : 0 < fuel) :
    ∃ s1 s2 s3 s6,
      mm_malloc fuel (mm_init (State.start base m0) g1 g2).1 sz ga = some (s1, base + 16) ∧
      mm_malloc fuel s1 sz gb = some (s2, base + 40) ∧
      mm_malloc fuel s2 sz gc = some (s3, base + 64) ∧
      (GET_SIZE s3.mem (HDRP (base + 16)) = 24 ∧ GET_ALLOC s3.mem (HDRP (base + 16)) = 1 ∧
        NEXT_BLKP s3.mem (base + 16) = base + 40) ∧
      (GET_SIZE s3.mem (HDRP (base + 40)) = 24 ∧ GET_ALLOC s3.mem (HDRP (base + 40)) = 1 ∧
        NEXT_BLKP s3.mem (base + 40) = base + 64) ∧
      (GET_SIZE s3.mem (HDRP (base + 64)) = 24 ∧ GET_ALLOC s3.mem (HDRP (base + 64)) = 1 ∧
        NEXT_BLKP s3.mem (base + 64) = base + 88) ∧
      (GET_SIZE s3.mem (HDRP (base + 88)) = 65464 ∧
        GET_ALLOC s3.mem (HDRP (base + 88)) = 0) ∧
      s6 = mm_free (mm_free (mm_free s3 (base + 40)) (base + 16)) (base + 64) ∧
      (∀ n, 1 < n →
        heap_walk s6.mem n (s6.heap_listp + DSIZE) = some ([base + 16], s6.mem_brk)) ∧
      GET_ALLOC s6.mem (HDRP (base + 16)) = 0 ∧
      GET_SIZE s6.mem (HDRP (base + 16)) = 24 + 24 + 24 + 65464 ∧
      (∀ n, 1 < n → free_walk s6.mem n s6.free_listp = some [base + 16]) := by
  obtain ⟨s1, s2, s3, e1, e2, e3, hH3, _, _⟩ :=
    three_mallocs base m0 g1 g2 ga gb gc fuel sz h8 hpos hinit h1 h16 hfuel
  obtain ⟨fl6, hH6⟩ := three_frees hH3
  have hc3 := hH3.core
  have rA := hc3.read (show (⟨base + 16, 24, true⟩ : Blk) ∈ _ by simp)
  have rB := hc3.read (show (⟨base + 40, 24, true⟩ : Blk) ∈ _ by simp)
  have rC := hc3.read (show (⟨base + 64, 24, true⟩ : Blk) ∈ _ by simp)
  have rR := hc3.read (show (⟨base + 88, 65464, false⟩ : Blk) ∈ _ by simp)
  simp only at rA rB rC rR
  have hc6 := hH6.core
  have r6 := hc6.read (show (⟨base + 16, 65536, false⟩ : Blk) ∈ _ by simp)
  simp only at r6
  have hfl : fl6 = [base + 16] := by
    have hp := hH6.perm
    have e : freeAddrs [(⟨base + 16, 65536, false⟩ : Blk)] = [base + 16] := rfl
    rw [e] at hp
    exact List.perm_singleton.1 hp
  have hFL := hH6.flist
  rw [hfl] at hFL
  refine ⟨s1, s2, s3, _, e1, e2, e3, ⟨rA.1, rA.2.1, rA.2.2.2.1⟩, ⟨rB.1, rB.2.1, rB.2.2.2.1⟩,
    ⟨rC.1, rC.2.1, rC.2.2.2.1⟩, ⟨rR.1, rR.2.1⟩, rfl, ?_, r6.2.1, r6.1, ?_⟩
  · intro n hn
    exact heap_walk_of_core hc6 n (by simpa using hn)
  · intro n hn
    exact free_walk_of_FL hFL n (by simpa using hn)

/-- C10 (witness): the amended statement on a region that starts at address 8
and holds zeros, with requests of 16 bytes. -/
theorem C10_witness :
    (mm_init (State.start 8 (fun _ => 0)) true true).2 = 0 ∧
    ∃ s1 s2 s3 s6,
      mm_malloc 64 (mm_init (State.start 8 (fun _ => 0)) true true).1 16 true
        = some (s1, 8 + 16) ∧
      mm_malloc 64 s1 16 true = some (s2, 8 + 40) ∧
      mm_malloc 64 s2 16 true = some (s3, 8 + 64) ∧
      (GET_SIZE s3.mem (HDRP (8 + 16)) = 24 ∧ GET_ALLOC s3.mem (HDRP (8 + 16)) = 1 ∧
        NEXT_BLKP s3.mem (8 + 16) = 8 + 40) ∧
      (GET_SIZE s3.mem (HDRP (8 + 40)) = 24 ∧ GET_ALLOC s3.mem (HDRP (8 + 40)) = 1 ∧
        NEXT_BLKP s3.mem (8 + 40) = 8 + 64) ∧
      (GET_SIZE s3.mem (HDRP (8 + 64)) = 24 ∧ GET_ALLOC s3.mem (HDRP (8 + 64)) = 1 ∧
        NEXT_BLKP s3.mem (8 + 64) = 8 + 88) ∧
      (GET_SIZE s3.mem (HDRP (8 + 88)) = 65464 ∧
        GET_ALLOC s3.mem (HDRP (8 + 88)) = 0) ∧
      s6 = mm_free (mm_free (mm_free s3 (8 + 40)) (8 + 16)) (8 + 64) ∧
      (∀ n, 1 < n →
        heap_walk s6.mem n (s6.heap_listp + DSIZE) = some ([8 + 16], s6.mem_brk)) ∧
      GET_ALLOC s6.mem (HDRP (8 + 16)) = 0 ∧
      GET_SIZE s6.mem (HDRP (8 + 16)) = 24 + 24 + 24 + 65464 ∧
      (∀ n, 1 < n → free_walk s6.mem n s6.free_listp = some [8 + 16]) :=
  ⟨init8_ok, C10_collapse 8 (fun _ => 0) true true true true true 64 16 (by decide)
    (by decide) init8_ok (by decide) (by decide) (by decide)⟩


/-! ## C12: first fit -/

/-- The first-fit loop on a list walk that ends. -/
theorem find_fit_from_walk (m : Mem) (need : Nat) (n : Nat) :
    ∀ (h : Nat) (l : List Nat), free_walk m n h = some l →
    ∀ fuel, l.length < fuel → ∃ r, find_fit_from m need fuel h = some r ∧
      ((r ≠ 0 ∧ ∃ l1 l2, l = l1 ++ r :: l2 ∧ need ≤ GET_SIZE m (HDRP r) ∧
          ∀ y ∈ l1, GET_SIZE m (HDRP y) < need) ∨
       (r = 0 ∧ ∀ y ∈ l, GET_SIZE m (HDRP y) < need)) := by
  induction n with
  | zero => intro h l hw; simp [free_walk] at hw
  | succ k ih =>
    intro h l hw fuel hf
    cases fuel with
    | zero => cases hf
    | succ j =>
      by_cases h0 : h = 0
      · simp only [free_walk, h0, if_true, Option.some.injEq] at hw
        subst hw
        refine ⟨0, by simp [find_fit_from, h0], Or.inr ⟨rfl, ?_⟩⟩
        intro y hy; cases hy
      · simp only [free_walk, h0, if_false] at hw
        cases hrec : free_walk m k (NEXT_FREEP m h) with
        | none => rw [hrec] at hw; simp at hw
        | some l' =>
          rw [hrec] at hw
          simp only [Option.some.injEq] at hw
          subst hw
          by_cases hfit : need ≤ GET_SIZE m (HDRP h)
          · refine ⟨h, by simp [find_fit_from, h0, hfit], Or.inl ⟨h0, [], l', rfl, hfit, ?_⟩⟩
            intro y hy; cases hy
          · obtain ⟨r, hr, hD⟩ := ih (NEXT_FREEP m h) l' hrec j (by simpa using hf)
            refine ⟨r, by simp only [find_fit_from, h0, hfit, if_false]; exact hr, ?_⟩
            rcases hD with ⟨hr0, l1, l2, hl, hge, hlt⟩ | ⟨hr0, hall⟩
            · refine Or.inl ⟨hr0, h :: l1, l2, by rw [hl]; rfl, hge, ?_⟩
              intro y hy
              rcases List.mem_cons.1 hy with rfl | hy
              · omega
              · exact hlt y hy
            · refine Or.inr ⟨hr0, ?_⟩
              intro y hy
              rcases List.mem_cons.1 hy with rfl | hy
              · omega
              · exact hall y hy

/-- C12: for every free list whose walk from `free_listp` ends (acyclic and
NULL-terminated) and every adjusted size `need`, `find_fit(need)` returns (given
fuel for the length of the list) the first block in list order whose header
size is `>= need`: every block before it has a size `< need`; it returns NULL if
and only if no block of the list has a size `>= need`.  `find_fit` only reads:
it returns a pointer and no state. -/
theorem C12_first_fit (s : State) (need n : Nat) (l : List Nat)
    (hw : free_walk s.mem n s.free_listp = some l) :
    ∀ fuel, l.length < fuel → ∃ r, find_fit fuel s need = some r ∧
      ((r ≠ 0 ∧ ∃ l1 l2, l = l1 ++ r :: l2 ∧ need ≤ GET_SIZE s.mem (HDRP r) ∧
          ∀ y ∈ l1, GET_SIZE s.mem (HDRP y) < need) ∨
       (r = 0 ∧ ∀ y ∈ l, GET_SIZE s.mem (HDRP y) < need)) ∧
      (r = 0 ↔ ∀ y ∈ l, GET_SIZE s.mem (HDRP y) < need) := by
  intro fuel hf
  obtain ⟨r, hr, hD⟩ := find_fit_from_walk s.mem need n s.free_listp l hw fuel hf
  refine ⟨r, hr, hD, ?_⟩
  rcases hD with ⟨hr0, l1, l2, hl, hge, _⟩ | ⟨hr0, hall⟩
  · constructor
    · intro h; exact absurd h hr0
    · intro hall
      have := hall r (by rw [hl]; simp)
      omega
  · exact ⟨fun _ => hall, fun _ => hr0⟩

/-! ## C13: the adjusted size -/

/-- C13 (counterexample): for `size = 2^64 - 1` the sum `size + DSIZE + (DSIZE-1)`
wraps around in `size_t` and the adjusted size is 8, which is neither
`max(24, roundup8(size + 8))` nor at least 24. -/
theorem C13_counterexample :
    0 < 18446744073709551615 ∧ 18446744073709551615 < 18446744073709551616 ∧
    adjust 18446744073709551615 = 8 ∧
    spec_need 18446744073709551615 = 18446744073709551624 ∧
    adjust 18446744073709551615 ≠ spec_need 18446744073709551615 ∧
    ¬ 24 ≤ adjust 18446744073709551615 := by
  refine ⟨by decide, by decide, by decide, by decide, by decide, by decide⟩

/-- C13 (amended): for every requested size with `0 < size <= 2^64 - 16` (so
that `size + 15` fits a `size_t`), the adjusted block size that `mm_malloc`
computes equals `max(24, roundup8(size + 8))`; consequently it is a multiple of
8 and at least 24. -/
theorem C13_adjusted_size (size : Nat) (h0 : 0 < size) (hle : size ≤ 18446744073709551600) :
    adjust size = spec_need size ∧ adjust size % 8 = 0 ∧ 24 ≤ adjust size := by
  unfold spec_need roundup8 adjust DSIZE MIN_BLOCK_SIZE
  have e : (8 : Nat) <<< 1 = 16 := by decide
  rw [e]
  by_cases h : size ≤ 16
  · rw [if_pos h]
    refine ⟨?_, by omega, by omega⟩
    rw [Nat.max_eq_left (by omega)]
  · rw [if_neg h]
    have e1 : (size + 8 + (8 - 1)) % 18446744073709551616 = size + 8 + 7 := by omega
    rw [e1]
    refine ⟨?_, by omega, by omega⟩
    rw [Nat.max_eq_right (by omega)]
    omega

/-- C13 (witness): the amended statement at `size = 100`. -/
theorem C13_witness :
    (0 : Nat) < 100 ∧ (100 : Nat) ≤ 18446744073709551600 ∧
    (adjust 100 = spec_need 100 ∧ adjust 100 % 8 = 0 ∧ 24 ≤ adjust 100) :=
  ⟨by decide, by decide, C13_adjusted_size 100 (by decide) (by decide)⟩


/-- C12 (witness): the statement at the state after three requests of 16 bytes
and `mm_free(24)`, whose free list is 24, 96, for `need = 32`. -/
theorem C12_witness :
    free_walk (after 2147483648 ops_listed).1.mem 8 (after 2147483648 ops_listed).1.free_listp
      = some [24, 96] ∧
    ∀ fuel, [24, 96].length < fuel → ∃ r,
      find_fit fuel (after 2147483648 ops_listed).1 32 = some r ∧
      ((r ≠ 0 ∧ ∃ l1 l2, [24, 96] = l1 ++ r :: l2 ∧
          32 ≤ GET_SIZE (after 2147483648 ops_listed).1.mem (HDRP r) ∧
          ∀ y ∈ l1, GET_SIZE (after 2147483648 ops_listed).1.mem (HDRP y) < 32) ∨
       (r = 0 ∧ ∀ y ∈ [24, 96], GET_SIZE (after 2147483648 ops_listed).1.mem (HDRP y) < 32)) ∧
      (r = 0 ↔ ∀ y ∈ [24, 96], GET_SIZE (after 2147483648 ops_listed).1.mem (HDRP y) < 32) :=
  ⟨by decide!, C12_first_fit (after 2147483648 ops_listed).1 32 8 [24, 96] (by decide!)⟩

/-! ## C18: `addfree` and `removefree` keep the free list well formed -/

theorem listed_FL :
    FL (after 2147483648 ops_listed).1.mem (after 2147483648 ops_listed).1.free_listp
      [24, 96] := by
  refine ⟨by decide!, by decide, by decide!, by decide!, by decide, by decide!, ?_⟩
  show NEXT_FREEP (after 2147483648 ops_listed).1.mem 96 = 0
  decide!

/-- C18: let the list from `free_listp` be well formed (`FL`: acyclic,
NULL-terminated, the head has a NULL prev pointer, and every element `y`
following `x` has `PREV_FREEP(y) = x`), its elements being blocks, that is
64-bit addresses at least a minimum block (24 bytes) apart.  Then (i) after
`addfree(b)` for a non-NULL block `b` not in the list (at least 24 bytes from
its elements) the list is `b` followed by the old list, and (ii) after
`removefree(b)` for a block `b` of the list, wherever it stands, the list is
the old list with `b` deleted, the other elements in the same order; in both
cases the list is well formed again. -/
theorem C18_list_ops (s : State) (L : List Nat) (hfl : FL s.mem s.free_listp L)
    (hfar : L.Pairwise Far) (hlt : ∀ y ∈ L, y < 18446744073709551616) :
    (∀ b, b ≠ 0 → b < 18446744073709551616 → (∀ y ∈ L, Far b y) →
      FL (addfree s b).mem (addfree s b).free_listp (b :: L)) ∧
    (∀ b l1 l2, L = l1 ++ b :: l2 →
      FL (removefree s b).mem (removefree s b).free_listp (l1 ++ l2)) := by
  constructor
  · intro b hb0 hblt hbfar
    exact (addfree_spec s b L hfl hb0 hblt (List.pairwise_cons.2 ⟨hbfar, hfar⟩) hlt).1
  · intro b l1 l2 hL
    subst hL
    exact (removefree_spec s b l1 l2 hfl hfar hlt).1

/-- C18 (witness): the statement at the state after three requests of 16 bytes
and `mm_free(24)`, whose free list is 24, 96. -/
theorem C18_witness :
    FL (after 2147483648 ops_listed).1.mem (after 2147483648 ops_listed).1.free_listp
      [24, 96] ∧
    ((∀ b, b ≠ 0 → b < 18446744073709551616 → (∀ y ∈ [24, 96], Far b y) →
      FL (addfree (after 2147483648 ops_listed).1 b).mem
        (addfree (after 2147483648 ops_listed).1 b).free_listp (b :: [24, 96])) ∧
    (∀ b l1 l2, [24, 96] = l1 ++ b :: l2 →
      FL (removefree (after 2147483648 ops_listed).1 b).mem
        (removefree (after 2147483648 ops_listed).1 b).free_listp (l1 ++ l2))) :=
  ⟨listed_FL, C18_list_ops (after 2147483648 ops_listed).1 [24, 96] listed_FL
    (by unfold Far; simp) (by intro y hy; simp at hy; rcases hy with rfl | rfl <;> decide)⟩


/-! ## C16: the heap that `mm_init` builds -/

/-- The words of the heap after the tag writes of `mm_init` and `extend_heap`. -/
theorem init_words (m0 : Mem) (base : Nat) :
    GET (PUT (PUT (PUT (PUT (PUT (PUT (PUT m0 base 0) (base + 4) 9) (base + 8) 9) (base + 12) 1)
        (base + 12) 65536) (base + 65544) 65536) (base + 65548) 1) base = 0 ∧
    GET (PUT (PUT (PUT (PUT (PUT (PUT (PUT m0 base 0) (base + 4) 9) (base + 8) 9) (base + 12) 1)
        (base + 12) 65536) (base + 65544) 65536) (base + 65548) 1) (base + 4) = 9 ∧
    GET (PUT (PUT (PUT (PUT (PUT (PUT (PUT m0 base 0) (base + 4) 9) (base + 8) 9) (base + 12) 1)
        (base + 12) 65536) (base + 65544) 65536) (base + 65548) 1) (base + 8) = 9 ∧
    GET (PUT (PUT (PUT (PUT (PUT (PUT (PUT m0 base 0) (base + 4) 9) (base + 8) 9) (base + 12) 1)
        (base + 12) 65536) (base + 65544) 65536) (base + 65548) 1) (base + 12) = 65536 ∧
    GET (PUT (PUT (PUT (PUT (PUT (PUT (PUT m0 base 0) (base + 4) 9) (base + 8) 9) (base + 12) 1)
        (base + 12) 65536) (base + 65544) 65536) (base + 65548) 1) (base + 65544) = 65536 ∧
    GET (PUT (PUT (PUT (PUT (PUT (PUT (PUT m0 base 0) (base + 4) 9) (base + 8) 9) (base + 12) 1)
        (base + 12) 65536) (base + 65544) 65536) (base + 65548) 1) (base + 65548) = 1 := by
  refine ⟨?_, ?_, ?_, ?_, ?_, ?_⟩
  · rw [GET_PUT_disj _ _ _ _ (by omega), GET_PUT_disj _ _ _ _ (by omega),
      GET_PUT_disj _ _ _ _ (by omega), GET_PUT_disj _ _ _ _ (by omega),
      GET_PUT_disj _ _ _ _ (by omega), GET_PUT_disj _ _ _ _ (by omega), GET_PUT_same]
  · rw [GET_PUT_disj _ _ _ _ (by omega), GET_PUT_disj _ _ _ _ (by omega),
      GET_PUT_disj _ _ _ _ (by omega), GET_PUT_disj _ _ _ _ (by omega),
      GET_PUT_disj _ _ _ _ (by omega), GET_PUT_same]
  · rw [GET_PUT_disj _ _ _ _ (by omega), GET_PUT_disj _ _ _ _ (by omega),
      GET_PUT_disj _ _ _ _ (by omega), GET_PUT_disj _ _ _ _ (by omega), GET_PUT_same]
  · rw [GET_PUT_disj _ _ _ _ (by omega), GET_PUT_disj _ _ _ _ (by omega), GET_PUT_same]
  · rw [GET_PUT_disj _ _ _ _ (by omega), GET_PUT_same]
  · rw [GET_PUT_same]

theorem coalesce_both_alloc (s : State) (x : Nat)
    (hpa : GET_ALLOC s.mem (FTRP s.mem (PREV_BLKP s.mem x)) = 1)
    (hna : GET_ALLOC s.mem (HDRP (NEXT_BLKP s.mem x)) = 1) :
    coalesce s x = (addfree s x, x) := by
  unfold coalesce; simp [hpa, hna]

/-- The state that a successful `mm_init` returns. -/
theorem mm_init_explicit (base : Nat) (m0 : Mem) (g1 g2 : Bool)
    (h1 : g1 = true ∧ base + 16 < 18446744073709551616)
    (h2 : g2 = true ∧ base + 16 + 65536 < 18446744073709551616) :
    mm_init (State.start base m0) g1 g2 =
      (⟨PUTP (PUTP (PUTP (PUTP
          (PUT (PUT (PUT (PUT (PUT (PUT (PUT m0 base 0) (base + 4) 9) (base + 8) 9)
            (base + 12) 1) (base + 12) 65536) (base + 65544) 65536) (base + 65548) 1)
          (base + 16) 0) (base + 24) 0) (base + 24) 0) (base + 16) 0,
        base, base + 65552, base + 8, base + 16⟩, 0) := by
  obtain ⟨w0, w4, w8, w12, wf, we⟩ := init_words m0 base
  rw [mm_init_eq base m0 g1 g2 h1]
  have hext : (16384 : Nat) = 65536 / WSIZE := by unfold WSIZE; norm_num
  have e := extend_heap_ok
    ⟨PUT (PUT (PUT (PUT m0 base 0) (base + 4) 9) (base + 8) 9) (base + 12) 1,
      base, base + 16, base + 8, 0⟩ 65536 g2 (by norm_num) (by norm_num) (by norm_num)
    (by show 4 ≤ base + 16; omega) h2
  dsimp only at e
  have a1 : base + 16 - 4 = base + 12 := by omega
  have a2 : base + 16 + 65536 - 8 = base + 65544 := by omega
  have a3 : base + 16 + 65536 - 4 = base + 65548 := by omega
  have a4 : base + 16 + 65536 = base + 65552 := by omega
  rw [a1, a2, a3, a4] at e
  rw [hext, e]
  generalize (PUT (PUT (PUT (PUT (PUT (PUT (PUT m0 base 0) (base + 4) 9) (base + 8) 9)
    (base + 12) 1) (base + 12) 65536) (base + 65544) 65536) (base + 65548) 1) = m4
    at w0 w4 w8 w12 wf we ⊢
  -- the neighbours of the new block are the prologue and the epilogue
  have s8 := @GET_SIZE_of_GET m4 (base + 8) 8 1 w8 (by omega) (by omega)
  have s4 := @GET_SIZE_of_GET m4 (base + 4) 8 1 w4 (by omega) (by omega)
  have s12 := @GET_SIZE_of_GET m4 (base + 12) 65536 0 w12 (by omega) (by omega)
  have al8 := @GET_ALLOC_of_GET m4 (base + 8) 8 1 w8 (by omega) (by omega)
  have ale := @GET_ALLOC_of_GET m4 (base + 65548) 0 1 (by rw [we]) (by omega) (by omega)
  have hpa : GET_ALLOC m4 (FTRP m4 (PREV_BLKP m4 (base + 16))) = 1 := by
    have b1 : base + 16 - 8 = base + 8 := by omega
    have b2 : base + 8 - 4 = base + 4 := by omega
    have b3 : base + 8 + 8 - 8 = base + 8 := by omega
    unfold FTRP PREV_BLKP HDRP DSIZE WSIZE
    rw [b1, s8, b1, b2, s4, b3, al8]
  have hna : GET_ALLOC m4 (HDRP (NEXT_BLKP m4 (base + 16))) = 1 := by
    have b1 : base + 16 - 4 = base + 12 := by omega
    have b2 : base + 16 + 65536 - 4 = base + 65548 := by omega
    unfold NEXT_BLKP HDRP WSIZE
    rw [b1, s12, b2, ale]
  rw [coalesce_both_alloc ⟨m4, base, base + 65552, base + 8, 0⟩ (base + 16) hpa hna]
  unfold addfree DSIZE
  dsimp only
  have c1 : base + 16 + 8 = base + 24 := by omega
  have c2 : base + 8 + 8 = base + 16 := by omega
  have hne : ¬ base + 16 = 0 := by omega
  simp only [hne, if_false, if_true, c1, c2]

/-- C16: when both provider calls succeed, `mm_init` returns 0 and leaves a
heap of `16 + 65536` bytes: 4 bytes of padding (0), prologue header and
prologue footer both (size 8, allocated), exactly one block, free, of size
65536 with matching header and footer, and an epilogue header (size 0,
allocated) in the last 4 bytes; `free_listp` points at that block, whose next
and prev pointers are both NULL.  If either provider call fails, `mm_init`
returns -1. -/
theorem C16_init_layout (base : Nat) (m0 : Mem) (g1 g2 : Bool) :
    ((mem_sbrk (State.start base m0) 16 g1).2 ≠ FAIL ∧
      (mem_sbrk (mem_sbrk (State.start base m0) 16 g1).1 65536 g2).2 ≠ FAIL →
      (mm_init (State.start base m0) g1 g2).2 = 0 ∧
      (mm_init (State.start base m0) g1 g2).1.mem_lo = base ∧
      (mm_init (State.start base m0) g1 g2).1.mem_brk = base + 16 + 65536 ∧
      (mm_init (State.start base m0) g1 g2).1.heap_listp = base + 8 ∧
      GET (mm_init (State.start base m0) g1 g2).1.mem base = 0 ∧
      GET (mm_init (State.start base m0) g1 g2).1.mem (base + 4) = PACK 8 1 ∧
      GET (mm_init (State.start base m0) g1 g2).1.mem (base + 8) = PACK 8 1 ∧
      GET (mm_init (State.start base m0) g1 g2).1.mem (HDRP (base + 16)) = PACK 65536 0 ∧
      FTRP (mm_init (State.start base m0) g1 g2).1.mem (base + 16) = base + 16 + 65536 - 8 ∧
      GET (mm_init (State.start base m0) g1 g2).1.mem
        (FTRP (mm_init (State.start base m0) g1 g2).1.mem (base + 16)) = PACK 65536 0 ∧
      GET (mm_init (State.start base m0) g1 g2).1.mem
        ((mm_init (State.start base m0) g1 g2).1.mem_brk - 4) = PACK 0 1 ∧
      heap_walk (mm_init (State.start base m0) g1 g2).1.mem 2
        ((mm_init (State.start base m0) g1 g2).1.heap_listp + DSIZE)
        = some ([base + 16], (mm_init (State.start base m0) g1 g2).1.mem_brk) ∧
      (mm_init (State.start base m0) g1 g2).1.free_listp = base + 16 ∧
      NEXT_FREEP (mm_init (State.start base m0) g1 g2).1.mem (base + 16) = 0 ∧
      PREV_FREEP (mm_init (State.start base m0) g1 g2).1.mem (base + 16) = 0) ∧
    ((mem_sbrk (State.start base m0) 16 g1).2 = FAIL ∨
      (mem_sbrk (mem_sbrk (State.start base m0) 16 g1).1 65536 g2).2 = FAIL →
      (mm_init (State.start base m0) g1 g2).2 = -1) := by
  have f1 := mem_sbrk_fail_iff (State.start base m0) 16 g1 (by omega)
  have hb0 : (State.start base m0).mem_brk = base := rfl
  rw [hb0] at f1
  by_cases h1 : g1 = true ∧ base + 16 < 18446744073709551616
  swap
  · -- the first call fails
    refine ⟨fun h => absurd (f1.2 h1) h.1, fun _ => mm_init_fail base m0 g1 g2 h1⟩
  have hs1 : (mem_sbrk (State.start base m0) 16 g1).1.mem_brk = base + 16 := by
    unfold mem_sbrk
    rw [if_pos (by rw [hb0]; exact h1)]
    rfl
  have f2 := mem_sbrk_fail_iff (mem_sbrk (State.start base m0) 16 g1).1 65536 g2 (by omega)
  rw [hs1] at f2
  by_cases h2 : g2 = true ∧ base + 16 + 65536 < 18446744073709551616
  swap
  · -- the second call fails
    refine ⟨fun h => absurd (f2.2 h2) h.2, fun _ => ?_⟩
    rw [mm_init_eq base m0 g1 g2 h1]
    have hext : (16384 : Nat) = 65536 / WSIZE := by unfold WSIZE; norm_num
    rw [hext, extend_heap_fail _ 65536 g2 (by norm_num) (by norm_num) h2]
    simp
  constructor
  swap
  · rintro (h | h)
    · exact absurd h1 (f1.1 h)
    · exact absurd h2 (f2.1 h)
  intro _
  obtain ⟨w0, w4, w8, w12, wf, we⟩ := init_words m0 base
  rw [mm_init_explicit base m0 g1 g2 h1 h2]
  generalize (PUT (PUT (PUT (PUT (PUT (PUT (PUT m0 base 0) (base + 4) 9) (base + 8) 9)
    (base + 12) 1) (base + 12) 65536) (base + 65544) 65536) (base + 65548) 1) = m4
    at w0 w4 w8 w12 wf we ⊢
  dsimp only
  have key : ∀ q, q + 4 ≤ base + 16 ∨ base + 32 ≤ q →
      GET (PUTP (PUTP (PUTP (PUTP m4 (base + 16) 0) (base + 24) 0) (base + 24) 0)
        (base + 16) 0) q = GET m4 q := by
    intro q hq
    rw [GET_PUTP_disj _ _ _ _ (by omega), GET_PUTP_disj _ _ _ _ (by omega),
      GET_PUTP_disj _ _ _ _ (by omega), GET_PUTP_disj _ _ _ _ (by omega)]
  have p8 : PACK 8 1 = 9 := by decide
  have p0 : PACK 65536 0 = 65536 := PACK_zero _
  have p1 : PACK 0 1 = 1 := by decide
  have a1 : HDRP (base + 16) = base + 12 := by unfold HDRP WSIZE; omega
  have g12 : GET (PUTP (PUTP (PUTP (PUTP m4 (base + 16) 0) (base + 24) 0) (base + 24) 0)
      (base + 16) 0) (base + 16 - 4) = 65536 + 0 := by
    have : base + 16 - 4 = base + 12 := by omega
    rw [this, key _ (by omega), w12]
  have hF := FTRP_of_GET g12 (by norm_num) (by omega)
  have a2 : base + 16 + 65536 - 8 = base + 65544 := by omega
  have a3 : base + 65552 - 4 = base + 65548 := by omega
  have a4 : base + 16 + 65536 = base + 65552 := by omega
  refine ⟨rfl, rfl, a4.symm, rfl, ?_, ?_, ?_, ?_, hF, ?_, ?_, ?_, rfl, ?_, ?_⟩
  · rw [key _ (by omega), w0]
  · rw [key _ (by omega), w4, p8]
  · rw [key _ (by omega), w8, p8]
  · rw [a1, key _ (by omega), w12, p0]
  · rw [hF, a2, key _ (by omega), wf, p0]
  · rw [a3, key _ (by omega), we, p1]
  · have hc : Contig (base + 16) [(⟨base + 16, 65536, false⟩ : Blk)] (base + 65552) := by
      refine ⟨rfl, ?_⟩
      show base + 16 + 65536 = base + 65552
      omega
    have ht : Tags (PUTP (PUTP (PUTP (PUTP m4 (base + 16) 0) (base + 24) 0) (base + 24) 0)
        (base + 16) 0) [(⟨base + 16, 65536, false⟩ : Blk)] := by
      intro b hb
      rw [List.mem_singleton] at hb
      subst hb
      simp only [Blk.tag, Bool.false_eq_true, if_false, Nat.add_zero]
      refine ⟨g12, ?_⟩
      rw [a2, key _ (by omega), wf]
    have hsz : Sized [(⟨base + 16, 65536, false⟩ : Blk)] := by
      intro b hb
      rw [List.mem_singleton] at hb
      subst hb
      exact ⟨by norm_num, by norm_num⟩
    have hw := heap_walk_of_contig hc ht hsz
      (by intro b hb; rw [List.mem_singleton] at hb; subst hb; norm_num)
      (by rw [a3, key _ (by omega), we]) 2 (by simp)
    have a5 : base + 8 + DSIZE = base + 16 := by unfold DSIZE; omega
    rw [a5]
    exact hw
  · unfold NEXT_FREEP
    exact GETP_PUTP_same _ _ _ (by omega)
  · unfold PREV_FREEP DSIZE
    have : base + 16 + 8 = base + 24 := by omega
    rw [this, GETP_PUTP_disj _ _ _ _ (by omega), GETP_PUTP_same _ _ _ (by omega)]

/-- C16 (witness): the statement for a provider whose region starts at address
8, holds zeros and who grants both requests. -/
theorem C16_witness :
    (mm_init (State.start 8 (fun _ => 0)) true true).2 = 0 ∧
    (mm_init (State.start 8 (fun _ => 0)) true true).1.mem_brk = 8 + 16 + 65536 ∧
    (mm_init (State.start 8 (fun _ => 0)) true true).1.free_listp = 8 + 16 :=
  have h := (C16_init_layout 8 (fun _ => 0) true true).1 ⟨by decide, by decide⟩
  ⟨h.1, h.2.2.1, h.2.2.2.2.2.2.2.2.2.2.2.2.1⟩


/-! ## `place` on a listed free block, in terms of the block and the list only -/

theorem pairwise_replace {l1 l2 : List Nat} {x x' : Nat} (h : (l1 ++ x :: l2).Pairwise Far)
    (hx : ∀ y ∈ l1 ++ l2, Far y x') : (l1 ++ x' :: l2).Pairwise Far := by
  rw [List.pairwise_append, List.pairwise_cons] at h ⊢
  obtain ⟨p1, ⟨_, p2⟩, hcr⟩ := h
  refine ⟨p1, ⟨fun y hy => Far_symm (hx y (List.mem_append_right _ hy)), p2⟩, ?_⟩
  intro a ha b hb
  rcases List.mem_cons.1 hb with rfl | hb
  · exact hx a (List.mem_append_left _ ha)
  · exact hcr a ha b (List.mem_cons_of_mem _ hb)

/-- The split branch of `place`. -/
theorem place_split_local (s : State) (bp T asize : Nat) (l1 l2 : List Nat)
    (hG : GET s.mem (bp - 4) = T) (hT : T < 4294967296) (hbp : 4 ≤ bp)
    (hend : bp + T < 18446744073709551616)
    (hfl : FL s.mem s.free_listp (l1 ++ bp :: l2)) (hfar : (l1 ++ bp :: l2).Pairwise Far)
    (hout : ∀ y ∈ l1 ++ l2, y + 24 ≤ bp ∨ bp + T ≤ y)
    (hlt : ∀ y ∈ l1 ++ l2, y < 18446744073709551616)
    (h24 : 24 ≤ asize) (h8 : asize % 8 = 0) (hT8 : T % 8 = 0) (hle : asize + 24 ≤ T) :
    GET (place s bp asize).mem (bp - 4) = asize + 1 ∧
    GET (place s bp asize).mem (bp + asize - 8) = asize + 1 ∧
    GET (place s bp asize).mem (bp + asize - 4) = T - asize ∧
    GET (place s bp asize).mem (bp + T - 8) = T - asize ∧
    FL (place s bp asize).mem (place s bp asize).free_listp (l1 ++ (bp + asize) :: l2) := by
  have hsz : GET_SIZE s.mem (HDRP bp) = T :=
    @GET_SIZE_of_GET s.mem (HDRP bp) T 0 (by unfold HDRP WSIZE; rw [hG]; rfl) hT8 (by omega)
  have hss := split_size_eq T asize (by omega) hT
  have hsplit : (GET_SIZE s.mem (HDRP bp) + 18446744073709551616
      - asize % 18446744073709551616) % 18446744073709551616 ≥ MIN_BLOCK_SIZE := by
    rw [hsz, hss]; unfold MIN_BLOCK_SIZE; omega
  have e1 := place_split s bp asize hsplit
  rw [hsz, hss] at e1
  have e2 := place_tags_eq s bp asize (T - asize) h24 h8 (by omega) (by omega) hbp
  have hge : bp + asize + (T - asize) - 8 = bp + T - 8 := by omega
  rw [hge] at e2
  have hfr : ∀ a, (a + 4 < bp ∨ bp + T ≤ a + 4 ∨ (bp ≤ a ∧ a + 8 < bp + asize)) →
      (place_tags s bp asize (T - asize)).mem a = s.mem a := by
    intro a ha
    rw [e2]
    show PUT (PUT (PUT (PUT s.mem (bp - 4) (asize + 1)) (bp + asize - 8) (asize + 1))
          (bp + asize - 4) (T - asize)) (bp + T - 8) (T - asize) a = s.mem a
    rw [PUT_out _ _ _ _ (by omega), PUT_out _ _ _ _ (by omega), PUT_out _ _ _ _ (by omega),
      PUT_out _ _ _ _ (by omega)]
  have hG1 : GET (place_tags s bp asize (T - asize)).mem (bp - 4) = asize + 1 := by
    rw [e2]
    show GET (PUT (PUT (PUT (PUT s.mem (bp - 4) (asize + 1)) (bp + asize - 8) (asize + 1))
          (bp + asize - 4) (T - asize)) (bp + T - 8) (T - asize)) (bp - 4) = asize + 1
    rw [GET_PUT_disj _ _ _ _ (by omega), GET_PUT_disj _ _ _ _ (by omega),
      GET_PUT_disj _ _ _ _ (by omega), GET_PUT_same]
    omega
  have hG2 : GET (place_tags s bp asize (T - asize)).mem (bp + asize - 8) = asize + 1 := by
    rw [e2]
    show GET (PUT (PUT (PUT (PUT s.mem (bp - 4) (asize + 1)) (bp + asize - 8) (asize + 1))
          (bp + asize - 4) (T - asize)) (bp + T - 8) (T - asize)) (bp + asize - 8) = asize + 1
    rw [GET_PUT_disj _ _ _ _ (by omega), GET_PUT_disj _ _ _ _ (by omega), GET_PUT_same]
    omega
  have hG3 : GET (place_tags s bp asize (T - asize)).mem (bp + asize - 4) = T - asize := by
    rw [e2]
    show GET (PUT (PUT (PUT (PUT s.mem (bp - 4) (asize + 1)) (bp + asize - 8) (asize + 1))
          (bp + asize - 4) (T - asize)) (bp + T - 8) (T - asize)) (bp + asize - 4) = T - asize
    rw [GET_PUT_disj _ _ _ _ (by omega), GET_PUT_same]
    omega
  have hG4 : GET (place_tags s bp asize (T - asize)).mem (bp + T - 8) = T - asize := by
    rw [e2]
    show GET (PUT (PUT (PUT (PUT s.mem (bp - 4) (asize + 1)) (bp + asize - 8) (asize + 1))
          (bp + asize - 4) (T - asize)) (bp + T - 8) (T - asize)) (bp + T - 8) = T - asize
    rw [GET_PUT_same]
    omega
  have hflp4 : (place_tags s bp asize (T - asize)).free_listp = s.free_listp := by rw [e2]
  have hbfl : bp ∈ l1 ++ bp :: l2 := by simp
  have hfields : ∀ y ∈ l1 ++ bp :: l2,
      GETP (place_tags s bp asize (T - asize)).mem y = GETP s.mem y ∧
      GETP (place_tags s bp asize (T - asize)).mem (y + 8) = GETP s.mem (y + 8) := by
    intro y hy
    have hyr : y + 24 ≤ bp ∨ bp + T ≤ y ∨ y = bp := by
      rcases List.mem_append.1 hy with hy | hy
      · rcases hout y (List.mem_append_left _ hy) with h | h
        · exact Or.inl h
        · exact Or.inr (Or.inl h)
      · rcases List.mem_cons.1 hy with hy | hy
        · exact Or.inr (Or.inr hy)
        · rcases hout y (List.mem_append_right _ hy) with h | h
          · exact Or.inl h
          · exact Or.inr (Or.inl h)
    constructor
    · apply GETP_congr; intro i hi; apply hfr; omega
    · apply GETP_congr; intro i hi; apply hfr; omega
  have f4 : FL (place_tags s bp asize (T - asize)).mem
      (place_tags s bp asize (T - asize)).free_listp (l1 ++ bp :: l2) := by
    rw [hflp4]
    exact FLseg_congr hfields hfl
  have hprev4 : PREV_FREEP (place_tags s bp asize (T - asize)).mem bp = PREV_FREEP s.mem bp :=
    (hfields bp hbfl).2
  have hnext4 : NEXT_FREEP (place_tags s bp asize (T - asize)).mem bp = NEXT_FREEP s.mem bp :=
    (hfields bp hbfl).1
  have hfarn : (l1 ++ (bp + asize) :: l2).Pairwise Far := by
    refine pairwise_replace hfar ?_
    intro y hy
    unfold Far
    rcases hout y hy with h | h
    · left; omega
    · right; omega
  have hltn : ∀ y ∈ l1 ++ (bp + asize) :: l2, y < 18446744073709551616 := by
    intro y hy
    rcases List.mem_append.1 hy with hy | hy
    · exact hlt y (List.mem_append_left _ hy)
    · rcases List.mem_cons.1 hy with hy | hy
      · rw [hy]; omega
      · exact hlt y (List.mem_append_right _ hy)
  have hfarb : ∀ y ∈ l1 ++ l2, Far y bp := far_mid l1 bp l2 hfar rfl
  obtain ⟨fF, frF, _, _, _⟩ := place_link_spec (place_tags s bp asize (T - asize))
    bp asize l1 l2 hG1 h8 h24 hbp f4 hfarn hfarb hltn
  rw [hprev4, hnext4, ← e1] at fF frF
  have hout' : ∀ q, (q = bp - 4 ∨ q = bp + asize - 8 ∨ q = bp + asize - 4 ∨
      q = bp + T - 8) → ∀ i, i < 4 →
      OutFields (l1 ++ (bp + asize) :: l2) (q + i) := by
    intro q hq i hi y hy
    rcases List.mem_append.1 hy with hy | hy
    · have := hout y (List.mem_append_left _ hy); omega
    · rcases List.mem_cons.1 hy with hy | hy
      · rw [hy]; omega
      · have := hout y (List.mem_append_right _ hy); omega
  have key : ∀ q, (q = bp - 4 ∨ q = bp + asize - 8 ∨ q = bp + asize - 4 ∨
      q = bp + T - 8) →
      GET (place s bp asize).mem q = GET (place_tags s bp asize (T - asize)).mem q := by
    intro q hq
    exact GET_congr (fun i hi => frF (q + i) (hout' q hq i hi))
  refine ⟨?_, ?_, ?_, ?_, fF⟩
  · rw [key _ (by omega)]; exact hG1
  · rw [key _ (by omega)]; exact hG2
  · rw [key _ (by omega)]; exact hG3
  · rw [key _ (by omega)]; exact hG4

/-- The branch of `place` that takes the whole block. -/
theorem place_whole_local (s : State) (bp T asize : Nat) (l1 l2 : List Nat)
    (hG : GET s.mem (bp - 4) = T) (hT : T < 4294967296) (hbp : 4 ≤ bp)
    (hfl : FL s.mem s.free_listp (l1 ++ bp :: l2)) (hfar : (l1 ++ bp :: l2).Pairwise Far)
    (hout : ∀ y ∈ l1 ++ l2, y + 24 ≤ bp ∨ bp + T ≤ y)
    (hlt : ∀ y ∈ l1 ++ bp :: l2, y < 18446744073709551616)
    (hT8 : T % 8 = 0) (hT24 : 24 ≤ T) (hle : asize ≤ T) (hlt2 : T < asize + 24) :
    GET (place s bp asize).mem (bp - 4) = T + 1 ∧
    GET (place s bp asize).mem (bp + T - 8) = T + 1 ∧
    FL (place s bp asize).mem (place s bp asize).free_listp (l1 ++ l2) := by
  have hsz : GET_SIZE s.mem (HDRP bp) = T :=
    @GET_SIZE_of_GET s.mem (HDRP bp) T 0 (by unfold HDRP WSIZE; rw [hG]; rfl) hT8 (by omega)
  have hss := split_size_eq T asize hle hT
  have hns : ¬ (GET_SIZE s.mem (HDRP bp) + 18446744073709551616
      - asize % 18446744073709551616) % 18446744073709551616 ≥ MIN_BLOCK_SIZE := by
    rw [hsz, hss]; unfold MIN_BLOCK_SIZE; omega
  have e1 := place_nosplit s bp asize hns
  rw [hsz] at e1
  have hF : FTRP (PUT (removefree s bp).mem (HDRP bp) (PACK T 1)) bp = bp + T - 8 :=
    FTRP_PUT _ bp T true hT8 (by omega)
  rw [hF] at e1
  obtain ⟨fR, _, _, _, _⟩ := removefree_spec s bp l1 l2 hfl hfar hlt
  have hP : PACK T 1 = T + 1 := PACK_one T hT8
  rw [e1]
  unfold HDRP WSIZE
  rw [hP]
  refine ⟨?_, ?_, ?_⟩
  · show GET (PUT (PUT (removefree s bp).mem (bp - 4) (T + 1)) (bp + T - 8) (T + 1)) (bp - 4)
      = T + 1
    rw [GET_PUT_disj _ _ _ _ (by omega), GET_PUT_same]
    omega
  · show GET (PUT (PUT (removefree s bp).mem (bp - 4) (T + 1)) (bp + T - 8) (T + 1))
      (bp + T - 8) = T + 1
    rw [GET_PUT_same]
    omega
  · show FL (PUT (PUT (removefree s bp).mem (bp - 4) (T + 1)) (bp + T - 8) (T + 1))
      (removefree s bp).free_listp (l1 ++ l2)
    refine FLseg_congr ?_ fR
    intro y hy
    have := hout y hy
    constructor
    · rw [GETP_PUT_disj _ _ _ _ (by omega), GETP_PUT_disj _ _ _ _ (by omega)]
    · rw [GETP_PUT_disj _ _ _ _ (by omega), GETP_PUT_disj _ _ _ _ (by omega)]


/-! ## C11 and C17: `place` -/

/-- C11: for every free block `b` of size `T` in the free list and every
adjusted size `need <= T` (a multiple of 8, at least 24), `place(b, need)`
splits if and only if `T - need >= 24`: when `T - need >= 24`, `b` becomes an
allocated block of size exactly `need` (header and footer), and the block at
`b + need` is tagged free with size `T - need` (header and footer) and stands
in the free list; when `T - need < 24`, `b` is tagged allocated with its whole
size `T`, `b` is removed from the free list, and no new block is created: the
list is the old one without `b`. -/
theorem C11_place_split_iff (s : State) (l1 : List Nat) (b T : Nat) (l2 : List Nat)
    (need : Nat) (h : ListedFree s l1 b T l2) (h24 : 24 ≤ need) (h8 : need % 8 = 0)
    (hle : need ≤ T) :
    (24 ≤ T - need →
      GET (place s b need).mem (HDRP b) = PACK need 1 ∧
      GET (place s b need).mem (FTRP (place s b need).mem b) = PACK need 1 ∧
      NEXT_BLKP (place s b need).mem b = b + need ∧
      GET (place s b need).mem (HDRP (b + need)) = PACK (T - need) 0 ∧
      GET (place s b need).mem (FTRP (place s b need).mem (b + need)) = PACK (T - need) 0 ∧
      FL (place s b need).mem (place s b need).free_listp (l1 ++ (b + need) :: l2)) ∧
    (T - need < 24 →
      GET (place s b need).mem (HDRP b) = PACK T 1 ∧
      GET (place s b need).mem (FTRP (place s b need).mem b) = PACK T 1 ∧
      NEXT_BLKP (place s b need).mem b = b + T ∧
      FL (place s b need).mem (place s b need).free_listp (l1 ++ l2) ∧
      b ∉ l1 ++ l2) := by
  obtain ⟨hfl, hfar, hlt, hhdr, ⟨hT24, hT8, hT⟩, ⟨hb4, hend⟩, hout⟩ := h
  have hG : GET s.mem (b - 4) = T := by
    have := hhdr
    rw [PACK_zero] at this
    exact this
  have hlt' : ∀ y ∈ l1 ++ l2, y < 18446744073709551616 := by
    intro y hy
    apply hlt
    simp only [List.mem_append, List.mem_cons] at hy ⊢
    tauto
  constructor
  · intro hsp
    obtain ⟨g1, g2, g3, g4, hF⟩ := place_split_local s b T need l1 l2 hG hT hb4 hend hfl hfar
      hout hlt' h24 h8 hT8 (by omega)
    have f1 := FTRP_of_GET g1 h8 (by omega)
    have n1 := NEXT_BLKP_of_GET g1 h8 (by omega)
    have g3' : GET (place s b need).mem (b + need - 4) = (T - need) + 0 := by rw [g3]; rfl
    have f2 := FTRP_of_GET g3' (by omega) (by omega)
    have a2 : b + need + (T - need) - 8 = b + T - 8 := by omega
    refine ⟨?_, ?_, n1, ?_, ?_, hF⟩
    · rw [PACK_one need h8]; exact g1
    · rw [f1, PACK_one need h8]; exact g2
    · rw [PACK_zero]; exact g3
    · rw [f2, a2, PACK_zero]; exact g4
  · intro hns
    obtain ⟨g1, g2, hF⟩ := place_whole_local s b T need l1 l2 hG hT hb4 hfl hfar hout hlt
      hT8 hT24 hle (by omega)
    have f1 := FTRP_of_GET g1 hT8 (by omega)
    have n1 := NEXT_BLKP_of_GET g1 hT8 (by omega)
    refine ⟨?_, ?_, n1, hF, ?_⟩
    · rw [PACK_one T hT8]; exact g1
    · rw [f1, PACK_one T hT8]; exact g2
    · intro hmem
      have hf := far_mid l1 b l2 hfar rfl b hmem
      unfold Far at hf
      omega

/-- C17: for every well-formed free list `l1 ++ b :: l2` containing the free
block `b` of size `T`, and every `need` (a multiple of 8, at least 24) with
`T - need >= 24`: after `place(b, need)` the free list is exactly
`l1 ++ (b + need) :: l2`, the old list with `b` replaced in the same position by
the remainder `b + need`, every other element and their order unchanged; the
list is well formed again, so the prev and next pointers of the remainder and
of the former neighbours of `b` are mutually consistent: the prev pointer of
the remainder is the element before it (NULL at the head) and its next pointer
is the element after it (NULL at the end). -/
theorem C17_remainder_takes_position (s : State) (l1 : List Nat) (b T : Nat) (l2 : List Nat)
    (need : Nat) (h : ListedFree s l1 b T l2) (h24 : 24 ≤ need) (h8 : need % 8 = 0)
    (hsp : need + 24 ≤ T) :
    FL (place s b need).mem (place s b need).free_listp (l1 ++ (b + need) :: l2) ∧
    (∀ fuel, (l1 ++ (b + need) :: l2).length < fuel →
      free_walk (place s b need).mem fuel (place s b need).free_listp
        = some (l1 ++ (b + need) :: l2)) ∧
    PREV_FREEP (place s b need).mem (b + need) = l1.getLastD 0 ∧
    NEXT_FREEP (place s b need).mem (b + need) = l2.headD 0 := by
  obtain ⟨hfl, hfar, hlt, hhdr, ⟨hT24, hT8, hT⟩, ⟨hb4, hend⟩, hout⟩ := h
  have hG : GET s.mem (b - 4) = T := by
    have := hhdr
    rw [PACK_zero] at this
    exact this
  have hlt' : ∀ y ∈ l1 ++ l2, y < 18446744073709551616 := by
    intro y hy
    apply hlt
    simp only [List.mem_append, List.mem_cons] at hy ⊢
    tauto
  obtain ⟨_, _, _, _, hF⟩ := place_split_local s b T need l1 l2 hG hT hb4 hend hfl hfar
    hout hlt' h24 h8 hT8 hsp
  refine ⟨hF, fun fuel hf => free_walk_of_FL hF fuel hf, ?_, ?_⟩
  · have hF' := hF
    unfold FL at hF'
    rw [FLseg_mid] at hF'
    exact hF'.2.2.1
  · have hF' := hF
    unfold FL at hF'
    rw [FLseg_mid] at hF'
    exact FLseg_head hF'.2.2.2

theorem listed_free : ListedFree (after 2147483648 ops_listed).1 [24] 96 65464 [] where
  list := listed_FL
  far := by unfold Far; simp
  lt := by intro y hy; simp at hy; rcases hy with rfl | rfl <;> decide
  hdr := by decide!
  size := by decide
  pos := by decide
  out := by intro y hy; simp at hy; subst hy; decide

/-- C11 (witness): the statement at the state after three requests of 16 bytes
and `mm_free(24)`, whose free list is 24, 96, for the block 96 of size 65464
and `need = 32`. -/
theorem C11_witness :
    ListedFree (after 2147483648 ops_listed).1 [24] 96 65464 [] ∧
    GET (place (after 2147483648 ops_listed).1 96 32).mem (HDRP 96) = PACK 32 1 ∧
    GET (place (after 2147483648 ops_listed).1 96 32).mem (HDRP (96 + 32)) = PACK (65464 - 32) 0 ∧
    FL (place (after 2147483648 ops_listed).1 96 32).mem
      (place (after 2147483648 ops_listed).1 96 32).free_listp ([24] ++ (96 + 32) :: []) :=
  have h := (C11_place_split_iff (after 2147483648 ops_listed).1 [24] 96 65464 [] 32 listed_free
    (by decide) (by decide) (by decide)).1 (by decide)
  ⟨listed_free, h.1, h.2.2.2.1, h.2.2.2.2.2⟩

/-- C17 (witness): the statement at the state after three requests of 16 bytes
and `mm_free(24)`, whose free list is 24, 96, for the block 96 of size 65464
and `need = 24`: the list becomes 24, 120. -/
theorem C17_witness :
    ListedFree (after 2147483648 ops_listed).1 [24] 96 65464 [] ∧
    FL (place (after 2147483648 ops_listed).1 96 24).mem
      (place (after 2147483648 ops_listed).1 96 24).free_listp ([24] ++ (96 + 24) :: []) ∧
    PREV_FREEP (place (after 2147483648 ops_listed).1 96 24).mem (96 + 24) = 24 ∧
    NEXT_FREEP (place (after 2147483648 ops_listed).1 96 24).mem (96 + 24) = 0 :=
  have h := C17_remainder_takes_position (after 2147483648 ops_listed).1 [24] 96 65464 [] 24
    listed_free (by decide) (by decide) (by decide)
  ⟨listed_free, h.1, h.2.2.1, h.2.2.2⟩


/-! ## C14: the size of the block returned by `mm_malloc` -/

/-- C14 (counterexample): right after `mm_init`, `mm_malloc(65520)` returns 24;
the adjusted size is 65528, but the header of the block holds the size 65536:
the remainder of 8 bytes is too small for a block, so the whole free block is
handed out.  And after ten calls with sizes below `2^31`, on a heap that has
grown beyond 4 GiB, `mm_malloc(2147483647)` returns 2147549208, the adjusted size
is 2147483656, and the header of the block holds the size 0. -/
theorem C14_counterexample :
    (Reachable (after 2147483648 []).1 (after 2147483648 []).2 ∧
      ∃ r, mm_malloc 64 (after 2147483648 []).1 65520 true = some r ∧
        r.2 = 24 ∧ adjust 65520 = 65528 ∧ Bounded r.1 ∧
        GET_SIZE r.1.mem (HDRP r.2) = 65536 ∧ GET_SIZE r.1.mem (HDRP r.2) ≠ adjust 65520) ∧
    (Reachable (after 2147483648 ops_zero).1 (after 2147483648 ops_zero).2 ∧
      ∃ r, mm_malloc 64 (after 2147483648 ops_zero).1 2147483647 true = some r ∧
        r.2 = 2147549208 ∧ adjust 2147483647 = 2147483656 ∧
        GET_SIZE r.1.mem (HDRP r.2) = 0 ∧ ¬ adjust 2147483647 ≤ GET_SIZE r.1.mem (HDRP r.2)) := by
  refine ⟨⟨reachable_after _ _ (by decide!), _, rfl, by decide!, by decide!, ?_, by decide!,
    by decide!⟩, ⟨reachable_after _ _ (by decide!), _, rfl, by decide!, by decide!, by decide!,
    by decide!⟩⟩
  unfold Bounded
  decide!

/-- C14 (amended): in every state reached from a successful `mm_init` by
`mm_malloc(size)` calls with `size < 2^31` and `mm_free` calls on live pointers,
whose heap is smaller than `2^32` bytes, and for every `size < 2^31` (so for
every size with `0 < size < 2^31`), `mm_malloc(size)` returns; when it returns a non-NULL
pointer `p` and the heap is still smaller than `2^32` bytes after the call, `p`
is the address immediately after the block's 4-byte header, the header is
tagged allocated, and the size `S` stored in `p`'s header satisfies
`need <= S < need + 24` (`need` the adjusted size): the payload region, which
ends at the footer at `p + S - 8`, is at least `need - 8` bytes long, and
longer by fewer than 24 bytes when the block found is handed out whole. -/
theorem C14_header_size (s : State) (live : Live) (size : Nat) (grant : Bool)
    (hr : Reachable s live) (hb : Bounded s) (hsz : size < 2147483648) :
    ∃ n, ∀ fuel, n < fuel → ∃ s' p, mm_malloc fuel s size grant = some (s', p) ∧
      (p ≠ 0 → Bounded s' →
        HDRP p + 4 = p ∧
        GET_ALLOC s'.mem (HDRP p) = 1 ∧
        adjust size ≤ GET_SIZE s'.mem (HDRP p) ∧
        GET_SIZE s'.mem (HDRP p) < adjust size + 24 ∧
        FTRP s'.mem p = p + GET_SIZE s'.mem (HDRP p) - 8 ∧
        GET s'.mem (FTRP s'.mem p) = GET s'.mem (HDRP p)) := by
  obtain ⟨bs, fl, hI⟩ := reach_inv hr hb
  refine ⟨fl.length, fun fuel hf => ?_⟩
  obtain ⟨s', p, hm⟩ := mm_malloc_total hI.heap.flist fuel size grant hf
  refine ⟨s', p, hm, fun hp hb' => ?_⟩
  rcases mm_malloc_inv hI hsz hm hb' with ⟨h, _⟩ | ⟨_, bs', fl', hI', S, hS1, hS2, hS3⟩
  · exact absurd h hp
  · have hc := hI'.heap.core
    have rd := hc.read hS2
    have tg := hc.tags _ hS2
    have bd := hc.mem_bounds hS2
    simp only at rd tg bd
    obtain ⟨r1, r2, r3, _, _, _⟩ := rd
    refine ⟨?_, by simpa using r2, by omega, by omega, by rw [r1]; exact r3, ?_⟩
    · unfold HDRP WSIZE; omega
    · rw [r3]
      unfold HDRP WSIZE
      rw [tg.1, tg.2]

/-- C14 (witness): the amended statement at `mm_malloc(200)` after
`mm_malloc(16)` and `mm_malloc(100)`. -/
theorem C14_witness :
    Reachable (after 2147483648 ops_two).1 (after 2147483648 ops_two).2 ∧
    Bounded (after 2147483648 ops_two).1 ∧
    ∃ n, ∀ fuel, n < fuel → ∃ s' p,
      mm_malloc fuel (after 2147483648 ops_two).1 200 true = some (s', p) ∧
      (p ≠ 0 → Bounded s' →
        HDRP p + 4 = p ∧
        GET_ALLOC s'.mem (HDRP p) = 1 ∧
        adjust 200 ≤ GET_SIZE s'.mem (HDRP p) ∧
        GET_SIZE s'.mem (HDRP p) < adjust 200 + 24 ∧
        FTRP s'.mem p = p + GET_SIZE s'.mem (HDRP p) - 8 ∧
        GET s'.mem (FTRP s'.mem p) = GET s'.mem (HDRP p)) :=
  ⟨reachable_two, bounded_two,
    C14_header_size (after 2147483648 ops_two).1 (after 2147483648 ops_two).2 200 true
      reachable_two bounded_two (by decide)⟩


/-! ## C15: the blocks tile the heap -/

theorem Contig_sum {a e : Nat} {bs : List Blk} (h : Contig a bs e) :
    (bs.map Blk.size).sum = e - a := by
  induction bs generalizing a with
  | nil =>
    have ha : a = e := h
    subst ha
    simp
  | cons b bs ih =>
    obtain ⟨_, hrest⟩ := h
    have h1 := ih hrest
    have h2 := Contig_le hrest
    rw [List.map_cons, List.sum_cons, h1]
    omega

/-- C15 (counterexample): after four calls with sizes below `2^31` the heap is
`2^32 + 16` bytes long and the free block at its start is `2^32` bytes long, so
its header holds the size 0: the scan from the first block (heap base + 16 = 24)
stops at once at 24, which is not the epilogue in the last 4 bytes of the heap
(at 4294967316), and the sizes of the blocks visited sum to 0, not to the heap
size minus 16. -/
theorem C15_counterexample :
    Reachable (after 2147483648 ops_wrap).1 (after 2147483648 ops_wrap).2 ∧
    (after 2147483648 ops_wrap).1.mem_lo = 8 ∧
    (after 2147483648 ops_wrap).1.mem_brk = 4294967320 ∧
    GET (after 2147483648 ops_wrap).1.mem (HDRP 24) = 0 ∧
    (∀ fuel, 0 < fuel →
      heap_walk (after 2147483648 ops_wrap).1.mem fuel
        ((after 2147483648 ops_wrap).1.mem_lo + 16) = some ([], 24)) ∧
    HDRP 24 ≠ (after 2147483648 ops_wrap).1.mem_brk - 4 ∧
    (([] : List Nat).map (fun bp => GET_SIZE (after 2147483648 ops_wrap).1.mem (HDRP bp))).sum
      ≠ (after 2147483648 ops_wrap).1.mem_brk - (after 2147483648 ops_wrap).1.mem_lo - 16 := by
  have hlo : (after 2147483648 ops_wrap).1.mem_lo = 8 := by decide!
  have hbrk : (after 2147483648 ops_wrap).1.mem_brk = 4294967320 := by decide!
  have hsz : GET_SIZE (after 2147483648 ops_wrap).1.mem (HDRP 24) = 0 := by decide!
  refine ⟨reachable_after _ _ (by decide!), hlo, hbrk, by decide!, ?_, ?_, ?_⟩
  · intro fuel hf
    obtain ⟨k, rfl⟩ : ∃ k, fuel = k + 1 := ⟨fuel - 1, by omega⟩
    rw [hlo]
    show heap_walk _ (k + 1) 24 = _
    unfold heap_walk
    rw [hsz]
    rfl
  · rw [hbrk]; decide
  · rw [hbrk, hlo]; decide

/-- C15 (amended): in every state reached from a successful `mm_init` by
`mm_malloc(size)` calls with `size < 2^31` and `mm_free` calls on live pointers,
whose heap is smaller than `2^32` bytes, the blocks tile the heap: starting at
the first block (heap base + 16) and repeatedly applying `NEXT_BLKP` reaches
the epilogue header, which occupies the last 4 bytes of the heap, after
finitely many steps; every block visited has a size that is a multiple of 8 and
at least 24, its footer word equals its header word, and the block sizes sum
to the heap size minus 16. -/
theorem C15_blocks_tile (s : State) (live : Live) (hr : Reachable s live) (hb : Bounded s) :
    ∃ l : List Nat,
      (∀ fuel, l.length < fuel → heap_walk s.mem fuel (s.mem_lo + 16) = some (l, s.mem_brk)) ∧
      HDRP s.mem_brk + 4 = s.mem_brk ∧
      GET s.mem (HDRP s.mem_brk) = PACK 0 1 ∧
      (∀ bp ∈ l, GET_SIZE s.mem (HDRP bp) % 8 = 0 ∧ 24 ≤ GET_SIZE s.mem (HDRP bp) ∧
        GET s.mem (FTRP s.mem bp) = GET s.mem (HDRP bp)) ∧
      (l.map (fun bp => GET_SIZE s.mem (HDRP bp))).sum = s.mem_brk - s.mem_lo - 16 := by
  obtain ⟨bs, fl, hI⟩ := reach_inv hr hb
  have hc := hI.heap.core
  refine ⟨bs.map Blk.bp, ?_, ?_, ?_, ?_, ?_⟩
  · intro fuel hf
    have h := heap_walk_of_core hc fuel (by simpa using hf)
    have e : s.heap_listp + DSIZE = s.mem_lo + 16 := by rw [hc.hl]; unfold DSIZE; omega
    rw [e] at h
    exact h
  · have := hc.brk_ge
    unfold HDRP WSIZE
    omega
  · have h := hc.epi
    unfold HDRP WSIZE
    rw [h]
    rfl
  · intro bp hbp
    obtain ⟨b, hbm, rfl⟩ := List.mem_map.1 hbp
    have rd := hc.read hbm
    have tg := hc.tags b hbm
    have bd := hc.mem_bounds hbm
    rw [rd.1, rd.2.2.1]
    refine ⟨bd.2.2.2.1, bd.2.2.1, ?_⟩
    unfold HDRP WSIZE
    rw [tg.1, tg.2]
  · have hs := Contig_sum hc.contig
    have e : (bs.map Blk.bp).map (fun bp => GET_SIZE s.mem (HDRP bp)) = bs.map Blk.size := by
      rw [List.map_map]
      apply List.map_congr_left
      intro b hbm
      exact (hc.read hbm).1
    rw [e, hs]
    omega

/-- C15 (witness): the amended statement at the state after `mm_malloc(16)`
and `mm_malloc(100)`. -/
theorem C15_witness :
    Reachable (after 2147483648 ops_two).1 (after 2147483648 ops_two).2 ∧
    Bounded (after 2147483648 ops_two).1 ∧
    ∃ l : List Nat,
      (∀ fuel, l.length < fuel →
        heap_walk (after 2147483648 ops_two).1.mem fuel ((after 2147483648 ops_two).1.mem_lo + 16)
          = some (l, (after 2147483648 ops_two).1.mem_brk)) ∧
      HDRP (after 2147483648 ops_two).1.mem_brk + 4 = (after 2147483648 ops_two).1.mem_brk ∧
      GET (after 2147483648 ops_two).1.mem (HDRP (after 2147483648 ops_two).1.mem_brk)
        = PACK 0 1 ∧
      (∀ bp ∈ l, GET_SIZE (after 2147483648 ops_two).1.mem (HDRP bp) % 8 = 0 ∧
        24 ≤ GET_SIZE (after 2147483648 ops_two).1.mem (HDRP bp) ∧
        GET (after 2147483648 ops_two).1.mem (FTRP (after 2147483648 ops_two).1.mem bp)
          = GET (after 2147483648 ops_two).1.mem (HDRP bp)) ∧
      (l.map (fun bp => GET_SIZE (after 2147483648 ops_two).1.mem (HDRP bp))).sum
        = (after 2147483648 ops_two).1.mem_brk - (after 2147483648 ops_two).1.mem_lo - 16 :=
  ⟨reachable_two, bounded_two, C15_blocks_tile _ _ reachable_two bounded_two⟩


/-! ## The bytes written by `coalesce` -/

theorem OutFields_cons {x : Nat} {l : List Nat} {a : Nat} (hx : a < x ∨ x + 16 ≤ a)
    (h : OutFields l a) : OutFields (x :: l) a := by
  intro y hy
  rcases List.mem_cons.1 hy with rfl | hy
  · exact hx
  · exact h y hy

theorem OutFields_erase {l : List Nat} {a : Nat} (h : OutFields l a) (y : Nat) :
    OutFields (l.erase y) a := fun z hz => h z (List.mem_of_mem_erase hz)

theorem coalesce_case1_frame {s : State} {pre post : List Blk} {x sz : Nat} {fl : List Nat}
    (hc : HeapCore s (pre ++ ⟨x, sz, false⟩ :: post))
    (hfl : FL s.mem s.free_listp fl) (hp : fl.Perm (freeAddrs (pre ++ post)))
    (hpa : GET_ALLOC s.mem (FTRP s.mem (PREV_BLKP s.mem x)) = 1)
    (hna : GET_ALLOC s.mem (HDRP (NEXT_BLKP s.mem x)) = 1) :
    ∀ a, (a + 4 < x ∨ x + sz ≤ a + 4) → OutFields fl a →
      (coalesce s x).1.mem a = s.mem a := by
  intro a hreg hof
  have hbx : (⟨x, sz, false⟩ : Blk) ∈ pre ++ ⟨x, sz, false⟩ :: post := by simp
  have bx := hc.mem_bounds hbx
  simp only at bx
  have hp' : (x :: fl).Perm (freeAddrs (pre ++ ⟨x, sz, false⟩ :: post)) := by
    rw [freeAddrs_append, freeAddrs_cons_free _ _ rfl]
    rw [freeAddrs_append] at hp
    exact (List.Perm.cons x hp).trans List.perm_middle.symm
  rw [(coalesce_case1 hc hfl hp hpa hna).1]
  exact (finish_add x hc hfl hp').2.2.1 a (OutFields_cons (by omega) hof)

theorem coalesce_case2_frame {s : State} {pre post : List Blk} {x sz : Nat} {d : Blk} {fl : List Nat}
    (hc : HeapCore s (pre ++ ⟨x, sz, false⟩ :: d :: post))
    (hfl : FL s.mem s.free_listp fl) (hp : fl.Perm (freeAddrs (pre ++ d :: post)))
    (hpa : GET_ALLOC s.mem (FTRP s.mem (PREV_BLKP s.mem x)) = 1)
    (hd : d.alloc = false) :
    ∀ a, (a + 4 < x ∨ x + (sz + d.size) ≤ a + 4) → OutFields fl a →
      (coalesce s x).1.mem a = s.mem a := by
  have hbx : (⟨x, sz, false⟩ : Blk) ∈ pre ++ ⟨x, sz, false⟩ :: d :: post := by simp
  have hbd : d ∈ pre ++ ⟨x, sz, false⟩ :: d :: post := by simp
  have rx := hc.read hbx
  have rd := hc.read hbd
  have bx := hc.mem_bounds hbx
  have bd := hc.mem_bounds hbd
  simp only at rx bx
  have hcon := hc.contig
  rw [Contig_mid] at hcon
  obtain ⟨hcpre, hcrest⟩ := hcon
  simp only at hcpre hcrest
  have hdx : d.bp = x + sz := hcrest.1
  have hbnd := hc.bnd
  unfold Bounded at hbnd
  have hcpost : Contig (x + (sz + d.size)) post s.mem_brk := by
    have := hcrest.2
    rw [← Nat.add_assoc]
    exact this
  have hN : NEXT_BLKP s.mem x = d.bp := by rw [rx.2.2.2.1, hdx]
  have hna : GET_ALLOC s.mem (HDRP (NEXT_BLKP s.mem x)) = 0 := by
    rw [hN, rd.2.1, hd]; rfl
  obtain ⟨hsub0, hfar0⟩ := fl_facts hc hp
    (List.Sublist.append_left (List.sublist_cons_self _ _) pre)
  have hdfl : d.bp ∈ fl := hp.mem_iff.2 (mem_freeAddrs.2 ⟨d, by simp, rfl, hd⟩)
  obtain ⟨c1, f1, fr1, lo1, brk1, hl1⟩ := remove_step d.bp hc hfl hsub0 hfar0 hdfl
  have hp1 : (fl.erase d.bp).Perm (freeAddrs (pre ++ post)) := by
    rw [freeAddrs_append] at hp ⊢
    rw [freeAddrs_cons_free _ _ hd] at hp
    exact perm_erase_mid hp
  -- retag
  have hout : ∀ y ∈ fl.erase d.bp, y + 24 ≤ x ∨ x + (sz + d.size) ≤ y := by
    intro y hy
    obtain ⟨b, hb, h1, _⟩ := perm_mem_block hp1 hy
    subst h1
    rcases List.mem_append.1 hb with hb | hb
    · have := Contig_bounds hcpre hb
      have := (hc.mem_bounds (List.mem_append_left _ hb)).2.2.1
      left; omega
    · have := Contig_bounds hcpost hb
      right; omega
  have hF : FTRP (PUT (removefree s d.bp).mem (HDRP x) (PACK (sz + d.size) 0)) x =
      x + (sz + d.size) - 8 := FTRP_PUT _ x (sz + d.size) false (by omega) (by omega)
  obtain ⟨c3, f3⟩ := @retag_step (removefree s d.bp) (pre ++ ⟨x, sz, false⟩ :: d :: post) pre
    post (fl.erase d.bp) x (sz + d.size) false c1
    (fun c hc' => List.mem_append_left _ hc')
    (fun c hc' => List.mem_append_right _ (List.mem_cons_of_mem _ (List.mem_cons_of_mem _ hc')))
    (by rw [lo1]; exact hcpre) (by rw [brk1]; exact hcpost) (by omega) (by omega) f1 hout
    (PUT (PUT (removefree s d.bp).mem (HDRP x) (PACK (sz + d.size) 0)) (x + (sz + d.size) - 8)
      (PACK (sz + d.size) 0)) rfl
  have hp3 : (x :: fl.erase d.bp).Perm (freeAddrs (pre ++ ⟨x, sz + d.size, false⟩ :: post)) := by
    rw [freeAddrs_append, freeAddrs_cons_free _ _ rfl]
    rw [freeAddrs_append] at hp1
    exact (List.Perm.cons x hp1).trans List.perm_middle.symm
  have hfin := finish_add x c3 f3 hp3
  have e : coalesce s x = (addfree { removefree s d.bp with
      mem := PUT (PUT (removefree s d.bp).mem (HDRP x) (PACK (sz + d.size) 0))
        (x + (sz + d.size) - 8) (PACK (sz + d.size) 0) } x, x) := by
    unfold coalesce
    have hna' : GET_ALLOC s.mem (HDRP d.bp) = 0 := by rw [← hN]; exact hna
    simp only [hpa, hN, hna', rx.1, rd.1, hF]
    simp
  intro a hreg hof
  rw [e]
  have h1 := hfin.2.2.1 a (OutFields_cons (by omega) (OutFields_erase hof _))
  rw [h1]
  show PUT (PUT (removefree s d.bp).mem (HDRP x) _) _ _ a = s.mem a
  unfold HDRP WSIZE
  rw [PUT_out _ _ _ _ (by omega), PUT_out _ _ _ _ (by omega)]
  rw [fr1 a (OutFields_erase hof _)]

theorem coalesce_case3_frame {s : State} {pre post : List Blk} {x sz : Nat} {c : Blk} {fl : List Nat}
    (hc : HeapCore s (pre ++ c :: ⟨x, sz, false⟩ :: post))
    (hfl : FL s.mem s.free_listp fl) (hp : fl.Perm (freeAddrs (pre ++ c :: post)))
    (hna : GET_ALLOC s.mem (HDRP (NEXT_BLKP s.mem x)) = 1)
    (hcf : c.alloc = false) :
    ∀ a, (a + 4 < c.bp ∨ c.bp + (sz + c.size) ≤ a + 4) → OutFields fl a →
      (coalesce s x).1.mem a = s.mem a := by
  have hbx : (⟨x, sz, false⟩ : Blk) ∈ pre ++ c :: ⟨x, sz, false⟩ :: post := by simp
  have hbc : c ∈ pre ++ c :: ⟨x, sz, false⟩ :: post := by simp
  have rx := hc.read hbx
  have rc := hc.read hbc
  have bx := hc.mem_bounds hbx
  have bc := hc.mem_bounds hbc
  simp only at rx bx
  have hbnd := hc.bnd
  unfold Bounded at hbnd
  obtain ⟨hP, hpa, hcx⟩ := prev_read hc
  simp only at hP hpa hcx
  rw [hcf] at hpa
  have hcon := hc.contig
  rw [Contig_mid] at hcon
  obtain ⟨hcpre, hcrest⟩ := hcon
  have hcpost : Contig (c.bp + (sz + c.size)) post s.mem_brk := by
    have := hcrest.2
    simp only at this
    have e : c.bp + (sz + c.size) = c.bp + c.size + sz := by omega
    rw [e]; exact this
  obtain ⟨hsub0, hfar0⟩ := fl_facts hc hp
    (List.Sublist.append_left
      (List.Sublist.cons₂ c (List.sublist_cons_self _ _)) pre)
  have hcfl : c.bp ∈ fl := hp.mem_iff.2 (mem_freeAddrs.2 ⟨c, by simp, rfl, hcf⟩)
  obtain ⟨c1, f1, fr1, lo1, brk1, hl1⟩ := remove_step c.bp hc hfl hsub0 hfar0 hcfl
  have hP1 : PREV_BLKP (removefree s c.bp).mem x = c.bp := (prev_read c1).1
  have hp1 : (fl.erase c.bp).Perm (freeAddrs (pre ++ post)) := by
    rw [freeAddrs_append] at hp ⊢
    rw [freeAddrs_cons_free _ _ hcf] at hp
    exact perm_erase_mid hp
  have hout : ∀ y ∈ fl.erase c.bp, y + 24 ≤ c.bp ∨ c.bp + (sz + c.size) ≤ y := by
    intro y hy
    obtain ⟨b, hb, h1, _⟩ := perm_mem_block hp1 hy
    subst h1
    rcases List.mem_append.1 hb with hb | hb
    · have := Contig_bounds hcpre hb
      have := (hc.mem_bounds (List.mem_append_left _ hb)).2.2.1
      left; omega
    · have := Contig_bounds hcpost hb
      right; omega
  have hF : FTRP (PUT (removefree s c.bp).mem (HDRP c.bp) (PACK (sz + c.size) 0)) c.bp =
      c.bp + (sz + c.size) - 8 := FTRP_PUT _ c.bp (sz + c.size) false (by omega) (by omega)
  obtain ⟨c3, f3⟩ := @retag_step (removefree s c.bp) (pre ++ c :: ⟨x, sz, false⟩ :: post) pre
    post (fl.erase c.bp) c.bp (sz + c.size) false c1
    (fun b hb => List.mem_append_left _ hb)
    (fun b hb => List.mem_append_right _ (List.mem_cons_of_mem _ (List.mem_cons_of_mem _ hb)))
    (by rw [lo1]; exact hcpre) (by rw [brk1]; exact hcpost) (by omega) (by omega) f1 hout
    (PUT (PUT (removefree s c.bp).mem (HDRP c.bp) (PACK (sz + c.size) 0))
      (c.bp + (sz + c.size) - 8) (PACK (sz + c.size) 0)) rfl
  have hp3 : (c.bp :: fl.erase c.bp).Perm
      (freeAddrs (pre ++ ⟨c.bp, sz + c.size, false⟩ :: post)) := by
    rw [freeAddrs_append, freeAddrs_cons_free _ _ rfl]
    rw [freeAddrs_append] at hp1
    exact (List.Perm.cons c.bp hp1).trans List.perm_middle.symm
  have hfin := finish_add c.bp c3 f3 hp3
  have e : coalesce s x = (addfree { removefree s c.bp with
      mem := PUT (PUT (removefree s c.bp).mem (HDRP c.bp) (PACK (sz + c.size) 0))
        (c.bp + (sz + c.size) - 8) (PACK (sz + c.size) 0) } c.bp, c.bp) := by
    have hpa' : GET_ALLOC s.mem (FTRP s.mem c.bp) = 0 := by
      rw [← hP]; rw [hpa]; rfl
    unfold coalesce
    simp only [hna, hP, hpa', hP1, rx.1, rc.1, hF]
    simp
  intro a hreg hof
  rw [e]
  have h1 := hfin.2.2.1 a (OutFields_cons (by omega) (OutFields_erase hof _))
  rw [h1]
  show PUT (PUT (removefree s c.bp).mem (HDRP c.bp) _) _ _ a = s.mem a
  unfold HDRP WSIZE
  rw [PUT_out _ _ _ _ (by omega), PUT_out _ _ _ _ (by omega)]
  rw [fr1 a (OutFields_erase hof _)]

theorem coalesce_case4_frame {s : State} {pre post : List Blk} {x sz : Nat} {c d : Blk}
    {fl : List Nat}
    (hc : HeapCore s (pre ++ c :: ⟨x, sz, false⟩ :: d :: post))
    (hfl : FL s.mem s.free_listp fl) (hp : fl.Perm (freeAddrs (pre ++ c :: d :: post)))
    (hcf : c.alloc = false) (hd : d.alloc = false) :
    ∀ a, (a + 4 < c.bp ∨ c.bp + (sz + (c.size + d.size)) ≤ a + 4) → OutFields fl a →
      (coalesce s x).1.mem a = s.mem a := by
  have hbx : (⟨x, sz, false⟩ : Blk) ∈ pre ++ c :: ⟨x, sz, false⟩ :: d :: post := by simp
  have hbc : c ∈ pre ++ c :: ⟨x, sz, false⟩ :: d :: post := by simp
  have hbd : d ∈ pre ++ c :: ⟨x, sz, false⟩ :: d :: post := by simp
  have rx := hc.read hbx
  have rc := hc.read hbc
  have rd := hc.read hbd
  have bx := hc.mem_bounds hbx
  have bc := hc.mem_bounds hbc
  have bd := hc.mem_bounds hbd
  simp only at rx bx
  have hbnd := hc.bnd
  unfold Bounded at hbnd
  obtain ⟨hP, hpa, hcx⟩ := prev_read hc
  simp only at hP hpa hcx
  rw [hcf] at hpa
  have hc' : HeapCore s ((pre ++ [c]) ++ ⟨x, sz, false⟩ :: d :: post) := by simpa using hc
  obtain ⟨hN, hna⟩ := next_read hc'
  simp only at hN hna
  rw [hd] at hna
  have hcon := hc.contig
  rw [Contig_mid] at hcon
  obtain ⟨hcpre, hcrest⟩ := hcon
  have hdx : d.bp = x + sz := by
    have := hcrest.2.1
    simp only at this
    omega
  have hcpost : Contig (c.bp + (sz + (c.size + d.size))) post s.mem_brk := by
    have := hcrest.2.2
    simp only at this
    have e : c.bp + (sz + (c.size + d.size)) = c.bp + c.size + sz + d.size := by omega
    rw [e]; exact this
  obtain ⟨hsub0, hfar0⟩ := fl_facts hc hp
    (List.Sublist.append_left
      (List.Sublist.cons₂ c (List.sublist_cons_self _ _)) pre)
  have hcfl : c.bp ∈ fl := hp.mem_iff.2 (mem_freeAddrs.2 ⟨c, by simp, rfl, hcf⟩)
  have hdfl : d.bp ∈ fl := hp.mem_iff.2 (mem_freeAddrs.2 ⟨d, by simp, rfl, hd⟩)
  obtain ⟨c1, f1, fr1, lo1, brk1, hl1⟩ := remove_step c.bp hc hfl hsub0 hfar0 hcfl
  have hP1 : PREV_BLKP (removefree s c.bp).mem x = c.bp := (prev_read c1).1
  have c1' : HeapCore (removefree s c.bp) ((pre ++ [c]) ++ ⟨x, sz, false⟩ :: d :: post) := by
    simpa using c1
  have hN1 : NEXT_BLKP (removefree s c.bp).mem x = d.bp := (next_read c1').1
  have hdfl1 : d.bp ∈ fl.erase c.bp := (List.mem_erase_of_ne (by omega)).2 hdfl
  obtain ⟨c2, f2, fr2, lo2, brk2, hl2⟩ := remove_step d.bp c1 f1
    (fun z hz => hsub0 z (List.mem_of_mem_erase hz))
    (hfar0.sublist (List.erase_sublist _ _)) hdfl1
  have hP2 : PREV_BLKP (removefree (removefree s c.bp) d.bp).mem x = c.bp := (prev_read c2).1
  have hp1 : ((fl.erase c.bp).erase d.bp).Perm (freeAddrs (pre ++ post)) := by
    rw [freeAddrs_append] at hp ⊢
    rw [freeAddrs_cons_free _ _ hcf, freeAddrs_cons_free _ _ hd] at hp
    have h1 := perm_erase_mid hp
    exact @perm_erase_mid (fl.erase c.bp) (freeAddrs pre) (freeAddrs post) d.bp h1
  have hout : ∀ y ∈ (fl.erase c.bp).erase d.bp,
      y + 24 ≤ c.bp ∨ c.bp + (sz + (c.size + d.size)) ≤ y := by
    intro y hy
    obtain ⟨b, hb, h1, _⟩ := perm_mem_block hp1 hy
    subst h1
    rcases List.mem_append.1 hb with hb | hb
    · have := Contig_bounds hcpre hb
      have := (hc.mem_bounds (List.mem_append_left _ hb)).2.2.1
      left; omega
    · have := Contig_bounds hcpost hb
      right; omega
  have hsize : sz + (c.size + d.size) % 4294967296 = sz + (c.size + d.size) := by omega
  have hF : FTRP (PUT (removefree (removefree s c.bp) d.bp).mem (HDRP c.bp)
      (PACK (sz + (c.size + d.size)) 0)) c.bp = c.bp + (sz + (c.size + d.size)) - 8 :=
    FTRP_PUT _ c.bp (sz + (c.size + d.size)) false (by omega) (by omega)
  obtain ⟨c3, f3⟩ := @retag_step (removefree (removefree s c.bp) d.bp)
    (pre ++ c :: ⟨x, sz, false⟩ :: d :: post) pre
    post ((fl.erase c.bp).erase d.bp) c.bp (sz + (c.size + d.size)) false c2
    (fun b hb => List.mem_append_left _ hb)
    (fun b hb => List.mem_append_right _ (List.mem_cons_of_mem _ (List.mem_cons_of_mem _
      (List.mem_cons_of_mem _ hb))))
    (by rw [lo2, lo1]; exact hcpre) (by rw [brk2, brk1]; exact hcpost) (by omega) (by omega)
    f2 hout
    (PUT (PUT (removefree (removefree s c.bp) d.bp).mem (HDRP c.bp)
      (PACK (sz + (c.size + d.size)) 0))
      (c.bp + (sz + (c.size + d.size)) - 8) (PACK (sz + (c.size + d.size)) 0)) rfl
  have hp3 : (c.bp :: (fl.erase c.bp).erase d.bp).Perm
      (freeAddrs (pre ++ ⟨c.bp, sz + (c.size + d.size), false⟩ :: post)) := by
    rw [freeAddrs_append, freeAddrs_cons_free _ _ rfl]
    rw [freeAddrs_append] at hp1
    exact (List.Perm.cons c.bp hp1).trans List.perm_middle.symm
  have hfin := finish_add c.bp c3 f3 hp3
  have e : coalesce s x = (addfree { removefree (removefree s c.bp) d.bp with
      mem := PUT (PUT (removefree (removefree s c.bp) d.bp).mem (HDRP c.bp)
        (PACK (sz + (c.size + d.size)) 0))
        (c.bp + (sz + (c.size + d.size)) - 8) (PACK (sz + (c.size + d.size)) 0) } c.bp,
        c.bp) := by
    have hpa' : GET_ALLOC s.mem (FTRP s.mem c.bp) = 0 := by
      rw [← hP]; rw [hpa]; rfl
    have hna' : GET_ALLOC s.mem (HDRP d.bp) = 0 := by
      rw [← hN]; rw [hna]; rfl
    unfold coalesce
    simp only [hP, hN, hpa', hna', hN1, hP2, rx.1, rc.1, rd.1, hsize, hF]
    simp
  intro a hreg hof
  rw [e]
  have h1 := hfin.2.2.1 a (OutFields_cons (by omega) (OutFields_erase (OutFields_erase hof _) _))
  rw [h1]
  show PUT (PUT (removefree (removefree s c.bp) d.bp).mem (HDRP c.bp) _) _ _ a = s.mem a
  unfold HDRP WSIZE
  rw [PUT_out _ _ _ _ (by omega), PUT_out _ _ _ _ (by omega)]
  rw [fr2 a (OutFields_erase (OutFields_erase hof _) _)]
  rw [fr1 a (OutFields_erase hof _)]

theorem Off_OutFields {bs bs' : List Blk} {fl : List Nat} {a : Nat} (hs : Sized bs)
    (hp : fl.Perm (freeAddrs bs')) (hsub : ∀ b ∈ bs', b ∈ bs) (ho : Off bs a) :
    OutFields fl a := by
  intro y hy
  obtain ⟨b, hb, h1, h2⟩ := perm_mem_block hp hy
  subst h1
  have := ho b (hsub b hb) h2
  have := (hs b (hsub b hb)).1
  omega

/-- The bytes outside the free blocks are left alone by `coalesce`. -/
theorem coalesce_frame {s : State} {pre post : List Blk} {x sz : Nat} {fl : List Nat}
    (hc : HeapCore s (pre ++ ⟨x, sz, false⟩ :: post))
    (hfl : FL s.mem s.free_listp fl) (hp : fl.Perm (freeAddrs (pre ++ post)))
    {a : Nat} (ho : Off (pre ++ ⟨x, sz, false⟩ :: post) a) :
    (coalesce s x).1.mem a = s.mem a := by
  have hof : OutFields fl a := by
    refine Off_OutFields hc.sized hp (fun b hb => ?_) ho
    simp only [List.mem_append, List.mem_cons] at hb ⊢
    tauto
  have hx := ho ⟨x, sz, false⟩ (by simp) rfl
  simp only at hx
  rcases List.eq_nil_or_concat pre with hpre | ⟨P, c, hpre⟩
  · subst hpre
    have hpa : GET_ALLOC s.mem (FTRP s.mem (PREV_BLKP s.mem x)) = 1 :=
      @prev_read_nil s post ⟨x, sz, false⟩ (by simpa using hc)
    cases post with
    | nil =>
      have hna := (@next_read_nil s [] ⟨x, sz, false⟩ hc).2
      exact coalesce_case1_frame hc hfl hp hpa hna a hx hof
    | cons d post' =>
      have hn := (@next_read s [] post' ⟨x, sz, false⟩ d hc)
      simp only at hn
      by_cases hd : d.alloc = true
      · have hna : GET_ALLOC s.mem (HDRP (NEXT_BLKP s.mem x)) = 1 := by rw [hn.2, hd]; rfl
        exact coalesce_case1_frame hc hfl hp hpa hna a hx hof
      · have hd' : d.alloc = false := by simpa using hd
        have hdo := ho d (by simp) hd'
        have hcon := hc.contig
        rw [Contig_mid] at hcon
        have hdx : d.bp = x + sz := hcon.2.1
        exact coalesce_case2_frame hc hfl hp hpa hd' a (by omega) hof
  · rw [List.concat_eq_append] at hpre
    subst hpre
    have hc' : HeapCore s (P ++ c :: ⟨x, sz, false⟩ :: post) := by simpa using hc
    have hpr := (@prev_read s P post c ⟨x, sz, false⟩ hc')
    simp only at hpr
    by_cases hca : c.alloc = true
    · have hpa : GET_ALLOC s.mem (FTRP s.mem (PREV_BLKP s.mem x)) = 1 := by
        rw [hpr.2.1, hca]; rfl
      cases post with
      | nil =>
        have hna := (@next_read_nil s (P ++ [c]) ⟨x, sz, false⟩ hc).2
        exact coalesce_case1_frame hc hfl hp hpa hna a hx hof
      | cons d post' =>
        have hn := (@next_read s (P ++ [c]) post' ⟨x, sz, false⟩ d hc)
        simp only at hn
        by_cases hd : d.alloc = true
        · have hna : GET_ALLOC s.mem (HDRP (NEXT_BLKP s.mem x)) = 1 := by
            rw [hn.2, hd]; rfl
          exact coalesce_case1_frame hc hfl hp hpa hna a hx hof
        · have hd' : d.alloc = false := by simpa using hd
          have hdo := ho d (by simp) hd'
          have hcon := hc.contig
          rw [Contig_mid] at hcon
          have hdx : d.bp = x + sz := hcon.2.1
          exact coalesce_case2_frame hc hfl hp hpa hd' a (by omega) hof
    · have hcf : c.alloc = false := by simpa using hca
      have hco := ho c (by simp) hcf
      have hp' : fl.Perm (freeAddrs (P ++ c :: post)) := by simpa using hp
      cases post with
      | nil =>
        have hna := (@next_read_nil s (P ++ [c]) ⟨x, sz, false⟩ hc).2
        exact coalesce_case3_frame hc' hfl hp' hna hcf a (by omega) hof
      | cons d post' =>
        have hn := (@next_read s (P ++ [c]) post' ⟨x, sz, false⟩ d hc)
        simp only at hn
        have hcon := hc.contig
        rw [Contig_mid] at hcon
        have hdx : d.bp = x + sz := hcon.2.1
        by_cases hd : d.alloc = true
        · have hna : GET_ALLOC s.mem (HDRP (NEXT_BLKP s.mem x)) = 1 := by
            rw [hn.2, hd]; rfl
          exact coalesce_case3_frame hc' hfl hp' hna hcf a (by omega) hof
        · have hd' : d.alloc = false := by simpa using hd
          have hdo := ho d (by simp) hd'
          exact coalesce_case4_frame hc' hfl hp' hcf hd' a (by omega) hof

/-- The bytes outside the free blocks and outside the block freed are left
alone by `mm_free`. -/
theorem mm_free_frame {s : State} {pre post : List Blk} {b : Blk} {fl : List Nat}
    (hH : HeapInv s (pre ++ b :: post) fl) (hba : b.alloc = true)
    {a : Nat} (ho : Off (pre ++ ⟨b.bp, b.size, false⟩ :: post) a) :
    (mm_free s b.bp).mem a = s.mem a := by
  obtain ⟨c2, f2, hpf, e⟩ := free_retag hH hba
  have hb := ho ⟨b.bp, b.size, false⟩ (by simp) rfl
  simp only at hb
  have bb := hH.core.mem_bounds (show b ∈ pre ++ b :: post by simp)
  rw [e, coalesce_frame c2 f2 hpf ho]
  show PUT (PUT s.mem (HDRP b.bp) _) _ _ a = s.mem a
  unfold HDRP WSIZE
  rw [PUT_out _ _ _ _ (by omega), PUT_out _ _ _ _ (by omega)]


/-! ## The bytes written by `mm_malloc` and `mm_free` -/

/-- A byte of an allocated block, header and footer included, lies outside
the free blocks. -/
theorem off_of_alloc {a0 e : Nat} {bs : List Blk} (hcon : Contig a0 bs e) (hs : Sized bs)
    {c : Blk} (hc : c ∈ bs) (hca : c.alloc = true) {a : Nat} (h1 : c.bp ≤ a + 4)
    (h2 : a + 4 < c.bp + c.size) : Off bs a := by
  intro f hf hfa
  rcases Contig_sep hcon hs hf hc with h | h | h
  · rw [h, hca] at hfa; cases hfa
  · right; omega
  · left; omega

/-- A byte before the first block lies outside the free blocks. -/
theorem off_of_low {a0 e : Nat} {bs : List Blk} (hcon : Contig a0 bs e) {a : Nat}
    (h : a + 4 < a0) : Off bs a := by
  intro f hf _
  have := Contig_bounds hcon hf
  left; omega

/-- The bytes outside the free blocks are left alone by `place`. -/
theorem place_frame {s : State} {pre post : List Blk} {fl : List Nat} {bp T asize : Nat}
    (hH : HeapInv s (pre ++ ⟨bp, T, false⟩ :: post) fl)
    (h24 : 24 ≤ asize) (h8 : asize % 8 = 0) (hle : asize ≤ T)
    {a : Nat} (ho : Off (pre ++ ⟨bp, T, false⟩ :: post) a) :
    (place s bp asize).mem a = s.mem a := by
  have hof : OutFields fl a := Off_OutFields hH.core.sized hH.perm (fun b hb => hb) ho
  have hx := ho ⟨bp, T, false⟩ (by simp) rfl
  simp only at hx
  by_cases hsp : asize + 24 ≤ T
  · obtain ⟨l1, l2, hfl, _, hfr, _⟩ := place_spec_split hH.core hH.flist hH.perm h24 h8 hsp
    refine hfr a hx (OutFields_sub hof ?_)
    intro y hy
    rw [hfl]
    simp only [List.mem_append, List.mem_cons] at hy ⊢
    tauto
  · obtain ⟨_, hfr, _⟩ := place_spec_whole hH.core hH.flist hH.perm hle (by omega)
    exact hfr a (by omega) (OutFields_erase hof _)

/-- The bytes before the first block and the bytes of the allocated blocks,
headers and footers included, are left alone by `mm_malloc`. -/
theorem mm_malloc_frame {s : State} {live : Live} {bs : List Blk} {fl : List Nat}
    (hI : Inv s live bs fl) {fuel size : Nat} {grant : Bool} {s' : State} {p : Nat}
    (hsz : size < 2147483648) (hm : mm_malloc fuel s size grant = some (s', p))
    (hb' : Bounded s') {a : Nat}
    (ha : a + 4 < s.mem_lo + 16 ∨
      ∃ c ∈ bs, c.alloc = true ∧ c.bp ≤ a + 4 ∧ a + 4 < c.bp + c.size) :
    s'.mem a = s.mem a := by
  have hc := hI.heap.core
  have hoff : Off bs a := by
    rcases ha with h | ⟨c, hcm, hca, h1, h2⟩
    · exact off_of_low hc.contig h
    · exact off_of_alloc hc.contig hc.sized hcm hca h1 h2
  have habrk : a + 4 < s.mem_brk := by
    rcases ha with h | ⟨c, hcm, hca, h1, h2⟩
    · have := hc.brk_ge; omega
    · have := Contig_bounds hc.contig hcm; omega
  unfold mm_malloc at hm
  by_cases h0 : size = 0
  · rw [if_pos h0] at hm
    simp only [Option.some.injEq, Prod.mk.injEq] at hm
    rw [← hm.1]
  rw [if_neg h0] at hm
  dsimp only at hm
  obtain ⟨ha24, ha8, hasz, hale⟩ := adjust_spec size h0 (by omega)
  cases hff : find_fit fuel s (adjust size) with
  | none => rw [hff] at hm; simp at hm
  | some bp =>
    rw [hff] at hm
    simp only at hm
    have hr := find_fit_from_some hI.heap.flist hff
    by_cases hbp : bp ≠ 0
    · rw [if_pos hbp] at hm
      simp only [Option.some.injEq, Prod.mk.injEq] at hm
      obtain ⟨hs', hp'⟩ := hm
      subst hs' hp'
      obtain ⟨hmem, hq⟩ := find_in_list hr hbp
      obtain ⟨b, hb, hbbp, hbf⟩ := perm_mem_block hI.heap.perm hmem
      have rb := hc.read hb
      rw [hbbp] at rb
      have hfit : adjust size ≤ b.size := by
        rw [← rb.1]; simpa using hq
      obtain ⟨pre, post, rfl⟩ := List.append_of_mem hb
      have hbe : b = ⟨bp, b.size, false⟩ := by
        cases b; simp only at hbbp hbf; simp [hbbp, hbf]
      have hH := hI.heap
      rw [hbe] at hH hoff
      exact place_frame hH ha24 ha8 hfit hoff
    · have hbp0 : bp = 0 := by simpa using hbp
      rw [if_neg hbp] at hm
      have hext8 : max (adjust size) CHUNKSIZE % 8 = 0 := by
        unfold CHUNKSIZE
        rcases Nat.le_total (adjust size) 65536 with h | h
        · rw [Nat.max_eq_right h]
        · rw [Nat.max_eq_left h]; exact ha8
      have hext24 : 24 ≤ max (adjust size) CHUNKSIZE := le_trans ha24 (le_max_left _ _)
      have hextlt : max (adjust size) CHUNKSIZE < 4294967295 := by
        unfold CHUNKSIZE
        rcases Nat.le_total (adjust size) 65536 with h | h
        · rw [Nat.max_eq_right h]; omega
        · rw [Nat.max_eq_left h]; omega
      by_cases hf : grant = true ∧ s.mem_brk + max (adjust size) CHUNKSIZE
          < 18446744073709551616
      · have hge := hc.brk_ge
        have e := extend_heap_ok s (max (adjust size) CHUNKSIZE) grant hext8 hext24 hextlt
          (by omega) hf
        rw [e] at hm
        have hcore := @extend_core s bs fl hI.heap (max (adjust size) CHUNKSIZE) hext8 hext24
        generalize hs4 : ({ s with
          mem_brk := s.mem_brk + max (adjust size) CHUNKSIZE,
          mem := (PUT (PUT (PUT s.mem (s.mem_brk - 4) (max (adjust size) CHUNKSIZE))
            (s.mem_brk + max (adjust size) CHUNKSIZE - 8) (max (adjust size) CHUNKSIZE))
            (s.mem_brk + max (adjust size) CHUNKSIZE - 4) 1) } : State) = s4 at hm hcore
        have h4b : s4.mem_brk = s.mem_brk + max (adjust size) CHUNKSIZE := by rw [← hs4]
        have h4l : s4.mem_lo = s.mem_lo := by rw [← hs4]
        have h4f : s4.free_listp = s.free_listp := by rw [← hs4]
        have h4m : s4.mem = PUT (PUT (PUT s.mem (s.mem_brk - 4) (max (adjust size) CHUNKSIZE))
            (s.mem_brk + max (adjust size) CHUNKSIZE - 8) (max (adjust size) CHUNKSIZE))
            (s.mem_brk + max (adjust size) CHUNKSIZE - 4) 1 := by rw [← hs4]
        have hbrk' : s'.mem_brk = s4.mem_brk ∧ s'.mem_lo = s4.mem_lo := by
          split_ifs at hm with h2
          · simp only [Option.some.injEq, Prod.mk.injEq] at hm
            rw [← hm.1]
            exact ⟨(coalesce_region s4 s.mem_brk).2, (coalesce_region s4 s.mem_brk).1⟩
          · simp only [Option.some.injEq, Prod.mk.injEq] at hm
            rw [← hm.1, (place_region (coalesce s4 s.mem_brk).1 _ _).1,
              (place_region (coalesce s4 s.mem_brk).1 _ _).2]
            exact ⟨(coalesce_region s4 s.mem_brk).2, (coalesce_region s4 s.mem_brk).1⟩
        have hbnd : s.mem_brk + max (adjust size) CHUNKSIZE < s.mem_lo + 4294967296 := by
          unfold Bounded at hb'
          rw [hbrk'.1, hbrk'.2, h4b, h4l] at hb'
          exact hb'
        obtain ⟨c4, f4⟩ := hcore hbnd hf.2
        rw [← h4m, ← h4f] at f4
        have hp4 : fl.Perm (freeAddrs (bs ++ [])) := by
          rw [List.append_nil]; exact hI.heap.perm
        obtain ⟨pre', post', S, fl', hH, hN, hA, hsub, hS⟩ :=
          coalesce_inv c4 f4 hp4 hI.noadj (by unfold NoAdjFree; exact List.chain'_nil)
        simp only [List.append_nil] at hA hsub
        have hblk : (⟨(coalesce s4 s.mem_brk).2, S, false⟩ : Blk) ∈
            pre' ++ ⟨(coalesce s4 s.mem_brk).2, S, false⟩ :: post' := by simp
        have hnz := (hH.core.mem_bounds hblk).1
        simp only at hnz
        have hlo' := hH.core.lo_pos
        rw [if_neg (by omega)] at hm
        simp only [Option.some.injEq, Prod.mk.injEq] at hm
        obtain ⟨hs', hp'⟩ := hm
        subst hs' hp'
        -- the three stages
        have st1 : s4.mem a = s.mem a := by
          rw [h4m, PUT_out _ _ _ _ (by omega), PUT_out _ _ _ _ (by omega),
            PUT_out _ _ _ _ (by omega)]
        have hoff4 : Off (bs ++ [⟨s.mem_brk, max (adjust size) CHUNKSIZE, false⟩]) a := by
          intro f hfm hfa
          rcases List.mem_append.1 hfm with h | h
          · exact hoff f h hfa
          · rw [List.mem_singleton] at h
            subst h
            left
            exact habrk
        have st2 : (coalesce s4 s.mem_brk).1.mem a = s4.mem a := coalesce_frame c4 f4 hp4 hoff4
        have hlo5 : (coalesce s4 s.mem_brk).1.mem_lo = s.mem_lo := by
          rw [(coalesce_region s4 s.mem_brk).1, h4l]
        have hoff5 : Off (pre' ++ ⟨(coalesce s4 s.mem_brk).2, S, false⟩ :: post') a := by
          rcases ha with h | ⟨c, hcm, hca, h1, h2⟩
          · refine off_of_low hH.core.contig ?_
            rw [hlo5]; exact h
          · have hc5 : c ∈ pre' ++ ⟨(coalesce s4 s.mem_brk).2, S, false⟩ :: post' := by
              have := hsub c hcm hca
              simp only [List.mem_append, List.mem_cons] at this ⊢
              tauto
            exact off_of_alloc hH.core.contig hH.core.sized hc5 hca h1 h2
        rw [place_frame hH ha24 ha8 (le_trans (le_max_left _ _) hS) hoff5, st2, st1]
      · have e := extend_heap_fail s (max (adjust size) CHUNKSIZE) grant hext8 (by omega) hf
        rw [e] at hm
        simp only [if_true, Option.some.injEq, Prod.mk.injEq] at hm
        rw [← hm.1]

/-- The bytes before the first block and the bytes of the other allocated
blocks, headers and footers included, are left alone by `mm_free`. -/
theorem mm_free_frame_alloc {s : State} {pre post : List Blk} {b : Blk} {fl : List Nat}
    (hH : HeapInv s (pre ++ b :: post) fl) (hba : b.alloc = true) {a : Nat}
    (ha : a + 4 < s.mem_lo + 16 ∨
      ∃ c ∈ pre ++ post, c.alloc = true ∧ c.bp ≤ a + 4 ∧ a + 4 < c.bp + c.size) :
    (mm_free s b.bp).mem a = s.mem a := by
  obtain ⟨c2, _, _, _⟩ := free_retag hH hba
  have hcon : Contig (s.mem_lo + 16) (pre ++ ⟨b.bp, b.size, false⟩ :: post) s.mem_brk :=
    c2.contig
  refine mm_free_frame hH hba ?_
  rcases ha with h | ⟨c, hcm, hca, h1, h2⟩
  · exact off_of_low hcon h
  · refine off_of_alloc hcon c2.sized ?_ hca h1 h2
    simp only [List.mem_append, List.mem_cons] at hcm ⊢
    tauto


/-! ## The bytes written, word by word -/

theorem OutFields_of_not {l : List Nat} {a : Nat} (h : ∀ y ∈ l, ¬ InFields y a) :
    OutFields l a := by
  intro y hy
  have := h y hy
  unfold InFields at this
  omega

theorem coalesce_case1_writes {s : State} {pre post : List Blk} {x sz : Nat} {fl : List Nat}
    (hc : HeapCore s (pre ++ ⟨x, sz, false⟩ :: post))
    (hfl : FL s.mem s.free_listp fl) (hp : fl.Perm (freeAddrs (pre ++ post)))
    (hpa : GET_ALLOC s.mem (FTRP s.mem (PREV_BLKP s.mem x)) = 1)
    (hna : GET_ALLOC s.mem (HDRP (NEXT_BLKP s.mem x)) = 1) :
    ∀ a, ¬ InFields x a → OutFields fl a → (coalesce s x).1.mem a = s.mem a := by
  intro a h3 hof
  unfold InFields at h3
  have hp' : (x :: fl).Perm (freeAddrs (pre ++ ⟨x, sz, false⟩ :: post)) := by
    rw [freeAddrs_append, freeAddrs_cons_free _ _ rfl]
    rw [freeAddrs_append] at hp
    exact (List.Perm.cons x hp).trans List.perm_middle.symm
  rw [(coalesce_case1 hc hfl hp hpa hna).1]
  exact (finish_add x hc hfl hp').2.2.1 a (OutFields_cons (by omega) hof)

theorem coalesce_case2_writes {s : State} {pre post : List Blk} {x sz : Nat} {d : Blk} {fl : List Nat}
    (hc : HeapCore s (pre ++ ⟨x, sz, false⟩ :: d :: post))
    (hfl : FL s.mem s.free_listp fl) (hp : fl.Perm (freeAddrs (pre ++ d :: post)))
    (hpa : GET_ALLOC s.mem (FTRP s.mem (PREV_BLKP s.mem x)) = 1)
    (hd : d.alloc = false) :
    ∀ a, ¬ InWord (x - 4) a → ¬ InWord (x + (sz + d.size) - 8) a → ¬ InFields x a →
      OutFields fl a → (coalesce s x).1.mem a = s.mem a := by
  have hbx : (⟨x, sz, false⟩ : Blk) ∈ pre ++ ⟨x, sz, false⟩ :: d :: post := by simp
  have hbd : d ∈ pre ++ ⟨x, sz, false⟩ :: d :: post := by simp
  have rx := hc.read hbx
  have rd := hc.read hbd
  have bx := hc.mem_bounds hbx
  have bd := hc.mem_bounds hbd
  simp only at rx bx
  have hcon := hc.contig
  rw [Contig_mid] at hcon
  obtain ⟨hcpre, hcrest⟩ := hcon
  simp only at hcpre hcrest
  have hdx : d.bp = x + sz := hcrest.1
  have hbnd := hc.bnd
  unfold Bounded at hbnd
  have hcpost : Contig (x + (sz + d.size)) post s.mem_brk := by
    have := hcrest.2
    rw [← Nat.add_assoc]
    exact this
  have hN : NEXT_BLKP s.mem x = d.bp := by rw [rx.2.2.2.1, hdx]
  have hna : GET_ALLOC s.mem (HDRP (NEXT_BLKP s.mem x)) = 0 := by
    rw [hN, rd.2.1, hd]; rfl
  obtain ⟨hsub0, hfar0⟩ := fl_facts hc hp
    (List.Sublist.append_left (List.sublist_cons_self _ _) pre)
  have hdfl : d.bp ∈ fl := hp.mem_iff.2 (mem_freeAddrs.2 ⟨d, by simp, rfl, hd⟩)
  obtain ⟨c1, f1, fr1, lo1, brk1, hl1⟩ := remove_step d.bp hc hfl hsub0 hfar0 hdfl
  have hp1 : (fl.erase d.bp).Perm (freeAddrs (pre ++ post)) := by
    rw [freeAddrs_append] at hp ⊢
    rw [freeAddrs_cons_free _ _ hd] at hp
    exact perm_erase_mid hp
  -- retag
  have hout : ∀ y ∈ fl.erase d.bp, y + 24 ≤ x ∨ x + (sz + d.size) ≤ y := by
    intro y hy
    obtain ⟨b, hb, h1, _⟩ := perm_mem_block hp1 hy
    subst h1
    rcases List.mem_append.1 hb with hb | hb
    · have := Contig_bounds hcpre hb
      have := (hc.mem_bounds (List.mem_append_left _ hb)).2.2.1
      left; omega
    · have := Contig_bounds hcpost hb
      right; omega
  have hF : FTRP (PUT (removefree s d.bp).mem (HDRP x) (PACK (sz + d.size) 0)) x =
      x + (sz + d.size) - 8 := FTRP_PUT _ x (sz + d.size) false (by omega) (by omega)
  obtain ⟨c3, f3⟩ := @retag_step (removefree s d.bp) (pre ++ ⟨x, sz, false⟩ :: d :: post) pre
    post (fl.erase d.bp) x (sz + d.size) false c1
    (fun c hc' => List.mem_append_left _ hc')
    (fun c hc' => List.mem_append_right _ (List.mem_cons_of_mem _ (List.mem_cons_of_mem _ hc')))
    (by rw [lo1]; exact hcpre) (by rw [brk1]; exact hcpost) (by omega) (by omega) f1 hout
    (PUT (PUT (removefree s d.bp).mem (HDRP x) (PACK (sz + d.size) 0)) (x + (sz + d.size) - 8)
      (PACK (sz + d.size) 0)) rfl
  have hp3 : (x :: fl.erase d.bp).Perm (freeAddrs (pre ++ ⟨x, sz + d.size, false⟩ :: post)) := by
    rw [freeAddrs_append, freeAddrs_cons_free _ _ rfl]
    rw [freeAddrs_append] at hp1
    exact (List.Perm.cons x hp1).trans List.perm_middle.symm
  have hfin := finish_add x c3 f3 hp3
  have e : coalesce s x = (addfree { removefree s d.bp with
      mem := PUT (PUT (removefree s d.bp).mem (HDRP x) (PACK (sz + d.size) 0))
        (x + (sz + d.size) - 8) (PACK (sz + d.size) 0) } x, x) := by
    unfold coalesce
    have hna' : GET_ALLOC s.mem (HDRP d.bp) = 0 := by rw [← hN]; exact hna
    simp only [hpa, hN, hna', rx.1, rd.1, hF]
    simp
  intro a h1 h2 h3 hof
  unfold InWord at h1 h2
  unfold InFields at h3
  rw [e]
  have h4 := hfin.2.2.1 a (OutFields_cons (by omega) (OutFields_erase hof _))
  rw [h4]
  show PUT (PUT (removefree s d.bp).mem (HDRP x) _) _ _ a = s.mem a
  unfold HDRP WSIZE
  rw [PUT_out _ _ _ _ (by omega), PUT_out _ _ _ _ (by omega)]
  rw [fr1 a (OutFields_erase hof _)]

theorem coalesce_case3_writes {s : State} {pre post : List Blk} {x sz : Nat} {c : Blk} {fl : List Nat}
    (hc : HeapCore s (pre ++ c :: ⟨x, sz, false⟩ :: post))
    (hfl : FL s.mem s.free_listp fl) (hp : fl.Perm (freeAddrs (pre ++ c :: post)))
    (hna : GET_ALLOC s.mem (HDRP (NEXT_BLKP s.mem x)) = 1)
    (hcf : c.alloc = false) :
    ∀ a, ¬ InWord (c.bp - 4) a → ¬ InWord (c.bp + (sz + c.size) - 8) a → ¬ InFields c.bp a →
      OutFields fl a → (coalesce s x).1.mem a = s.mem a := by
  have hbx : (⟨x, sz, false⟩ : Blk) ∈ pre ++ c :: ⟨x, sz, false⟩ :: post := by simp
  have hbc : c ∈ pre ++ c :: ⟨x, sz, false⟩ :: post := by simp
  have rx := hc.read hbx
  have rc := hc.read hbc
  have bx := hc.mem_bounds hbx
  have bc := hc.mem_bounds hbc
  simp only at rx bx
  have hbnd := hc.bnd
  unfold Bounded at hbnd
  obtain ⟨hP, hpa, hcx⟩ := prev_read hc
  simp only at hP hpa hcx
  rw [hcf] at hpa
  have hcon := hc.contig
  rw [Contig_mid] at hcon
  obtain ⟨hcpre, hcrest⟩ := hcon
  have hcpost : Contig (c.bp + (sz + c.size)) post s.mem_brk := by
    have := hcrest.2
    simp only at this
    have e : c.bp + (sz + c.size) = c.bp + c.size + sz := by omega
    rw [e]; exact this
  obtain ⟨hsub0, hfar0⟩ := fl_facts hc hp
    (List.Sublist.append_left
      (List.Sublist.cons₂ c (List.sublist_cons_self _ _)) pre)
  have hcfl : c.bp ∈ fl := hp.mem_iff.2 (mem_freeAddrs.2 ⟨c, by simp, rfl, hcf⟩)
  obtain ⟨c1, f1, fr1, lo1, brk1, hl1⟩ := remove_step c.bp hc hfl hsub0 hfar0 hcfl
  have hP1 : PREV_BLKP (removefree s c.bp).mem x = c.bp := (prev_read c1).1
  have hp1 : (fl.erase c.bp).Perm (freeAddrs (pre ++ post)) := by
    rw [freeAddrs_append] at hp ⊢
    rw [freeAddrs_cons_free _ _ hcf] at hp
    exact perm_erase_mid hp
  have hout : ∀ y ∈ fl.erase c.bp, y + 24 ≤ c.bp ∨ c.bp + (sz + c.size) ≤ y := by
    intro y hy
    obtain ⟨b, hb, h1, _⟩ := perm_mem_block hp1 hy
    subst h1
    rcases List.mem_append.1 hb with hb | hb
    · have := Contig_bounds hcpre hb
      have := (hc.mem_bounds (List.mem_append_left _ hb)).2.2.1
      left; omega
    · have := Contig_bounds hcpost hb
      right; omega
  have hF : FTRP (PUT (removefree s c.bp).mem (HDRP c.bp) (PACK (sz + c.size) 0)) c.bp =
      c.bp + (sz + c.size) - 8 := FTRP_PUT _ c.bp (sz + c.size) false (by omega) (by omega)
  obtain ⟨c3, f3⟩ := @retag_step (removefree s c.bp) (pre ++ c :: ⟨x, sz, false⟩ :: post) pre
    post (fl.erase c.bp) c.bp (sz + c.size) false c1
    (fun b hb => List.mem_append_left _ hb)
    (fun b hb => List.mem_append_right _ (List.mem_cons_of_mem _ (List.mem_cons_of_mem _ hb)))
    (by rw [lo1]; exact hcpre) (by rw [brk1]; exact hcpost) (by omega) (by omega) f1 hout
    (PUT (PUT (removefree s c.bp).mem (HDRP c.bp) (PACK (sz + c.size) 0))
      (c.bp + (sz + c.size) - 8) (PACK (sz + c.size) 0)) rfl
  have hp3 : (c.bp :: fl.erase c.bp).Perm
      (freeAddrs (pre ++ ⟨c.bp, sz + c.size, false⟩ :: post)) := by
    rw [freeAddrs_append, freeAddrs_cons_free _ _ rfl]
    rw [freeAddrs_append] at hp1
    exact (List.Perm.cons c.bp hp1).trans List.perm_middle.symm
  have hfin := finish_add c.bp c3 f3 hp3
  have e : coalesce s x = (addfree { removefree s c.bp with
      mem := PUT (PUT (removefree s c.bp).mem (HDRP c.bp) (PACK (sz + c.size) 0))
        (c.bp + (sz + c.size) - 8) (PACK (sz + c.size) 0) } c.bp, c.bp) := by
    have hpa' : GET_ALLOC s.mem (FTRP s.mem c.bp) = 0 := by
      rw [← hP]; rw [hpa]; rfl
    unfold coalesce
    simp only [hna, hP, hpa', hP1, rx.1, rc.1, hF]
    simp
  intro a h1 h2 h3 hof
  unfold InWord at h1 h2
  unfold InFields at h3
  rw [e]
  have h4 := hfin.2.2.1 a (OutFields_cons (by omega) (OutFields_erase hof _))
  rw [h4]
  show PUT (PUT (removefree s c.bp).mem (HDRP c.bp) _) _ _ a = s.mem a
  unfold HDRP WSIZE
  rw [PUT_out _ _ _ _ (by omega), PUT_out _ _ _ _ (by omega)]
  rw [fr1 a (OutFields_erase hof _)]

theorem coalesce_case4_writes {s : State} {pre post : List Blk} {x sz : Nat} {c d : Blk}
    {fl : List Nat}
    (hc : HeapCore s (pre ++ c :: ⟨x, sz, false⟩ :: d :: post))
    (hfl : FL s.mem s.free_listp fl) (hp : fl.Perm (freeAddrs (pre ++ c :: d :: post)))
    (hcf : c.alloc = false) (hd : d.alloc = false) :
    ∀ a, ¬ InWord (c.bp - 4) a → ¬ InWord (c.bp + (sz + (c.size + d.size)) - 8) a → ¬ InFields c.bp a →
      OutFields fl a → (coalesce s x).1.mem a = s.mem a := by
  have hbx : (⟨x, sz, false⟩ : Blk) ∈ pre ++ c :: ⟨x, sz, false⟩ :: d :: post := by simp
  have hbc : c ∈ pre ++ c :: ⟨x, sz, false⟩ :: d :: post := by simp
  have hbd : d ∈ pre ++ c :: ⟨x, sz, false⟩ :: d :: post := by simp
  have rx := hc.read hbx
  have rc := hc.read hbc
  have rd := hc.read hbd
  have bx := hc.mem_bounds hbx
  have bc := hc.mem_bounds hbc
  have bd := hc.mem_bounds hbd
  simp only at rx bx
  have hbnd := hc.bnd
  unfold Bounded at hbnd
  obtain ⟨hP, hpa, hcx⟩ := prev_read hc
  simp only at hP hpa hcx
  rw [hcf] at hpa
  have hc' : HeapCore s ((pre ++ [c]) ++ ⟨x, sz, false⟩ :: d :: post) := by simpa using hc
  obtain ⟨hN, hna⟩ := next_read hc'
  simp only at hN hna
  rw [hd] at hna
  have hcon := hc.contig
  rw [Contig_mid] at hcon
  obtain ⟨hcpre, hcrest⟩ := hcon
  have hdx : d.bp = x + sz := by
    have := hcrest.2.1
    simp only at this
    omega
  have hcpost : Contig (c.bp + (sz + (c.size + d.size))) post s.mem_brk := by
    have := hcrest.2.2
    simp only at this
    have e : c.bp + (sz + (c.size + d.size)) = c.bp + c.size + sz + d.size := by omega
    rw [e]; exact this
  obtain ⟨hsub0, hfar0⟩ := fl_facts hc hp
    (List.Sublist.append_left
      (List.Sublist.cons₂ c (List.sublist_cons_self _ _)) pre)
  have hcfl : c.bp ∈ fl := hp.mem_iff.2 (mem_freeAddrs.2 ⟨c, by simp, rfl, hcf⟩)
  have hdfl : d.bp ∈ fl := hp.mem_iff.2 (mem_freeAddrs.2 ⟨d, by simp, rfl, hd⟩)
  obtain ⟨c1, f1, fr1, lo1, brk1, hl1⟩ := remove_step c.bp hc hfl hsub0 hfar0 hcfl
  have hP1 : PREV_BLKP (removefree s c.bp).mem x = c.bp := (prev_read c1).1
  have c1' : HeapCore (removefree s c.bp) ((pre ++ [c]) ++ ⟨x, sz, false⟩ :: d :: post) := by
    simpa using c1
  have hN1 : NEXT_BLKP (removefree s c.bp).mem x = d.bp := (next_read c1').1
  have hdfl1 : d.bp ∈ fl.erase c.bp := (List.mem_erase_of_ne (by omega)).2 hdfl
  obtain ⟨c2, f2, fr2, lo2, brk2, hl2⟩ := remove_step d.bp c1 f1
    (fun z hz => hsub0 z (List.mem_of_mem_erase hz))
    (hfar0.sublist (List.erase_sublist _ _)) hdfl1
  have hP2 : PREV_BLKP (removefree (removefree s c.bp) d.bp).mem x = c.bp := (prev_read c2).1
  have hp1 : ((fl.erase c.bp).erase d.bp).Perm (freeAddrs (pre ++ post)) := by
    rw [freeAddrs_append] at hp ⊢
    rw [freeAddrs_cons_free _ _ hcf, freeAddrs_cons_free _ _ hd] at hp
    have h1 := perm_erase_mid hp
    exact @perm_erase_mid (fl.erase c.bp) (freeAddrs pre) (freeAddrs post) d.bp h1
  have hout : ∀ y ∈ (fl.erase c.bp).erase d.bp,
      y + 24 ≤ c.bp ∨ c.bp + (sz + (c.size + d.size)) ≤ y := by
    intro y hy
    obtain ⟨b, hb, h1, _⟩ := perm_mem_block hp1 hy
    subst h1
    rcases List.mem_append.1 hb with hb | hb
    · have := Contig_bounds hcpre hb
      have := (hc.mem_bounds (List.mem_append_left _ hb)).2.2.1
      left; omega
    · have := Contig_bounds hcpost hb
      right; omega
  have hsize : sz + (c.size + d.size) % 4294967296 = sz + (c.size + d.size) := by omega
  have hF : FTRP (PUT (removefree (removefree s c.bp) d.bp).mem (HDRP c.bp)
      (PACK (sz + (c.size + d.size)) 0)) c.bp = c.bp + (sz + (c.size + d.size)) - 8 :=
    FTRP_PUT _ c.bp (sz + (c.size + d.size)) false (by omega) (by omega)
  obtain ⟨c3, f3⟩ := @retag_step (removefree (removefree s c.bp) d.bp)
    (pre ++ c :: ⟨x, sz, false⟩ :: d :: post) pre
    post ((fl.erase c.bp).erase d.bp) c.bp (sz + (c.size + d.size)) false c2
    (fun b hb => List.mem_append_left _ hb)
    (fun b hb => List.mem_append_right _ (List.mem_cons_of_mem _ (List.mem_cons_of_mem _
      (List.mem_cons_of_mem _ hb))))
    (by rw [lo2, lo1]; exact hcpre) (by rw [brk2, brk1]; exact hcpost) (by omega) (by omega)
    f2 hout
    (PUT (PUT (removefree (removefree s c.bp) d.bp).mem (HDRP c.bp)
      (PACK (sz + (c.size + d.size)) 0))
      (c.bp + (sz + (c.size + d.size)) - 8) (PACK (sz + (c.size + d.size)) 0)) rfl
  have hp3 : (c.bp :: (fl.erase c.bp).erase d.bp).Perm
      (freeAddrs (pre ++ ⟨c.bp, sz + (c.size + d.size), false⟩ :: post)) := by
    rw [freeAddrs_append, freeAddrs_cons_free _ _ rfl]
    rw [freeAddrs_append] at hp1
    exact (List.Perm.cons c.bp hp1).trans List.perm_middle.symm
  have hfin := finish_add c.bp c3 f3 hp3
  have e : coalesce s x = (addfree { removefree (removefree s c.bp) d.bp with
      mem := PUT (PUT (removefree (removefree s c.bp) d.bp).mem (HDRP c.bp)
        (PACK (sz + (c.size + d.size)) 0))
        (c.bp + (sz + (c.size + d.size)) - 8) (PACK (sz + (c.size + d.size)) 0) } c.bp,
        c.bp) := by
    have hpa' : GET_ALLOC s.mem (FTRP s.mem c.bp) = 0 := by
      rw [← hP]; rw [hpa]; rfl
    have hna' : GET_ALLOC s.mem (HDRP d.bp) = 0 := by
      rw [← hN]; rw [hna]; rfl
    unfold coalesce
    simp only [hP, hN, hpa', hna', hN1, hP2, rx.1, rc.1, rd.1, hsize, hF]
    simp
  intro a h1 h2 h3 hof
  unfold InWord at h1 h2
  unfold InFields at h3
  rw [e]
  have h4 := hfin.2.2.1 a (OutFields_cons (by omega) (OutFields_erase (OutFields_erase hof _) _))
  rw [h4]
  show PUT (PUT (removefree (removefree s c.bp) d.bp).mem (HDRP c.bp) _) _ _ a = s.mem a
  unfold HDRP WSIZE
  rw [PUT_out _ _ _ _ (by omega), PUT_out _ _ _ _ (by omega)]
  rw [fr2 a (OutFields_erase (OutFields_erase hof _) _)]
  rw [fr1 a (OutFields_erase hof _)]

/-- What `coalesce` leaves behind: the merged block heads the free list, whose
other elements were in it before, and the bytes written are the two tags of
the merged block, its pointer fields and pointer fields of blocks that were
in the free list. -/
theorem coalesce_sum {s : State} {pre post : List Blk} {x sz : Nat} {fl : List Nat}
    (hc : HeapCore s (pre ++ ⟨x, sz, false⟩ :: post))
    (hfl : FL s.mem s.free_listp fl) (hp : fl.Perm (freeAddrs (pre ++ post))) :
    ∃ (pre' post' : List Blk) (S : Nat) (fl' : List Nat),
      HeapInv (coalesce s x).1 (pre' ++ ⟨(coalesce s x).2, S, false⟩ :: post')
        ((coalesce s x).2 :: fl') ∧
      (∀ y ∈ fl', y ∈ fl) ∧ sz ≤ S ∧ (post = [] → post' = []) ∧
      (∀ a, ¬ InWord ((coalesce s x).2 - 4) a → ¬ InWord ((coalesce s x).2 + S - 8) a →
        ¬ InFields (coalesce s x).2 a → OutFields fl a → (coalesce s x).1.mem a = s.mem a) := by
  have k1 : ∀ (hpa : GET_ALLOC s.mem (FTRP s.mem (PREV_BLKP s.mem x)) = 1)
      (hna : GET_ALLOC s.mem (HDRP (NEXT_BLKP s.mem x)) = 1),
      ∃ (pre' post' : List Blk) (S : Nat) (fl' : List Nat),
      HeapInv (coalesce s x).1 (pre' ++ ⟨(coalesce s x).2, S, false⟩ :: post')
        ((coalesce s x).2 :: fl') ∧
      (∀ y ∈ fl', y ∈ fl) ∧ sz ≤ S ∧ (post = [] → post' = []) ∧
      (∀ a, ¬ InWord ((coalesce s x).2 - 4) a → ¬ InWord ((coalesce s x).2 + S - 8) a →
        ¬ InFields (coalesce s x).2 a → OutFields fl a →
        (coalesce s x).1.mem a = s.mem a) := by
    intro hpa hna
    have hw := coalesce_case1_writes hc hfl hp hpa hna
    obtain ⟨e, hi⟩ := coalesce_case1 hc hfl hp hpa hna
    rw [e] at hw ⊢
    exact ⟨pre, post, sz, fl, hi, fun y hy => hy, le_refl _, fun h => h,
      fun a _ _ h3 hof => hw a h3 hof⟩
  rcases List.eq_nil_or_concat pre with hpre | ⟨P, c, hpre⟩
  · subst hpre
    have hpa : GET_ALLOC s.mem (FTRP s.mem (PREV_BLKP s.mem x)) = 1 :=
      @prev_read_nil s post ⟨x, sz, false⟩ (by simpa using hc)
    cases post with
    | nil => exact k1 hpa (@next_read_nil s [] ⟨x, sz, false⟩ hc).2
    | cons d post' =>
      have hn := (@next_read s [] post' ⟨x, sz, false⟩ d hc)
      simp only at hn
      by_cases hd : d.alloc = true
      · exact k1 hpa (by rw [hn.2, hd]; rfl)
      · have hd' : d.alloc = false := by simpa using hd
        have hw := coalesce_case2_writes hc hfl hp hpa hd'
        obtain ⟨e, hi⟩ := coalesce_case2 hc hfl hp hpa hd'
        rw [e]
        exact ⟨[], post', sz + d.size, fl.erase d.bp, hi,
          fun y hy => List.mem_of_mem_erase hy, by omega, (fun h => by cases h), hw⟩
  · rw [List.concat_eq_append] at hpre
    subst hpre
    have hc' : HeapCore s (P ++ c :: ⟨x, sz, false⟩ :: post) := by simpa using hc
    have hpr := (@prev_read s P post c ⟨x, sz, false⟩ hc')
    simp only at hpr
    by_cases hca : c.alloc = true
    · have hpa : GET_ALLOC s.mem (FTRP s.mem (PREV_BLKP s.mem x)) = 1 := by
        rw [hpr.2.1, hca]; rfl
      cases post with
      | nil => exact k1 hpa (@next_read_nil s (P ++ [c]) ⟨x, sz, false⟩ hc).2
      | cons d post' =>
        have hn := (@next_read s (P ++ [c]) post' ⟨x, sz, false⟩ d hc)
        simp only at hn
        by_cases hd : d.alloc = true
        · exact k1 hpa (by rw [hn.2, hd]; rfl)
        · have hd' : d.alloc = false := by simpa using hd
          have hw := coalesce_case2_writes hc hfl hp hpa hd'
          obtain ⟨e, hi⟩ := coalesce_case2 hc hfl hp hpa hd'
          rw [e]
          exact ⟨P ++ [c], post', sz + d.size, fl.erase d.bp, hi,
            fun y hy => List.mem_of_mem_erase hy, by omega, (fun h => by cases h), hw⟩
    · have hcf : c.alloc = false := by simpa using hca
      have hp' : fl.Perm (freeAddrs (P ++ c :: post)) := by simpa using hp
      cases post with
      | nil =>
        have hna := (@next_read_nil s (P ++ [c]) ⟨x, sz, false⟩ hc).2
        have hw := coalesce_case3_writes hc' hfl hp' hna hcf
        obtain ⟨e, hi⟩ := coalesce_case3 hc' hfl hp' hna hcf
        rw [e]
        exact ⟨P, [], sz + c.size, fl.erase c.bp, hi,
          fun y hy => List.mem_of_mem_erase hy, by omega, fun _ => rfl, hw⟩
      | cons d post' =>
        have hn := (@next_read s (P ++ [c]) post' ⟨x, sz, false⟩ d hc)
        simp only at hn
        by_cases hd : d.alloc = true
        · have hna : GET_ALLOC s.mem (HDRP (NEXT_BLKP s.mem x)) = 1 := by
            rw [hn.2, hd]; rfl
          have hw := coalesce_case3_writes hc' hfl hp' hna hcf
          obtain ⟨e, hi⟩ := coalesce_case3 hc' hfl hp' hna hcf
          rw [e]
          exact ⟨P, d :: post', sz + c.size, fl.erase c.bp, hi,
            fun y hy => List.mem_of_mem_erase hy, by omega, (fun h => by cases h), hw⟩
        · have hd' : d.alloc = false := by simpa using hd
          have hw := coalesce_case4_writes hc' hfl hp' hcf hd'
          obtain ⟨e, hi⟩ := coalesce_case4 hc' hfl hp' hcf hd'
          rw [e]
          exact ⟨P, post', sz + (c.size + d.size), (fl.erase c.bp).erase d.bp, hi,
            fun y hy => List.mem_of_mem_erase (List.mem_of_mem_erase hy), by omega,
            (fun h => by cases h), hw⟩

theorem place_split_writes {s : State} {pre post : List Blk} {fl : List Nat} {bp T asize : Nat}
    (hc : HeapCore s (pre ++ ⟨bp, T, false⟩ :: post))
    (hfl : FL s.mem s.free_listp fl)
    (hp : fl.Perm (freeAddrs (pre ++ ⟨bp, T, false⟩ :: post)))
    (h24 : 24 ≤ asize) (h8 : asize % 8 = 0) (hle : asize + 24 ≤ T) :
    ∀ a, ¬ InWord (bp - 4) a → ¬ InWord (bp + asize - 8) a → ¬ InWord (bp + asize - 4) a →
      ¬ InWord (bp + T - 8) a → ¬ InFields (bp + asize) a → OutFields fl a →
      (place s bp asize).mem a = s.mem a := by
  have hb : (⟨bp, T, false⟩ : Blk) ∈ pre ++ ⟨bp, T, false⟩ :: post := by simp
  have rb := hc.read hb
  have bb := hc.mem_bounds hb
  simp only at rb bb
  have hbnd := hc.bnd
  unfold Bounded at hbnd
  have hcon := hc.contig
  rw [Contig_mid] at hcon
  obtain ⟨hcpre, hcpost⟩ := hcon
  simp only at hcpre hcpost
  have hss := split_size_eq T asize (by omega) (by omega)
  have hsplit : (GET_SIZE s.mem (HDRP bp) + 18446744073709551616
      - asize % 18446744073709551616) % 18446744073709551616 ≥ MIN_BLOCK_SIZE := by
    rw [rb.1, hss]; unfold MIN_BLOCK_SIZE; omega
  have e1 := place_split s bp asize hsplit
  rw [rb.1, hss] at e1
  have e2 := place_tags_eq s bp asize (T - asize) h24 h8 (by omega) (by omega) (by omega)
  have hge : bp + asize + (T - asize) - 8 = bp + T - 8 := by omega
  rw [hge] at e2
  -- the free list
  have hbfl : bp ∈ fl := hp.mem_iff.2 (mem_freeAddrs.2 ⟨_, hb, rfl, rfl⟩)
  obtain ⟨l1, l2, rfl⟩ := List.append_of_mem hbfl
  obtain ⟨hsub0, hfar0⟩ := fl_facts hc hp (List.Sublist.refl _)
  -- memory after the tag writes
  have hfr : ∀ a, (a + 4 < bp ∨ bp + T ≤ a + 4 ∨ (bp ≤ a ∧ a + 8 < bp + asize)) →
      (place_tags s bp asize (T - asize)).mem a = s.mem a := by
    intro a ha
    rw [e2]
    show PUT (PUT (PUT (PUT s.mem (bp - 4) (asize + 1)) (bp + asize - 8) (asize + 1))
          (bp + asize - 4) (T - asize)) (bp + T - 8) (T - asize) a = s.mem a
    rw [PUT_out _ _ _ _ (by omega), PUT_out _ _ _ _ (by omega), PUT_out _ _ _ _ (by omega),
      PUT_out _ _ _ _ (by omega)]
  have hg : ∀ q, q + 4 ≤ bp + asize - 8 ∨ bp + asize ≤ q →
      q + 4 ≤ bp + T - 8 ∨ bp + T - 4 ≤ q → q + 4 ≤ bp - 4 ∨ bp ≤ q →
      q + 4 ≤ bp + asize - 4 ∨ bp + asize ≤ q →
      GET (place_tags s bp asize (T - asize)).mem q = GET s.mem q := by
    intro q h1 h2 h3 h4
    rw [e2]
    show GET (PUT (PUT (PUT (PUT s.mem (bp - 4) (asize + 1)) (bp + asize - 8) (asize + 1))
          (bp + asize - 4) (T - asize)) (bp + T - 8) (T - asize)) q = GET s.mem q
    rw [GET_PUT_disj _ _ _ _ (by omega), GET_PUT_disj _ _ _ _ (by omega),
      GET_PUT_disj _ _ _ _ (by omega), GET_PUT_disj _ _ _ _ (by omega)]
  have hG1 : GET (place_tags s bp asize (T - asize)).mem (bp - 4) = asize + 1 := by
    rw [e2]
    show GET (PUT (PUT (PUT (PUT s.mem (bp - 4) (asize + 1)) (bp + asize - 8) (asize + 1))
          (bp + asize - 4) (T - asize)) (bp + T - 8) (T - asize)) (bp - 4) = asize + 1
    rw [GET_PUT_disj _ _ _ _ (by omega), GET_PUT_disj _ _ _ _ (by omega),
      GET_PUT_disj _ _ _ _ (by omega), GET_PUT_same]
    omega
  have hG2 : GET (place_tags s bp asize (T - asize)).mem (bp + asize - 8) = asize + 1 := by
    rw [e2]
    show GET (PUT (PUT (PUT (PUT s.mem (bp - 4) (asize + 1)) (bp + asize - 8) (asize + 1))
          (bp + asize - 4) (T - asize)) (bp + T - 8) (T - asize)) (bp + asize - 8) = asize + 1
    rw [GET_PUT_disj _ _ _ _ (by omega), GET_PUT_disj _ _ _ _ (by omega), GET_PUT_same]
    omega
  have hG3 : GET (place_tags s bp asize (T - asize)).mem (bp + asize - 4) = T - asize := by
    rw [e2]
    show GET (PUT (PUT (PUT (PUT s.mem (bp - 4) (asize + 1)) (bp + asize - 8) (asize + 1))
          (bp + asize - 4) (T - asize)) (bp + T - 8) (T - asize)) (bp + asize - 4) = T - asize
    rw [GET_PUT_disj _ _ _ _ (by omega), GET_PUT_same]
    omega
  have hG4 : GET (place_tags s bp asize (T - asize)).mem (bp + T - 8) = T - asize := by
    rw [e2]
    show GET (PUT (PUT (PUT (PUT s.mem (bp - 4) (asize + 1)) (bp + asize - 8) (asize + 1))
          (bp + asize - 4) (T - asize)) (bp + T - 8) (T - asize)) (bp + T - 8) = T - asize
    rw [GET_PUT_same]
    omega
  have hlo4 : (place_tags s bp asize (T - asize)).mem_lo = s.mem_lo := by rw [e2]
  have hbrk4 : (place_tags s bp asize (T - asize)).mem_brk = s.mem_brk := by rw [e2]
  have hhl4 : (place_tags s bp asize (T - asize)).heap_listp = s.heap_listp := by rw [e2]
  have hflp4 : (place_tags s bp asize (T - asize)).free_listp = s.free_listp := by rw [e2]
  -- the tiling after the tag writes
  have hmid : Contig bp [⟨bp, asize, true⟩, ⟨bp + asize, T - asize, false⟩] (bp + T) := by
    simp only [Contig, true_and]
    omega
  have hszm : Sized [⟨bp, asize, true⟩, ⟨bp + asize, T - asize, false⟩] := by
    intro c hc'
    simp only [List.mem_cons, List.mem_singleton, List.not_mem_nil, or_false] at hc'
    rcases hc' with rfl | rfl
    · exact ⟨h24, h8⟩
    · simp only; omega
  have htg : Tags (place_tags s bp asize (T - asize)).mem
      [⟨bp, asize, true⟩, ⟨bp + asize, T - asize, false⟩] := by
    intro c hc'
    simp only [List.mem_cons, List.mem_singleton, List.not_mem_nil, or_false] at hc'
    rcases hc' with rfl | rfl
    · exact ⟨hG1, hG2⟩
    · simp only [Blk.tag]
      have e : bp + asize + (T - asize) - 8 = bp + T - 8 := by omega
      rw [e]
      exact ⟨by simpa using hG3, by simpa using hG4⟩
  have c4 := @HeapCore.replace s (place_tags s bp asize (T - asize))
    (pre ++ ⟨bp, T, false⟩ :: post) pre
    [⟨bp, asize, true⟩, ⟨bp + asize, T - asize, false⟩] post bp (bp + T) hc
    (fun c hc' => List.mem_append_left _ hc')
    (fun c hc' => List.mem_append_right _ (List.mem_cons_of_mem _ hc'))
    hcpre hmid hcpost hszm htg (fun a ha => hfr a (by omega)) hlo4 hbrk4 hhl4
  have c4' : HeapCore (place_tags s bp asize (T - asize))
      (pre ++ ⟨bp, asize, true⟩ :: ⟨bp + asize, T - asize, false⟩ :: post) := by
    simpa using c4
  -- the free list after the tag writes
  have hfields : ∀ y ∈ l1 ++ bp :: l2,
      GETP (place_tags s bp asize (T - asize)).mem y = GETP s.mem y ∧
      GETP (place_tags s bp asize (T - asize)).mem (y + 8) = GETP s.mem (y + 8) := by
    intro y hy
    have hyr : y + 24 ≤ bp ∨ bp + T ≤ y ∨ y = bp := by
      obtain ⟨b, hb', h1, _⟩ := perm_mem_block hp hy
      subst h1
      rcases List.mem_append.1 hb' with hb' | hb'
      · have := Contig_bounds hcpre hb'
        have := (hc.mem_bounds (List.mem_append_left _ hb')).2.2.1
        left; omega
      · rcases List.mem_cons.1 hb' with hb' | hb'
        · right; right; rw [hb']
        · have := Contig_bounds hcpost hb'
          right; left; omega
    constructor
    · apply GETP_congr; intro i hi; apply hfr; omega
    · apply GETP_congr; intro i hi; apply hfr; omega
  have f4 : FL (place_tags s bp asize (T - asize)).mem
      (place_tags s bp asize (T - asize)).free_listp (l1 ++ bp :: l2) := by
    rw [hflp4]
    exact FLseg_congr hfields hfl
  have hprev4 : PREV_FREEP (place_tags s bp asize (T - asize)).mem bp = PREV_FREEP s.mem bp :=
    (hfields bp hbfl).2
  have hnext4 : NEXT_FREEP (place_tags s bp asize (T - asize)).mem bp = NEXT_FREEP s.mem bp :=
    (hfields bp hbfl).1
  -- the new list
  have hpn : (l1 ++ (bp + asize) :: l2).Perm
      (freeAddrs (pre ++ ⟨bp, asize, true⟩ :: ⟨bp + asize, T - asize, false⟩ :: post)) := by
    rw [freeAddrs_append, freeAddrs_cons_alloc _ _ rfl, freeAddrs_cons_free _ _ rfl]
    rw [freeAddrs_append, freeAddrs_cons_free _ _ rfl] at hp
    exact perm_replace_mid hp
  obtain ⟨hsubn, hfarn⟩ := fl_facts c4' hpn (List.Sublist.refl _)
  have hltn : ∀ y ∈ l1 ++ (bp + asize) :: l2, y < 18446744073709551616 := by
    intro y hy
    obtain ⟨b, hb', rfl⟩ := hsubn y hy
    exact (c4'.mem_bounds hb').2.2.2.2.2.2
  have hfarb : ∀ y ∈ l1 ++ l2, Far y bp := far_mid l1 bp l2 hfar0 rfl
  obtain ⟨fF, frF, loF, brkF, hlF⟩ := place_link_spec (place_tags s bp asize (T - asize))
    bp asize l1 l2 hG1 h8 h24 (by omega) f4 hfarn hfarb hltn
  rw [hprev4, hnext4, ← e1] at fF frF loF brkF hlF
  intro a h1 h2 h3 h4 h5 hof
  unfold InWord at h1 h2 h3 h4
  unfold InFields at h5
  rw [frF a ?_]
  · rw [e2]
    show PUT (PUT (PUT (PUT s.mem (bp - 4) (asize + 1)) (bp + asize - 8) (asize + 1))
          (bp + asize - 4) (T - asize)) (bp + T - 8) (T - asize) a = s.mem a
    rw [PUT_out _ _ _ _ (by omega), PUT_out _ _ _ _ (by omega), PUT_out _ _ _ _ (by omega),
      PUT_out _ _ _ _ (by omega)]
  · intro y hy
    rcases List.mem_append.1 hy with hy | hy
    · exact hof y (List.mem_append_left _ hy)
    · rcases List.mem_cons.1 hy with hy | hy
      · subst hy; omega
      · exact hof y (List.mem_append_right _ (List.mem_cons_of_mem _ hy))

theorem place_whole_writes {s : State} {pre post : List Blk} {fl : List Nat} {bp T asize : Nat}
    (hc : HeapCore s (pre ++ ⟨bp, T, false⟩ :: post))
    (hfl : FL s.mem s.free_listp fl)
    (hp : fl.Perm (freeAddrs (pre ++ ⟨bp, T, false⟩ :: post)))
    (hle : asize ≤ T) (hlt : T < asize + 24) :
    ∀ a, ¬ InWord (bp - 4) a → ¬ InWord (bp + T - 8) a → OutFields fl a →
      (place s bp asize).mem a = s.mem a := by
  have hb : (⟨bp, T, false⟩ : Blk) ∈ pre ++ ⟨bp, T, false⟩ :: post := by simp
  have rb := hc.read hb
  have bb := hc.mem_bounds hb
  simp only at rb bb
  have hbnd := hc.bnd
  unfold Bounded at hbnd
  have hcon := hc.contig
  rw [Contig_mid] at hcon
  obtain ⟨hcpre, hcpost⟩ := hcon
  simp only at hcpre hcpost
  have hss := split_size_eq T asize (by omega) (by omega)
  have hns : ¬ (GET_SIZE s.mem (HDRP bp) + 18446744073709551616
      - asize % 18446744073709551616) % 18446744073709551616 ≥ MIN_BLOCK_SIZE := by
    rw [rb.1, hss]; unfold MIN_BLOCK_SIZE; omega
  have e1 := place_nosplit s bp asize hns
  rw [rb.1] at e1
  have hF : FTRP (PUT (removefree s bp).mem (HDRP bp) (PACK T 1)) bp = bp + T - 8 :=
    FTRP_PUT _ bp T true (by omega) (by omega)
  rw [hF] at e1
  obtain ⟨hsub0, hfar0⟩ := fl_facts hc hp (List.Sublist.refl _)
  have hbfl : bp ∈ fl := hp.mem_iff.2 (mem_freeAddrs.2 ⟨_, hb, rfl, rfl⟩)
  obtain ⟨c1, f1, fr1, lo1, brk1, hl1⟩ := remove_step bp hc hfl hsub0 hfar0 hbfl
  have hp1 : (fl.erase bp).Perm (freeAddrs (pre ++ post)) := by
    rw [freeAddrs_append] at hp ⊢
    rw [freeAddrs_cons_free _ _ rfl] at hp
    exact perm_erase_mid hp
  have hout : ∀ y ∈ fl.erase bp, y + 24 ≤ bp ∨ bp + T ≤ y := by
    intro y hy
    obtain ⟨b, hb', h1, _⟩ := perm_mem_block hp1 hy
    subst h1
    rcases List.mem_append.1 hb' with hb' | hb'
    · have := Contig_bounds hcpre hb'
      have := (hc.mem_bounds (List.mem_append_left _ hb')).2.2.1
      left; omega
    · have := Contig_bounds hcpost hb'
      right; omega
  obtain ⟨c3, f3⟩ := @retag_step (removefree s bp) (pre ++ ⟨bp, T, false⟩ :: post) pre
    post (fl.erase bp) bp T true c1
    (fun b hb' => List.mem_append_left _ hb')
    (fun b hb' => List.mem_append_right _ (List.mem_cons_of_mem _ hb'))
    (by rw [lo1]; exact hcpre) (by rw [brk1]; exact hcpost) (by omega) (by omega) f1 hout
    (PUT (PUT (removefree s bp).mem (HDRP bp) (PACK T 1)) (bp + T - 8) (PACK T 1)) rfl
  have hp3 : (fl.erase bp).Perm (freeAddrs (pre ++ ⟨bp, T, true⟩ :: post)) := by
    rw [freeAddrs_append, freeAddrs_cons_alloc _ _ rfl]
    rw [freeAddrs_append] at hp1
    exact hp1
  rw [e1]
  intro a h1 h2 hof
  unfold InWord at h1 h2
  show PUT (PUT (removefree s bp).mem (HDRP bp) (PACK T 1)) (bp + T - 8) (PACK T 1) a = s.mem a
  unfold HDRP WSIZE
  rw [PUT_out _ _ _ _ (by omega), PUT_out _ _ _ _ (by omega)]
  exact fr1 a (OutFields_erase hof _)

/-- The bytes written by `place`: the tags of the block placed, and when the
block after it is then tagged free (the remainder of a split), its tags and
pointer fields, and pointer fields of blocks that were in the free list. -/
theorem place_writes {s : State} {pre post : List Blk} {fl : List Nat} {bp T asize : Nat}
    (hH : HeapInv s (pre ++ ⟨bp, T, false⟩ :: post) fl)
    (h24 : 24 ≤ asize) (h8 : asize % 8 = 0) (hle : asize ≤ T) {a : Nat}
    (h1 : ¬ InWord (HDRP bp) a) (h2 : ¬ InWord (FTRP (place s bp asize).mem bp) a)
    (h3 : GET_ALLOC (place s bp asize).mem (HDRP (NEXT_BLKP (place s bp asize).mem bp)) = 0 →
      ¬ InWord (HDRP (NEXT_BLKP (place s bp asize).mem bp)) a ∧
      ¬ InWord (FTRP (place s bp asize).mem (NEXT_BLKP (place s bp asize).mem bp)) a ∧
      ¬ InFields (NEXT_BLKP (place s bp asize).mem bp) a)
    (hof : OutFields fl a) :
    (place s bp asize).mem a = s.mem a := by
  have e0 : HDRP bp = bp - 4 := rfl
  rw [e0] at h1
  by_cases hsp : asize + 24 ≤ T
  · obtain ⟨l1, l2, _, hI, _⟩ := place_spec_split hH.core hH.flist hH.perm h24 h8 hsp
    have r1 := hI.core.read (show (⟨bp, asize, true⟩ : Blk) ∈ _ by simp)
    have r2 := hI.core.read (show (⟨bp + asize, T - asize, false⟩ : Blk) ∈
      pre ++ ⟨bp, asize, true⟩ :: ⟨bp + asize, T - asize, false⟩ :: post by simp)
    simp only at r1 r2
    rw [r1.2.2.1] at h2
    rw [r1.2.2.2.1, r2.2.2.1] at h3
    have e1 : HDRP (bp + asize) = bp + asize - 4 := rfl
    have e2 : bp + asize + (T - asize) - 8 = bp + T - 8 := by omega
    rw [e1, e2] at h3
    obtain ⟨h4, h5, h6⟩ := h3 (by rw [← e1, r2.2.1]; rfl)
    exact place_split_writes hH.core hH.flist hH.perm h24 h8 hsp a h1 h2 h4 h5 h6 hof
  · obtain ⟨hI, _⟩ := place_spec_whole hH.core hH.flist hH.perm hle (by omega)
    have r1 := hI.core.read (show (⟨bp, T, true⟩ : Blk) ∈ _ by simp)
    simp only at r1
    rw [r1.2.2.1] at h2
    exact place_whole_writes hH.core hH.flist hH.perm hle (by omega) a h1 h2 hof

/-- The bytes written by `mm_free`: the tags of the block freed, the tags and
pointer fields of the merged block, which is the new head of the free list,
and pointer fields of blocks that were in the free list. -/
theorem mm_free_writes {s : State} {pre post : List Blk} {b : Blk} {fl : List Nat}
    (hH : HeapInv s (pre ++ b :: post) fl) (hba : b.alloc = true) {a : Nat}
    (h1 : ¬ InWord (HDRP b.bp) a) (h2 : ¬ InWord (FTRP s.mem b.bp) a)
    (h3 : ¬ InWord (HDRP (mm_free s b.bp).free_listp) a)
    (h4 : ¬ InWord (FTRP (mm_free s b.bp).mem (mm_free s b.bp).free_listp) a)
    (h5 : ¬ InFields (mm_free s b.bp).free_listp a) (hof : OutFields fl a) :
    (mm_free s b.bp).mem a = s.mem a ∧
      GET_ALLOC (mm_free s b.bp).mem (HDRP (mm_free s b.bp).free_listp) = 0 := by
  obtain ⟨c2, f2, hpf, e⟩ := free_retag hH hba
  have rb := hH.core.read (show b ∈ pre ++ b :: post by simp)
  have bb := hH.core.mem_bounds (show b ∈ pre ++ b :: post by simp)
  generalize hs2 : ({ s with
      mem := (PUT (PUT s.mem (HDRP b.bp) (PACK b.size 0)) (b.bp + b.size - 8)
        (PACK b.size 0)) } : State) = s2 at c2 e
  have h2m : s2.mem = PUT (PUT s.mem (HDRP b.bp) (PACK b.size 0)) (b.bp + b.size - 8)
      (PACK b.size 0) := by rw [← hs2]
  have h2f : s2.free_listp = s.free_listp := by rw [← hs2]
  rw [← h2m, ← h2f] at f2
  obtain ⟨pre', post', S, fl', hi, hsub, _, _, hw⟩ := coalesce_sum c2 f2 hpf
  rw [e] at h3 h4 h5 ⊢
  have hhead : (coalesce s2 b.bp).1.free_listp = (coalesce s2 b.bp).2 := hi.flist.1
  have rM := hi.core.read (show (⟨(coalesce s2 b.bp).2, S, false⟩ : Blk) ∈ _ by simp)
  simp only at rM
  rw [hhead] at h3 h4 h5 ⊢
  rw [rM.2.2.1] at h4
  refine ⟨?_, by rw [rM.2.1]; rfl⟩
  rw [hw a h3 h4 h5 hof, h2m]
  rw [rb.2.2.1] at h2
  unfold InWord at h1 h2
  rw [PUT_out _ _ _ _ (by omega), PUT_out _ _ _ _ (by omega)]

/-- The head of the free list after `mm_free` is tagged free. -/
theorem mm_free_head_free {s : State} {pre post : List Blk} {b : Blk} {fl : List Nat}
    (hH : HeapInv s (pre ++ b :: post) fl) (hba : b.alloc = true) :
    GET_ALLOC (mm_free s b.bp).mem (HDRP (mm_free s b.bp).free_listp) = 0 := by
  obtain ⟨c2, f2, hpf, e⟩ := free_retag hH hba
  generalize hs2 : ({ s with
      mem := (PUT (PUT s.mem (HDRP b.bp) (PACK b.size 0)) (b.bp + b.size - 8)
        (PACK b.size 0)) } : State) = s2 at c2 e
  have h2m : s2.mem = PUT (PUT s.mem (HDRP b.bp) (PACK b.size 0)) (b.bp + b.size - 8)
      (PACK b.size 0) := by rw [← hs2]
  have h2f : s2.free_listp = s.free_listp := by rw [← hs2]
  rw [← h2m, ← h2f] at f2
  obtain ⟨pre', post', S, fl', hi, _⟩ := coalesce_sum c2 f2 hpf
  rw [e]
  have hhead : (coalesce s2 b.bp).1.free_listp = (coalesce s2 b.bp).2 := hi.flist.1
  have rM := hi.core.read (show (⟨(coalesce s2 b.bp).2, S, false⟩ : Blk) ∈ _ by simp)
  simp only at rM
  rw [hhead, rM.2.1]
  rfl

/-- The bytes written by `mm_malloc`. -/
theorem mm_malloc_writes {s : State} {live : Live} {bs : List Blk} {fl : List Nat}
    (hI : Inv s live bs fl) {fuel size : Nat} {grant : Bool} {s' : State} {p : Nat}
    (hsz : size < 2147483648) (hm : mm_malloc fuel s size grant = some (s', p))
    (hb' : Bounded s') {a : Nat}
    (h1 : ¬ InWord (HDRP p) a) (h2 : ¬ InWord (FTRP s'.mem p) a)
    (h3 : GET_ALLOC s'.mem (HDRP (NEXT_BLKP s'.mem p)) = 0 →
      ¬ InWord (HDRP (NEXT_BLKP s'.mem p)) a ∧
      ¬ InWord (FTRP s'.mem (NEXT_BLKP s'.mem p)) a ∧
      ¬ InFields (NEXT_BLKP s'.mem p) a)
    (h4 : s.mem_brk < s'.mem_brk →
      ¬ InWord (s.mem_brk - 4) a ∧ ¬ InWord (s'.mem_brk - 8) a ∧
      ¬ InWord (s'.mem_brk - 4) a ∧ ¬ InFields p a)
    (hof : OutFields fl a) :
    s'.mem a = s.mem a := by
  have hc := hI.heap.core
  unfold mm_malloc at hm
  by_cases h0 : size = 0
  · rw [if_pos h0] at hm
    simp only [Option.some.injEq, Prod.mk.injEq] at hm
    rw [← hm.1]
  rw [if_neg h0] at hm
  dsimp only at hm
  obtain ⟨ha24, ha8, hasz, hale⟩ := adjust_spec size h0 (by omega)
  cases hff : find_fit fuel s (adjust size) with
  | none => rw [hff] at hm; simp at hm
  | some bp =>
    rw [hff] at hm
    simp only at hm
    have hr := find_fit_from_some hI.heap.flist hff
    by_cases hbp : bp ≠ 0
    · rw [if_pos hbp] at hm
      simp only [Option.some.injEq, Prod.mk.injEq] at hm
      obtain ⟨hs', hp'⟩ := hm
      subst hs' hp'
      obtain ⟨hmem, hq⟩ := find_in_list hr hbp
      obtain ⟨b, hb, hbbp, hbf⟩ := perm_mem_block hI.heap.perm hmem
      have rb := hc.read hb
      rw [hbbp] at rb
      have hfit : adjust size ≤ b.size := by
        rw [← rb.1]; simpa using hq
      obtain ⟨pre, post, rfl⟩ := List.append_of_mem hb
      have hbe : b = ⟨bp, b.size, false⟩ := by
        cases b; simp only at hbbp hbf; simp [hbbp, hbf]
      have hH := hI.heap
      rw [hbe] at hH
      exact place_writes hH ha24 ha8 hfit h1 h2 h3 hof
    · have hbp0 : bp = 0 := by simpa using hbp
      rw [if_neg hbp] at hm
      have hext8 : max (adjust size) CHUNKSIZE % 8 = 0 := by
        unfold CHUNKSIZE
        rcases Nat.le_total (adjust size) 65536 with h | h
        · rw [Nat.max_eq_right h]
        · rw [Nat.max_eq_left h]; exact ha8
      have hext24 : 24 ≤ max (adjust size) CHUNKSIZE := le_trans ha24 (le_max_left _ _)
      have hextlt : max (adjust size) CHUNKSIZE < 4294967295 := by
        unfold CHUNKSIZE
        rcases Nat.le_total (adjust size) 65536 with h | h
        · rw [Nat.max_eq_right h]; omega
        · rw [Nat.max_eq_left h]; omega
      by_cases hf : grant = true ∧ s.mem_brk + max (adjust size) CHUNKSIZE
          < 18446744073709551616
      · have hge := hc.brk_ge
        have e := extend_heap_ok s (max (adjust size) CHUNKSIZE) grant hext8 hext24 hextlt
          (by omega) hf
        rw [e] at hm
        have hcore := @extend_core s bs fl hI.heap (max (adjust size) CHUNKSIZE) hext8 hext24
        generalize hs4 : ({ s with
          mem_brk := s.mem_brk + max (adjust size) CHUNKSIZE,
          mem := (PUT (PUT (PUT s.mem (s.mem_brk - 4) (max (adjust size) CHUNKSIZE))
            (s.mem_brk + max (adjust size) CHUNKSIZE - 8) (max (adjust size) CHUNKSIZE))
            (s.mem_brk + max (adjust size) CHUNKSIZE - 4) 1) } : State) = s4 at hm hcore
        have h4b : s4.mem_brk = s.mem_brk + max (adjust size) CHUNKSIZE := by rw [← hs4]
        have h4l : s4.mem_lo = s.mem_lo := by rw [← hs4]
        have h4f : s4.free_listp = s.free_listp := by rw [← hs4]
        have h4m : s4.mem = PUT (PUT (PUT s.mem (s.mem_brk - 4) (max (adjust size) CHUNKSIZE))
            (s.mem_brk + max (adjust size) CHUNKSIZE - 8) (max (adjust size) CHUNKSIZE))
            (s.mem_brk + max (adjust size) CHUNKSIZE - 4) 1 := by rw [← hs4]
        have hbrk' : s'.mem_brk = s4.mem_brk ∧ s'.mem_lo = s4.mem_lo := by
          split_ifs at hm with h2
          · simp only [Option.some.injEq, Prod.mk.injEq] at hm
            rw [← hm.1]
            exact ⟨(coalesce_region s4 s.mem_brk).2, (coalesce_region s4 s.mem_brk).1⟩
          · simp only [Option.some.injEq, Prod.mk.injEq] at hm
            rw [← hm.1, (place_region (coalesce s4 s.mem_brk).1 _ _).1,
              (place_region (coalesce s4 s.mem_brk).1 _ _).2]
            exact ⟨(coalesce_region s4 s.mem_brk).2, (coalesce_region s4 s.mem_brk).1⟩
        have hbnd : s.mem_brk + max (adjust size) CHUNKSIZE < s.mem_lo + 4294967296 := by
          unfold Bounded at hb'
          rw [hbrk'.1, hbrk'.2, h4b, h4l] at hb'
          exact hb'
        obtain ⟨c4, f4⟩ := hcore hbnd hf.2
        rw [← h4m, ← h4f] at f4
        have hp4 : fl.Perm (freeAddrs (bs ++ [])) := by
          rw [List.append_nil]; exact hI.heap.perm
        obtain ⟨pre', post', S, fl', hH, hN, hA, hsub, hS⟩ :=
          coalesce_inv c4 f4 hp4 hI.noadj (by unfold NoAdjFree; exact List.chain'_nil)
        simp only [List.append_nil] at hA hsub
        have hblk : (⟨(coalesce s4 s.mem_brk).2, S, false⟩ : Blk) ∈
            pre' ++ ⟨(coalesce s4 s.mem_brk).2, S, false⟩ :: post' := by simp
        have hnz := (hH.core.mem_bounds hblk).1
        simp only at hnz
        have hlo' := hH.core.lo_pos
        rw [if_neg (by omega)] at hm
        simp only [Option.some.injEq, Prod.mk.injEq] at hm
        obtain ⟨hs', hp'⟩ := hm
        subst hs' hp'
        -- the three stages
        have hgrow : s.mem_brk < (place (coalesce s4 s.mem_brk).1 (coalesce s4 s.mem_brk).2
            (adjust size)).mem_brk := by
          rw [hbrk'.1, h4b]; omega
        obtain ⟨g1, g2, g3, g4⟩ := h4 hgrow
        rw [hbrk'.1, h4b] at g2 g3
        unfold InWord at g1 g2 g3
        have st1 : s4.mem a = s.mem a := by
          rw [h4m, PUT_out _ _ _ _ (by omega), PUT_out _ _ _ _ (by omega),
            PUT_out _ _ _ _ (by omega)]
        obtain ⟨pre2, post2, S2, fl2, hi2, hsub2, hS2, hnil2, hw2⟩ := coalesce_sum c4 f4 hp4
        have hpost2 := hnil2 rfl
        subst hpost2
        have hcon2 := hi2.core.contig
        rw [Contig_snoc] at hcon2
        have hend2 : (coalesce s4 s.mem_brk).2 + S2 = s.mem_brk + max (adjust size) CHUNKSIZE := by
          have := hcon2.2
          simp only at this
          rw [(coalesce_region s4 s.mem_brk).2, h4b] at this
          exact this
        have hof2 : OutFields ((coalesce s4 s.mem_brk).2 :: fl2) a := by
          refine OutFields_cons ?_ (OutFields_sub hof hsub2)
          unfold InFields at g4
          omega
        have st3 := place_writes hi2 ha24 ha8 (le_trans (le_max_left _ _) hS2) h1 h2 h3 hof2
        have e0 : HDRP (coalesce s4 s.mem_brk).2 = (coalesce s4 s.mem_brk).2 - 4 := rfl
        rw [e0] at h1
        have st2 := hw2 a h1 (by unfold InWord; omega) g4 hof
        rw [st3, st2, st1]
      · have e := extend_heap_fail s (max (adjust size) CHUNKSIZE) grant hext8 (by omega) hf
        rw [e] at hm
        simp only [if_true, Option.some.injEq, Prod.mk.injEq] at hm
        rw [← hm.1]


/-! ## C19: the other live allocations are left alone -/

theorem kept_of_frame {s : State} {bs : List Blk} (hc : HeapCore s bs) {b : Blk} (hb : b ∈ bs)
    {m2 : Mem}
    (hfr : ∀ a, b.bp ≤ a + 4 → a + 4 < b.bp + b.size → m2 a = s.mem a) :
    BlockKept s.mem m2 b.bp := by
  have rd := hc.read hb
  have bd := hc.mem_bounds hb
  have h1 : GET m2 (HDRP b.bp) = GET s.mem (HDRP b.bp) := by
    apply GET_congr
    intro i hi
    apply hfr <;> unfold HDRP WSIZE <;> omega
  have h2 : GET m2 (FTRP s.mem b.bp) = GET s.mem (FTRP s.mem b.bp) := by
    rw [rd.2.2.1]
    apply GET_congr
    intro i hi
    apply hfr <;> omega
  refine ⟨?_, h1, ?_, h2⟩
  · intro a ha1 ha2
    rw [rd.2.2.1] at ha2
    unfold HDRP WSIZE at ha1
    apply hfr <;> omega
  · unfold FTRP GET_SIZE
    rw [h1]

/-- C19 (counterexample): after eight calls with sizes below `2^31`, on a heap
that has grown beyond 4 GiB, the allocation at 2147483664 of 2147418072 bytes is
live; a further `mm_malloc(2147483600)` returns 4294836232, another block, and
changes the byte at 4294836228, a payload byte of the allocation at 2147483664,
from 240 to 217. -/
theorem C19_counterexample :
    Reachable (after 2147483648 ops_frame).1 (after 2147483648 ops_frame).2 ∧
    (2147483664, 2147418072) ∈ (after 2147483648 ops_frame).2 ∧
    ∃ r, mm_malloc 64 (after 2147483648 ops_frame).1 2147483600 true = some r ∧
      r.2 = 4294836232 ∧
      2147483664 ≤ 4294836228 ∧ 4294836228 < 2147483664 + 2147418072 ∧
      (after 2147483648 ops_frame).1.mem 4294836228 = 240 ∧
      r.1.mem 4294836228 = 217 := by
  refine ⟨reachable_after _ _ (by decide!), by decide!, _, rfl, by decide!, by decide,
    by decide, by decide!, by decide!⟩

/-- C19 (amended): in every state reached from a successful `mm_init` by
`mm_malloc(size)` calls with `size < 2^31` and `mm_free` calls on live pointers,
whose heap is smaller than `2^32` bytes, a further `mm_malloc(size)` with
`size < 2^31` returns and, when the heap is still smaller than `2^32` bytes
after it, leaves unchanged the header word, the footer word and every payload
byte of every live allocation; a further `mm_free(q)` on a live pointer leaves
unchanged the header word, the footer word and every payload byte of every
live allocation other than `q`.  The only bytes written are tags of the blocks
being placed, split or merged, the new epilogue, and next/prev pointer fields
inside free blocks (`MallocWrites`, `FreeWrites`): the blocks of the free list
are tagged free, and so is the merged block after `mm_free`. -/
theorem C19_others_kept (s : State) (live : Live) (hr : Reachable s live) (hb : Bounded s) :
    ∃ fl : List Nat,
      (∀ fuel, fl.length < fuel → free_walk s.mem fuel s.free_listp = some fl) ∧
      (∀ y ∈ fl, GET_ALLOC s.mem (HDRP y) = 0) ∧
      (∀ size grant, size < 2147483648 →
        ∃ n, ∀ fuel, n < fuel → ∃ s' p, mm_malloc fuel s size grant = some (s', p) ∧
          (Bounded s' → (∀ e ∈ live, BlockKept s.mem s'.mem e.1) ∧
            ∀ a, s'.mem a ≠ s.mem a → MallocWrites s s' p fl a)) ∧
      (∀ q ∈ live.map Prod.fst,
        (∀ e ∈ live, e.1 ≠ q → BlockKept s.mem (mm_free s q).mem e.1) ∧
        (∀ a, (mm_free s q).mem a ≠ s.mem a → FreeWrites s (mm_free s q) q fl a) ∧
        GET_ALLOC (mm_free s q).mem (HDRP (mm_free s q).free_listp) = 0) := by
  obtain ⟨bs, fl, hI⟩ := reach_inv hr hb
  have hc := hI.heap.core
  refine ⟨fl, fun fuel hf => free_walk_of_FL hI.heap.flist fuel hf, ?_, ?_, ?_⟩
  · intro y hy
    obtain ⟨b, hbm, hbp, hbf⟩ := perm_mem_block hI.heap.perm hy
    have rd := hc.read hbm
    rw [← hbp, rd.2.1, hbf]
    rfl
  · intro size grant hsz
    refine ⟨fl.length, fun fuel hf => ?_⟩
    obtain ⟨s', p, hm⟩ := mm_malloc_total hI.heap.flist fuel size grant hf
    refine ⟨s', p, hm, fun hb' => ⟨fun e he => ?_, fun a hne => ?_⟩⟩
    · obtain ⟨b, hbm, hbp, hba, _⟩ := hI.live_cap e he
      rw [← hbp]
      refine kept_of_frame hc hbm (fun a h1 h2 => ?_)
      exact mm_malloc_frame hI hsz hm hb' (Or.inr ⟨b, hbm, hba, h1, h2⟩)
    · by_contra h
      apply hne
      unfold MallocWrites at h
      refine mm_malloc_writes hI hsz hm hb' (fun h1 => h (Or.inl h1))
        (fun h2 => h (Or.inr (Or.inl h2)))
        (fun hC => ⟨fun hd => h (Or.inr (Or.inr (Or.inl ⟨hC, Or.inl hd⟩))),
          fun hd => h (Or.inr (Or.inr (Or.inl ⟨hC, Or.inr (Or.inl hd)⟩))),
          fun hd => h (Or.inr (Or.inr (Or.inl ⟨hC, Or.inr (Or.inr hd)⟩)))⟩)
        (fun hG => ⟨fun hd => h (Or.inr (Or.inr (Or.inr (Or.inl ⟨hG, Or.inl hd⟩)))),
          fun hd => h (Or.inr (Or.inr (Or.inr (Or.inl ⟨hG, Or.inr (Or.inl hd)⟩)))),
          fun hd => h (Or.inr (Or.inr (Or.inr (Or.inl ⟨hG, Or.inr (Or.inr (Or.inl hd))⟩)))),
          fun hd => h (Or.inr (Or.inr (Or.inr (Or.inl ⟨hG, Or.inr (Or.inr (Or.inr hd))⟩))))⟩)
        (OutFields_of_not (fun y hy hd => h (Or.inr (Or.inr (Or.inr (Or.inr ⟨y, hy, hd⟩))))))
  · intro q hq
    obtain ⟨e0, he0, he0q⟩ := List.mem_map.1 hq
    obtain ⟨bq, hbq, hbqp, hbqa, _⟩ := hI.live_cap e0 he0
    obtain ⟨pre, post, hsplit⟩ := List.append_of_mem hbq
    have hH := hI.heap
    rw [hsplit] at hH
    have hq' : bq.bp = q := by rw [hbqp, he0q]
    rw [← hq']
    have hwr : ∀ a, (mm_free s bq.bp).mem a ≠ s.mem a →
        FreeWrites s (mm_free s bq.bp) bq.bp fl a := by
      intro a hne
      by_contra h
      apply hne
      unfold FreeWrites at h
      exact (mm_free_writes hH hbqa (fun h1 => h (Or.inl h1))
        (fun h2 => h (Or.inr (Or.inl h2)))
        (fun h3 => h (Or.inr (Or.inr (Or.inl h3))))
        (fun h4 => h (Or.inr (Or.inr (Or.inr (Or.inl h4)))))
        (fun h5 => h (Or.inr (Or.inr (Or.inr (Or.inr (Or.inl h5))))))
        (OutFields_of_not (fun y hy hd =>
          h (Or.inr (Or.inr (Or.inr (Or.inr (Or.inr ⟨y, hy, hd⟩)))))))).1
    refine ⟨fun e he hne => ?_, hwr, ?_⟩
    · obtain ⟨b, hbm, hbp, hba, _⟩ := hI.live_cap e he
      have hbb : b ≠ bq := by
        intro h
        rw [h] at hbp
        exact hne (by rw [← hbp, hq'])
      rw [← hbp]
      refine kept_of_frame hc hbm (fun a h1 h2 => ?_)
      rw [hsplit] at hbm
      refine mm_free_frame_alloc hH hbqa (Or.inr ⟨b, ?_, hba, h1, h2⟩)
      simp only [List.mem_append, List.mem_cons] at hbm ⊢
      tauto
    · exact mm_free_head_free hH hbqa

/-- C19 (witness): the amended statement at the state after `mm_malloc(16)`
and `mm_malloc(100)`. -/
theorem C19_witness :
    Reachable (after 2147483648 ops_two).1 (after 2147483648 ops_two).2 ∧
    Bounded (after 2147483648 ops_two).1 ∧
    ∃ fl : List Nat,
      (∀ fuel, fl.length < fuel →
        free_walk (after 2147483648 ops_two).1.mem fuel (after 2147483648 ops_two).1.free_listp
          = some fl) ∧
      (∀ y ∈ fl, GET_ALLOC (after 2147483648 ops_two).1.mem (HDRP y) = 0) ∧
      (∀ size grant, size < 2147483648 →
        ∃ n, ∀ fuel, n < fuel → ∃ s' p,
          mm_malloc fuel (after 2147483648 ops_two).1 size grant = some (s', p) ∧
          (Bounded s' →
            (∀ e ∈ (after 2147483648 ops_two).2,
              BlockKept (after 2147483648 ops_two).1.mem s'.mem e.1) ∧
            ∀ a, s'.mem a ≠ (after 2147483648 ops_two).1.mem a →
              MallocWrites (after 2147483648 ops_two).1 s' p fl a)) ∧
      (∀ q ∈ (after 2147483648 ops_two).2.map Prod.fst,
        (∀ e ∈ (after 2147483648 ops_two).2, e.1 ≠ q →
          BlockKept (after 2147483648 ops_two).1.mem
            (mm_free (after 2147483648 ops_two).1 q).mem e.1) ∧
        (∀ a, (mm_free (after 2147483648 ops_two).1 q).mem a
            ≠ (after 2147483648 ops_two).1.mem a →
          FreeWrites (after 2147483648 ops_two).1 (mm_free (after 2147483648 ops_two).1 q) q
            fl a) ∧
        GET_ALLOC (mm_free (after 2147483648 ops_two).1 q).mem
          (HDRP (mm_free (after 2147483648 ops_two).1 q).free_listp) = 0) :=
  ⟨reachable_two, bounded_two, C19_others_kept _ _ reachable_two bounded_two⟩


/-! ## The checker on a well-formed heap -/

end MM
